import Mathlib

/-!
The libbtc header database (`src/headersdb_file.c`)

A shallow embedding of the block-header chain index of libbtc and the
properties of it that the specification states.

Memory is explicit: block-index nodes live in a heap addressed by `Ptr`;
a freed cell stays in the heap as `none` and every access through a pointer
to a freed cell makes the operation undefined, which the embedding reports as
the result `none`.  Unsigned 32-bit quantities are natural numbers reduced
modulo `2 ^ 32` wherever the C code can wrap.
-/

namespace Libbtc

/-! ## Data model -/

/-- One octet (`uint8_t`). -/
abbrev Byte := Fin 256

/-- Modulus of `uint32_t` and `unsigned int` arithmetic. -/
def UINT32_MOD : Nat := 4294967296

/-- The type `btc_uint256` of `btc.h`: an array of exactly 32 octets. -/
structure btc_uint256 where
  bytes : List Byte
  size_eq : bytes.length = 32
deriving DecidableEq

/-- A zeroed `btc_uint256`, as `btc_calloc` leaves it. -/
def zero_uint256 : btc_uint256 := ⟨List.replicate 32 0, by decide⟩

/-- The struct `btc_block_header`.  Its declaration (`btc/block.h`) is not among
the sources; the fields are the ones of the 80-byte wire header, of which
`headersdb_file.c` reads `prev_block` only. -/
structure btc_block_header where
  version : Nat
  prev_block : btc_uint256
  merkle_root : btc_uint256
  timestamp : Nat
  bits : Nat
  nonce : Nat
deriving DecidableEq

/-- A zeroed `btc_block_header`. -/
def zero_header : btc_block_header := ⟨0, zero_uint256, zero_uint256, 0, 0, 0⟩

/-- A `btc_blockindex *` that is not `NULL`: either `&db->genesis`, which is a
member of the database struct, or the address of a cell of the heap. -/
inductive Ptr where
  | genesis : Ptr
  | node (addr : Nat) : Ptr
deriving DecidableEq

/-- The struct `btc_blockindex`; `prev = none` is the `NULL` pointer. -/
structure btc_blockindex where
  height : Nat
  hash : btc_uint256
  header : btc_block_header
  prev : Option Ptr
deriving DecidableEq

/-- A zeroed `btc_blockindex`, as `btc_calloc` returns it. -/
def zero_blockindex : btc_blockindex := ⟨0, zero_uint256, zero_header, none⟩

/-- The external header codec that `headersdb_file.c` calls:
`btc_block_header_deserialize`, `btc_block_header_serialize` and
`btc_block_header_hash`.  They are collaborators of the database, so every
operation takes them as a parameter. -/
structure Codec where
  deserialize : List Byte → Option btc_block_header
  serialize : btc_block_header → List Byte
  hash : btc_block_header → btc_uint256

/-- The struct `btc_headers_db`.  `headers_tree_file` is the stream of the log
(`none` is a `NULL` stream): for an open stream, `headers_tree_file` holds the octets of
the file that lie before the position of the stream and `file_ahead` the octets from the
position to the end of the file, so that the file is the one followed by the other.
`tree_root` is the search tree of `<search.h>` seen as the list of the keys it
holds, `heap` the cells handed out by `btc_calloc` in allocation order
(`none` once freed). -/
structure btc_headers_db where
  headers_tree_file : Option (List Byte)
  file_ahead : List Byte
  read_write_file : Bool
  tree_root : List Ptr
  use_binary_tree : Bool
  max_hdr_in_mem : Nat
  genesis : btc_blockindex
  chaintip : Ptr
  chainbottom : Ptr
  heap : List (Option btc_blockindex)

/-! ## Memory -/

/-- Reading the cell at address `a`: `none` when it was never allocated or was freed. -/
def heap_get (heap : List (Option btc_blockindex)) (a : Nat) : Option btc_blockindex :=
  match heap[a]? with
  | some (some n) => some n
  | _ => none

/-- Reading through a pointer; `none` is an access to freed or unallocated memory. -/
def deref (db : btc_headers_db) : Ptr → Option btc_blockindex
  | Ptr.genesis => some db.genesis
  | Ptr.node a => heap_get db.heap a

/-- Writing a whole node through a pointer; undefined on a dead cell. -/
def store (db : btc_headers_db) (p : Ptr) (n : btc_blockindex) : Option btc_headers_db :=
  match p with
  | Ptr.genesis => some { db with genesis := n }
  | Ptr.node a =>
    match heap_get db.heap a with
    | some _ => some { db with heap := db.heap.set a (some n) }
    | none => none

/-- The call `btc_calloc(1, sizeof(btc_blockindex))`: a fresh zeroed cell. -/
def btc_calloc (db : btc_headers_db) : btc_headers_db × Ptr :=
  ({ db with heap := db.heap ++ [some zero_blockindex] }, Ptr.node db.heap.length)

/-- The call `btc_free(p)`: undefined for `&db->genesis` (not a heap block) and for a
cell that is not live. -/
def btc_free (db : btc_headers_db) (p : Ptr) : Option btc_headers_db :=
  match p with
  | Ptr.genesis => none
  | Ptr.node a =>
    match heap_get db.heap a with
    | some _ => some { db with heap := db.heap.set a none }
    | none => none

/-! ## Hash comparison and the search tree -/

/-- The loop of `btc_header_compare` over two octet arrays in lockstep. -/
def compare_bytes : List Byte → List Byte → Int
  | a :: as, b :: bs =>
    if a > b then -1
    else if a < b then 1
    else compare_bytes as bs
  | _, _ => 0

/-- The comparison callback `btc_header_compare`. -/
def btc_header_compare (l r : btc_blockindex) : Int :=
  compare_bytes l.hash.bytes r.hash.bytes

/-- The call `tfind(key, &root, btc_header_compare)` on the keys of the tree: the key
that compares equal, if any.  Every visited key is dereferenced by the callback. -/
def tfind (db : btc_headers_db) (key : btc_blockindex) : List Ptr → Option (Option Ptr)
  | [] => some none
  | p :: ps =>
    match deref db p with
    | none => none
    | some n => if btc_header_compare key n = 0 then some (some p) else tfind db key ps

/-- The call `tdelete(key, &root, btc_header_compare)`: removes the key that compares
equal, if any. -/
def tdelete (db : btc_headers_db) (key : btc_blockindex) : List Ptr → Option (List Ptr)
  | [] => some []
  | p :: ps =>
    match deref db p with
    | none => none
    | some n =>
      if btc_header_compare key n = 0 then some ps
      else (tdelete db key ps).map (fun t => p :: t)

/-- The call `tsearch(p, &root, btc_header_compare)`: inserts the key `p` unless a key
comparing equal is already in the tree. -/
def tsearch (db : btc_headers_db) (p : Ptr) : Option btc_headers_db :=
  match deref db p with
  | none => none
  | some key =>
    match tfind db key db.tree_root with
    | none => none
    | some (some _) => some db
    | some none => some { db with tree_root := p :: db.tree_root }

/-- The function `btc_headersdb_find`.  The temporary key it allocates and frees is
not given a heap cell. -/
def btc_headersdb_find (db : btc_headers_db) (hash : btc_uint256) : Option (Option Ptr) :=
  if db.use_binary_tree then
    tfind db { zero_blockindex with hash := hash } db.tree_root
  else some none

/-! ## Construction -/

/-- The function `btc_headers_db_new`; `genesisblockhash` is the field of the chain
parameters it copies. -/
def btc_headers_db_new (genesisblockhash : btc_uint256) (inmem_only : Bool) : btc_headers_db :=
  { headers_tree_file := none
    file_ahead := []
    read_write_file := !inmem_only
    tree_root := []
    use_binary_tree := true
    max_hdr_in_mem := 144
    genesis := { zero_blockindex with height := 0, prev := none, hash := genesisblockhash }
    chaintip := Ptr.genesis
    chainbottom := Ptr.genesis
    heap := [] }

/-! ## The persistent log -/

/-- The four magic octets `file_hdr_magic`. -/
def file_hdr_magic : List Byte := [0xA8, 0xF0, 0x11, 0xC5]

/-- The constant `current_version`. -/
def current_version : Nat := 1

/-- Little-endian encoding of a `uint32_t` (`ser_u32`, `htole32`). -/
def ser_u32 (v : Nat) : List Byte :=
  [Fin.ofNat (v % 256), Fin.ofNat (v / 256 % 256), Fin.ofNat (v / 65536 % 256),
   Fin.ofNat (v / 16777216 % 256)]

/-- Little-endian decoding of the first four octets (`deser_u32`). -/
def deser_u32 (b : List Byte) : Nat :=
  (b.getD 0 0).val + 256 * (b.getD 1 0).val + 65536 * (b.getD 2 0).val
    + 16777216 * (b.getD 3 0).val

/-- The stream after `fread` has been asked for `n` octets: the octets it delivers, at most
`n` and fewer when the file ends before, pass from ahead of the position to before it. -/
def stream_read (db : btc_headers_db) (n : Nat) : btc_headers_db :=
  { db with
    headers_tree_file := db.headers_tree_file.map (fun f => f ++ db.file_ahead.take n)
    file_ahead := db.file_ahead.drop n }

/-- The file behind the stream of the log: what lies before the position followed by
what lies ahead of it. -/
def log_file (db : btc_headers_db) : Option (List Byte) :=
  db.headers_tree_file.map (fun f => f ++ db.file_ahead)

/-- The function `btc_headers_db_write`.  `write_ok` is the outcome of `fwrite`, which
the caller of the model chooses; writing to a `NULL` stream is undefined.  `fwrite`
writes at the position of the stream: the record replaces the octets that lie ahead of
the position, as many as it has, and the position moves behind it.  At the end of the
file, where nothing lies ahead, the record is appended.  The code calls no positioning
function between the reads of `btc_headers_db_load` and this write; the embedding gives
the write the position at which the last read has left the stream. -/
def btc_headers_db_write (codec : Codec) (db : btc_headers_db) (blockindex : Ptr)
    (write_ok : Bool) : Option (btc_headers_db × Bool) :=
  match deref db blockindex with
  | none => none
  | some bi =>
    let rec_bytes := bi.hash.bytes ++ ser_u32 bi.height ++ codec.serialize bi.header
    match db.headers_tree_file with
    | none => none
    | some f =>
      if write_ok then
        some ({ db with
                headers_tree_file := some (f ++ rec_bytes)
                file_ahead := db.file_ahead.drop rec_bytes.length }, true)
      else some (db, false)

/-! ## Connecting a header -/

/-- The statements guarded by `i == db->max_hdr_in_mem && scan_tip != &db->genesis` in the
pruning loop of `btc_headers_db_connect_hdr`: when `scan_tip->prev` is set and is not the
genesis node, it is deleted from the tree and freed, `scan_tip->prev` is cleared and
`scan_tip` becomes `chainbottom`. -/
def prune_at (db : btc_headers_db) (scan_tip : Ptr) : Option btc_headers_db :=
  match deref db scan_tip with
  | none => none
  | some st =>
    match st.prev with
    | none => some db
    | some q =>
      if q ≠ Ptr.genesis then
        match deref db q with
        | none => none
        | some qn =>
          match tdelete db qn db.tree_root with
          | none => none
          | some t =>
            match btc_free { db with tree_root := t } q with
            | none => none
            | some db1 =>
              match deref db1 scan_tip with
              | none => none
              | some st1 =>
                (store db1 scan_tip { st1 with prev := none }).map
                  (fun d => { d with chainbottom := scan_tip })
      else some db

/-- The pruning loop `for (unsigned int i = 0; i < db->max_hdr_in_mem + 1; i++)`, started
at `scan_tip = db->chaintip`.  `bound` is `max_hdr_in_mem + 1` in `unsigned int`
arithmetic and `maxhdr` is `max_hdr_in_mem`; the first argument counts the iterations
that remain and starts at `bound`. -/
def prune_loop (bound maxhdr : Nat) :
    Nat → btc_headers_db → Ptr → Nat → Option btc_headers_db
  | 0, db, _, _ => some db
  | fuel + 1, db, scan_tip, i =>
    if i < bound then
      match deref db scan_tip with
      | none => none
      | some st =>
        match st.prev with
        | none => some db
        | some p =>
          match (if i = maxhdr ∧ p ≠ Ptr.genesis then prune_at db p else some db) with
          | none => none
          | some db1 => prune_loop bound maxhdr fuel db1 p (i + 1)
    else some db

/-- The block `if (db->max_hdr_in_mem > 0) { ... }` of `btc_headers_db_connect_hdr`. -/
def prune (db : btc_headers_db) : Option btc_headers_db :=
  if db.max_hdr_in_mem > 0 then
    prune_loop ((db.max_hdr_in_mem + 1) % UINT32_MOD) db.max_hdr_in_mem
      ((db.max_hdr_in_mem + 1) % UINT32_MOD) db db.chaintip 0
  else some db

/-- The branch `if (connect_at != NULL) { ... }` of `btc_headers_db_connect_hdr`:
link the node, select the tip, write the record, insert into the tree, prune. -/
def connect_at_block (codec : Codec) (db : btc_headers_db) (blockindex connect_at : Ptr)
    (load_process write_ok : Bool) : Option btc_headers_db :=
  match deref db connect_at, deref db blockindex with
  | some atn, some bi =>
    match store db blockindex
        { bi with prev := some connect_at, height := (atn.height + 1) % UINT32_MOD } with
    | none => none
    | some db1 =>
      match deref db1 db1.chaintip with
      | none => none
      | some tip =>
        let db2 :=
          { db1 with
            chaintip :=
              if (atn.height + 1) % UINT32_MOD > tip.height then blockindex
              else db1.chaintip }
        match (if !load_process && db2.read_write_file then
                (btc_headers_db_write codec db2 blockindex write_ok).map Prod.fst
              else some db2) with
        | none => none
        | some db3 =>
          match (if db3.use_binary_tree then tsearch db3 blockindex else some db3) with
          | none => none
          | some db4 => prune db4
  | _, _ => none

/-- The function `btc_headers_db_connect_hdr`.  The result is `none` when the call runs
into undefined behaviour; otherwise it is the new database, the returned pointer
(`none` for `NULL`) and the value left in `*connected`. -/
def btc_headers_db_connect_hdr (codec : Codec) (db : btc_headers_db) (buf : List Byte)
    (load_process write_ok : Bool) : Option (btc_headers_db × Option Ptr × Bool) :=
  let db0 := (btc_calloc db).1
  let blockindex := (btc_calloc db).2
  match codec.deserialize buf with
  | none => some (db0, none, false)
  | some hdr =>
    match store db0 blockindex
        { zero_blockindex with header := hdr, hash := codec.hash hdr } with
    | none => none
    | some db1 =>
      match deref db1 db1.chaintip with
      | none => none
      | some tip =>
        match (if hdr.prev_block = tip.hash then some (some db1.chaintip)
               else btc_headersdb_find db1 hdr.prev_block) with
        | none => none
        | some none => some (db1, some blockindex, false)
        | some (some connect_at) =>
          (connect_at_block codec db1 blockindex connect_at load_process write_ok).map
            (fun d => (d, some blockindex, true))

/-! ## Queries and tip manipulation -/

/-- The loop `for (int i = 0; i < 10; i++)` of `btc_headers_db_fill_block_locator`; the
first argument counts the iterations that remain. -/
def locator_loop : Nat → btc_headers_db → Ptr → List btc_uint256 → Option (List btc_uint256)
  | 0, _, _, v => some v
  | k + 1, db, scan_tip, v =>
    match deref db scan_tip with
    | none => none
    | some st =>
      match st.prev with
      | some p => locator_loop k db p (v ++ [st.hash])
      | none => some (v ++ [st.hash])

/-- The function `btc_headers_db_fill_block_locator`; the result is the vector
`blocklocators` after the call. -/
def btc_headers_db_fill_block_locator (db : btc_headers_db)
    (blocklocators : List btc_uint256) : Option (List btc_uint256) :=
  match deref db db.chaintip with
  | none => none
  | some tip =>
    if tip.height > 0 then locator_loop 10 db db.chaintip blocklocators
    else some blocklocators

/-- The function `btc_headersdb_getchaintip`. -/
def btc_headersdb_getchaintip (db : btc_headers_db) : Ptr := db.chaintip

/-- The function `btc_headersdb_disconnect_tip`. -/
def btc_headersdb_disconnect_tip (db : btc_headers_db) : Option (btc_headers_db × Bool) :=
  match deref db db.chaintip with
  | none => none
  | some tip =>
    match tip.prev with
    | some p =>
      match tdelete db tip db.tree_root with
      | none => none
      | some t =>
        (btc_free { db with chaintip := p, tree_root := t } db.chaintip).map
          (fun d => (d, true))
    | none => some (db, false)

/-- The function `btc_headersdb_has_checkpoint_start`. -/
def btc_headersdb_has_checkpoint_start (db : btc_headers_db) : Option Bool :=
  (deref db db.chainbottom).map (fun b => decide (b.height ≠ 0))

/-- The function `btc_headersdb_set_checkpoint_start`; `height` is a `uint32_t` argument. -/
def btc_headersdb_set_checkpoint_start (db : btc_headers_db) (hash : btc_uint256)
    (height : Nat) : Option btc_headers_db :=
  let db0 := (btc_calloc db).1
  let p := (btc_calloc db).2
  (store db0 p { zero_blockindex with height := height % UINT32_MOD, hash := hash }).map
    (fun d => { d with chainbottom := p, chaintip := p })

/-! ## Loading the log -/

/-- The loop `while (!feof(db->headers_tree_file))` of `btc_headers_db_load`.  Every
iteration reads 116 octets from the stream; a read that finds fewer than 116 octets ahead
consumes them, reaches the end of the file and ends the loop.  The result carries
`some r` when the function returned `r` from inside the loop.  The first argument bounds
the number of iterations and starts at the length of the file. -/
def load_records (codec : Codec) :
    Nat → btc_headers_db → Bool → Option (btc_headers_db × Option Nat)
  | 0, db, _ => some (db, none)
  | fuel + 1, db, firstblock =>
    if db.file_ahead.length < 116 then some (stream_read db 116, none)
    else
      let buf_all := db.file_ahead.take 116
      let db0 := stream_read db 116
      let height := deser_u32 (buf_all.drop 32)
      let cbuf_all := buf_all.drop 36
      if height ≥ 1120874 then load_records codec fuel db0 firstblock
      else if firstblock then
        match codec.deserialize cbuf_all with
        | none => (btc_free (btc_calloc db0).1 (btc_calloc db0).2).map (fun d => (d, some 255))
        | some hdr =>
          match store (btc_calloc db0).1 (btc_calloc db0).2
              { zero_blockindex with
                height := height, header := hdr, hash := codec.hash hdr, prev := none } with
          | none => none
          | some db2 =>
            load_records codec fuel { db2 with chaintip := (btc_calloc db0).2 } false
      else
        match btc_headers_db_connect_hdr codec db0 cbuf_all true false with
        | none => none
        | some (db1, _, connected) =>
          match (if connected then some db1.genesis else deref db1 db1.chaintip) with
          | none => none
          | some _ => load_records codec fuel db1 false

/-- The database with the stream that `fopen` returns for an existing file: `NULL` when
`fopen` fails, otherwise a stream at position 0 with the whole file ahead. -/
def open_log (db : btc_headers_db) (content : List Byte) ( fopen_ok : Bool) : btc_headers_db :=
  { db with
    headers_tree_file := if fopen_ok then some [] else none
    file_ahead := content }

/-- The function `btc_headers_db_load`.  `existing` is the file found at the path
(`none` when `stat` fails, so that the file is created) and `fopen_ok` tells whether
`fopen` returned a stream.  The result is the database and the returned `btc_bool`,
an octet: `return -1` yields 255.  The stream is left where the last `fread` has put it:
at position 0 when the size test fails, behind the 8 octets of the file header when the
magic or the version is rejected, behind the first record when that record is rejected,
and at the end of the file when the loop has run to its end. -/
def btc_headers_db_load (codec : Codec) (db : btc_headers_db)
    (existing : Option (List Byte)) (fopen_ok : Bool) : Option (btc_headers_db × Nat) :=
  if !db.read_write_file then some (db, 1)
  else
    match existing with
    | none =>
      if fopen_ok then
        match deref db db.chaintip with
        | none => none
        | some _ =>
          some ({ db with
                  headers_tree_file := some (file_hdr_magic ++ ser_u32 current_version)
                  file_ahead := [] }, 1)
      else none
    | some content =>
      let db1 := open_log db content fopen_ok
      if content.length % UINT32_MOD < 8 then some (db1, 0)
      else if !fopen_ok then none
      else
        let db2 := stream_read db1 8
        if content.length < 8 ∨ content.take 4 ≠ file_hdr_magic then some (db2, 0)
        else if (content.getD 4 0).val > current_version then some (db2, 0)
        else
          match load_records codec content.length db2 true with
          | none => none
          | some (db3, some r) => some (db3, r)
          | some (db3, none) =>
            match deref db3 db3.chaintip with
            | none => none
            | some _ => some (db3, 1)

/-! ## Predicates on states -/

/-- Every key of the search tree points to a live cell. -/
def tree_live (db : btc_headers_db) : Prop :=
  ∀ p ∈ db.tree_root, (deref db p).isSome = true

instance (db : btc_headers_db) : Decidable (tree_live db) := by
  unfold tree_live; infer_instance

/-! ## Sample data -/

/-- A hash built from a number: its low five octets, little-endian, then zeros. -/
def hash_of_nat (n : Nat) : btc_uint256 :=
  ⟨ser_u32 n ++ [Fin.ofNat (n / 4294967296 % 256)] ++ List.replicate 27 0, by simp [ser_u32]⟩

/-- The first 32 octets of a buffer as a `btc_uint256` (`deser_u256`), zero-padded. -/
def deser_u256 (b : List Byte) : btc_uint256 :=
  ⟨b.take 32 ++ List.replicate (32 - (b.take 32).length) 0, by
    simp only [List.length_append, List.length_replicate, List.length_take]; omega⟩

/-- A sample codec: the 80-byte wire layout, with the merkle root standing in for the hash. -/
def sample_codec : Codec where
  deserialize := fun b =>
    if b.length < 80 then none
    else some ⟨deser_u32 b, deser_u256 (b.drop 4), deser_u256 (b.drop 36),
              deser_u32 (b.drop 68), deser_u32 (b.drop 72), deser_u32 (b.drop 76)⟩
  serialize := fun h =>
    ser_u32 h.version ++ h.prev_block.bytes ++ h.merkle_root.bytes ++ ser_u32 h.timestamp
      ++ ser_u32 h.bits ++ ser_u32 h.nonce
  hash := fun h => h.merkle_root

/-- The sample header number `i` on top of the header (or genesis) number `p`. -/
def sample_header (p i : Nat) : btc_block_header :=
  ⟨1, hash_of_nat p, hash_of_nat i, 0, 0, 0⟩

/-- The wire form of `sample_header p i`. -/
def sample_buf (p i : Nat) : List Byte := sample_codec.serialize (sample_header p i)


/-- The hash stored in the cell a pointer refers to, if the cell is live. -/
def hash_at (db : btc_headers_db) (p : Ptr) : Option btc_uint256 :=
  (deref db p).map (fun n => n.hash)

/-- The keys of the search tree carry pairwise different hashes, as in every tree that
`tsearch` has built with `btc_header_compare`. -/
def tree_distinct (db : btc_headers_db) : Prop :=
  (db.tree_root.map (hash_at db)).Nodup

instance (db : btc_headers_db) : Decidable (tree_distinct db) := by
  unfold tree_distinct; infer_instance

/-- Connecting a list of buffers in order, collecting the `connected` flags. -/
def connect_all (codec : Codec) (load_process write_ok : Bool) :
    btc_headers_db → List (List Byte) → Option (btc_headers_db × List Bool)
  | db, [] => some (db, [])
  | db, b :: bs =>
    match btc_headers_db_connect_hdr codec db b load_process write_ok with
    | none => none
    | some (db1, _, c) =>
      (connect_all codec load_process write_ok db1 bs).map (fun r => (r.1, c :: r.2))

/-- The sample line of `n` headers on top of the genesis hash `hash_of_nat 0`. -/
def sample_line (n : Nat) : List (List Byte) :=
  (List.range n).map (fun i => sample_buf i (i + 1))

/-- The in-memory database with genesis hash `hash_of_nat 0`, window `m`, after the sample
line of `n` headers. -/
def sample_db (m n : Nat) : btc_headers_db :=
  match connect_all sample_codec false true
      { btc_headers_db_new (hash_of_nat 0) true with max_hdr_in_mem := m } (sample_line n) with
  | some r => r.1
  | none => btc_headers_db_new (hash_of_nat 0) true

/-- The log record that `btc_headers_db_write` builds for a node. -/
def record_bytes (codec : Codec) (bi : btc_blockindex) : List Byte :=
  bi.hash.bytes ++ ser_u32 bi.height ++ codec.serialize bi.header

/-- The node that `btc_headers_db_connect_hdr` creates for the header `hdr` attached to a
node of height `at_height` at the pointer `connect_at`. -/
def linked_node (codec : Codec) (hdr : btc_block_header) (connect_at : Ptr)
    (at_height : Nat) : btc_blockindex :=
  { height := (at_height + 1) % UINT32_MOD, hash := codec.hash hdr, header := hdr,
    prev := some connect_at }

/-- The database as `btc_headers_db_connect_hdr` leaves it just before its pruning block,
for a header attached at `connect_at`: the new node is in the last heap cell, the tip is
selected, the record is written and the node is in the tree.  `connect_hdr_attach` proves
that the function passes through this state. -/
def attached (codec : Codec) (db : btc_headers_db) (hdr : btc_block_header) (connect_at : Ptr)
    (at_height tip_height : Nat) (load_process write_ok : Bool) : btc_headers_db :=
  { db with
    heap := db.heap ++ [some (linked_node codec hdr connect_at at_height)]
    chaintip :=
      if (at_height + 1) % UINT32_MOD > tip_height then Ptr.node db.heap.length
      else db.chaintip
    headers_tree_file :=
      if !load_process && db.read_write_file && write_ok then
        db.headers_tree_file.map
          (fun f => f ++ record_bytes codec (linked_node codec hdr connect_at at_height))
      else db.headers_tree_file
    file_ahead :=
      if !load_process && db.read_write_file && write_ok then
        db.file_ahead.drop
          (record_bytes codec (linked_node codec hdr connect_at at_height)).length
      else db.file_ahead
    tree_root :=
      if db.use_binary_tree then
        match tfind db { zero_blockindex with hash := codec.hash hdr } db.tree_root with
        | some none => Ptr.node db.heap.length :: db.tree_root
        | _ => db.tree_root
      else db.tree_root }

/-- The log is open whenever the call is going to write to it. -/
def file_ready (db : btc_headers_db) (load_process : Bool) : Prop :=
  load_process = true ∨ db.read_write_file = false ∨ db.headers_tree_file ≠ none

instance (db : btc_headers_db) (load_process : Bool) : Decidable (file_ready db load_process) := by
  unfold file_ready; infer_instance

/-- The `prev` field read through a pointer: `none` when the cell is dead, `some none`
when the node has no `prev`. -/
def prev_at (db : btc_headers_db) (p : Ptr) : Option (Option Ptr) :=
  (deref db p).map (fun n => n.prev)

/-! ## Linear chains -/

/-- The `prev` field of the node in heap cell `a` of a linear chain whose cells below `cut`
have been pruned: the oldest retained node has no `prev`, except that the very first node
of a chain built on the genesis node points to the genesis node. -/
def lin_prev (replay : Bool) (cut a : Nat) : Option Ptr :=
  if a = cut then (if cut = 0 ∧ replay = false then some Ptr.genesis else none)
  else some (Ptr.node (a - 1))

/-- The node in heap cell `a` of a linear chain: it carries the header number `a`, at
height `a + 1`. -/
def lin_cell (codec : Codec) (replay : Bool) (cut a : Nat) (h : btc_block_header) :
    btc_blockindex :=
  { height := a + 1, hash := codec.hash h, header := h, prev := lin_prev replay cut a }

/-- The database holds exactly the linear chain `hs`: header number `a` sits in heap cell
`a` at height `a + 1`, the cells below `cut` are freed, the last header is the chain
tip, and the tree holds live chain nodes only, one for the hash of every retained header.
With `replay` the first header is the anchor that `btc_headers_db_load` installs: it has
no `prev` and is not in the tree. -/
structure LinC (codec : Codec) (g : btc_uint256) (replay : Bool) (cut : Nat)
    (hs : List btc_block_header) (db : btc_headers_db) : Prop where
  heap_len : db.heap.length = hs.length
  cut_le : cut ≤ hs.length - 1
  cell : ∀ a h, hs[a]? = some h → cut ≤ a →
    deref db (Ptr.node a) = some (lin_cell codec replay cut a h)
  dead : ∀ a, a < cut → deref db (Ptr.node a) = none
  tip : db.chaintip = if hs.length = 0 then Ptr.genesis else Ptr.node (hs.length - 1)
  bottom : db.chainbottom = if cut = 0 then Ptr.genesis else Ptr.node cut
  gen_prev : db.genesis.prev = none
  gen_height : db.genesis.height = 0
  gen_hash : db.genesis.hash = g
  use_tree : db.use_binary_tree = true
  tree_sub : ∀ p ∈ db.tree_root, ∃ a, p = Ptr.node a ∧ cut ≤ a ∧ a < hs.length
  tree_dist : tree_distinct db
  tree_cover : ∀ a h, hs[a]? = some h → cut ≤ a → (replay = true → 1 ≤ a) →
    ∃ p ∈ db.tree_root, hash_at db p = some (codec.hash h)

/-- The hash that the next header of a linear chain must name as its predecessor. -/
def last_hash (codec : Codec) (g : btc_uint256) (hs : List btc_block_header) : btc_uint256 :=
  match hs.getLast? with
  | some l => codec.hash l
  | none => g

/-- Number of freed cells of a linear chain of `n` headers under the window `m`. -/
def lin_cut (m n : Nat) : Nat := if m = 0 then 0 else n - (m + 2)

/-- The headers `hs` form a line on top of the hash `prev`: each names the hash of the one
before it as its `prev_block`, the first names `prev`. -/
def chain_from (codec : Codec) : btc_uint256 → List btc_block_header → Prop
  | _, [] => True
  | prev, h :: t => h.prev_block = prev ∧ chain_from codec (codec.hash h) t

instance decChainFrom (codec : Codec) : ∀ (prev : btc_uint256) (hs : List btc_block_header),
    Decidable (chain_from codec prev hs)
  | _, [] => isTrue trivial
  | prev, h :: t =>
    have := decChainFrom codec (codec.hash h) t
    inferInstanceAs (Decidable (h.prev_block = prev ∧ chain_from codec (codec.hash h) t))

/-- The log record of the header `h` connected at height `height`. -/
def record_of (codec : Codec) (height : Nat) (h : btc_block_header) : List Byte :=
  (codec.hash h).bytes ++ ser_u32 height ++ codec.serialize h

/-- The log records of the headers `hs` connected in a line above height `start`. -/
def lin_records (codec : Codec) : Nat → List btc_block_header → List Byte
  | _, [] => []
  | start, h :: t => record_of codec (start + 1) h ++ lin_records codec (start + 1) t

/-- The headers of `sample_line n`. -/
def sample_headers (n : Nat) : List btc_block_header :=
  (List.range n).map (fun i => sample_header i (i + 1))

/-- The number of headers at which a `uint32_t` height wraps: 2^32.  It is kept
irreducible so that lists of this length are never unfolded. -/
@[irreducible] def wrap_count : Nat := 4294967296

/-! ## Closed heaps -/

/-- The `prev` of the node in cell `a`, if there is one, points to another cell that is
live. -/
def cell_closed (db : btc_headers_db) (a : Nat) : Bool :=
  match deref db (Ptr.node a) with
  | none => true
  | some n =>
    match n.prev with
    | none => true
    | some q => decide (q ≠ Ptr.node a) && (deref db q).isSome

/-- No dangling `prev`: the genesis node has no `prev`, and the `prev` of every live node
points to a live node other than itself. -/
def heap_closed (db : btc_headers_db) : Prop :=
  db.genesis.prev = none ∧ ∀ a, a < db.heap.length → cell_closed db a = true

instance (db : btc_headers_db) : Decidable (heap_closed db) := by
  unfold heap_closed; infer_instance

/-- The pointer reached from `p` after following `prev` `j` times (the genesis pointer
once the chain has ended). -/
def nth_prev (db : btc_headers_db) (p : Ptr) : Nat → Ptr
  | 0 => p
  | j + 1 =>
    match prev_at db (nth_prev db p j) with
    | some (some q) => q
    | _ => Ptr.genesis

/-- The list `path` is the prev-chain that starts at `p`: it begins with `p`, each of its
pointers is the `prev` of the one before it, and its last node has no `prev`. -/
def is_prev_chain (db : btc_headers_db) : Ptr → List Ptr → Prop
  | _, [] => False
  | p, [q] => q = p ∧ prev_at db p = some none
  | p, q :: r :: rs => q = p ∧ prev_at db p = some (some r) ∧ is_prev_chain db r (r :: rs)

instance decIsPrevChain (db : btc_headers_db) :
    ∀ (p : Ptr) (path : List Ptr), Decidable (is_prev_chain db p path)
  | _, [] => isFalse (fun h => h)
  | p, [q] => inferInstanceAs (Decidable (q = p ∧ prev_at db p = some none))
  | p, q :: r :: rs =>
    have := decIsPrevChain db r (r :: rs)
    inferInstanceAs
      (Decidable (q = p ∧ prev_at db p = some (some r) ∧ is_prev_chain db r (r :: rs)))

/-- The sample fork: headers 1 and 2 in a line on the genesis hash, header 100 competing
with header 2 on top of header 1, and header 101 on top of header 100. -/
def sample_fork : List (List Byte) :=
  [sample_buf 0 1, sample_buf 1 2, sample_buf 1 100, sample_buf 100 101]

/-- The database with persistence enabled, loaded on a freshly created log, after the
buffers `bufs` have been connected with successful writes. -/
def sample_persisted (bufs : List (List Byte)) : btc_headers_db :=
  match btc_headers_db_load sample_codec (btc_headers_db_new (hash_of_nat 0) false) none true with
  | some r =>
    match connect_all sample_codec false true r.1 bufs with
    | some r1 => r1.1
    | none => r.1
  | none => btc_headers_db_new (hash_of_nat 0) false

/-- The database that `btc_headers_db_load` builds from the log of `sample_persisted bufs`. -/
def sample_reloaded (bufs : List (List Byte)) : Option (btc_headers_db × Nat) :=
  btc_headers_db_load sample_codec (btc_headers_db_new (hash_of_nat 0) false)
    (log_file (sample_persisted bufs)) true

/-! ## Sample logs -/

/-- A codec that rejects the wire form of a header whose version field is 0 and agrees
with `sample_codec` otherwise. -/
def strict_codec : Codec :=
  { sample_codec with
    deserialize := fun b => if deser_u32 b = 0 then none else sample_codec.deserialize b }

/-- The file header that `btc_headers_db_load` writes into a new log. -/
def log_header : List Byte := file_hdr_magic ++ ser_u32 current_version

/-- A complete record whose 80-octet payload is all zero: `strict_codec` rejects it. -/
def zero_record : List Byte :=
  (hash_of_nat 9).bytes ++ ser_u32 1 ++ List.replicate 80 0

/-- The record of the sample header number `i` on top of number `p`, stored with the
height `height`. -/
def sample_record (height p i : Nat) : List Byte :=
  record_of sample_codec height (sample_header p i)

/-- What a loaded database shows of its chain: the returned `btc_bool`, the hash and the
height of the chain tip, and the heights of all live nodes in allocation order. -/
def load_view (r : Option (btc_headers_db × Nat)) :
    Option (Nat × Option (btc_uint256 × Nat) × List Nat) :=
  r.map (fun x =>
    (x.2, (deref x.1 x.1.chaintip).map (fun n => (n.hash, n.height)),
      x.1.heap.filterMap (fun c => c.map (fun n => n.height))))

/-! ## Checkpoints -/

/-- The database after `btc_headersdb_set_checkpoint_start`: a new node with the given hash
and height, zeroed otherwise, is both chain bottom and chain tip. -/
def checkpoint_db (db : btc_headers_db) (hash : btc_uint256) (k : Nat) : btc_headers_db :=
  { db with
    heap := db.heap ++ [some ⟨k, hash, zero_header, none⟩]
    chainbottom := Ptr.node db.heap.length
    chaintip := Ptr.node db.heap.length }

/-! ## The in-memory part of a database -/

/-- The database `db` with another log stream (`file` before the position, `ahead`
after it) and another persistence flag; everything that lives in memory is kept. -/
def with_log (db : btc_headers_db) (file : Option (List Byte)) (ahead : List Byte)
    (rw : Bool) : btc_headers_db :=
  { db with headers_tree_file := file, file_ahead := ahead, read_write_file := rw }

/-- The in-memory part of a database: the log stream and the persistence flag are
blanked out. -/
def in_memory (db : btc_headers_db) : btc_headers_db := with_log db none [] false

/-! ## Sequences of calls -/

/-- A call of one of the functions that change a database. -/
inductive Call where
  | connect (buf : List Byte) (load_process write_ok : Bool)
  | disconnect
  | checkpoint (hash : btc_uint256) (height : Nat)
  | load (existing : Option (List Byte)) ( fopen_ok : Bool)

/-- The database after one call; `none` when the call runs into undefined behaviour. -/
def call_step (codec : Codec) (db : btc_headers_db) : Call → Option btc_headers_db
  | Call.connect buf load_process write_ok =>
    (btc_headers_db_connect_hdr codec db buf load_process write_ok).map (fun r => r.1)
  | Call.disconnect => (btc_headersdb_disconnect_tip db).map (fun r => r.1)
  | Call.checkpoint hash height => btc_headersdb_set_checkpoint_start db hash height
  | Call.load existing fopen_ok =>
    (btc_headers_db_load codec db existing fopen_ok).map (fun r => r.1)

/-- The database after a sequence of calls, made in order. -/
def run_calls (codec : Codec) : btc_headers_db → List Call → Option btc_headers_db
  | db, [] => some db
  | db, c :: cs => (call_step codec db c).bind (fun d => run_calls codec d cs)

/-- The call is `btc_headers_db_load`. -/
def Call.is_load : Call → Bool
  | Call.load _ _ => true
  | _ => false

/-- The link between a node and its `prev`: every live node whose `prev` points to a live
node names the hash of that node in its header and is one above it in height, in
`uint32_t` arithmetic. -/
def links_ok (db : btc_headers_db) : Prop :=
  ∀ p n q m, deref db p = some n → n.prev = some q → deref db q = some m →
    n.header.prev_block = m.hash ∧ n.height = (m.height + 1) % UINT32_MOD

/-- The node at the end of the prev-chain of the chain tip is the chain bottom or the
genesis node. -/
def tip_chain_ok (db : btc_headers_db) : Prop :=
  ∃ path, is_prev_chain db db.chaintip path
    ∧ (path.getLast? = some db.chainbottom ∨ path.getLast? = some Ptr.genesis)

/-- The comparison `chainbottom.height <= chaintip.height`. -/
def heights_ordered (db : btc_headers_db) : Prop :=
  ∃ b t, deref db db.chainbottom = some b ∧ deref db db.chaintip = some t
    ∧ b.height ≤ t.height

/-! ## A normal form of `btc_headers_db_connect_hdr` -/

/-- What `btc_headers_db_connect_hdr` computes, with the intermediate states folded into
`attached`: a buffer that does not deserialize leaves a zeroed cell; a header without a
known parent leaves an unlinked node; a header with a parent is attached and the chain is
pruned, and the call is undefined when it writes to a `NULL` stream or reads a dead tree
key.  `connect_hdr_normal` proves that the function computes this on every state whose
chain tip and tree keys are allocated cells. -/
def connect_normal (codec : Codec) (db : btc_headers_db) (buf : List Byte)
    (load_process write_ok : Bool) : Option (btc_headers_db × Option Ptr × Bool) :=
  match codec.deserialize buf with
  | none => some ({ db with heap := db.heap ++ [some zero_blockindex] }, none, false)
  | some hdr =>
    match deref db db.chaintip with
    | none => none
    | some tip =>
      match (if hdr.prev_block = tip.hash then some (some db.chaintip)
             else btc_headersdb_find db hdr.prev_block) with
      | none => none
      | some none =>
        some ({ db with heap := db.heap ++
                  [some { zero_blockindex with header := hdr, hash := codec.hash hdr }] },
              some (Ptr.node db.heap.length), false)
      | some (some connect_at) =>
        match deref db connect_at with
        | none => none
        | some atn =>
          if (!load_process && db.read_write_file && db.headers_tree_file.isNone) = true then
            none
          else
            match (if db.use_binary_tree then
                     tfind db { zero_blockindex with hash := codec.hash hdr } db.tree_root
                   else some none) with
            | none => none
            | some _ =>
              (prune (attached codec db hdr connect_at atn.height tip.height load_process
                write_ok)).map (fun d => (d, some (Ptr.node db.heap.length), true))

/-- The chain tip and the keys of the tree are the genesis node or cells that have been
allocated. -/
def refs_allocated (db : btc_headers_db) : Prop :=
  db.chaintip ≠ Ptr.node db.heap.length ∧ ∀ p ∈ db.tree_root, p ≠ Ptr.node db.heap.length

/-! ## Invariants of the heap -/

/-- Every pointer that the database holds refers to the genesis node or to a cell that
has been allocated: the chain tip, the keys of the tree and the `prev` of every live
node; and the genesis node has no `prev`. -/
def bounds_ok (db : btc_headers_db) : Prop :=
  db.genesis.prev = none
  ∧ (∀ a, db.chaintip = Ptr.node a → a < db.heap.length)
  ∧ (∀ a, Ptr.node a ∈ db.tree_root → a < db.heap.length)
  ∧ (∀ p n b, deref db p = some n → n.prev = some (Ptr.node b) → b < db.heap.length)

/-- The nodes of `d` are nodes of `db` that have kept their height, hash and header, and
their `prev` unless it has been cleared: nothing has been allocated, and cells have only
been freed or cut off from their `prev`. -/
def nodes_evolve (db d : btc_headers_db) : Prop :=
  d.heap.length = db.heap.length
  ∧ ∀ p n1, deref d p = some n1 →
      ∃ n, deref db p = some n ∧ n1.height = n.height ∧ n1.hash = n.hash
        ∧ n1.header = n.header ∧ (n1.prev = n.prev ∨ n1.prev = none)

/-- The invariant of the heap that every call keeps: the links are right and no pointer
leaves the allocated cells. -/
def heap_inv (db : btc_headers_db) : Prop := links_ok db ∧ bounds_ok db

/-- A sample sequence of calls on a database: two headers in a line, a competing header
on top of the first, an unknown header, a buffer that is no header, a disconnect, a
checkpoint and a header on top of the checkpoint. -/
def sample_calls : List Call :=
  [Call.connect (sample_buf 0 1) false true, Call.connect (sample_buf 1 2) false true,
   Call.connect (sample_buf 1 100) false true, Call.connect (sample_buf 55 56) false true,
   Call.connect [] false true, Call.disconnect,
   Call.checkpoint (hash_of_nat 7) 840000, Call.connect (sample_buf 7 8) false true]

/-! ## Invariants of a database that has only been connected to -/

/-- The property `P` holds of the state that a run has reached (and the run is defined). -/
def holds_after (r : Option btc_headers_db) (P : btc_headers_db → Prop) : Prop :=
  match r with
  | some d => P d
  | none => False

instance (r : Option btc_headers_db) (P : btc_headers_db → Prop) [∀ d, Decidable (P d)] :
    Decidable (holds_after r P) := by
  unfold holds_after
  cases r <;> infer_instance

/-- Two competing branches on top of the first header, the second of which takes over the
chain tip and is pruned, then two disconnects and a header on the first branch. -/
def fork_and_disconnect : List Call :=
  [Call.connect (sample_buf 0 1) false true, Call.connect (sample_buf 1 2) false true,
   Call.connect (sample_buf 1 12) false true, Call.connect (sample_buf 2 3) false true,
   Call.connect (sample_buf 12 13) false true, Call.connect (sample_buf 3 4) false true,
   Call.connect (sample_buf 13 14) false true, Call.connect (sample_buf 14 15) false true,
   Call.disconnect, Call.disconnect, Call.connect (sample_buf 3 20) false true]

/-! ## Sample keys -/

/-- A node that carries the hash `hash_of_nat i` and is zeroed otherwise, as the search
key that `btc_headersdb_find` builds. -/
def sample_key (i : Nat) : btc_blockindex := { zero_blockindex with hash := hash_of_nat i }

/-! ## Sample states with a long chain -/

/-- The sample line of 5 headers connected to a fresh database while pruning was off
(`max_hdr_in_mem = 0`), with the window then set to 1: the prev-chain of the chain tip
has 6 nodes, all 5 headers are in the tree. -/
def unpruned_db : btc_headers_db := { sample_db 0 5 with max_hdr_in_mem := 1 }

/-- The node in heap cell `i` of `long_db`: the sample header number `i + 1` on top of
number `i`, at height `i + 1` in `uint32_t` arithmetic. -/
def long_node (i : Nat) : btc_blockindex :=
  { height := (i + 1) % UINT32_MOD
    hash := hash_of_nat (i + 1)
    header := sample_header i (i + 1)
    prev := if i = 0 then some Ptr.genesis else some (Ptr.node (i - 1)) }

/-- An in-memory database with `max_hdr_in_mem = UINT_MAX` that holds the sample line of
`n` headers unpruned: the header number `i + 1` sits in heap cell `i`, linked to the cell
before it (the first to the genesis node), every node is in the tree and the last one is
the chain tip. -/
def long_db (n : Nat) : btc_headers_db :=
  { btc_headers_db_new (hash_of_nat 0) true with
    max_hdr_in_mem := 4294967295
    heap := (List.range n).map (fun i => some (long_node i))
    tree_root := ((List.range n).map Ptr.node).reverse
    chaintip := if n = 0 then Ptr.genesis else Ptr.node (n - 1) }

/-- The prev-chain of a node attached on top of `long_db n`, as a sequence: the new cell
`n`, the cells `n - 1`, ..., `0`, and the genesis node. -/
def long_path (n : Nat) : Nat → Ptr
  | 0 => Ptr.node n
  | j + 1 => if j < n then Ptr.node (n - 1 - j) else Ptr.genesis

/-! ## A log of a later format version -/

/-- A log of format version 2 that holds the records of the sample headers 1 and 2. -/
def newer_log : List Byte :=
  file_hdr_magic ++ ser_u32 2 ++ sample_record 1 0 1 ++ sample_record 2 1 2

/-! ## States with dangling `prev` pointers -/

/-- A fresh database whose window `max_hdr_in_mem` the caller has set to `m`. -/
def fresh_db (g : btc_uint256) (inmem_only : Bool) (m : Nat) : btc_headers_db :=
  { btc_headers_db_new g inmem_only with max_hdr_in_mem := m }

/-- Connects only: the sample headers 1 and 2 in a line, header 12 competing with header 2
on top of header 1, and headers 3 and 4 on top of header 2.  Under the window 1 the last
connect prunes header 1, the parent of header 12. -/
def pruned_fork : List Call :=
  [Call.connect (sample_buf 0 1) false true, Call.connect (sample_buf 1 2) false true,
   Call.connect (sample_buf 1 12) false true, Call.connect (sample_buf 2 3) false true,
   Call.connect (sample_buf 3 4) false true]

/-- The state that `pruned_fork` reaches from a fresh in-memory database with the
window 1. -/
def pruned_fork_db : btc_headers_db :=
  match run_calls sample_codec (fresh_db (hash_of_nat 0) true 1) pruned_fork with
  | some d => d
  | none => fresh_db (hash_of_nat 0) true 1

/-- The sample headers 1, 2 and 3 in a line, header 30 competing with header 3 on top of
header 2, and two disconnects, which free the nodes of headers 3 and 2: the `prev` of the
node of header 30 is left dangling. -/
def dangling_fork : List Call :=
  [Call.connect (sample_buf 0 1) false true, Call.connect (sample_buf 1 2) false true,
   Call.connect (sample_buf 2 3) false true, Call.connect (sample_buf 2 30) false true,
   Call.disconnect, Call.disconnect]

/-- A checkpoint at the height 4294967295 and a header on top of it. -/
def top_checkpoint : List Call :=
  [Call.checkpoint (hash_of_nat 5) 4294967295, Call.connect (sample_buf 5 6) false true]

/-- After `top_checkpoint`, a second checkpoint at the height 0, a header on top of the
header of `top_checkpoint`, which becomes the chain tip at height 1, and a disconnect:
the chain tip is the node of height 0 on top of the checkpoint at height 4294967295. -/
def wrapped_tip : List Call :=
  top_checkpoint ++ [Call.checkpoint (hash_of_nat 9) 0,
    Call.connect (sample_buf 6 7) false true, Call.disconnect]

/-- With pruning off: `dangling_fork`, then the header 31 on top of header 30, which
becomes the chain tip, and a disconnect, which makes the node of header 30 the chain
tip. -/
def unpruned_dangling : List Call :=
  dangling_fork ++ [Call.connect (sample_buf 30 31) false true, Call.disconnect]
/-! ## The database that a replay of the log builds -/

/-- The headers that connected, in order: `bufs` are the buffers passed to
`btc_headers_db_connect_hdr` and `flags` the values it left in `*connected`. -/
def connected_headers (codec : Codec) : List (List Byte) → List Bool → List btc_block_header
  | b :: bs, c :: cs =>
    (if c then (codec.deserialize b).toList else []) ++ connected_headers codec bs cs
  | _, _ => []

/-- The pointer that a replay holds where the original database holds `p`: the node of
the `j`-th connected header is in the `j`-th cell that the replay allocates.  `conn` lists
the cells of the connected headers in the original database, in order. -/
def map_ptr (conn : List Nat) : Ptr → Ptr
  | Ptr.genesis => Ptr.genesis
  | Ptr.node a => Ptr.node (conn.indexOf a)

/-- The `prev` that a replay holds where the original database holds `prev`: the first
record of a log is replayed as a node without `prev`, where the original node points to
the genesis node. -/
def map_prev (conn : List Nat) : Option Ptr → Option Ptr
  | some (Ptr.node a) => some (Ptr.node (conn.indexOf a))
  | _ => none

/-- The node that a replay holds for the node `n` of the original database. -/
def map_node (conn : List Nat) (n : btc_blockindex) : btc_blockindex :=
  { n with prev := map_prev conn n.prev }

/-- The tree that a replay holds where the original database holds the tree `t`: the node
of the first connected header is left out. -/
def map_tree (conn : List Nat) (t : List Ptr) : List Ptr :=
  (t.filter (fun p => decide (p ≠ Ptr.node (conn.headD 0)))).map (map_ptr conn)

/-- The in-memory part of the database that a replay of the log builds, computed from the
original database `db` and the list `conn` of the cells of its connected headers: the
heap holds the nodes of the connected headers only, and the node of the first connected
header, which the replay makes from the first record, is not in the tree. -/
def replayed (conn : List Nat) (db : btc_headers_db) : btc_headers_db :=
  { headers_tree_file := none
    file_ahead := []
    read_write_file := false
    tree_root := map_tree conn db.tree_root
    use_binary_tree := db.use_binary_tree
    max_hdr_in_mem := db.max_hdr_in_mem
    genesis := db.genesis
    chaintip := map_ptr conn db.chaintip
    chainbottom := map_ptr conn db.chainbottom
    heap := conn.map (fun a => (heap_get db.heap a).map (map_node conn)) }

/-- What the original database and the list `conn` of the cells of its connected headers
satisfy while headers are connected to a database with a log: the cells are allocated and
distinct, the chain tip, the chain bottom and the keys of the tree are among them (or
the genesis node), every `prev` of one of their nodes is the genesis node or an older one
of them, and the node of the first connected header has the hash `h1` and is the oldest
key of the tree. -/
structure replay_inv (h1 : btc_uint256) (conn : List Nat) (db : btc_headers_db) : Prop where
  nodup : conn.Nodup
  ne_nil : conn ≠ []
  alloc : ∀ a ∈ conn, a < db.heap.length
  tip : ∃ t ∈ conn, db.chaintip = Ptr.node t
  tree : ∀ p ∈ db.tree_root, ∃ a ∈ conn, p = Ptr.node a
  bottom : db.chainbottom = Ptr.genesis ∨ ∃ b ∈ conn, db.chainbottom = Ptr.node b
  prevs : ∀ a ∈ conn, ∀ n, heap_get db.heap a = some n →
    n.prev = none ∨ n.prev = some Ptr.genesis
      ∨ ∃ b ∈ conn, b < a ∧ n.prev = some (Ptr.node b)
  first_hash : ∀ n, heap_get db.heap (conn.headD 0) = some n → n.hash = h1
  first_last : ∀ p ∈ db.tree_root.dropLast, p ≠ Ptr.node (conn.headD 0)
  gen_prev : db.genesis.prev = none
/-- The database with persistence enabled and the window `m`, after `btc_headers_db_load`
has created its log. -/
def created_db (g : btc_uint256) (m : Nat) : btc_headers_db :=
  { fresh_db g false m with
    headers_tree_file := some (file_hdr_magic ++ ser_u32 current_version)
    file_ahead := [] }
/-- A sample sequence of buffers: a header with an unknown parent, a buffer that is no
header, the sample headers 1, 2 and 3 in a line with another orphan in between, header 30
competing with header 3 on top of header 2, headers 31 and 32 on top of header 30, which
take over the chain tip, and header 4 on top of header 3. -/
def mixed_bufs : List (List Byte) :=
  [sample_buf 55 56, [], sample_buf 0 1, sample_buf 7 8, sample_buf 1 2, sample_buf 2 3,
   sample_buf 2 30, [], sample_buf 30 31, sample_buf 31 32, sample_buf 3 4]

/-- The database with persistence and the window 1, loaded on a freshly created log, after
`mixed_bufs` have been connected with successful writes. -/
def mixed_db : btc_headers_db :=
  match (btc_headers_db_load sample_codec (fresh_db (hash_of_nat 0) false 1) none true).bind
      (fun r => connect_all sample_codec false true r.1 mixed_bufs) with
  | some r => r.1
  | none => fresh_db (hash_of_nat 0) false 1

/-! ## Memory lemmas -/

theorem heap_get_append_left (heap : List (Option btc_blockindex)) (x : Option btc_blockindex)
    (a : Nat) (h : a < heap.length) : heap_get (heap ++ [x]) a = heap_get heap a := by
  unfold heap_get
  rw [List.getElem?_append_left h]

theorem heap_get_append_length (heap : List (Option btc_blockindex)) (x : Option btc_blockindex) :
    heap_get (heap ++ [x]) heap.length = x := by
  unfold heap_get
  simp
  cases x <;> rfl

theorem heap_get_some_lt {heap : List (Option btc_blockindex)} {a : Nat} {n : btc_blockindex}
    (h : heap_get heap a = some n) : a < heap.length := by
  unfold heap_get at h
  by_contra hc
  rw [List.getElem?_eq_none (by omega)] at h
  simp at h

theorem heap_get_set_same (heap : List (Option btc_blockindex)) (a : Nat)
    (x : Option btc_blockindex) (h : a < heap.length) : heap_get (heap.set a x) a = x := by
  unfold heap_get
  rw [List.getElem?_set_self h]
  cases x <;> rfl

theorem heap_get_set_ne (heap : List (Option btc_blockindex)) (a b : Nat)
    (x : Option btc_blockindex) (h : a ≠ b) : heap_get (heap.set a x) b = heap_get heap b := by
  unfold heap_get
  rw [List.getElem?_set_ne h]

/-! ## Comparison lemmas -/

theorem compare_bytes_eq_zero (a b : List Byte) (h : a.length = b.length) :
    compare_bytes a b = 0 ↔ a = b := by
  induction a generalizing b with
  | nil =>
    cases b with
    | nil => simp [compare_bytes]
    | cons y ys => simp at h
  | cons x xs ih =>
    cases b with
    | nil => simp at h
    | cons y ys =>
      simp only [List.length_cons, add_left_inj] at h
      simp only [compare_bytes, List.cons.injEq]
      by_cases h1 : x > y
      · simp only [h1, if_true]
        constructor
        · intro hc; simp at hc
        · rintro ⟨rfl, _⟩; exact absurd h1 (lt_irrefl _)
      · by_cases h2 : x < y
        · simp only [h1, h2, if_true, if_false]
          constructor
          · intro hc; simp at hc
          · rintro ⟨rfl, _⟩; exact absurd h2 (lt_irrefl _)
        · have hxy : x = y := le_antisymm (not_lt.mp h1) (not_lt.mp h2)
          subst hxy
          simp only [gt_iff_lt, lt_irrefl, if_false, ih ys h, true_and]

theorem btc_header_compare_eq_zero (l r : btc_blockindex) :
    btc_header_compare l r = 0 ↔ l.hash = r.hash := by
  unfold btc_header_compare
  rw [compare_bytes_eq_zero _ _ (by rw [l.hash.size_eq, r.hash.size_eq])]
  constructor
  · intro h
    cases hl : l.hash; cases hr : r.hash
    simp only [hl, hr] at h
    subst h; rfl
  · intro h; rw [h]

/-! ## Pointer lemmas -/

theorem deref_congr {db1 db2 : btc_headers_db} (hg : db1.genesis = db2.genesis)
    (hh : db1.heap = db2.heap) (p : Ptr) : deref db1 p = deref db2 p := by
  cases p <;> simp [deref, hg, hh]

theorem deref_node_lt {db : btc_headers_db} {a : Nat} {n : btc_blockindex}
    (h : deref db (Ptr.node a) = some n) : a < db.heap.length :=
  heap_get_some_lt h

/-- Appending a cell to the heap leaves every live pointer as it was. -/
theorem deref_push (db : btc_headers_db) {db1 : btc_headers_db} {x : Option btc_blockindex}
    (hg : db1.genesis = db.genesis) (hh : db1.heap = db.heap ++ [x]) {p : Ptr}
    {n : btc_blockindex} (h : deref db p = some n) : deref db1 p = some n := by
  cases p with
  | genesis => simpa [deref, hg] using h
  | node a =>
    have hlt := deref_node_lt h
    simp only [deref, hh] at h ⊢
    rw [heap_get_append_left _ _ _ hlt]; exact h

theorem deref_push_new (db : btc_headers_db) {db1 : btc_headers_db} {x : Option btc_blockindex}
    (hh : db1.heap = db.heap ++ [x]) : deref db1 (Ptr.node db.heap.length) = x := by
  simp only [deref, hh, heap_get_append_length]

/-- Filling the cell that `btc_calloc` has just returned. -/
theorem store_calloc (db : btc_headers_db) (n : btc_blockindex) :
    store (btc_calloc db).1 (btc_calloc db).2 n
      = some { db with heap := db.heap ++ [some n] } := by
  simp only [btc_calloc, store, heap_get_append_length]
  congr 2
  rw [List.set_append_right _ _ (le_refl _)]
  simp

/-! ## Tree lemmas -/

theorem tfind_congr {db1 db2 : btc_headers_db} (key : btc_blockindex) (t : List Ptr)
    (h : ∀ p ∈ t, deref db1 p = deref db2 p) : tfind db1 key t = tfind db2 key t := by
  induction t with
  | nil => rfl
  | cons p ps ih =>
    simp only [tfind, h p (List.mem_cons_self _ _)]
    rw [ih (fun q hq => h q (List.mem_cons_of_mem _ hq))]

theorem tdelete_congr {db1 db2 : btc_headers_db} (key : btc_blockindex) (t : List Ptr)
    (h : ∀ p ∈ t, deref db1 p = deref db2 p) : tdelete db1 key t = tdelete db2 key t := by
  induction t with
  | nil => rfl
  | cons p ps ih =>
    simp only [tdelete, h p (List.mem_cons_self _ _)]
    rw [ih (fun q hq => h q (List.mem_cons_of_mem _ hq))]

/-- A search finds nothing when every key is live and carries another hash. -/
theorem tfind_none {db : btc_headers_db} (key : btc_blockindex) (t : List Ptr)
    (h : ∀ p ∈ t, ∃ n, deref db p = some n ∧ n.hash ≠ key.hash) :
    tfind db key t = some none := by
  induction t with
  | nil => rfl
  | cons p ps ih =>
    obtain ⟨n, hn, hne⟩ := h p (List.mem_cons_self _ _)
    have hc : ¬ btc_header_compare key n = 0 := by
      rw [btc_header_compare_eq_zero]; exact fun e => hne e.symm
    simp only [tfind, hn, hc, if_false]
    exact ih (fun q hq => h q (List.mem_cons_of_mem _ hq))

/-- A search over live keys is defined. -/
theorem tfind_defined {db : btc_headers_db} (key : btc_blockindex) (t : List Ptr)
    (h : ∀ p ∈ t, (deref db p).isSome = true) : ∃ r, tfind db key t = some r := by
  induction t with
  | nil => exact ⟨none, rfl⟩
  | cons p ps ih =>
    have hp := h p (List.mem_cons_self _ _)
    obtain ⟨n, hn⟩ := Option.isSome_iff_exists.mp hp
    simp only [tfind, hn]
    by_cases hc : btc_header_compare key n = 0
    · exact ⟨some p, by simp [hc]⟩
    · simp only [hc, if_false]
      exact ih (fun q hq => h q (List.mem_cons_of_mem _ hq))

/-- What a successful search returns is a key of the tree whose node has the hash looked for. -/
theorem tfind_some {db : btc_headers_db} {key : btc_blockindex} {t : List Ptr} {p : Ptr}
    (h : tfind db key t = some (some p)) :
    p ∈ t ∧ ∃ n, deref db p = some n ∧ n.hash = key.hash := by
  induction t with
  | nil => simp [tfind] at h
  | cons q qs ih =>
    simp only [tfind] at h
    cases hq : deref db q with
    | none => simp [hq] at h
    | some n =>
      simp only [hq] at h
      by_cases hc : btc_header_compare key n = 0
      · simp only [hc, if_true, Option.some.injEq] at h
        subst h
        exact ⟨List.mem_cons_self _ _, n, hq, ((btc_header_compare_eq_zero _ _).mp hc).symm⟩
      · simp only [hc, if_false] at h
        obtain ⟨hm, hn⟩ := ih h
        exact ⟨List.mem_cons_of_mem _ hm, hn⟩

/-! ## Unconnected headers -/

/-- A header whose `prev_block` is not the hash of the chain tip and is not found in the
hash index: the call only leaves the new node in a fresh heap cell. -/
theorem connect_unconnected_eq (codec : Codec) (db : btc_headers_db) (buf : List Byte)
    (hdr : btc_block_header) (tip : btc_blockindex) (load_process write_ok : Bool)
    (hdec : codec.deserialize buf = some hdr)
    (htip : deref db db.chaintip = some tip)
    (hlive : tree_live db)
    (hne_tip : hdr.prev_block ≠ tip.hash)
    (hnone : btc_headersdb_find db hdr.prev_block = some none) :
    btc_headers_db_connect_hdr codec db buf load_process write_ok
      = some ({ db with heap := db.heap ++
          [some { zero_blockindex with header := hdr, hash := codec.hash hdr }] },
        some (Ptr.node db.heap.length), false) := by
  have hkeep : ∀ (x : btc_blockindex) p n, deref db p = some n →
      deref { db with heap := db.heap ++ [some x] } p = some n :=
    fun x p n h =>
      @deref_push db { db with heap := db.heap ++ [some x] } (some x) rfl rfl p n h
  have hsame : ∀ (x : btc_blockindex), ∀ p ∈ db.tree_root,
      deref { db with heap := db.heap ++ [some x] } p = deref db p := by
    intro x p hp
    obtain ⟨n, hn⟩ := Option.isSome_iff_exists.mp (hlive p hp)
    rw [hn]; exact hkeep x p n hn
  have hfind : ∀ (x : btc_blockindex) (h : btc_uint256),
      btc_headersdb_find { db with heap := db.heap ++ [some x] } h = btc_headersdb_find db h := by
    intro x h
    simp only [btc_headersdb_find]
    rw [tfind_congr _ _ (hsame x)]
  simp only [btc_headers_db_connect_hdr, hdec, store_calloc, hkeep _ _ _ htip, hne_tip,
    if_false, hfind, hnone]
  rfl

/-- C4: a header whose `prev_block` is neither the hash of the chain tip nor the hash of a
node of the hash index is not connected: `connected` is false, and the chain tip, the chain
bottom, the hash index, the log, the genesis node and every live node are as before; a
search for the hash of the header that found nothing before finds nothing afterwards. -/
theorem connect_hdr_unconnected (codec : Codec) (db : btc_headers_db) (buf : List Byte)
    (hdr : btc_block_header) (tip : btc_blockindex) (load_process write_ok : Bool)
    (hdec : codec.deserialize buf = some hdr)
    (htip : deref db db.chaintip = some tip)
    (hlive : tree_live db)
    (hne_tip : hdr.prev_block ≠ tip.hash)
    (hne_tree : ∀ p ∈ db.tree_root, ∀ n, deref db p = some n → n.hash ≠ hdr.prev_block) :
    ∃ db1 r, btc_headers_db_connect_hdr codec db buf load_process write_ok
        = some (db1, r, false)
      ∧ db1.chaintip = db.chaintip ∧ db1.chainbottom = db.chainbottom
      ∧ db1.tree_root = db.tree_root ∧ db1.headers_tree_file = db.headers_tree_file
      ∧ db1.file_ahead = db.file_ahead
      ∧ db1.genesis = db.genesis
      ∧ (∀ p n, deref db p = some n → deref db1 p = some n)
      ∧ (btc_headersdb_find db (codec.hash hdr) = some none →
          btc_headersdb_find db1 (codec.hash hdr) = some none) := by
  have hkeep : ∀ (x : btc_blockindex) p n, deref db p = some n →
      deref { db with heap := db.heap ++ [some x] } p = some n :=
    fun x p n h =>
      @deref_push db { db with heap := db.heap ++ [some x] } (some x) rfl rfl p n h
  have hnone : btc_headersdb_find db hdr.prev_block = some none := by
    simp only [btc_headersdb_find]
    split
    · apply tfind_none
      intro p hp
      obtain ⟨n, hn⟩ := Option.isSome_iff_exists.mp (hlive p hp)
      exact ⟨n, hn, hne_tree p hp n hn⟩
    · rfl
  refine ⟨_, _, connect_unconnected_eq codec db buf hdr tip load_process write_ok hdec htip
    hlive hne_tip hnone, rfl, rfl, rfl, rfl, rfl, rfl, hkeep _, ?_⟩
  intro h
  simp only [btc_headersdb_find] at h ⊢
  rw [tfind_congr _ db.tree_root (fun p hp => by
    obtain ⟨n, hn⟩ := Option.isSome_iff_exists.mp (hlive p hp)
    show deref { db with heap := db.heap ++ [_] } p = deref db p
    rw [hn]; exact hkeep _ p n hn)]
  exact h

theorem connect_hdr_unconnected_witness :
    ∃ db1 r, btc_headers_db_connect_hdr sample_codec (btc_headers_db_new (hash_of_nat 0) true)
        (sample_buf 5 6) false true = some (db1, r, false)
      ∧ db1.chaintip = Ptr.genesis ∧ db1.chainbottom = Ptr.genesis
      ∧ db1.tree_root = [] ∧ db1.headers_tree_file = none := by
  obtain ⟨db1, r, h, h1, h2, h3, h4, _⟩ :=
    connect_hdr_unconnected sample_codec (btc_headers_db_new (hash_of_nat 0) true)
      (sample_buf 5 6) (sample_header 5 6) (btc_headers_db_new (hash_of_nat 0) true).genesis
      false true (by decide) rfl (by decide) (by decide) (by decide)
  exact ⟨db1, r, h, h1, h2, h3, h4⟩

/-! ## Deleting from the tree and freeing -/

theorem btc_free_node {db : btc_headers_db} {a : Nat} {n : btc_blockindex}
    (h : deref db (Ptr.node a) = some n) :
    btc_free db (Ptr.node a) = some { db with heap := db.heap.set a none } := by
  simp only [deref] at h
  simp only [btc_free, h]

theorem store_node {db : btc_headers_db} {a : Nat} {n : btc_blockindex} (x : btc_blockindex)
    (h : deref db (Ptr.node a) = some n) :
    store db (Ptr.node a) x = some { db with heap := db.heap.set a (some x) } := by
  simp only [deref] at h
  simp only [store, h]

/-- Overwriting one cell leaves every other pointer as it was. -/
theorem deref_set_ne (db : btc_headers_db) {db1 : btc_headers_db} {a : Nat}
    {x : Option btc_blockindex} (hg : db1.genesis = db.genesis)
    (hh : db1.heap = db.heap.set a x) {p : Ptr} (hp : p ≠ Ptr.node a) :
    deref db1 p = deref db p := by
  cases p with
  | genesis => simp [deref, hg]
  | node b =>
    simp only [deref, hh]
    apply heap_get_set_ne
    intro e; exact hp (by rw [e])

theorem deref_set_same (db : btc_headers_db) {db1 : btc_headers_db} {a : Nat}
    {x : Option btc_blockindex} (hh : db1.heap = db.heap.set a x) (hlt : a < db.heap.length) :
    deref db1 (Ptr.node a) = x := by
  simp only [deref, hh]
  exact heap_get_set_same _ _ _ hlt

/-- The effect of `tdelete` on a tree of live keys: the result is defined, its keys are keys
of the tree, and a search for any other hash gives the same answer as before. -/
theorem tdelete_spec {db : btc_headers_db} (key : btc_blockindex) (t : List Ptr)
    (hlive : ∀ p ∈ t, (deref db p).isSome = true) :
    ∃ t1, tdelete db key t = some t1 ∧ (∀ q ∈ t1, q ∈ t)
      ∧ ((t.map (hash_at db)).Nodup → (t1.map (hash_at db)).Nodup)
      ∧ ((t.map (hash_at db)).Nodup → ∀ q ∈ t1, hash_at db q ≠ some key.hash)
      ∧ (∀ key1 : btc_blockindex, key1.hash ≠ key.hash → tfind db key1 t1 = tfind db key1 t) := by
  induction t with
  | nil => exact ⟨[], rfl, fun q hq => hq, fun h => h, fun _ q hq => by simp at hq, fun _ _ => rfl⟩
  | cons p ps ih =>
    obtain ⟨n, hn⟩ := Option.isSome_iff_exists.mp (hlive p (List.mem_cons_self _ _))
    obtain ⟨t1, ht1, hsub, hnd, hne, hfind⟩ := ih (fun q hq => hlive q (List.mem_cons_of_mem _ hq))
    by_cases hc : btc_header_compare key n = 0
    · have hk : key.hash = n.hash := (btc_header_compare_eq_zero _ _).mp hc
      refine ⟨ps, by simp [tdelete, hn, hc], fun q hq => List.mem_cons_of_mem _ hq, ?_, ?_, ?_⟩
      · intro h; exact (List.nodup_cons.mp h).2
      · intro h q hq e
        have h1 := (List.nodup_cons.mp h).1
        apply h1
        have hp : hash_at db p = some key.hash := by simp [hash_at, hn, hk]
        rw [hp, ← e]
        exact List.mem_map_of_mem _ hq
      · intro key1 hk1
        have hc1 : ¬ btc_header_compare key1 n = 0 := by
          rw [btc_header_compare_eq_zero, ← hk]; exact hk1
        simp [tfind, hn, hc1]
    · refine ⟨p :: t1, by simp [tdelete, hn, hc, ht1], ?_, ?_, ?_, ?_⟩
      · intro q hq
        rcases List.mem_cons.mp hq with e | e
        · rw [e]; exact List.mem_cons_self _ _
        · exact List.mem_cons_of_mem _ (hsub q e)
      · intro h
        have h2 := List.nodup_cons.mp h
        simp only [List.map_cons, List.nodup_cons]
        refine ⟨?_, hnd h2.2⟩
        intro hm
        apply h2.1
        obtain ⟨q, hq, e⟩ := List.mem_map.mp hm
        exact List.mem_map.mpr ⟨q, hsub q hq, e⟩
      · intro h q hq
        rcases List.mem_cons.mp hq with e | e
        · rw [e]
          simp only [hash_at, hn, Option.map_some', ne_eq, Option.some.injEq]
          intro e2
          exact hc ((btc_header_compare_eq_zero _ _).mpr e2.symm)
        · exact hne (List.nodup_cons.mp h).2 q e
      · intro key1 hk1
        simp only [tfind, hn]
        rw [hfind key1 hk1]

/-! ## The state before pruning -/

theorem set_push {α : Type} (l : List α) (x y : α) : (l ++ [x]).set l.length y = l ++ [y] := by
  rw [List.set_append_right _ _ (le_refl _)]
  simp

theorem tfind_key_hash {db : btc_headers_db} {key1 key2 : btc_blockindex}
    (h : key1.hash = key2.hash) (t : List Ptr) : tfind db key1 t = tfind db key2 t := by
  induction t with
  | nil => rfl
  | cons p ps ih =>
    simp only [tfind]
    cases deref db p with
    | none => rfl
    | some n =>
      have : (btc_header_compare key1 n = 0) ↔ (btc_header_compare key2 n = 0) := by
        rw [btc_header_compare_eq_zero, btc_header_compare_eq_zero, h]
      simp only [this, ih]

theorem btc_calloc_snd (db : btc_headers_db) : (btc_calloc db).2 = Ptr.node db.heap.length := rfl

theorem store_push (db : btc_headers_db) (x y : btc_blockindex) :
    store { db with heap := db.heap ++ [some x] } (Ptr.node db.heap.length) y
      = some { db with heap := db.heap ++ [some y] } := by
  simp only [store, heap_get_append_length, set_push]

theorem deref_pushed (db : btc_headers_db) (x : btc_blockindex) :
    deref { db with heap := db.heap ++ [some x] } (Ptr.node db.heap.length) = some x := by
  simp only [deref, heap_get_append_length]

/-- A header that finds an attachment point takes `btc_headers_db_connect_hdr` through the
state `attached` and into the pruning block. -/
theorem connect_hdr_attach (codec : Codec) (db : btc_headers_db) (buf : List Byte)
    (hdr : btc_block_header) (tip atn : btc_blockindex) (connect_at : Ptr)
    (load_process write_ok : Bool)
    (hdec : codec.deserialize buf = some hdr)
    (htip : deref db db.chaintip = some tip)
    (hlive : tree_live db)
    (hatt : (hdr.prev_block = tip.hash ∧ connect_at = db.chaintip)
      ∨ (hdr.prev_block ≠ tip.hash
          ∧ btc_headersdb_find db hdr.prev_block = some (some connect_at)))
    (hatn : deref db connect_at = some atn)
    (hfile : file_ready db load_process) :
    btc_headers_db_connect_hdr codec db buf load_process write_ok
      = (prune (attached codec db hdr connect_at atn.height tip.height load_process write_ok)).map
          (fun d => (d, some (Ptr.node db.heap.length), true)) := by
  have hkeep : ∀ (x : btc_blockindex) p n, deref db p = some n →
      deref { db with heap := db.heap ++ [some x] } p = some n :=
    fun x p n h =>
      @deref_push db { db with heap := db.heap ++ [some x] } (some x) rfl rfl p n h
  have hsame : ∀ (x : btc_blockindex), ∀ p ∈ db.tree_root,
      deref { db with heap := db.heap ++ [some x] } p = deref db p := by
    intro x p hp
    obtain ⟨n, hn⟩ := Option.isSome_iff_exists.mp (hlive p hp)
    rw [hn]; exact hkeep x p n hn
  have hfind : ∀ (x : btc_blockindex) (h : btc_uint256),
      btc_headersdb_find { db with heap := db.heap ++ [some x] } h = btc_headersdb_find db h := by
    intro x h
    simp only [btc_headersdb_find]
    rw [tfind_congr _ _ (hsame x)]
  have hsel : (if hdr.prev_block = tip.hash then some (some db.chaintip)
      else btc_headersdb_find db hdr.prev_block) = some (some connect_at) := by
    rcases hatt with ⟨h1, h2⟩ | ⟨h1, h2⟩
    · simp [h1, h2]
    · simp [h1, h2]
  simp only [btc_headers_db_connect_hdr, hdec, store_calloc, hkeep _ _ _ htip, hfind, hsel]
  congr 1
  unfold connect_at_block
  simp only [hkeep _ _ _ hatn, btc_calloc_snd, deref_pushed, store_push, hkeep _ _ _ htip]
  have hd : ∀ (f : Option (List Byte)) (fa : List Byte) (b : Bool) (t : List Ptr) (u : Bool)
      (m : Nat) (g : btc_blockindex) (ct cb : Ptr) (x : btc_blockindex),
      deref { headers_tree_file := f, file_ahead := fa, read_write_file := b, tree_root := t,
              use_binary_tree := u, max_hdr_in_mem := m, genesis := g, chaintip := ct,
              chainbottom := cb, heap := db.heap ++ [some x] }
        (Ptr.node db.heap.length) = some x := by
    intro f fa b t u m g ct cb x
    simp only [deref, heap_get_append_length]
  have hts : ∀ (r : Option Ptr),
      tfind db { zero_blockindex with hash := codec.hash hdr } db.tree_root = some r →
      ∀ (x : btc_blockindex), x.hash = codec.hash hdr →
      ∀ (ct : Ptr) (f : Option (List Byte)) (fa : List Byte) (b u : Bool), tsearch {
        headers_tree_file := f, file_ahead := fa, read_write_file := b,
        tree_root := db.tree_root,
        use_binary_tree := u, max_hdr_in_mem := db.max_hdr_in_mem, genesis := db.genesis,
        chaintip := ct, chainbottom := db.chainbottom, heap := db.heap ++ [some x] }
      (Ptr.node db.heap.length) = some {
        headers_tree_file := f, file_ahead := fa, read_write_file := b,
        tree_root := (match r with
          | none => Ptr.node db.heap.length :: db.tree_root
          | some _ => db.tree_root),
        use_binary_tree := u, max_hdr_in_mem := db.max_hdr_in_mem, genesis := db.genesis,
        chaintip := ct, chainbottom := db.chainbottom, heap := db.heap ++ [some x] } := by
    intro r hr x hx ct f fa b u
    have h1 := deref_pushed { db with
      headers_tree_file := f, file_ahead := fa, chaintip := ct, read_write_file := b,
      use_binary_tree := u } x
    have h2 : tfind {
        headers_tree_file := f, file_ahead := fa, read_write_file := b,
        tree_root := db.tree_root,
        use_binary_tree := u, max_hdr_in_mem := db.max_hdr_in_mem, genesis := db.genesis,
        chaintip := ct, chainbottom := db.chainbottom, heap := db.heap ++ [some x] }
        x db.tree_root = some r := by
      rw [← hr]
      refine Eq.trans (tfind_congr _ _ ?_) (tfind_key_hash ?_ _)
      · intro p hp
        rw [← hsame x p hp]
        exact deref_congr rfl rfl p
      · exact hx
    simp only [tsearch, h1, h2]
    cases r <;> rfl
  obtain ⟨r, hr⟩ := tfind_defined { zero_blockindex with hash := codec.hash hdr } db.tree_root hlive
  have hts2 := hts r hr
  clear hts
  cases hl : load_process
  · cases hrw : db.read_write_file
    · cases hu : db.use_binary_tree
      · simp [attached, linked_node, hrw, hu]
      · simp [attached, linked_node, hrw, hu, hts2, hr]
        cases r <;> rfl
    · rcases hfile with h | h | h
      · simp [hl] at h
      · simp [hrw] at h
      · obtain ⟨f, hfs⟩ := Option.ne_none_iff_exists'.mp h
        cases hw : write_ok
        · cases hu : db.use_binary_tree
          · simp [attached, linked_node, hrw, hu, btc_headers_db_write, hd, hfs]
          · simp [attached, linked_node, hrw, hu, hts2, hr, btc_headers_db_write, hd, hfs]
            cases r <;> rfl
        · cases hu : db.use_binary_tree
          · simp [attached, linked_node, hrw, hu, btc_headers_db_write, hd, hfs, record_bytes]
          · simp [attached, linked_node, hrw, hu, hts2, hr, btc_headers_db_write, hd, hfs, record_bytes]
            cases r <;> rfl
  · cases hu : db.use_binary_tree
    · simp [attached, linked_node, hu]
    · simp [attached, linked_node, hu, hts2, hr]
      cases r <;> rfl

/-! ## The pruning loop -/

theorem prune_loop_stop (bound maxhdr fuel : Nat) (db : btc_headers_db) (p : Ptr) (i : Nat)
    (h : (deref db p).map (fun n => n.prev) = some none) :
    prune_loop bound maxhdr fuel db p i = some db := by
  cases hd : deref db p with
  | none => simp [hd] at h
  | some st =>
    simp only [hd, Option.map_some', Option.some.injEq] at h
    cases fuel with
    | zero => rfl
    | succ k =>
      simp only [prune_loop, hd, h]
      split <;> rfl

theorem prune_loop_step (bound maxhdr fuel : Nat) (db : btc_headers_db) (p q : Ptr) (i : Nat)
    (hi : i < bound) (h : (deref db p).map (fun n => n.prev) = some (some q))
    (hno : ¬ (i = maxhdr ∧ q ≠ Ptr.genesis)) :
    prune_loop bound maxhdr (fuel + 1) db p i = prune_loop bound maxhdr fuel db q (i + 1) := by
  cases hd : deref db p with
  | none => simp [hd] at h
  | some st =>
    simp only [hd, Option.map_some', Option.some.injEq] at h
    simp only [prune_loop, hi, if_true, hd, h, hno, if_false]

theorem prune_loop_trigger (bound maxhdr fuel : Nat) (db : btc_headers_db) (p q : Ptr) (i : Nat)
    (hi : i < bound) (h : (deref db p).map (fun n => n.prev) = some (some q))
    (hyes : i = maxhdr ∧ q ≠ Ptr.genesis) :
    prune_loop bound maxhdr (fuel + 1) db p i
      = (prune_at db q).bind (fun d => prune_loop bound maxhdr fuel d q (i + 1)) := by
  cases hd : deref db p with
  | none => simp [hd] at h
  | some st =>
    simp only [hd, Option.map_some', Option.some.injEq] at h
    obtain ⟨rfl, hq⟩ := hyes
    simp only [prune_loop, hi, if_true, hd, h, hq, true_and, ne_eq, not_false_eq_true]
    cases prune_at db q <;> rfl

/-- Walking `d` links of a prev-chain below the pruning distance changes nothing. -/
theorem prune_loop_walk (bound maxhdr : Nat) (db : btc_headers_db) (f : Nat → Ptr) :
    ∀ (d fuel i j : Nat),
      (∀ x, j ≤ x → x < j + d → (deref db (f x)).map (fun n => n.prev) = some (some (f (x + 1)))) →
      i + d ≤ maxhdr → i + d ≤ bound → d ≤ fuel →
      prune_loop bound maxhdr fuel db (f j) i
        = prune_loop bound maxhdr (fuel - d) db (f (j + d)) (i + d) := by
  intro d
  induction d with
  | zero => intro fuel i j _ _ _ _; rfl
  | succ d ih =>
    intro fuel i j hlink hm hb hf
    obtain ⟨fuel1, rfl⟩ : ∃ k, fuel = k + 1 := ⟨fuel - 1, by omega⟩
    rw [prune_loop_step bound maxhdr fuel1 db (f j) (f (j + 1)) i (by omega)
      (hlink j (le_refl _) (by omega)) (by omega)]
    rw [ih fuel1 (i + 1) (j + 1) (fun x h1 h2 => hlink x (by omega) (by omega))
      (by omega) (by omega) (by omega)]
    have e1 : fuel1 + 1 - (d + 1) = fuel1 - d := by omega
    have e2 : j + 1 + d = j + (d + 1) := by omega
    have e3 : i + 1 + d = i + (d + 1) := by omega
    rw [e1, e2, e3]

theorem prune_at_noop (db : btc_headers_db) (s : Ptr)
    (h : prev_at db s = some none ∨ prev_at db s = some (some Ptr.genesis)) :
    prune_at db s = some db := by
  unfold prev_at at h
  cases hd : deref db s with
  | none => simp [hd] at h
  | some st =>
    simp only [hd, Option.map_some', Option.some.injEq] at h
    rcases h with h | h
    · simp only [prune_at, hd, h]
    · simp only [prune_at, hd, h, ne_eq, not_true_eq_false, if_false]

/-- The pruning block changes nothing when the prev-chain of the chain tip ends, at a node
without `prev` or at the genesis node, within `max_hdr_in_mem + 2` nodes. -/
theorem prune_eq_self (db : btc_headers_db) (f : Nat → Ptr) (k : Nat)
    (hmax : db.max_hdr_in_mem < UINT32_MOD)
    (hk : k ≤ db.max_hdr_in_mem + 1)
    (h0 : f 0 = db.chaintip)
    (hlink : ∀ x, x < k → prev_at db (f x) = some (some (f (x + 1))))
    (hend : prev_at db (f k) = some none
      ∨ (prev_at db (f k) = some (some Ptr.genesis) ∧ db.genesis.prev = none)) :
    prune db = some db := by
  unfold prune
  split
  case isFalse => rfl
  case isTrue hpos =>
    rw [← h0]
    by_cases hwrap : db.max_hdr_in_mem + 1 = UINT32_MOD
    · rw [hwrap]
      have : UINT32_MOD % UINT32_MOD = 0 := Nat.mod_self _
      rw [this]; rfl
    · have hb : (db.max_hdr_in_mem + 1) % UINT32_MOD = db.max_hdr_in_mem + 1 :=
        Nat.mod_eq_of_lt (by omega)
      rw [hb]
      by_cases hkm : k ≤ db.max_hdr_in_mem
      · have hw := prune_loop_walk (db.max_hdr_in_mem + 1) db.max_hdr_in_mem db f k
          (db.max_hdr_in_mem + 1) 0 0 (fun x _ h2 => hlink x (by omega))
          (by omega) (by omega) (by omega)
        simp only [Nat.zero_add] at hw
        rw [hw]
        rcases hend with he | ⟨he, hg⟩
        · exact prune_loop_stop _ _ _ _ _ _ he
        · obtain ⟨fuel1, hf⟩ : ∃ x, db.max_hdr_in_mem + 1 - k = x + 1 :=
            ⟨db.max_hdr_in_mem - k, by omega⟩
          rw [hf, prune_loop_step _ _ _ _ _ _ _ (by omega) he (by simp)]
          apply prune_loop_stop
          simp [deref, hg]
      · have hk1 : k = db.max_hdr_in_mem + 1 := by omega
        have hw := prune_loop_walk (db.max_hdr_in_mem + 1) db.max_hdr_in_mem db f
          db.max_hdr_in_mem (db.max_hdr_in_mem + 1) 0 0 (fun x _ h2 => hlink x (by omega))
          (by omega) (by omega) (by omega)
        simp only [Nat.zero_add, Nat.add_sub_cancel_left] at hw
        rw [hw]
        have hl := hlink db.max_hdr_in_mem (by omega)
        rw [← hk1] at hl
        by_cases hg : f k = Ptr.genesis
        · rw [prune_loop_step _ _ 0 _ _ _ _ (by omega) hl (by simp [hg])]
          rfl
        · rw [prune_loop_trigger _ _ 0 _ _ _ _ (by omega) hl ⟨rfl, hg⟩]
          rw [prune_at_noop db (f k) (by
            rcases hend with he | ⟨he, _⟩
            · exact Or.inl he
            · exact Or.inr he)]
          rfl

/-- The pruning block when the prev-chain of the chain tip has `max_hdr_in_mem + 3` nodes or
more and none of them is the genesis node: the node at distance `max_hdr_in_mem + 2` is
deleted from the tree and freed, the node before it loses its `prev` and becomes the chain
bottom. -/
theorem prune_eq_cut (db : btc_headers_db) (f : Nat → Ptr) (sn qn : btc_blockindex)
    (a b : Nat) (t1 : List Ptr)
    (hpos : 0 < db.max_hdr_in_mem) (hmax : db.max_hdr_in_mem + 1 < UINT32_MOD)
    (h0 : f 0 = db.chaintip)
    (hlink : ∀ x, x < db.max_hdr_in_mem + 1 → prev_at db (f x) = some (some (f (x + 1))))
    (hs : f (db.max_hdr_in_mem + 1) = Ptr.node a)
    (hsn : deref db (Ptr.node a) = some sn) (hsp : sn.prev = some (Ptr.node b))
    (hqn : deref db (Ptr.node b) = some qn) (hab : a ≠ b)
    (ht : tdelete db qn db.tree_root = some t1) :
    prune db = some { db with
      tree_root := t1
      heap := (db.heap.set b none).set a (some { sn with prev := none })
      chainbottom := Ptr.node a } := by
  unfold prune
  rw [if_pos hpos]
  have hb : (db.max_hdr_in_mem + 1) % UINT32_MOD = db.max_hdr_in_mem + 1 :=
    Nat.mod_eq_of_lt hmax
  rw [hb]
  have hw := prune_loop_walk (db.max_hdr_in_mem + 1) db.max_hdr_in_mem db f
    db.max_hdr_in_mem (db.max_hdr_in_mem + 1) 0 0 (fun x _ h2 => hlink x (by omega))
    (by omega) (by omega) (by omega)
  simp only [Nat.zero_add, Nat.add_sub_cancel_left] at hw
  rw [h0] at hw
  rw [hw]
  have hl := hlink db.max_hdr_in_mem (by omega)
  rw [hs] at hl
  rw [prune_loop_trigger _ _ 0 _ _ _ _ (by omega) hl ⟨rfl, by simp⟩]
  have hfree : btc_free { db with tree_root := t1 } (Ptr.node b)
      = some { db with tree_root := t1, heap := db.heap.set b none } :=
    @btc_free_node { db with tree_root := t1 } b qn hqn
  have hsn1 : deref { db with tree_root := t1, heap := db.heap.set b none } (Ptr.node a)
      = some sn := by
    rw [← hsn]
    exact @deref_set_ne db { db with tree_root := t1, heap := db.heap.set b none } b none
      rfl rfl (Ptr.node a) (by simp [hab])
  have hstore := @store_node { db with tree_root := t1, heap := db.heap.set b none } a sn
    { sn with prev := none } hsn1
  have hpa : prune_at db (Ptr.node a) = some { db with
      tree_root := t1
      heap := (db.heap.set b none).set a (some { sn with prev := none })
      chainbottom := Ptr.node a } := by
    simp only [prune_at, hsn, hsp, ne_eq, not_false_eq_true, if_true, hqn, ht, hfree, hsn1,
      hstore, Option.map_some', reduceCtorEq]
  rw [hpa]
  rfl

/-! ## Linear chains: attaching the next header -/

theorem LinC.tree_live {codec : Codec} {g : btc_uint256} {replay : Bool} {cut : Nat}
    {hs : List btc_block_header} {db : btc_headers_db} (h : LinC codec g replay cut hs db) :
    tree_live db := by
  intro p hp
  obtain ⟨a, rfl, h1, h2⟩ := h.tree_sub p hp
  obtain ⟨x, hx⟩ : ∃ x, hs[a]? = some x := ⟨hs[a], List.getElem?_eq_getElem h2⟩
  rw [h.cell a x hx h1]; rfl

theorem LinC.tip_node {codec : Codec} {g : btc_uint256} {replay : Bool} {cut : Nat}
    {hs : List btc_block_header} {db : btc_headers_db} (h : LinC codec g replay cut hs db)
    (hrep : replay = true → hs ≠ []) :
    ∃ tip, deref db db.chaintip = some tip ∧ tip.hash = last_hash codec g hs
      ∧ tip.height = hs.length := by
  rcases List.eq_nil_or_concat hs with he | ⟨l, x, he⟩
  · subst he
    refine ⟨db.genesis, ?_, ?_, ?_⟩
    · rw [h.tip]; rfl
    · simp [last_hash, h.gen_hash]
    · simp [h.gen_height]
  · rw [List.concat_eq_append] at he
    subst he
    have hlen : (l ++ [x]).length = l.length + 1 := by simp
    have hx : (l ++ [x])[l.length]? = some x := by simp
    have hc := h.cut_le
    rw [hlen] at hc
    refine ⟨lin_cell codec replay cut l.length x, ?_, ?_, ?_⟩
    · rw [h.tip, hlen]
      simp only [Nat.add_one_ne_zero, if_false, Nat.add_sub_cancel]
      exact h.cell l.length x hx (by omega)
    · simp [last_hash, lin_cell]
    · simp [lin_cell]

theorem tfind_none_hash {db : btc_headers_db} {key : btc_blockindex} {t : List Ptr}
    (h : tfind db key t = some none) : ∀ p ∈ t, hash_at db p ≠ some key.hash := by
  induction t with
  | nil => intro p hp; simp at hp
  | cons q qs ih =>
    simp only [tfind] at h
    cases hq : deref db q with
    | none => simp [hq] at h
    | some n =>
      simp only [hq] at h
      by_cases hc : btc_header_compare key n = 0
      · simp [hc] at h
      · simp only [hc, if_false] at h
        intro p hp
        rcases List.mem_cons.mp hp with e | e
        · subst e
          simp only [hash_at, hq, Option.map_some', ne_eq, Option.some.injEq]
          intro e2
          exact hc ((btc_header_compare_eq_zero _ _).mpr e2.symm)
        · exact ih h p e

theorem deref_attached_old (codec : Codec) (db : btc_headers_db) (hdr : btc_block_header)
    (c : Ptr) (x y : Nat) (l w : Bool) (a : Nat) (ha : a < db.heap.length) :
    deref (attached codec db hdr c x y l w) (Ptr.node a) = deref db (Ptr.node a) := by
  simp only [deref, attached]
  exact heap_get_append_left _ _ _ ha

theorem deref_attached_new (codec : Codec) (db : btc_headers_db) (hdr : btc_block_header)
    (c : Ptr) (x y : Nat) (l w : Bool) :
    deref (attached codec db hdr c x y l w) (Ptr.node db.heap.length)
      = some (linked_node codec hdr c x) := by
  simp only [deref, attached]
  exact heap_get_append_length _ _

theorem deref_attached_live (codec : Codec) (db : btc_headers_db) (hdr : btc_block_header)
    (c : Ptr) (x y : Nat) (l w : Bool) {p : Ptr} {n : btc_blockindex}
    (h : deref db p = some n) : deref (attached codec db hdr c x y l w) p = some n :=
  @deref_push db (attached codec db hdr c x y l w) _ rfl rfl p n h

theorem attached_tree (codec : Codec) (db : btc_headers_db) (hdr : btc_block_header)
    (c : Ptr) (x y : Nat) (l w : Bool) (hu : db.use_binary_tree = true) (hlive : tree_live db) :
    (btc_headersdb_find db (codec.hash hdr) = some none
      ∧ (attached codec db hdr c x y l w).tree_root = Ptr.node db.heap.length :: db.tree_root)
    ∨ ((∃ p, btc_headersdb_find db (codec.hash hdr) = some (some p))
      ∧ (attached codec db hdr c x y l w).tree_root = db.tree_root) := by
  obtain ⟨r, hr⟩ := tfind_defined { zero_blockindex with hash := codec.hash hdr } db.tree_root hlive
  cases r with
  | none => left; simp [btc_headersdb_find, hu, attached, hr]
  | some p => right; simp [btc_headersdb_find, hu, attached, hr]

/-- Attaching the next header of a linear chain: the call goes through `attached`, which
holds the longer chain with the same pruning boundary. -/
theorem lin_attach {codec : Codec} {g : btc_uint256} {replay : Bool} {cut : Nat}
    {hs : List btc_block_header} {db : btc_headers_db} (hlin : LinC codec g replay cut hs db)
    (buf : List Byte) (h : btc_block_header) (load_process write_ok : Bool)
    (hdec : codec.deserialize buf = some h)
    (hprev : h.prev_block = last_hash codec g hs)
    (hrep : replay = true → hs ≠ [])
    (hn : hs.length + 1 < UINT32_MOD)
    (hfile : file_ready db load_process) :
    btc_headers_db_connect_hdr codec db buf load_process write_ok
      = (prune (attached codec db h db.chaintip hs.length hs.length load_process write_ok)).map
          (fun d => (d, some (Ptr.node hs.length), true))
    ∧ LinC codec g replay cut (hs ++ [h])
        (attached codec db h db.chaintip hs.length hs.length load_process write_ok) := by
  obtain ⟨tip, htip, hth, hht⟩ := hlin.tip_node hrep
  have hlive := hlin.tree_live
  have hlen := hlin.heap_len
  constructor
  · rw [connect_hdr_attach codec db buf h tip tip db.chaintip load_process write_ok hdec htip
      hlive (Or.inl ⟨hprev.trans hth.symm, rfl⟩) htip hfile, hht, hlen]
  · have hmod : (hs.length + 1) % UINT32_MOD = hs.length + 1 := Nat.mod_eq_of_lt hn
    have hcut := hlin.cut_le
    refine
      { heap_len := by simp [attached, hlen]
        cut_le := by simp only [List.length_append, List.length_singleton]; omega
        cell := ?_
        dead := ?_
        tip := ?_
        bottom := by simp only [attached]; exact hlin.bottom
        gen_prev := hlin.gen_prev
        gen_height := hlin.gen_height
        gen_hash := hlin.gen_hash
        use_tree := hlin.use_tree
        tree_sub := ?_
        tree_dist := ?_
        tree_cover := ?_ }
    · intro a x hx hca
      by_cases ha : a < hs.length
      · rw [List.getElem?_append_left ha] at hx
        rw [deref_attached_old _ _ _ _ _ _ _ _ _ (by omega)]
        exact hlin.cell a x hx hca
      · have hlt : a < (hs ++ [h]).length := by
          by_contra hc
          rw [List.getElem?_eq_none (by omega)] at hx
          simp at hx
        simp only [List.length_append, List.length_singleton] at hlt
        have hae : a = hs.length := by omega
        subst hae
        simp only [List.getElem?_concat_length, Option.some.injEq] at hx
        subst hx
        rw [← hlen, deref_attached_new, hlen]
        simp only [linked_node, lin_cell, hmod, btc_blockindex.mk.injEq, true_and]
        rw [hlin.tip]
        unfold lin_prev
        by_cases h0 : hs.length = 0
        · have hc0 : cut = 0 := by omega
          have hr : replay = false := by
            cases replay with
            | false => rfl
            | true => exact absurd (List.length_eq_zero.mp h0) (hrep rfl)
          simp [h0, hc0, hr]
        · have : hs.length ≠ cut := by omega
          simp [h0, this]
    · intro a ha
      rw [deref_attached_old _ _ _ _ _ _ _ _ _ (by omega)]
      exact hlin.dead a ha
    · simp only [attached, hmod, List.length_append, List.length_singleton, hlen]
      simp
    · intro p hp
      rcases attached_tree codec db h db.chaintip hs.length hs.length load_process write_ok
        hlin.use_tree hlive with ⟨_, ht⟩ | ⟨_, ht⟩
      · rw [ht] at hp
        rcases List.mem_cons.mp hp with e | e
        · exact ⟨hs.length, by rw [e, hlen], by omega, by simp⟩
        · obtain ⟨a, h1, h2, h3⟩ := hlin.tree_sub p e
          exact ⟨a, h1, h2, by simp only [List.length_append, List.length_singleton]; omega⟩
      · rw [ht] at hp
        obtain ⟨a, h1, h2, h3⟩ := hlin.tree_sub p hp
        exact ⟨a, h1, h2, by simp only [List.length_append, List.length_singleton]; omega⟩
    · have hold : ∀ p ∈ db.tree_root,
          hash_at (attached codec db h db.chaintip hs.length hs.length load_process write_ok) p
            = hash_at db p := by
        intro p hp
        obtain ⟨n, hn⟩ := Option.isSome_iff_exists.mp (hlive p hp)
        simp only [hash_at, deref_attached_live _ _ _ _ _ _ _ _ hn, hn]
      unfold tree_distinct
      rcases attached_tree codec db h db.chaintip hs.length hs.length load_process write_ok
        hlin.use_tree hlive with ⟨hf, ht⟩ | ⟨_, ht⟩
      · rw [ht, List.map_cons, List.nodup_cons, List.map_congr_left hold]
        refine ⟨?_, hlin.tree_dist⟩
        intro hm
        obtain ⟨p, hp, e⟩ := List.mem_map.mp hm
        simp only [btc_headersdb_find, hlin.use_tree, if_true] at hf
        apply tfind_none_hash hf p hp
        rw [e]
        simp only [hash_at, deref_attached_new, Option.map_some', linked_node]
      · rw [ht, List.map_congr_left hold]
        exact hlin.tree_dist
    · have hold : ∀ p ∈ db.tree_root,
          hash_at (attached codec db h db.chaintip hs.length hs.length load_process write_ok) p
            = hash_at db p := by
        intro p hp
        obtain ⟨n, hn⟩ := Option.isSome_iff_exists.mp (hlive p hp)
        simp only [hash_at, deref_attached_live _ _ _ _ _ _ _ _ hn, hn]
      have hsub : ∀ p ∈ db.tree_root,
          p ∈ (attached codec db h db.chaintip hs.length hs.length load_process
            write_ok).tree_root := by
        intro p hp
        rcases attached_tree codec db h db.chaintip hs.length hs.length load_process write_ok
          hlin.use_tree hlive with ⟨_, ht⟩ | ⟨_, ht⟩
        · rw [ht]; exact List.mem_cons_of_mem _ hp
        · rw [ht]; exact hp
      intro a x hx hca hr1
      by_cases ha : a < hs.length
      · rw [List.getElem?_append_left ha] at hx
        obtain ⟨p, hp, e⟩ := hlin.tree_cover a x hx hca hr1
        exact ⟨p, hsub p hp, by rw [hold p hp]; exact e⟩
      · have hlt : a < (hs ++ [h]).length := by
          by_contra hc
          rw [List.getElem?_eq_none (by omega)] at hx
          simp at hx
        simp only [List.length_append, List.length_singleton] at hlt
        have hae : a = hs.length := by omega
        subst hae
        simp only [List.getElem?_concat_length, Option.some.injEq] at hx
        subst hx
        rcases attached_tree codec db h db.chaintip hs.length hs.length load_process write_ok
          hlin.use_tree hlive with ⟨_, ht⟩ | ⟨⟨p, hf⟩, ht⟩
        · refine ⟨Ptr.node hs.length, by rw [ht, hlen]; exact List.mem_cons_self _ _, ?_⟩
          rw [← hlen]
          simp only [hash_at, deref_attached_new, Option.map_some', linked_node]
        · simp only [btc_headersdb_find, hlin.use_tree, if_true] at hf
          obtain ⟨hp, n, hn, hnh⟩ := tfind_some hf
          refine ⟨p, by rw [ht]; exact hp, ?_⟩
          rw [hold p hp]
          simp only [hash_at, hn, Option.map_some', hnh]

/-- Keys with another hash survive `tdelete`. -/
theorem tdelete_keeps {db : btc_headers_db} (key : btc_blockindex) (t t1 : List Ptr)
    (h : tdelete db key t = some t1) :
    ∀ q ∈ t, hash_at db q ≠ some key.hash → q ∈ t1 := by
  induction t generalizing t1 with
  | nil => intro q hq; simp at hq
  | cons p ps ih =>
    simp only [tdelete] at h
    cases hp : deref db p with
    | none => simp [hp] at h
    | some n =>
      simp only [hp] at h
      by_cases hc : btc_header_compare key n = 0
      · simp only [hc, if_true, Option.some.injEq] at h
        subst h
        intro q hq hne
        rcases List.mem_cons.mp hq with e | e
        · subst e
          exfalso; apply hne
          simp only [hash_at, hp, Option.map_some',
            ((btc_header_compare_eq_zero _ _).mp hc)]
        · exact e
      · simp only [hc, if_false] at h
        cases ht : tdelete db key ps with
        | none => simp [ht] at h
        | some t2 =>
          simp only [ht, Option.map_some', Option.some.injEq] at h
          subst h
          intro q hq hne
          rcases List.mem_cons.mp hq with e | e
          · subst e; exact List.mem_cons_self _ _
          · exact List.mem_cons_of_mem _ (ih t2 ht q e hne)

/-- Pruning changes nothing on a linear chain that is still short. -/
theorem lin_prune_id {codec : Codec} {g : btc_uint256} {replay : Bool}
    {hs : List btc_block_header} {db : btc_headers_db} (hlin : LinC codec g replay 0 hs db)
    (hmax : db.max_hdr_in_mem < UINT32_MOD)
    (hshort : db.max_hdr_in_mem = 0 ∨ hs.length ≤ db.max_hdr_in_mem + 2) :
    prune db = some db := by
  by_cases hm : db.max_hdr_in_mem = 0
  · simp [prune, hm]
  · have hsh : hs.length ≤ db.max_hdr_in_mem + 2 := by
      rcases hshort with h | h
      · exact absurd h hm
      · exact h
    by_cases hn : hs.length = 0
    · apply prune_eq_self db (fun _ => Ptr.genesis) 0 hmax (by omega)
      · rw [hlin.tip, if_pos hn]
      · intro x hx; omega
      · left; simp [prev_at, deref, hlin.gen_prev]
    · apply prune_eq_self db (fun j => Ptr.node (hs.length - 1 - j)) (hs.length - 1) hmax
        (by omega)
      · rw [hlin.tip, if_neg hn]; rfl
      · intro x hx
        obtain ⟨y, hy⟩ : ∃ y, hs[hs.length - 1 - x]? = some y :=
          ⟨hs[hs.length - 1 - x], List.getElem?_eq_getElem (by omega)⟩
        simp only [prev_at, hlin.cell _ y hy (Nat.zero_le _), Option.map_some', lin_cell,
          lin_prev]
        have h1 : hs.length - 1 - x ≠ 0 := by omega
        have h2 : hs.length - 1 - x - 1 = hs.length - 1 - (x + 1) := by omega
        simp [h1, h2]
      · obtain ⟨y, hy⟩ : ∃ y, hs[0]? = some y :=
          ⟨hs[0], List.getElem?_eq_getElem (by omega)⟩
        simp only [Nat.sub_self, prev_at, hlin.cell _ y hy (Nat.zero_le _), Option.map_some',
          lin_cell, lin_prev]
        cases replay with
        | false => right; simp [hlin.gen_prev]
        | true => left; simp

theorem heap_get_set_none (heap : List (Option btc_blockindex)) (b : Nat) :
    heap_get (heap.set b none) b = none := by
  unfold heap_get
  by_cases h : b < heap.length
  · rw [List.getElem?_set_self h]
  · rw [List.getElem?_eq_none (by simp; omega)]

theorem nodup_map_index {α β : Type} (f : α → β) (l : List α) (h : (l.map f).Nodup)
    (i j : Nat) (x y : α) (hi : l[i]? = some x) (hj : l[j]? = some y) (hne : i ≠ j) :
    f x ≠ f y := by
  intro e
  have hi2 : (l.map f)[i]? = some (f x) := by simp [hi]
  have hj2 : (l.map f)[j]? = some (f y) := by simp [hj]
  have hil : i < (l.map f).length := by
    by_contra hc; rw [List.getElem?_eq_none (by omega)] at hi2; simp at hi2
  have hjl : j < (l.map f).length := by
    by_contra hc; rw [List.getElem?_eq_none (by omega)] at hj2; simp at hj2
  have hiff := List.nodup_iff_getElem?_ne_getElem?.mp h
  rcases Nat.lt_or_gt_of_ne hne with hlt | hlt
  · exact hiff i j hlt hjl (by rw [hi2, hj2, e])
  · exact hiff j i hlt hil (by rw [hi2, hj2, e])

/-- Pruning a linear chain that has grown one node beyond the window: the oldest retained
node is freed and the pruning boundary moves up by one. -/
theorem lin_prune_cut {codec : Codec} {g : btc_uint256} {replay : Bool} {cut : Nat}
    {hs : List btc_block_header} {db : btc_headers_db} (hlin : LinC codec g replay cut hs db)
    (hpos : 0 < db.max_hdr_in_mem) (hlen : hs.length = cut + db.max_hdr_in_mem + 3)
    (hn : hs.length < UINT32_MOD) (hnd : (hs.map codec.hash).Nodup) :
    ∃ db1, prune db = some db1 ∧ LinC codec g replay (cut + 1) hs db1
      ∧ db1.max_hdr_in_mem = db.max_hdr_in_mem ∧ db1.read_write_file = db.read_write_file
      ∧ db1.headers_tree_file = db.headers_tree_file := by
  obtain ⟨h0, hh0⟩ : ∃ y, hs[cut]? = some y := ⟨hs[cut], List.getElem?_eq_getElem (by omega)⟩
  obtain ⟨h1, hh1⟩ : ∃ y, hs[cut + 1]? = some y :=
    ⟨hs[cut + 1], List.getElem?_eq_getElem (by omega)⟩
  have hq := hlin.cell cut h0 hh0 (le_refl _)
  have hs1 := hlin.cell (cut + 1) h1 hh1 (by omega)
  obtain ⟨t1, ht1, hsub, hnd1, hne1, _⟩ :=
    tdelete_spec (lin_cell codec replay cut cut h0) db.tree_root hlin.tree_live
  have hkeep := tdelete_keeps _ _ _ ht1
  have hprune := prune_eq_cut db (fun j => Ptr.node (hs.length - 1 - j))
    (lin_cell codec replay cut (cut + 1) h1) (lin_cell codec replay cut cut h0) (cut + 1) cut t1
    hpos (by omega)
    (by rw [hlin.tip, if_neg (by omega)]; rfl)
    (by
      intro x hx
      obtain ⟨y, hy⟩ : ∃ y, hs[hs.length - 1 - x]? = some y :=
        ⟨hs[hs.length - 1 - x], List.getElem?_eq_getElem (by omega)⟩
      simp only [prev_at, hlin.cell _ y hy (by omega), Option.map_some', lin_cell, lin_prev]
      have e1 : hs.length - 1 - x ≠ cut := by omega
      have e2 : hs.length - 1 - x - 1 = hs.length - 1 - (x + 1) := by omega
      simp [e1, e2])
    (by
      have : hs.length - 1 - (db.max_hdr_in_mem + 1) = cut + 1 := by omega
      simp only [this])
    hs1 (by simp [lin_cell, lin_prev]) hq (by omega) ht1
  have hlt : cut + 1 < db.heap.length := by rw [hlin.heap_len]; omega
  have hd_other : ∀ c, c ≠ cut → c ≠ cut + 1 →
      deref { db with
        tree_root := t1
        heap := (db.heap.set cut none).set (cut + 1)
          (some { lin_cell codec replay cut (cut + 1) h1 with prev := none })
        chainbottom := Ptr.node (cut + 1) } (Ptr.node c) = deref db (Ptr.node c) := by
    intro c hc1 hc2
    simp only [deref]
    rw [heap_get_set_ne _ _ _ _ (Ne.symm hc2), heap_get_set_ne _ _ _ _ (Ne.symm hc1)]
  have hd_a : deref { db with
        tree_root := t1
        heap := (db.heap.set cut none).set (cut + 1)
          (some { lin_cell codec replay cut (cut + 1) h1 with prev := none })
        chainbottom := Ptr.node (cut + 1) } (Ptr.node (cut + 1))
      = some { lin_cell codec replay cut (cut + 1) h1 with prev := none } := by
    simp only [deref]
    exact heap_get_set_same _ _ _ (by simp; exact hlt)
  have hd_b : deref { db with
        tree_root := t1
        heap := (db.heap.set cut none).set (cut + 1)
          (some { lin_cell codec replay cut (cut + 1) h1 with prev := none })
        chainbottom := Ptr.node (cut + 1) } (Ptr.node cut) = none := by
    simp only [deref]
    rw [heap_get_set_ne _ _ _ _ (by omega)]
    exact heap_get_set_none _ _
  have hqhash : hash_at db (Ptr.node cut) = some (lin_cell codec replay cut cut h0).hash := by
    simp only [hash_at, hq, Option.map_some']
  have ht1_ne : ∀ p ∈ t1, ∃ a, p = Ptr.node a ∧ cut + 1 ≤ a ∧ a < hs.length := by
    intro p hp
    obtain ⟨a, rfl, ha1, ha2⟩ := hlin.tree_sub p (hsub p hp)
    refine ⟨a, rfl, ?_, ha2⟩
    by_contra hc
    have : a = cut := by omega
    subst this
    exact hne1 hlin.tree_dist _ hp hqhash
  have hhash : ∀ p ∈ t1, hash_at { db with
        tree_root := t1
        heap := (db.heap.set cut none).set (cut + 1)
          (some { lin_cell codec replay cut (cut + 1) h1 with prev := none })
        chainbottom := Ptr.node (cut + 1) } p = hash_at db p := by
    intro p hp
    obtain ⟨a, rfl, ha1, ha2⟩ := ht1_ne p hp
    by_cases hac : a = cut + 1
    · subst hac
      simp only [hash_at, hd_a, hs1, Option.map_some']
    · simp only [hash_at, hd_other a (by omega) hac]
  refine ⟨_, hprune,
    { heap_len := by simp [hlin.heap_len]
      cut_le := by omega
      cell := ?_
      dead := ?_
      tip := hlin.tip
      bottom := by simp
      gen_prev := hlin.gen_prev
      gen_height := hlin.gen_height
      gen_hash := hlin.gen_hash
      use_tree := hlin.use_tree
      tree_sub := ht1_ne
      tree_dist := ?_
      tree_cover := ?_ }, rfl, rfl, rfl⟩
  · intro a x hx hca
    by_cases hac : a = cut + 1
    · subst hac
      rw [hh1] at hx
      simp only [Option.some.injEq] at hx
      subst hx
      rw [hd_a]
      simp [lin_cell, lin_prev]
    · rw [hd_other a (by omega) hac, hlin.cell a x hx (by omega)]
      have e1 : a ≠ cut := by omega
      simp [lin_cell, lin_prev, e1, hac]
  · intro a ha
    by_cases hac : a = cut
    · subst hac; exact hd_b
    · rw [hd_other a hac (by omega)]
      exact hlin.dead a (by omega)
  · unfold tree_distinct
    show (t1.map (hash_at _)).Nodup
    rw [List.map_congr_left hhash]
    exact hnd1 hlin.tree_dist
  · intro a x hx hca hr1
    obtain ⟨p, hp, e⟩ := hlin.tree_cover a x hx (by omega) hr1
    have hp1 : p ∈ t1 := by
      apply hkeep p hp
      rw [e]
      simp only [lin_cell, ne_eq, Option.some.injEq]
      exact nodup_map_index codec.hash hs hnd a cut x h0 hx hh0 (by omega)
    exact ⟨p, hp1, by rw [hhash p hp1]; exact e⟩

/-! ## Linear chains: one step and many -/

theorem attached_file (codec : Codec) (db : btc_headers_db) (hdr : btc_block_header)
    (c : Ptr) (x y : Nat) (l w : Bool) :
    (attached codec db hdr c x y l w).headers_tree_file
      = if (!l && db.read_write_file && w) = true then
          db.headers_tree_file.map (fun f => f ++ record_of codec ((x + 1) % UINT32_MOD) hdr)
        else db.headers_tree_file := rfl

/-- Connecting the next header of a linear chain. -/
theorem lin_step {codec : Codec} {g : btc_uint256} {replay : Bool}
    {hs : List btc_block_header} {db : btc_headers_db}
    (hlin : LinC codec g replay (lin_cut db.max_hdr_in_mem hs.length) hs db)
    (hmax : db.max_hdr_in_mem < UINT32_MOD)
    (buf : List Byte) (h : btc_block_header) (load_process write_ok : Bool)
    (hdec : codec.deserialize buf = some h)
    (hprev : h.prev_block = last_hash codec g hs)
    (hrep : replay = true → hs ≠ [])
    (hn : hs.length + 1 < UINT32_MOD)
    (hfile : file_ready db load_process)
    (hd : db.max_hdr_in_mem = 0 ∨ hs.length + 1 ≤ db.max_hdr_in_mem + 2
      ∨ ((hs ++ [h]).map codec.hash).Nodup) :
    ∃ db1, btc_headers_db_connect_hdr codec db buf load_process write_ok
        = some (db1, some (Ptr.node hs.length), true)
      ∧ LinC codec g replay (lin_cut db.max_hdr_in_mem (hs.length + 1)) (hs ++ [h]) db1
      ∧ db1.max_hdr_in_mem = db.max_hdr_in_mem
      ∧ db1.read_write_file = db.read_write_file
      ∧ db1.headers_tree_file
          = if (!load_process && db.read_write_file && write_ok) = true then
              db.headers_tree_file.map (fun f => f ++ record_of codec (hs.length + 1) h)
            else db.headers_tree_file := by
  obtain ⟨hconn, hpre⟩ := lin_attach hlin buf h load_process write_ok hdec hprev hrep hn hfile
  have hmod : (hs.length + 1) % UINT32_MOD = hs.length + 1 := Nat.mod_eq_of_lt hn
  have hfile2 := attached_file codec db h db.chaintip hs.length hs.length load_process write_ok
  rw [hmod] at hfile2
  have hlen2 : (hs ++ [h]).length = hs.length + 1 := by simp
  by_cases hshort : db.max_hdr_in_mem = 0 ∨ hs.length + 1 ≤ db.max_hdr_in_mem + 2
  · have hc0 : lin_cut db.max_hdr_in_mem hs.length = 0 := by
      unfold lin_cut; split
      · rfl
      · rcases hshort with h1 | h1
        · contradiction
        · omega
    have hc1 : lin_cut db.max_hdr_in_mem (hs.length + 1) = 0 := by
      unfold lin_cut; split
      · rfl
      · rcases hshort with h1 | h1
        · contradiction
        · omega
    rw [hc0] at hpre
    have hid := lin_prune_id hpre hmax (by rw [hlen2]; exact hshort)
    rw [hid] at hconn
    rw [hc1]
    exact ⟨_, hconn, hpre, rfl, rfl, hfile2⟩
  · have hm0 : db.max_hdr_in_mem ≠ 0 := fun e => hshort (Or.inl e)
    have hlong : db.max_hdr_in_mem + 3 ≤ hs.length + 1 := by
      by_contra hc; exact hshort (Or.inr (by omega))
    have hnd : ((hs ++ [h]).map codec.hash).Nodup := by
      rcases hd with h1 | h1 | h1
      · exact absurd h1 hm0
      · omega
      · exact h1
    have hc0 : lin_cut db.max_hdr_in_mem hs.length = hs.length - (db.max_hdr_in_mem + 2) := by
      unfold lin_cut; rw [if_neg hm0]
    have hc1 : lin_cut db.max_hdr_in_mem (hs.length + 1)
        = hs.length - (db.max_hdr_in_mem + 2) + 1 := by
      unfold lin_cut; rw [if_neg hm0]; omega
    rw [hc0] at hpre
    obtain ⟨db1, hp, hl1, h1, h2, h3⟩ := lin_prune_cut hpre (Nat.pos_of_ne_zero hm0)
      (by rw [hlen2]; show _ = _ - _ + (attached _ _ _ _ _ _ _ _).max_hdr_in_mem + 3
          simp only [attached]; omega)
      (by rw [hlen2]; exact hn) hnd
    rw [hp] at hconn
    rw [hc1]
    exact ⟨db1, hconn, hl1, h1, h2, h3.trans hfile2⟩

theorem last_hash_concat (codec : Codec) (g : btc_uint256) (hs : List btc_block_header)
    (h : btc_block_header) : last_hash codec g (hs ++ [h]) = codec.hash h := by
  simp [last_hash]

theorem file_ready_of_file {db db1 : btc_headers_db} {l : Bool} (h : file_ready db l)
    (hrw : db1.read_write_file = db.read_write_file)
    (hf : db.headers_tree_file ≠ none → db1.headers_tree_file ≠ none) : file_ready db1 l := by
  rcases h with h | h | h
  · exact Or.inl h
  · exact Or.inr (Or.inl (by rw [hrw]; exact h))
  · exact Or.inr (Or.inr (hf h))

/-- Connecting a line of headers on top of a linear chain. -/
theorem lin_run {codec : Codec} {g : btc_uint256} {replay : Bool}
    (load_process write_ok : Bool) :
    ∀ (hs2 : List btc_block_header) (bufs : List (List Byte)) (hs : List btc_block_header)
      (db : btc_headers_db),
      LinC codec g replay (lin_cut db.max_hdr_in_mem hs.length) hs db →
      db.max_hdr_in_mem < UINT32_MOD →
      bufs.map codec.deserialize = hs2.map some →
      chain_from codec (last_hash codec g hs) hs2 →
      (replay = true → hs ≠ []) →
      hs.length + hs2.length < UINT32_MOD →
      file_ready db load_process →
      (db.max_hdr_in_mem = 0 ∨ hs.length + hs2.length ≤ db.max_hdr_in_mem + 2
        ∨ ((hs ++ hs2).map codec.hash).Nodup) →
      ∃ db1, connect_all codec load_process write_ok db bufs
          = some (db1, List.replicate hs2.length true)
        ∧ LinC codec g replay (lin_cut db.max_hdr_in_mem (hs.length + hs2.length))
            (hs ++ hs2) db1
        ∧ db1.max_hdr_in_mem = db.max_hdr_in_mem
        ∧ db1.read_write_file = db.read_write_file
        ∧ db1.headers_tree_file
            = if (!load_process && db.read_write_file && write_ok) = true then
                db.headers_tree_file.map (fun f => f ++ lin_records codec hs.length hs2)
              else db.headers_tree_file := by
  intro hs2
  induction hs2 with
  | nil =>
    intro bufs hs db hlin _ hbufs _ _ _ _ _
    have hb : bufs = [] := by simpa using hbufs
    subst hb
    refine ⟨db, rfl, by simpa using hlin, rfl, rfl, ?_⟩
    split
    · cases db.headers_tree_file <;> simp [lin_records]
    · rfl
  | cons h t ih =>
    intro bufs hs db hlin hmax hbufs hchain hrep hn hfile hd
    cases bufs with
    | nil => simp at hbufs
    | cons b bs =>
      simp only [List.map_cons, List.cons.injEq] at hbufs
      obtain ⟨hb, hbs⟩ := hbufs
      obtain ⟨hp, hct⟩ := hchain
      simp only [List.length_cons] at hn hd ⊢
      have hd1 : db.max_hdr_in_mem = 0 ∨ hs.length + 1 ≤ db.max_hdr_in_mem + 2
          ∨ ((hs ++ [h]).map codec.hash).Nodup := by
        rcases hd with h1 | h1 | h1
        · exact Or.inl h1
        · exact Or.inr (Or.inl (by omega))
        · right; right
          have hsub : List.Sublist ((hs ++ [h]).map codec.hash) ((hs ++ h :: t).map codec.hash) := by
            apply List.Sublist.map
            apply List.Sublist.append_left
            exact List.Sublist.cons₂ _ (List.nil_sublist _)
          exact h1.sublist hsub
      obtain ⟨db1, hc1, hl1, hm1, hrw1, hf1⟩ := lin_step hlin hmax b h load_process write_ok
        hb hp hrep (by omega) hfile hd1
      have hlen1 : (hs ++ [h]).length = hs.length + 1 := by simp
      have hfr1 : file_ready db1 load_process := by
        apply file_ready_of_file hfile hrw1
        intro hne
        rw [hf1]
        split
        · cases hx : db.headers_tree_file with
          | none => exact absurd hx hne
          | some f => simp
        · exact hne
      obtain ⟨db2, hc2, hl2, hm2, hrw2, hf2⟩ := ih bs (hs ++ [h]) db1
        (by rw [hm1, hlen1]; exact hl1) (by rw [hm1]; exact hmax) hbs
        (by rw [last_hash_concat]; exact hct) (fun _ => by simp)
        (by rw [hlen1]; omega) hfr1
        (by
          rw [hm1, hlen1]
          rcases hd with h1 | h1 | h1
          · exact Or.inl h1
          · exact Or.inr (Or.inl (by omega))
          · right; right; simpa using h1)
      refine ⟨db2, ?_, ?_, hm2.trans hm1, hrw2.trans hrw1, ?_⟩
      · simp only [connect_all, hc1, hc2, Option.map_some', List.replicate_succ]
      · rw [hm1, hlen1] at hl2
        have e1 : hs.length + 1 + t.length = hs.length + (t.length + 1) := by omega
        have e2 : hs ++ [h] ++ t = hs ++ h :: t := by simp
        rw [e1, e2] at hl2
        exact hl2
      · rw [hf2, hrw1, hf1, hlen1]
        split
        · cases db.headers_tree_file <;> simp [lin_records]
        · rfl

/-! ## Linear chains: the fresh database and searches -/

theorem lin_fresh (codec : Codec) (g : btc_uint256) (inmem_only : Bool) (m : Nat) :
    LinC codec g false 0 []
      { btc_headers_db_new g inmem_only with max_hdr_in_mem := m } :=
  { heap_len := rfl
    cut_le := by simp
    cell := by intro a h hx; simp at hx
    dead := by intro a ha; omega
    tip := rfl
    bottom := rfl
    gen_prev := rfl
    gen_height := rfl
    gen_hash := rfl
    use_tree := rfl
    tree_sub := by intro p hp; simp [btc_headers_db_new] at hp
    tree_dist := by simp [tree_distinct, btc_headers_db_new]
    tree_cover := by intro a h hx; simp at hx }

/-- On a linear chain with pairwise different hashes a search for the hash of a retained
header returns the node of that header. -/
theorem lin_find {codec : Codec} {g : btc_uint256} {replay : Bool} {cut : Nat}
    {hs : List btc_block_header} {db : btc_headers_db} (hlin : LinC codec g replay cut hs db)
    (hnd : (hs.map codec.hash).Nodup) (a : Nat) (h : btc_block_header)
    (ha : hs[a]? = some h) (hca : cut ≤ a) (hr : replay = true → 1 ≤ a) :
    btc_headersdb_find db (codec.hash h) = some (some (Ptr.node a)) := by
  simp only [btc_headersdb_find, hlin.use_tree, if_true]
  obtain ⟨r, hr1⟩ := tfind_defined { zero_blockindex with hash := codec.hash h } db.tree_root
    hlin.tree_live
  rw [hr1]
  cases r with
  | none =>
    exfalso
    obtain ⟨p, hp, e⟩ := hlin.tree_cover a h ha hca hr
    exact tfind_none_hash hr1 p hp e
  | some q =>
    obtain ⟨hq, n, hn, hnh⟩ := tfind_some hr1
    obtain ⟨b, rfl, hb1, hb2⟩ := hlin.tree_sub q hq
    obtain ⟨y, hy⟩ : ∃ y, hs[b]? = some y := ⟨hs[b], List.getElem?_eq_getElem hb2⟩
    rw [hlin.cell b y hy hb1] at hn
    simp only [Option.some.injEq] at hn
    subst hn
    simp only [lin_cell] at hnh
    by_cases hab : b = a
    · rw [hab]
    · exact absurd hnh (nodup_map_index codec.hash hs hnd b a y h hy ha hab)

/-- On a linear chain with pairwise different hashes a search for the hash of a pruned
header finds nothing. -/
theorem lin_find_none {codec : Codec} {g : btc_uint256} {replay : Bool} {cut : Nat}
    {hs : List btc_block_header} {db : btc_headers_db} (hlin : LinC codec g replay cut hs db)
    (hnd : (hs.map codec.hash).Nodup) (a : Nat) (h : btc_block_header)
    (ha : hs[a]? = some h) (hca : a < cut) :
    btc_headersdb_find db (codec.hash h) = some none := by
  simp only [btc_headersdb_find, hlin.use_tree, if_true]
  apply tfind_none
  intro q hq
  obtain ⟨b, rfl, hb1, hb2⟩ := hlin.tree_sub q hq
  obtain ⟨y, hy⟩ : ∃ y, hs[b]? = some y := ⟨hs[b], List.getElem?_eq_getElem hb2⟩
  refine ⟨_, hlin.cell b y hy hb1, ?_⟩
  simp only [lin_cell]
  exact nodup_map_index codec.hash hs hnd b a y h hy ha (by omega)

/-- A line of headers connected to a fresh database, with any window `m`: every header
connects and the database holds the linear chain. -/
theorem lin_run_fresh (codec : Codec) (g : btc_uint256) (inmem_only load_process write_ok : Bool)
    (m : Nat) (bufs : List (List Byte)) (hs : List btc_block_header)
    (hm : m < UINT32_MOD)
    (hdec : bufs.map codec.deserialize = hs.map some)
    (hchain : chain_from codec g hs)
    (hN : hs.length < UINT32_MOD)
    (hfile : inmem_only = true ∨ load_process = true)
    (hd : m = 0 ∨ hs.length ≤ m + 2 ∨ (hs.map codec.hash).Nodup) :
    ∃ db1, connect_all codec load_process write_ok
        { btc_headers_db_new g inmem_only with max_hdr_in_mem := m } bufs
          = some (db1, List.replicate hs.length true)
      ∧ LinC codec g false (lin_cut m hs.length) hs db1
      ∧ db1.max_hdr_in_mem = m
      ∧ file_ready db1 load_process := by
  have hfr : file_ready { btc_headers_db_new g inmem_only with max_hdr_in_mem := m }
      load_process := by
    rcases hfile with h | h
    · right; left; simp [btc_headers_db_new, h]
    · left; exact h
  obtain ⟨db1, h1, h2, h3, h4, _⟩ := lin_run load_process write_ok hs bufs []
    { btc_headers_db_new g inmem_only with max_hdr_in_mem := m }
    (by simpa [lin_cut] using lin_fresh codec g inmem_only m) hm hdec
    (by simpa [last_hash] using hchain) (by simp) (by simpa using hN) hfr
    (by simpa using hd)
  refine ⟨db1, h1, ?_, h3, ?_⟩
  · simpa using h2
  · rcases hfile with h | h
    · right; left; rw [h4]; simp [btc_headers_db_new, h]
    · left; exact h

/-! ## Ingesting a valid chain -/

/-- C1, for chains of fewer than 2^32 headers: a line of headers with pairwise distinct
hashes, distinct from the genesis hash, connected in order to a database fresh from
`btc_headers_db_new` (in memory, or in load mode, so that no record goes to the unopened
log) reports `connected = true` for each header, leaves the chain tip at height `N`, and a
search succeeds for each of the last 144 headers, returning the node of that header. -/
theorem connect_line_tip_and_find (codec : Codec) (g : btc_uint256)
    (inmem_only load_process write_ok : Bool) (bufs : List (List Byte))
    (hs : List btc_block_header)
    (hdec : bufs.map codec.deserialize = hs.map some)
    (hchain : chain_from codec g hs)
    (hnd : (g :: hs.map codec.hash).Nodup)
    (hN : hs.length < UINT32_MOD)
    (hfile : inmem_only = true ∨ load_process = true) :
    ∃ db1, connect_all codec load_process write_ok (btc_headers_db_new g inmem_only) bufs
        = some (db1, List.replicate hs.length true)
      ∧ (deref db1 db1.chaintip).map (fun n => n.height) = some hs.length
      ∧ ∀ i h, hs[i]? = some h → hs.length ≤ i + 144 →
          ∃ p n, btc_headersdb_find db1 (codec.hash h) = some (some p)
            ∧ deref db1 p = some n ∧ n.header = h ∧ n.hash = codec.hash h
            ∧ n.height = i + 1 := by
  have hnd1 : (hs.map codec.hash).Nodup := (List.nodup_cons.mp hnd).2
  obtain ⟨db1, h1, h2, h3, _⟩ := lin_run_fresh codec g inmem_only load_process write_ok 144 bufs hs
    (by decide) hdec hchain hN hfile (Or.inr (Or.inr hnd1))
  refine ⟨db1, h1, ?_, ?_⟩
  · obtain ⟨tip, ht, _, hh⟩ := h2.tip_node (by simp)
    rw [ht]; simp [hh]
  · intro i h hi hlast
    have hcut : lin_cut 144 hs.length ≤ i := by simp only [lin_cut]; simp; omega
    exact ⟨Ptr.node i, _, lin_find h2 hnd1 i h hi hcut (by simp), h2.cell i h hi hcut, rfl, rfl, rfl⟩

theorem connect_line_tip_and_find_witness :
    ∃ db1, connect_all sample_codec false true (btc_headers_db_new (hash_of_nat 0) true)
        (sample_line 2) = some (db1, [true, true])
      ∧ (deref db1 db1.chaintip).map (fun n => n.height) = some 2
      ∧ ∀ i h, [sample_header 0 1, sample_header 1 2][i]? = some h → 2 ≤ i + 144 →
          ∃ p n, btc_headersdb_find db1 (sample_codec.hash h) = some (some p)
            ∧ deref db1 p = some n ∧ n.header = h ∧ n.hash = sample_codec.hash h
            ∧ n.height = i + 1 :=
  connect_line_tip_and_find sample_codec (hash_of_nat 0) true false true (sample_line 2)
    [sample_header 0 1, sample_header 1 2] (by decide) (by decide) (by decide) (by decide)
    (by decide)

/-! ## The sample chain -/

theorem deser_u32_ser_u32 (v : Nat) (rest : List Byte) (hv : v < 4294967296) :
    deser_u32 (ser_u32 v ++ rest) = v := by
  simp only [deser_u32, ser_u32, List.cons_append, List.nil_append, List.getD_cons_zero,
    List.getD_cons_succ, Fin.ofNat, Fin.val_mk]
  omega

theorem deser_u256_bytes (h : btc_uint256) (rest : List Byte) :
    deser_u256 (h.bytes ++ rest) = h := by
  cases h with
  | mk b hb =>
    simp only [deser_u256, btc_uint256.mk.injEq]
    rw [List.take_append_of_le_length (by omega), List.take_of_length_le (by omega)]
    simp [hb]

theorem sample_codec_roundtrip (h : btc_block_header) (hv : h.version < 4294967296)
    (ht : h.timestamp < 4294967296) (hb : h.bits < 4294967296) (hn : h.nonce < 4294967296) :
    sample_codec.deserialize (sample_codec.serialize h) = some h := by
  have hl : ∀ v, (ser_u32 v).length = 4 := fun v => rfl
  simp only [sample_codec]
  have hlen : ¬ (ser_u32 h.version ++ h.prev_block.bytes ++ h.merkle_root.bytes
      ++ ser_u32 h.timestamp ++ ser_u32 h.bits ++ ser_u32 h.nonce).length < 80 := by
    simp only [List.length_append, hl, h.prev_block.size_eq, h.merkle_root.size_eq]
    omega
  rw [if_neg hlen]
  have d4 : (ser_u32 h.version ++ h.prev_block.bytes ++ h.merkle_root.bytes
      ++ ser_u32 h.timestamp ++ ser_u32 h.bits ++ ser_u32 h.nonce).drop 4
      = h.prev_block.bytes ++ (h.merkle_root.bytes
      ++ ser_u32 h.timestamp ++ ser_u32 h.bits ++ ser_u32 h.nonce) := by
    simp only [List.append_assoc]
    rw [List.drop_append_of_le_length (by simp [hl])]
    simp [ser_u32]
  have d36 : (ser_u32 h.version ++ h.prev_block.bytes ++ h.merkle_root.bytes
      ++ ser_u32 h.timestamp ++ ser_u32 h.bits ++ ser_u32 h.nonce).drop 36
      = h.merkle_root.bytes ++ (ser_u32 h.timestamp ++ ser_u32 h.bits ++ ser_u32 h.nonce) := by
    have : ser_u32 h.version ++ h.prev_block.bytes ++ h.merkle_root.bytes
      ++ ser_u32 h.timestamp ++ ser_u32 h.bits ++ ser_u32 h.nonce
      = (ser_u32 h.version ++ h.prev_block.bytes) ++ (h.merkle_root.bytes
      ++ (ser_u32 h.timestamp ++ ser_u32 h.bits ++ ser_u32 h.nonce)) := by
      simp only [List.append_assoc]
    rw [this, List.drop_left' (by simp [hl, h.prev_block.size_eq])]
  have d68 : (ser_u32 h.version ++ h.prev_block.bytes ++ h.merkle_root.bytes
      ++ ser_u32 h.timestamp ++ ser_u32 h.bits ++ ser_u32 h.nonce).drop 68
      = ser_u32 h.timestamp ++ (ser_u32 h.bits ++ ser_u32 h.nonce) := by
    have : ser_u32 h.version ++ h.prev_block.bytes ++ h.merkle_root.bytes
      ++ ser_u32 h.timestamp ++ ser_u32 h.bits ++ ser_u32 h.nonce
      = (ser_u32 h.version ++ h.prev_block.bytes ++ h.merkle_root.bytes)
        ++ (ser_u32 h.timestamp ++ (ser_u32 h.bits ++ ser_u32 h.nonce)) := by
      simp only [List.append_assoc]
    rw [this, List.drop_left' (by simp [hl, h.prev_block.size_eq, h.merkle_root.size_eq])]
  have d72 : (ser_u32 h.version ++ h.prev_block.bytes ++ h.merkle_root.bytes
      ++ ser_u32 h.timestamp ++ ser_u32 h.bits ++ ser_u32 h.nonce).drop 72
      = ser_u32 h.bits ++ ser_u32 h.nonce := by
    have : ser_u32 h.version ++ h.prev_block.bytes ++ h.merkle_root.bytes
      ++ ser_u32 h.timestamp ++ ser_u32 h.bits ++ ser_u32 h.nonce
      = (ser_u32 h.version ++ h.prev_block.bytes ++ h.merkle_root.bytes
        ++ ser_u32 h.timestamp) ++ (ser_u32 h.bits ++ ser_u32 h.nonce) := by
      simp only [List.append_assoc]
    rw [this, List.drop_left' (by simp [hl, h.prev_block.size_eq, h.merkle_root.size_eq])]
  have d76 : (ser_u32 h.version ++ h.prev_block.bytes ++ h.merkle_root.bytes
      ++ ser_u32 h.timestamp ++ ser_u32 h.bits ++ ser_u32 h.nonce).drop 76
      = ser_u32 h.nonce ++ [] := by
    have : ser_u32 h.version ++ h.prev_block.bytes ++ h.merkle_root.bytes
      ++ ser_u32 h.timestamp ++ ser_u32 h.bits ++ ser_u32 h.nonce
      = (ser_u32 h.version ++ h.prev_block.bytes ++ h.merkle_root.bytes
        ++ ser_u32 h.timestamp ++ ser_u32 h.bits) ++ (ser_u32 h.nonce ++ []) := by
      simp only [List.append_assoc, List.append_nil]
    rw [this, List.drop_left' (by simp [hl, h.prev_block.size_eq, h.merkle_root.size_eq])]
  rw [d4, d36, d68, d72, d76]
  have e0 : ser_u32 h.version ++ h.prev_block.bytes ++ h.merkle_root.bytes
      ++ ser_u32 h.timestamp ++ ser_u32 h.bits ++ ser_u32 h.nonce
      = ser_u32 h.version ++ (h.prev_block.bytes ++ h.merkle_root.bytes
      ++ ser_u32 h.timestamp ++ ser_u32 h.bits ++ ser_u32 h.nonce) := by
    simp only [List.append_assoc]
  rw [e0, deser_u32_ser_u32 _ _ hv, deser_u256_bytes, deser_u256_bytes,
    deser_u32_ser_u32 _ _ ht, deser_u32_ser_u32 _ _ hb, deser_u32_ser_u32 _ _ hn]

theorem hash_of_nat_inj (a b : Nat) (ha : a < 1099511627776) (hb : b < 1099511627776)
    (h : hash_of_nat a = hash_of_nat b) : a = b := by
  simp only [hash_of_nat, ser_u32, btc_uint256.mk.injEq, List.cons_append, List.nil_append,
    List.cons.injEq, Fin.ofNat, Fin.mk.injEq] at h
  omega

theorem sample_deserialize (p i : Nat) :
    sample_codec.deserialize (sample_buf p i) = some (sample_header p i) :=
  sample_codec_roundtrip (sample_header p i) (by simp [sample_header])
    (by simp [sample_header]) (by simp [sample_header]) (by simp [sample_header])

theorem sample_line_decodes (n : Nat) :
    (sample_line n).map sample_codec.deserialize = (sample_headers n).map some := by
  simp only [sample_line, sample_headers, List.map_map]
  apply List.map_congr_left
  intro i _
  exact sample_deserialize i (i + 1)

theorem last_hash_cons (codec : Codec) (g : btc_uint256) (h : btc_block_header)
    (t : List btc_block_header) :
    last_hash codec (codec.hash h) t = last_hash codec g (h :: t) := by
  cases t with
  | nil => rfl
  | cons x xs =>
    simp only [last_hash, List.getLast?_cons_cons]
    rw [List.getLast?_eq_getLast _ (List.cons_ne_nil _ _)]

theorem chain_from_append (codec : Codec) (g : btc_uint256) (l1 l2 : List btc_block_header) :
    chain_from codec g (l1 ++ l2)
      ↔ chain_from codec g l1 ∧ chain_from codec (last_hash codec g l1) l2 := by
  induction l1 generalizing g with
  | nil => simp [chain_from, last_hash]
  | cons h t ih =>
    show (h.prev_block = g ∧ chain_from codec (codec.hash h) (t ++ l2))
      ↔ ((h.prev_block = g ∧ chain_from codec (codec.hash h) t)
        ∧ chain_from codec (last_hash codec g (h :: t)) l2)
    rw [ih, last_hash_cons codec g h t, and_assoc]

theorem sample_headers_succ (n : Nat) :
    sample_headers (n + 1) = sample_headers n ++ [sample_header n (n + 1)] := by
  simp [sample_headers, List.range_succ]

theorem sample_line_succ (n : Nat) :
    sample_line (n + 1) = sample_line n ++ [sample_buf n (n + 1)] := by
  simp [sample_line, List.range_succ]

theorem sample_last_hash (n : Nat) :
    last_hash sample_codec (hash_of_nat 0) (sample_headers n) = hash_of_nat n := by
  cases n with
  | zero => rfl
  | succ k => rw [sample_headers_succ, last_hash_concat]; rfl

theorem sample_chain (n : Nat) : chain_from sample_codec (hash_of_nat 0) (sample_headers n) := by
  induction n with
  | zero => trivial
  | succ k ih =>
    rw [sample_headers_succ, chain_from_append]
    refine ⟨ih, ?_, trivial⟩
    rw [sample_last_hash]; rfl

theorem sample_hashes (n : Nat) :
    (sample_headers n).map sample_codec.hash = (List.range n).map (fun i => hash_of_nat (i + 1)) := by
  simp only [sample_headers, List.map_map]
  rfl

theorem sample_nodup (n : Nat) (hn : n < 1099511627776) :
    (hash_of_nat 0 :: (sample_headers n).map sample_codec.hash).Nodup := by
  have : hash_of_nat 0 :: (sample_headers n).map sample_codec.hash
      = (List.range (n + 1)).map hash_of_nat := by
    rw [sample_hashes, List.range_succ_eq_map, List.map_cons, List.map_map]
    rfl
  rw [this]
  apply List.Nodup.map_on _ (List.nodup_range _)
  intro a ha b hb e
  rw [List.mem_range] at ha hb
  exact hash_of_nat_inj a b (by omega) (by omega) e

theorem connect_all_append (codec : Codec) (l w : Bool) (db : btc_headers_db)
    (b1 b2 : List (List Byte)) :
    connect_all codec l w db (b1 ++ b2)
      = (connect_all codec l w db b1).bind (fun r =>
          (connect_all codec l w r.1 b2).map (fun r2 => (r2.1, r.2 ++ r2.2))) := by
  induction b1 generalizing db with
  | nil =>
    simp only [List.nil_append, connect_all, Option.some_bind, List.nil_append]
    cases connect_all codec l w db b2 <;> rfl
  | cons b bs ih =>
    rw [List.cons_append]
    simp only [connect_all]
    cases hc : btc_headers_db_connect_hdr codec db b l w with
    | none => rfl
    | some r =>
      obtain ⟨db1, p, c⟩ := r
      simp only [ih]
      cases connect_all codec l w db1 bs with
      | none => rfl
      | some r1 =>
        simp only [Option.map_some', Option.some_bind]
        cases connect_all codec l w r1.1 b2 <;> simp

/-! ## The height wraps at 2^32 -/

/-- The header that would get height 2^32 connects, at height 0, and does not become the
chain tip. -/
theorem lin_step_wrap {codec : Codec} {g : btc_uint256}
    {hs : List btc_block_header} {db : btc_headers_db}
    (hlin : LinC codec g false (hs.length - (db.max_hdr_in_mem + 2)) hs db)
    (hpos : 0 < db.max_hdr_in_mem) (hlong : db.max_hdr_in_mem + 3 ≤ hs.length)
    (buf : List Byte) (h : btc_block_header) (load_process write_ok : Bool)
    (hdec : codec.deserialize buf = some h)
    (hprev : h.prev_block = last_hash codec g hs)
    (hn : hs.length + 1 = UINT32_MOD)
    (hfile : file_ready db load_process) :
    ∃ db1, btc_headers_db_connect_hdr codec db buf load_process write_ok
        = some (db1, some (Ptr.node hs.length), true)
      ∧ (deref db1 db1.chaintip).map (fun n => n.height) = some hs.length := by
  obtain ⟨tip, htip, hth, hht⟩ := hlin.tip_node (by simp)
  have hconn := connect_hdr_attach codec db buf h tip tip db.chaintip load_process write_ok hdec
    htip hlin.tree_live (Or.inl ⟨hprev.trans hth.symm, rfl⟩) htip hfile
  rw [hht, hlin.heap_len] at hconn
  have hmod : (hs.length + 1) % UINT32_MOD = 0 := by rw [hn]; exact Nat.mod_self _
  have hct : (attached codec db h db.chaintip hs.length hs.length load_process
      write_ok).chaintip = db.chaintip := by
    simp only [attached, hmod]
    simp
  have hcell : ∀ a, a < hs.length →
      deref (attached codec db h db.chaintip hs.length hs.length load_process write_ok)
        (Ptr.node a) = deref db (Ptr.node a) :=
    fun a ha => deref_attached_old _ _ _ _ _ _ _ _ _ (by rw [hlin.heap_len]; exact ha)
  have hprune : prune (attached codec db h db.chaintip hs.length hs.length load_process
      write_ok) = some (attached codec db h db.chaintip hs.length hs.length load_process
      write_ok) := by
    apply prune_eq_self _ (fun j => Ptr.node (hs.length - 1 - j)) (db.max_hdr_in_mem + 1)
    · show db.max_hdr_in_mem < UINT32_MOD
      omega
    · exact le_refl _
    · rw [hct, hlin.tip, if_neg (by omega)]; rfl
    · intro x hx
      obtain ⟨y, hy⟩ : ∃ y, hs[hs.length - 1 - x]? = some y :=
        ⟨hs[hs.length - 1 - x], List.getElem?_eq_getElem (by omega)⟩
      have hx2 : x < db.max_hdr_in_mem + 1 := hx
      simp only [prev_at, hcell _ (show hs.length - 1 - x < hs.length by omega),
        hlin.cell _ y hy (by omega), Option.map_some', lin_cell, lin_prev]
      have e1 : hs.length - 1 - x ≠ hs.length - (db.max_hdr_in_mem + 2) := by omega
      have e2 : hs.length - 1 - x - 1 = hs.length - 1 - (x + 1) := by omega
      simp [e1, e2]
    · left
      have e0 : hs.length - 1 - (db.max_hdr_in_mem + 1)
          = hs.length - (db.max_hdr_in_mem + 2) := by omega
      simp only [e0]
      obtain ⟨y, hy⟩ : ∃ y, hs[hs.length - (db.max_hdr_in_mem + 2)]? = some y :=
        ⟨hs[hs.length - (db.max_hdr_in_mem + 2)], List.getElem?_eq_getElem (by omega)⟩
      simp only [prev_at, hcell _ (show hs.length - (db.max_hdr_in_mem + 2) < hs.length by omega),
        hlin.cell _ y hy (le_refl _), Option.map_some', lin_cell, lin_prev]
      have e1 : hs.length - (db.max_hdr_in_mem + 2) ≠ 0 := by omega
      simp [e1]
  rw [hprune] at hconn
  refine ⟨_, hconn, ?_⟩
  rw [hct, deref_attached_live _ _ _ _ _ _ _ _ htip]
  simp [hht]

theorem sample_overflow_succ (n : Nat) (hn : n + 1 = UINT32_MOD) :
    ∃ db1, connect_all sample_codec false true (btc_headers_db_new (hash_of_nat 0) true)
        (sample_line (n + 1)) = some (db1, List.replicate (n + 1) true)
      ∧ (deref db1 db1.chaintip).map (fun x => x.height) = some n := by
  have hlen : (sample_headers n).length = n := by simp [sample_headers]
  have hn2 : n = 4294967295 := by unfold UINT32_MOD at hn; omega
  obtain ⟨db0, h1, h2, h3, h4⟩ := lin_run_fresh sample_codec (hash_of_nat 0) true false true 144
    (sample_line n) (sample_headers n) (by decide) (sample_line_decodes n) (sample_chain n)
    (by rw [hlen]; unfold UINT32_MOD; omega) (Or.inl rfl)
    (Or.inr (Or.inr (List.nodup_cons.mp (sample_nodup n (by omega))).2))
  rw [hlen] at h1 h2
  have hcut : lin_cut 144 n = (sample_headers n).length - (db0.max_hdr_in_mem + 2) := by
    rw [hlen, h3]; simp [lin_cut]
  rw [hcut] at h2
  obtain ⟨db1, h5, h6⟩ := lin_step_wrap h2 (by rw [h3]; decide) (by rw [h3, hlen]; omega)
    (sample_buf n (n + 1)) (sample_header n (n + 1)) false true (sample_deserialize n (n + 1))
    (by rw [sample_last_hash]; rfl) (by rw [hlen]; exact hn) h4
  rw [hlen] at h5 h6
  refine ⟨db1, ?_, h6⟩
  have hdb : btc_headers_db_new (hash_of_nat 0) true
      = { btc_headers_db_new (hash_of_nat 0) true with max_hdr_in_mem := 144 } := rfl
  rw [sample_line_succ, connect_all_append, hdb, h1]
  simp only [Option.some_bind, connect_all, h5, Option.map_some', List.replicate_succ']

theorem sample_overflow (N : Nat) (hN : N = UINT32_MOD) :
    ∃ db1, connect_all sample_codec false true (btc_headers_db_new (hash_of_nat 0) true)
        (sample_line N) = some (db1, List.replicate N true)
      ∧ (deref db1 db1.chaintip).map (fun x => x.height) = some (N - 1) := by
  obtain ⟨n, rfl⟩ : ∃ n, N = n + 1 := ⟨N - 1, by unfold UINT32_MOD at hN; omega⟩
  exact sample_overflow_succ n hN

theorem wrap_count_eq : wrap_count = 4294967296 := by unfold wrap_count; rfl

/-- C1 fails for a chain of 2^32 headers: the sample line of `wrap_count` = 2^32 headers is
a line on the genesis hash with pairwise distinct hashes, every header connects to the
fresh database, and the chain tip is left at height 2^32 - 1, not 2^32. -/
theorem connect_line_overflow :
    wrap_count = 4294967296
    ∧ chain_from sample_codec (hash_of_nat 0) (sample_headers wrap_count)
    ∧ (hash_of_nat 0 :: (sample_headers wrap_count).map sample_codec.hash).Nodup
    ∧ (sample_line wrap_count).map sample_codec.deserialize
        = (sample_headers wrap_count).map some
    ∧ ∃ db1, connect_all sample_codec false true (btc_headers_db_new (hash_of_nat 0) true)
          (sample_line wrap_count) = some (db1, List.replicate wrap_count true)
        ∧ (deref db1 db1.chaintip).map (fun n => n.height) = some 4294967295 := by
  refine ⟨wrap_count_eq, sample_chain _, sample_nodup _ (by rw [wrap_count_eq]; decide),
    sample_line_decodes _, ?_⟩
  obtain ⟨db1, h1, h2⟩ := sample_overflow wrap_count wrap_count_eq
  refine ⟨db1, h1, ?_⟩
  rw [h2, wrap_count_eq]

/-! ## The pruning boundary -/

/-- C6, amended: after a line of `M + K` headers with pairwise distinct hashes
(`M = max_hdr_in_mem > 0`, `K > 0`, `M + K < 2^32`) has been connected to a fresh database,
the chain tip has height `M + K`; the chain bottom is still the genesis node when
`K ≤ 2`, and for `K ≥ 3` it is the node of height `chaintip.height - M - 1`. -/
theorem prune_boundary (codec : Codec) (g : btc_uint256)
    (inmem_only load_process write_ok : Bool) (M K : Nat) (bufs : List (List Byte))
    (hs : List btc_block_header)
    (hM : 0 < M) (hK : 0 < K) (hlen : hs.length = M + K) (hN : M + K < UINT32_MOD)
    (hdec : bufs.map codec.deserialize = hs.map some)
    (hchain : chain_from codec g hs)
    (hnd : (hs.map codec.hash).Nodup)
    (hfile : inmem_only = true ∨ load_process = true) :
    ∃ db1 tip bottom, connect_all codec load_process write_ok
        { btc_headers_db_new g inmem_only with max_hdr_in_mem := M } bufs
          = some (db1, List.replicate (M + K) true)
      ∧ deref db1 db1.chaintip = some tip
      ∧ deref db1 db1.chainbottom = some bottom
      ∧ tip.height = M + K
      ∧ (K ≤ 2 → db1.chainbottom = Ptr.genesis ∧ bottom.height = 0)
      ∧ (3 ≤ K → bottom.height + M + 1 = tip.height) := by
  obtain ⟨db1, h1, h2, h3, _⟩ := lin_run_fresh codec g inmem_only load_process write_ok M bufs hs
    (by omega) hdec hchain (by omega) hfile (Or.inr (Or.inr hnd))
  obtain ⟨tip, ht, _, hh⟩ := h2.tip_node (by simp)
  rw [hlen] at h1 hh
  have hcut : lin_cut M hs.length = K - 2 := by
    unfold lin_cut; rw [if_neg (by omega), hlen]; omega
  rw [hcut] at h2
  by_cases hk : K ≤ 2
  · have hb : db1.chainbottom = Ptr.genesis := by rw [h2.bottom, if_pos (by omega)]
    refine ⟨db1, tip, db1.genesis, h1, ht, by rw [hb]; rfl, hh, fun _ => ⟨hb, h2.gen_height⟩,
      fun h => by omega⟩
  · obtain ⟨y, hy⟩ : ∃ y, hs[K - 2]? = some y :=
      ⟨hs[K - 2], List.getElem?_eq_getElem (by omega)⟩
    have hb : db1.chainbottom = Ptr.node (K - 2) := by rw [h2.bottom, if_neg (by omega)]
    refine ⟨db1, tip, _, h1, ht, by rw [hb]; exact h2.cell (K - 2) y hy (le_refl _), hh,
      fun h => absurd h hk, fun _ => ?_⟩
    simp only [lin_cell]
    omega

theorem prune_boundary_witness :
    ∃ db1 tip bottom, connect_all sample_codec false true
        { btc_headers_db_new (hash_of_nat 0) true with max_hdr_in_mem := 1 } (sample_line 4)
          = some (db1, List.replicate (1 + 3) true)
      ∧ deref db1 db1.chaintip = some tip
      ∧ deref db1 db1.chainbottom = some bottom
      ∧ tip.height = 1 + 3
      ∧ (3 ≤ 2 → db1.chainbottom = Ptr.genesis ∧ bottom.height = 0)
      ∧ (3 ≤ 3 → bottom.height + 1 + 1 = tip.height) :=
  prune_boundary sample_codec (hash_of_nat 0) true false true 1 3 (sample_line 4)
    (sample_headers 4) (by decide) (by decide) (by decide) (by decide) (by decide) (by decide)
    (by decide) (by decide)

/-- C6 fails as stated: with `max_hdr_in_mem = 1`, after the sample line of 4 headers
(`K = 3`) the chain tip has height 4 and the chain bottom height 2, not `4 - 1`; after the
sample line of 2 headers (`K = 1`) the chain bottom is still the genesis node, height 0. -/
theorem prune_boundary_counterexample :
    (deref (sample_db 1 4) (sample_db 1 4).chaintip).map (fun n => n.height) = some 4
    ∧ (deref (sample_db 1 4) (sample_db 1 4).chainbottom).map (fun n => n.height) = some 2
    ∧ (deref (sample_db 1 4) (sample_db 1 4).chainbottom).map (fun n => n.height)
        ≠ some (4 - 1)
    ∧ (deref (sample_db 1 2) (sample_db 1 2).chaintip).map (fun n => n.height) = some 2
    ∧ (sample_db 1 2).chainbottom = Ptr.genesis
    ∧ (deref (sample_db 1 2) (sample_db 1 2).chainbottom).map (fun n => n.height) = some 0
    ∧ (connect_all sample_codec false true
        { btc_headers_db_new (hash_of_nat 0) true with max_hdr_in_mem := 1 }
        (sample_line 4)).map (fun r => r.2) = some [true, true, true, true] := by
  decide

/-! ## Retention after pruning -/

/-- C7, amended: after a line of `M + K` headers with pairwise distinct hashes
(`M = max_hdr_in_mem > 0`, `K > 0`, `M + K < 2^32`) has been connected to a fresh database,
a search succeeds for the `M + 2` most recent headers (for all of them when `K ≤ 2`),
returning the node of the header, and finds nothing for every older header; the genesis
node is retained. -/
theorem prune_retention (codec : Codec) (g : btc_uint256)
    (inmem_only load_process write_ok : Bool) (M K : Nat) (bufs : List (List Byte))
    (hs : List btc_block_header)
    (hM : 0 < M) (hK : 0 < K) (hlen : hs.length = M + K) (hN : M + K < UINT32_MOD)
    (hdec : bufs.map codec.deserialize = hs.map some)
    (hchain : chain_from codec g hs)
    (hnd : (hs.map codec.hash).Nodup)
    (hfile : inmem_only = true ∨ load_process = true) :
    ∃ db1, connect_all codec load_process write_ok
        { btc_headers_db_new g inmem_only with max_hdr_in_mem := M } bufs
          = some (db1, List.replicate (M + K) true)
      ∧ (∀ i h, hs[i]? = some h → M + K ≤ i + (M + 2) →
          btc_headersdb_find db1 (codec.hash h) = some (some (Ptr.node i))
          ∧ ∃ n, deref db1 (Ptr.node i) = some n ∧ n.header = h ∧ n.height = i + 1)
      ∧ (∀ i h, hs[i]? = some h → i + (M + 2) < M + K →
          btc_headersdb_find db1 (codec.hash h) = some none)
      ∧ (deref db1 Ptr.genesis).map (fun n => n.hash) = some g := by
  obtain ⟨db1, h1, h2, h3, _⟩ := lin_run_fresh codec g inmem_only load_process write_ok M bufs hs
    (by omega) hdec hchain (by omega) hfile (Or.inr (Or.inr hnd))
  rw [hlen] at h1
  have hcut : lin_cut M hs.length = K - 2 := by
    unfold lin_cut; rw [if_neg (by omega), hlen]; omega
  rw [hcut] at h2
  refine ⟨db1, h1, ?_, ?_, ?_⟩
  · intro i h hi hrec
    exact ⟨lin_find h2 hnd i h hi (by omega) (by simp),
      _, h2.cell i h hi (by omega), rfl, rfl⟩
  · intro i h hi hold
    exact lin_find_none h2 hnd i h hi (by omega)
  · simp [deref, h2.gen_hash]

theorem prune_retention_witness :
    ∃ db1, connect_all sample_codec false true
        { btc_headers_db_new (hash_of_nat 0) true with max_hdr_in_mem := 1 } (sample_line 4)
          = some (db1, List.replicate (1 + 3) true)
      ∧ (∀ i h, (sample_headers 4)[i]? = some h → 1 + 3 ≤ i + (1 + 2) →
          btc_headersdb_find db1 (sample_codec.hash h) = some (some (Ptr.node i))
          ∧ ∃ n, deref db1 (Ptr.node i) = some n ∧ n.header = h ∧ n.height = i + 1)
      ∧ (∀ i h, (sample_headers 4)[i]? = some h → i + (1 + 2) < 1 + 3 →
          btc_headersdb_find db1 (sample_codec.hash h) = some none)
      ∧ (deref db1 Ptr.genesis).map (fun n => n.hash) = some (hash_of_nat 0) :=
  prune_retention sample_codec (hash_of_nat 0) true false true 1 3 (sample_line 4)
    (sample_headers 4) (by decide) (by decide) (by decide) (by decide) (by decide) (by decide)
    (by decide) (by decide)

/-- C7 fails as stated: with `max_hdr_in_mem = 1`, after the sample line of 4 headers
(`K = 3`) a search still finds the headers at heights 2, 3 and 4, three headers and not
one; only the header at height 1 is gone. -/
theorem prune_retention_counterexample :
    btc_headersdb_find (sample_db 1 4) (hash_of_nat 4) = some (some (Ptr.node 3))
    ∧ btc_headersdb_find (sample_db 1 4) (hash_of_nat 3) = some (some (Ptr.node 2))
    ∧ btc_headersdb_find (sample_db 1 4) (hash_of_nat 2) = some (some (Ptr.node 1))
    ∧ btc_headersdb_find (sample_db 1 4) (hash_of_nat 1) = some none
    ∧ (connect_all sample_codec false true
        { btc_headers_db_new (hash_of_nat 0) true with max_hdr_in_mem := 1 }
        (sample_line 4)).map (fun r => r.2) = some [true, true, true, true] := by
  decide

/-! ## Pruning a closed heap -/

theorem heap_closed_prev {db : btc_headers_db} (hc : heap_closed db) {p : Ptr}
    {n : btc_blockindex} (hp : deref db p = some n) {q : Ptr} (hq : n.prev = some q) :
    q ≠ p ∧ ∃ qn, deref db q = some qn := by
  cases p with
  | genesis =>
    simp only [deref, Option.some.injEq] at hp
    rw [← hp, hc.1] at hq
    simp at hq
  | node a =>
    have h := hc.2 a (deref_node_lt hp)
    simp only [cell_closed, hp, hq, Bool.and_eq_true, decide_eq_true_eq] at h
    exact ⟨h.1, Option.isSome_iff_exists.mp h.2⟩

/-- The chain of `prev` links from a live node of a closed heap: either it ends within `k`
steps, or its first `k` links are all set, lead to live nodes and none of them leads to the
genesis node. -/
theorem nth_prev_links {db : btc_headers_db} (hc : heap_closed db) {p : Ptr}
    (hp : (deref db p).isSome = true) (k : Nat)
    (hno : ∀ j, j < k → ¬ (prev_at db (nth_prev db p j) = some none
      ∨ prev_at db (nth_prev db p j) = some (some Ptr.genesis))) :
    (deref db (nth_prev db p k)).isSome = true
    ∧ ∀ j, j < k → prev_at db (nth_prev db p j) = some (some (nth_prev db p (j + 1)))
        ∧ nth_prev db p (j + 1) ≠ Ptr.genesis := by
  induction k with
  | zero => exact ⟨hp, fun j hj => absurd hj (Nat.not_lt_zero _)⟩
  | succ k ih =>
    obtain ⟨hl, hlinks⟩ := ih (fun j hj => hno j (by omega))
    obtain ⟨n, hn⟩ := Option.isSome_iff_exists.mp hl
    have hnk := hno k (by omega)
    simp only [prev_at, hn, Option.map_some', Option.some.injEq, not_or] at hnk
    cases hq : n.prev with
    | none => exact absurd hq hnk.1
    | some q =>
      have hstep : nth_prev db p (k + 1) = q := by
        simp only [nth_prev, prev_at, hn, Option.map_some', hq]
      have hqg : q ≠ Ptr.genesis := fun e => hnk.2 (by rw [hq, e])
      obtain ⟨_, qn, hqn⟩ := heap_closed_prev hc hn hq
      refine ⟨by rw [hstep, hqn]; rfl, ?_⟩
      intro j hj
      by_cases hjk : j = k
      · subst hjk
        rw [hstep]
        exact ⟨by simp only [prev_at, hn, Option.map_some', hq], hqg⟩
      · exact hlinks j (by omega)

theorem prev_at_some {db : btc_headers_db} {p q : Ptr} (h : prev_at db p = some (some q)) :
    ∃ n, deref db p = some n ∧ n.prev = some q := by
  unfold prev_at at h
  cases hd : deref db p with
  | none => simp [hd] at h
  | some n =>
    simp only [hd, Option.map_some', Option.some.injEq] at h
    exact ⟨n, rfl, h⟩

/-- On a closed heap the pruning block is defined; it keeps the chain tip, the genesis
node, the log and the configuration, adds no key to the tree, and touches no node that
is not the `prev` of a live node. -/
theorem prune_closed (db : btc_headers_db) (hc : heap_closed db) (htl : tree_live db)
    (htip : (deref db db.chaintip).isSome = true) (hmax : db.max_hdr_in_mem < UINT32_MOD) :
    ∃ db1, prune db = some db1 ∧ db1.chaintip = db.chaintip ∧ db1.genesis = db.genesis
      ∧ db1.headers_tree_file = db.headers_tree_file
      ∧ db1.read_write_file = db.read_write_file
      ∧ db1.max_hdr_in_mem = db.max_hdr_in_mem
      ∧ db1.use_binary_tree = db.use_binary_tree
      ∧ (∀ q ∈ db1.tree_root, q ∈ db.tree_root)
      ∧ (∀ x, (∀ y yn, deref db y = some yn → yn.prev ≠ some x) →
          deref db1 x = deref db x) := by
  have hself : prune db = some db → ∃ db1, prune db = some db1 ∧ db1.chaintip = db.chaintip
      ∧ db1.genesis = db.genesis
      ∧ db1.headers_tree_file = db.headers_tree_file
      ∧ db1.read_write_file = db.read_write_file
      ∧ db1.max_hdr_in_mem = db.max_hdr_in_mem
      ∧ db1.use_binary_tree = db.use_binary_tree
      ∧ (∀ q ∈ db1.tree_root, q ∈ db.tree_root)
      ∧ (∀ x, (∀ y yn, deref db y = some yn → yn.prev ≠ some x) →
          deref db1 x = deref db x) :=
    fun h => ⟨db, h, rfl, rfl, rfl, rfl, rfl, rfl, fun _ hq => hq, fun _ _ => rfl⟩
  by_cases hm0 : db.max_hdr_in_mem = 0
  · exact hself (by simp [prune, hm0])
  by_cases hwrap : db.max_hdr_in_mem + 1 = UINT32_MOD
  · apply hself
    unfold prune
    rw [if_pos (Nat.pos_of_ne_zero hm0), hwrap, Nat.mod_self]
    rfl
  classical
  by_cases hex : ∃ k, k ≤ db.max_hdr_in_mem + 1
      ∧ (prev_at db (nth_prev db db.chaintip k) = some none
        ∨ prev_at db (nth_prev db db.chaintip k) = some (some Ptr.genesis))
  · apply hself
    have hspec := Nat.find_spec hex
    have hmin := fun j (hj : j < Nat.find hex) => Nat.find_min hex hj
    obtain ⟨_, hlinks⟩ := nth_prev_links hc htip (Nat.find hex)
      (fun j hj hp => hmin j hj ⟨by omega, hp⟩)
    apply prune_eq_self db (nth_prev db db.chaintip) (Nat.find hex) hmax hspec.1 rfl
      (fun x hx => (hlinks x hx).1)
    rcases hspec.2 with h | h
    · exact Or.inl h
    · exact Or.inr ⟨h, hc.1⟩
  · have hno : ∀ j, j < db.max_hdr_in_mem + 2 →
        ¬ (prev_at db (nth_prev db db.chaintip j) = some none
          ∨ prev_at db (nth_prev db db.chaintip j) = some (some Ptr.genesis)) :=
      fun j hj hp => hex ⟨j, by omega, hp⟩
    obtain ⟨_, hlinks⟩ := nth_prev_links hc htip (db.max_hdr_in_mem + 2) hno
    obtain ⟨hl_m, hg_a⟩ := hlinks db.max_hdr_in_mem (by omega)
    obtain ⟨hl_a, hg_b⟩ := hlinks (db.max_hdr_in_mem + 1) (by omega)
    obtain ⟨a, ha⟩ : ∃ a, nth_prev db db.chaintip (db.max_hdr_in_mem + 1) = Ptr.node a := by
      cases h : nth_prev db db.chaintip (db.max_hdr_in_mem + 1) with
      | genesis => exact absurd h hg_a
      | node a => exact ⟨a, rfl⟩
    obtain ⟨b, hb⟩ : ∃ b, nth_prev db db.chaintip (db.max_hdr_in_mem + 1 + 1) = Ptr.node b := by
      cases h : nth_prev db db.chaintip (db.max_hdr_in_mem + 1 + 1) with
      | genesis => exact absurd h hg_b
      | node b => exact ⟨b, rfl⟩
    rw [ha] at hl_m
    rw [ha, hb] at hl_a
    obtain ⟨mn, hmn, hmp⟩ := prev_at_some hl_m
    obtain ⟨sn, hsn, hsp⟩ := prev_at_some hl_a
    obtain ⟨hne, qn, hqn⟩ := heap_closed_prev hc hsn hsp
    have hab : a ≠ b := fun e => hne (by rw [e])
    obtain ⟨t1, ht1, hsub, _⟩ := tdelete_spec qn db.tree_root htl
    have hp := prune_eq_cut db (nth_prev db db.chaintip) sn qn a b t1
      (Nat.pos_of_ne_zero hm0) (by omega) rfl (fun x hx => (hlinks x (by omega)).1) ha hsn hsp
      hqn hab ht1
    refine ⟨_, hp, rfl, rfl, rfl, rfl, rfl, rfl, hsub, ?_⟩
    intro x hx
    have hxa : x ≠ Ptr.node a := fun e => hx _ mn hmn (by rw [hmp, e])
    have hxb : x ≠ Ptr.node b := fun e => hx _ sn hsn (by rw [hsp, e])
    cases x with
    | genesis => rfl
    | node c =>
      simp only [deref]
      rw [heap_get_set_ne _ _ _ _ (fun e => hxa (by rw [e])),
        heap_get_set_ne _ _ _ _ (fun e => hxb (by rw [e]))]

/-! ## Connecting on a closed heap -/

theorem attached_closed (codec : Codec) (db : btc_headers_db) (hdr : btc_block_header)
    (c : Ptr) (x y : Nat) (l w : Bool) (hc : heap_closed db) {cn : btc_blockindex}
    (hcn : deref db c = some cn) : heap_closed (attached codec db hdr c x y l w) := by
  refine ⟨hc.1, ?_⟩
  intro a ha
  have hlen : (attached codec db hdr c x y l w).heap.length = db.heap.length + 1 := by
    simp [attached]
  rw [hlen] at ha
  by_cases hlt : a < db.heap.length
  · simp only [cell_closed, deref_attached_old _ _ _ _ _ _ _ _ _ hlt]
    cases hd : deref db (Ptr.node a) with
    | none => rfl
    | some n =>
      cases hq : n.prev with
      | none => simp only [hq]
      | some q =>
        obtain ⟨h1, qn, hqn⟩ := heap_closed_prev hc hd hq
        simp only [hq, Bool.and_eq_true, decide_eq_true_eq]
        exact ⟨h1, by rw [deref_attached_live _ _ _ _ _ _ _ _ hqn]; rfl⟩
  · have hae : a = db.heap.length := by omega
    subst hae
    simp only [cell_closed, deref_attached_new, linked_node, Bool.and_eq_true,
      decide_eq_true_eq]
    refine ⟨?_, by rw [deref_attached_live _ _ _ _ _ _ _ _ hcn]; rfl⟩
    intro e
    rw [e] at hcn
    exact absurd (deref_node_lt hcn) (lt_irrefl _)

theorem attached_chaintip (codec : Codec) (db : btc_headers_db) (hdr : btc_block_header)
    (c : Ptr) (x y : Nat) (l w : Bool) :
    (attached codec db hdr c x y l w).chaintip
      = if (x + 1) % UINT32_MOD > y then Ptr.node db.heap.length else db.chaintip := rfl

theorem attached_tree_live (codec : Codec) (db : btc_headers_db) (hdr : btc_block_header)
    (c : Ptr) (x y : Nat) (l w : Bool) (htl : tree_live db) :
    tree_live (attached codec db hdr c x y l w) := by
  have hsub : ∀ p ∈ (attached codec db hdr c x y l w).tree_root,
      p = Ptr.node db.heap.length ∨ p ∈ db.tree_root := by
    intro p hp
    simp only [attached] at hp
    split at hp
    · split at hp
      · rcases List.mem_cons.mp hp with e | e
        · exact Or.inl e
        · exact Or.inr e
      · exact Or.inr hp
    · exact Or.inr hp
  intro p hp
  rcases hsub p hp with e | e
  · rw [e, deref_attached_new]; rfl
  · obtain ⟨n, hn⟩ := Option.isSome_iff_exists.mp (htl p e)
    rw [deref_attached_live _ _ _ _ _ _ _ _ hn]; rfl

/-- On a closed heap a header that finds an attachment point connects: the new node is
linked to the attachment point one above it, the chain tip moves to the new node exactly
when the new node is higher than the old tip, and the genesis node is untouched. -/
theorem connect_attach_closed (codec : Codec) (db : btc_headers_db) (buf : List Byte)
    (hdr : btc_block_header) (tip : btc_blockindex) (connect_at : Ptr)
    (load_process write_ok : Bool)
    (hdec : codec.deserialize buf = some hdr)
    (htip : deref db db.chaintip = some tip)
    (hc : heap_closed db) (htl : tree_live db) (hmax : db.max_hdr_in_mem < UINT32_MOD)
    (hatt : (hdr.prev_block = tip.hash ∧ connect_at = db.chaintip)
      ∨ (hdr.prev_block ≠ tip.hash
          ∧ btc_headersdb_find db hdr.prev_block = some (some connect_at)))
    (hfile : file_ready db load_process) :
    ∃ atn db1, deref db connect_at = some atn
      ∧ btc_headers_db_connect_hdr codec db buf load_process write_ok
          = some (db1, some (Ptr.node db.heap.length), true)
      ∧ deref db1 (Ptr.node db.heap.length)
          = some (linked_node codec hdr connect_at atn.height)
      ∧ db1.chaintip
          = (if (atn.height + 1) % UINT32_MOD > tip.height then Ptr.node db.heap.length
             else db.chaintip)
      ∧ db1.genesis = db.genesis := by
  obtain ⟨atn, hatn⟩ : ∃ atn, deref db connect_at = some atn := by
    rcases hatt with ⟨_, h2⟩ | ⟨_, h2⟩
    · exact ⟨tip, by rw [h2]; exact htip⟩
    · simp only [btc_headersdb_find] at h2
      split at h2
      · obtain ⟨_, n, hn, _⟩ := tfind_some h2
        exact ⟨n, hn⟩
      · simp at h2
  have hconn := connect_hdr_attach codec db buf hdr tip atn connect_at load_process write_ok
    hdec htip htl hatt hatn hfile
  have htipm : (deref (attached codec db hdr connect_at atn.height tip.height load_process
      write_ok) (attached codec db hdr connect_at atn.height tip.height load_process
      write_ok).chaintip).isSome = true := by
    rw [attached_chaintip]
    split
    · rw [deref_attached_new]; rfl
    · rw [deref_attached_live _ _ _ _ _ _ _ _ htip]; rfl
  obtain ⟨db1, hp, h1, h2, _, _, _, _, _, hframe⟩ := prune_closed _
    (attached_closed codec db hdr connect_at atn.height tip.height load_process write_ok hc hatn)
    (attached_tree_live codec db hdr connect_at atn.height tip.height load_process write_ok htl)
    htipm hmax
  rw [hp] at hconn
  refine ⟨atn, db1, hatn, hconn, ?_, h1, h2⟩
  rw [hframe, deref_attached_new]
  intro y yn hy hyp
  by_cases hyn : y = Ptr.node db.heap.length
  · rw [hyn, deref_attached_new] at hy
    simp only [Option.some.injEq] at hy
    rw [← hy] at hyp
    simp only [linked_node, Option.some.injEq] at hyp
    rw [hyp] at hatn
    exact absurd (deref_node_lt hatn) (lt_irrefl _)
  · have hyold : deref db y = some yn := by
      cases y with
      | genesis => exact hy
      | node a =>
        have hay : a ≠ db.heap.length := fun e => hyn (by rw [e])
        have hlt : a < db.heap.length := by
          have := deref_node_lt hy
          simp only [attached, List.length_append, List.length_singleton] at this
          omega
        rw [deref_attached_old _ _ _ _ _ _ _ _ _ hlt] at hy
        exact hy
    obtain ⟨_, qn, hqn⟩ := heap_closed_prev hc hyold hyp
    exact absurd (deref_node_lt hqn) (lt_irrefl _)

/-! ## Forks -/

theorem lin_closed {codec : Codec} {g : btc_uint256} {replay : Bool}
    {hs : List btc_block_header} {db : btc_headers_db} (hlin : LinC codec g replay 0 hs db) :
    heap_closed db := by
  refine ⟨hlin.gen_prev, ?_⟩
  intro a ha
  rw [hlin.heap_len] at ha
  obtain ⟨y, hy⟩ : ∃ y, hs[a]? = some y := ⟨hs[a], List.getElem?_eq_getElem ha⟩
  simp only [cell_closed, hlin.cell a y hy (Nat.zero_le _), lin_cell, lin_prev]
  by_cases h0 : a = 0
  · subst h0
    cases replay <;> simp [deref]
  · obtain ⟨z, hz⟩ : ∃ z, hs[a - 1]? = some z :=
      ⟨hs[a - 1], List.getElem?_eq_getElem (by omega)⟩
    simp only [h0, if_false, Bool.and_eq_true, decide_eq_true_eq,
      hlin.cell (a - 1) z hz (Nat.zero_le _)]
    refine ⟨?_, rfl⟩
    intro e
    simp only [Ptr.node.injEq] at e
    omega

theorem last_hash_of_get (codec : Codec) (g : btc_uint256) (hs : List btc_block_header)
    (l : btc_block_header) (h : hs[hs.length - 1]? = some l) (hne : hs ≠ []) :
    last_hash codec g hs = codec.hash l := by
  rcases List.eq_nil_or_concat hs with he | ⟨t, x, he⟩
  · exact absurd he hne
  · rw [List.concat_eq_append] at he
    subst he
    rw [last_hash_concat]
    simp at h
    rw [h]

/-- Pruning changes nothing when the chain tip heads a short line of heap cells. -/
theorem prune_id_of_line (db : btc_headers_db) (n : Nat) (hn : 0 < n)
    (htip : db.chaintip = Ptr.node (n - 1))
    (hcells : ∀ a, 0 < a → a < n → prev_at db (Ptr.node a) = some (some (Ptr.node (a - 1))))
    (h0 : prev_at db (Ptr.node 0) = some none
      ∨ (prev_at db (Ptr.node 0) = some (some Ptr.genesis) ∧ db.genesis.prev = none))
    (hmax : db.max_hdr_in_mem < UINT32_MOD) (hshort : n ≤ db.max_hdr_in_mem + 2) :
    prune db = some db := by
  apply prune_eq_self db (fun j => Ptr.node (n - 1 - j)) (n - 1) hmax (by omega)
  · rw [htip]; rfl
  · intro x hx
    have := hcells (n - 1 - x) (by omega) (by omega)
    have e : n - 1 - x - 1 = n - 1 - (x + 1) := by omega
    rw [e] at this
    exact this
  · simpa using h0

theorem get_some {α : Type} (l : List α) (a : Nat) (h : a < l.length) : ∃ y, l[a]? = some y :=
  ⟨l[a], List.getElem?_eq_getElem h⟩

/-- C3, for chains of height `H ≥ 2`: after a line of `H ≤ 146` headers with pairwise
distinct hashes has been connected to a fresh database (no pruning has happened), a
competing header with a new hash whose `prev_block` is the hash of the block at height
`H - 1` connects with a node of height `H` and leaves the chain tip unchanged; a further
header on top of that competing node connects with a node of height `H + 1`, which becomes
the chain tip. -/
theorem fork_handling (codec : Codec) (g : btc_uint256)
    (inmem_only load_process write_ok : Bool) (bufs : List (List Byte))
    (hs : List btc_block_header) (b1 b2 : List Byte) (f1 f2 hprev : btc_block_header)
    (hH2 : 2 ≤ hs.length) (hH : hs.length ≤ 146)
    (hdec : bufs.map codec.deserialize = hs.map some)
    (hchain : chain_from codec g hs)
    (hb1 : codec.deserialize b1 = some f1) (hb2 : codec.deserialize b2 = some f2)
    (hp : hs[hs.length - 2]? = some hprev)
    (hf1 : f1.prev_block = codec.hash hprev) (hf2 : f2.prev_block = codec.hash f1)
    (hnd : (hs.map codec.hash ++ [codec.hash f1]).Nodup)
    (hfile : inmem_only = true ∨ load_process = true) :
    ∃ db0 db1 db2 tip0 n1 n2,
      connect_all codec load_process write_ok (btc_headers_db_new g inmem_only) bufs
          = some (db0, List.replicate hs.length true)
      ∧ deref db0 db0.chaintip = some tip0 ∧ tip0.height = hs.length
      ∧ btc_headers_db_connect_hdr codec db0 b1 load_process write_ok
          = some (db1, some (Ptr.node hs.length), true)
      ∧ deref db1 (Ptr.node hs.length) = some n1 ∧ n1.height = hs.length
      ∧ n1.prev = some (Ptr.node (hs.length - 2))
      ∧ db1.chaintip = db0.chaintip
      ∧ btc_headers_db_connect_hdr codec db1 b2 load_process write_ok
          = some (db2, some (Ptr.node (hs.length + 1)), true)
      ∧ deref db2 (Ptr.node (hs.length + 1)) = some n2 ∧ n2.height = hs.length + 1
      ∧ n2.prev = some (Ptr.node hs.length)
      ∧ db2.chaintip = Ptr.node (hs.length + 1) := by
  have hndc : (hs.map codec.hash).Nodup := (List.nodup_append.mp hnd).1
  have hf1new : codec.hash f1 ∉ hs.map codec.hash := by
    intro hm
    exact (List.nodup_append.mp hnd).2.2 hm (List.mem_singleton_self _)
  have hu : UINT32_MOD = 4294967296 := rfl
  obtain ⟨db0, h1, hlin, hm, hfr⟩ := lin_run_fresh codec g inmem_only load_process write_ok 144
    bufs hs (by decide) hdec hchain (by omega) hfile (Or.inr (Or.inl (by omega)))
  have hcut : lin_cut 144 hs.length = 0 := by simp only [lin_cut]; simp; omega
  rw [hcut] at hlin
  have hne : hs ≠ [] := by intro e; rw [e] at hH2; simp at hH2
  obtain ⟨tip0, ht0, hth, hhh⟩ := hlin.tip_node (by simp)
  obtain ⟨l, hl⟩ := get_some hs (hs.length - 1) (by omega)
  rw [last_hash_of_get codec g hs l hl hne] at hth
  have hlen0 := hlin.heap_len
  -- the competing header
  have hatn := hlin.cell (hs.length - 2) hprev hp (Nat.zero_le _)
  have hfind1 : btc_headersdb_find db0 f1.prev_block = some (some (Ptr.node (hs.length - 2))) := by
    rw [hf1]
    exact lin_find hlin hndc _ hprev hp (Nat.zero_le _) (by simp)
  have hne1 : f1.prev_block ≠ tip0.hash := by
    rw [hf1, hth]
    exact nodup_map_index codec.hash hs hndc _ _ hprev l hp hl (by omega)
  have hconn1 := connect_hdr_attach codec db0 b1 f1 tip0 _ (Ptr.node (hs.length - 2))
    load_process write_ok hb1 ht0 hlin.tree_live (Or.inr ⟨hne1, hfind1⟩) hatn hfr
  have hah : (lin_cell codec false 0 (hs.length - 2) hprev).height = hs.length - 1 := by
    simp only [lin_cell]; omega
  rw [hah, hhh, hlen0] at hconn1
  have hmod1 : (hs.length - 1 + 1) % UINT32_MOD = hs.length := by
    rw [Nat.mod_eq_of_lt (by omega)]; omega
  have hct1 : (attached codec db0 f1 (Ptr.node (hs.length - 2)) (hs.length - 1) hs.length
      load_process write_ok).chaintip = db0.chaintip := by
    rw [attached_chaintip, hmod1]
    simp
  have hold1 : ∀ a, a < hs.length →
      deref (attached codec db0 f1 (Ptr.node (hs.length - 2)) (hs.length - 1) hs.length
        load_process write_ok) (Ptr.node a) = deref db0 (Ptr.node a) :=
    fun a ha => deref_attached_old _ _ _ _ _ _ _ _ _ (by omega)
  have hprune1 : prune (attached codec db0 f1 (Ptr.node (hs.length - 2)) (hs.length - 1)
      hs.length load_process write_ok) = some (attached codec db0 f1
      (Ptr.node (hs.length - 2)) (hs.length - 1) hs.length load_process write_ok) := by
    apply prune_id_of_line _ hs.length (by omega)
    · rw [hct1, hlin.tip, if_neg (by omega)]
    · intro a ha0 ha
      obtain ⟨y, hy⟩ := get_some hs a ha
      simp only [prev_at, hold1 a ha, hlin.cell a y hy (Nat.zero_le _), Option.map_some',
        lin_cell, lin_prev]
      simp [Nat.ne_of_gt ha0]
    · obtain ⟨y, hy⟩ := get_some hs 0 (by omega)
      right
      simp only [prev_at, hold1 0 (by omega), hlin.cell 0 y hy (Nat.zero_le _),
        Option.map_some', lin_cell, lin_prev]
      exact ⟨by simp, hlin.gen_prev⟩
    · show db0.max_hdr_in_mem < UINT32_MOD
      rw [hm]; decide
    · show hs.length ≤ db0.max_hdr_in_mem + 2
      rw [hm]; omega
  rw [hprune1] at hconn1
  simp only [Option.map_some'] at hconn1
  -- the state after the competing header
  have hn1 : deref (attached codec db0 f1 (Ptr.node (hs.length - 2)) (hs.length - 1) hs.length
      load_process write_ok) (Ptr.node hs.length)
      = some (linked_node codec f1 (Ptr.node (hs.length - 2)) (hs.length - 1)) := by
    rw [← hlen0]; exact deref_attached_new _ _ _ _ _ _ _ _
  have hlen1 : (attached codec db0 f1 (Ptr.node (hs.length - 2)) (hs.length - 1) hs.length
      load_process write_ok).heap.length = hs.length + 1 := by
    simp [attached, hlen0]
  have hfnone : btc_headersdb_find db0 (codec.hash f1) = some none := by
    simp only [btc_headersdb_find, hlin.use_tree, if_true]
    apply tfind_none
    intro q hq
    obtain ⟨a, rfl, _, ha⟩ := hlin.tree_sub q hq
    obtain ⟨y, hy⟩ := get_some hs a ha
    refine ⟨_, hlin.cell a y hy (Nat.zero_le _), ?_⟩
    simp only [lin_cell]
    intro e
    apply hf1new
    rw [← e]
    exact List.mem_map_of_mem _ (List.getElem?_mem hy)
  have htree1 : (attached codec db0 f1 (Ptr.node (hs.length - 2)) (hs.length - 1) hs.length
      load_process write_ok).tree_root = Ptr.node hs.length :: db0.tree_root := by
    rcases attached_tree codec db0 f1 (Ptr.node (hs.length - 2)) (hs.length - 1) hs.length
      load_process write_ok hlin.use_tree hlin.tree_live with ⟨_, ht⟩ | ⟨⟨p, hf⟩, _⟩
    · rw [ht, hlen0]
    · rw [hfnone] at hf; simp at hf
  have hfind2 : btc_headersdb_find (attached codec db0 f1 (Ptr.node (hs.length - 2))
      (hs.length - 1) hs.length load_process write_ok) f2.prev_block
      = some (some (Ptr.node hs.length)) := by
    have hub : (attached codec db0 f1 (Ptr.node (hs.length - 2)) (hs.length - 1) hs.length
        load_process write_ok).use_binary_tree = true := hlin.use_tree
    simp only [btc_headersdb_find, hub, if_true, htree1, tfind, hn1]
    have hc : btc_header_compare { zero_blockindex with hash := f2.prev_block }
        (linked_node codec f1 (Ptr.node (hs.length - 2)) (hs.length - 1)) = 0 := by
      rw [btc_header_compare_eq_zero]; exact hf2
    simp only [hc, if_true]
  have hne2 : f2.prev_block ≠ tip0.hash := by
    rw [hf2, hth]
    intro e
    apply hf1new
    rw [e]
    exact List.mem_map_of_mem _ (List.getElem?_mem hl)
  have ht1 : deref (attached codec db0 f1 (Ptr.node (hs.length - 2)) (hs.length - 1) hs.length
      load_process write_ok) (attached codec db0 f1 (Ptr.node (hs.length - 2))
      (hs.length - 1) hs.length load_process write_ok).chaintip = some tip0 := by
    rw [hct1]; exact deref_attached_live _ _ _ _ _ _ _ _ ht0
  have hfr1 : file_ready (attached codec db0 f1 (Ptr.node (hs.length - 2)) (hs.length - 1)
      hs.length load_process write_ok) load_process := by
    refine file_ready_of_file hfr rfl ?_
    intro hnn
    rw [attached_file]
    split
    · cases hx : db0.headers_tree_file with
      | none => exact absurd hx hnn
      | some f => simp
    · exact hnn
  obtain ⟨atn, db2, ha1, hconn2, hn2, hct2, _⟩ := connect_attach_closed codec _ b2 f2 tip0
    (Ptr.node hs.length) load_process write_ok hb2 ht1
    (attached_closed codec db0 f1 _ _ _ _ _ (lin_closed hlin) hatn)
    (attached_tree_live codec db0 f1 _ _ _ _ _ hlin.tree_live)
    (by show db0.max_hdr_in_mem < UINT32_MOD; rw [hm]; decide)
    (Or.inr ⟨hne2, hfind2⟩) hfr1
  rw [hn1] at ha1
  simp only [Option.some.injEq] at ha1
  subst ha1
  rw [hlen1] at hconn2 hn2 hct2
  have hah2 : (linked_node codec f1 (Ptr.node (hs.length - 2)) (hs.length - 1)).height
      = hs.length := by simp only [linked_node]; exact hmod1
  rw [hah2] at hn2 hct2
  have hmod2 : (hs.length + 1) % UINT32_MOD = hs.length + 1 := Nat.mod_eq_of_lt (by omega)
  refine ⟨db0, _, db2, tip0, _, _, h1, ht0, hhh, hconn1, hn1, ?_, rfl, hct1, hconn2, hn2, ?_,
    rfl, ?_⟩
  · simp only [linked_node]; exact hmod1
  · simp only [linked_node]; exact hmod2
  · rw [hct2, hmod2, hhh]; simp

theorem fork_handling_witness :
    ∃ db0 db1 db2 tip0 n1 n2,
      connect_all sample_codec false true (btc_headers_db_new (hash_of_nat 0) true)
          (sample_line 2) = some (db0, List.replicate (sample_headers 2).length true)
      ∧ deref db0 db0.chaintip = some tip0 ∧ tip0.height = (sample_headers 2).length
      ∧ btc_headers_db_connect_hdr sample_codec db0 (sample_buf 1 100) false true
          = some (db1, some (Ptr.node (sample_headers 2).length), true)
      ∧ deref db1 (Ptr.node (sample_headers 2).length) = some n1
      ∧ n1.height = (sample_headers 2).length
      ∧ n1.prev = some (Ptr.node ((sample_headers 2).length - 2))
      ∧ db1.chaintip = db0.chaintip
      ∧ btc_headers_db_connect_hdr sample_codec db1 (sample_buf 100 101) false true
          = some (db2, some (Ptr.node ((sample_headers 2).length + 1)), true)
      ∧ deref db2 (Ptr.node ((sample_headers 2).length + 1)) = some n2
      ∧ n2.height = (sample_headers 2).length + 1
      ∧ n2.prev = some (Ptr.node (sample_headers 2).length)
      ∧ db2.chaintip = Ptr.node ((sample_headers 2).length + 1) :=
  fork_handling sample_codec (hash_of_nat 0) true false true (sample_line 2) (sample_headers 2)
    (sample_buf 1 100) (sample_buf 100 101) (sample_header 1 100) (sample_header 100 101)
    (sample_header 0 1) (by decide) (by decide) (by decide) (by decide) (by decide) (by decide)
    (by decide) (by decide) (by decide) (by decide) (by decide)

/-- C3 fails for `H = 1`: after one header has been connected to the fresh database, a
competing header whose `prev_block` is the hash of the block at height 0, the genesis
block, is not connected, because the genesis node is not in the hash index. -/
theorem fork_handling_counterexample :
    (connect_all sample_codec false true (btc_headers_db_new (hash_of_nat 0) true)
        (sample_line 1)).map (fun r => r.2) = some [true]
    ∧ (sample_header 0 100).prev_block = (sample_db 144 1).genesis.hash
    ∧ sample_codec.deserialize (sample_buf 0 100) = some (sample_header 0 100)
    ∧ (btc_headers_db_connect_hdr sample_codec (sample_db 144 1) (sample_buf 0 100)
        false true).map (fun r => r.2.2) = some false := by
  decide

/-! ## The block locator -/

theorem locator_loop_spec (db : btc_headers_db) :
    ∀ (k : Nat) (p : Ptr) (path : List Ptr) (v : List btc_uint256),
      is_prev_chain db p path →
      ∃ hs, locator_loop k db p v = some (v ++ hs)
        ∧ hs.map some = (path.take k).map (hash_at db)
        ∧ hs.length = min k path.length := by
  intro k
  induction k with
  | zero => intro p path v _; exact ⟨[], by simp [locator_loop], by simp, by simp⟩
  | succ k ih =>
    intro p path v hpath
    match path, hpath with
    | [q], ⟨hq, hp⟩ =>
      subst hq
      unfold prev_at at hp
      cases hd : deref db q with
      | none => simp [hd] at hp
      | some st =>
        simp only [hd, Option.map_some', Option.some.injEq] at hp
        exact ⟨[st.hash], by simp [locator_loop, hd, hp], by simp [hash_at, hd], by simp⟩
    | q :: r :: rs, ⟨hq, hp, hrest⟩ =>
      subst hq
      unfold prev_at at hp
      cases hd : deref db q with
      | none => simp [hd] at hp
      | some st =>
        simp only [hd, Option.map_some', Option.some.injEq] at hp
        obtain ⟨hs, h1, h2, h3⟩ := ih r (r :: rs) (v ++ [st.hash]) hrest
        refine ⟨st.hash :: hs, ?_, ?_, ?_⟩
        · simp only [locator_loop, hd, hp, h1, List.append_assoc, List.singleton_append]
        · simp only [List.map_cons, List.take_succ_cons, h2, hash_at, hd, Option.map_some']
        · simp only [List.length_cons, h3]
          omega

/-- C9: `btc_headers_db_fill_block_locator` appends nothing when the chain tip has height 0;
otherwise it appends the hashes of the first `min 10 n` nodes of the prev-chain of the
chain tip, tip first, where `n` is the number of nodes of that chain.  For a fresh
database with three headers connected in a line it appends exactly four hashes: those of
the headers at heights 3, 2 and 1 and the genesis hash. -/
theorem fill_block_locator_spec (db : btc_headers_db) (tip : btc_blockindex)
    (v : List btc_uint256) (path : List Ptr) (codec : Codec) (g : btc_uint256)
    (inmem_only load_process write_ok : Bool) (b1 b2 b3 : List Byte)
    (h1 h2 h3 : btc_block_header)
    (htip : deref db db.chaintip = some tip) :
    (tip.height = 0 → btc_headers_db_fill_block_locator db v = some v)
    ∧ (0 < tip.height → is_prev_chain db db.chaintip path →
        ∃ hs, btc_headers_db_fill_block_locator db v = some (v ++ hs)
          ∧ hs.map some = (path.take 10).map (hash_at db)
          ∧ hs.length = min 10 path.length)
    ∧ ([b1, b2, b3].map codec.deserialize = [h1, h2, h3].map some →
        chain_from codec g [h1, h2, h3] →
        (inmem_only = true ∨ load_process = true) →
        ∃ db3, connect_all codec load_process write_ok (btc_headers_db_new g inmem_only)
            [b1, b2, b3] = some (db3, [true, true, true])
          ∧ btc_headers_db_fill_block_locator db3 v
              = some (v ++ [codec.hash h3, codec.hash h2, codec.hash h1, g])) := by
  refine ⟨?_, ?_, ?_⟩
  · intro h0
    simp [btc_headers_db_fill_block_locator, htip, h0]
  · intro hpos hpath
    simp only [btc_headers_db_fill_block_locator, htip, hpos, if_true]
    exact locator_loop_spec db 10 db.chaintip path v hpath
  · intro hdec hchain hfile
    obtain ⟨db3, hc, hlin, _, _⟩ := lin_run_fresh codec g inmem_only load_process write_ok 144
      [b1, b2, b3] [h1, h2, h3] (by decide) hdec hchain
      (by show 3 < UINT32_MOD; decide) hfile
      (Or.inr (Or.inl (by show 3 ≤ 144 + 2; decide)))
    have hcut : lin_cut 144 [h1, h2, h3].length = 0 := by simp [lin_cut]
    rw [hcut] at hlin
    refine ⟨db3, hc, ?_⟩
    have c0 : deref db3 (Ptr.node 0) = some ⟨1, codec.hash h1, h1, some Ptr.genesis⟩ :=
      hlin.cell 0 h1 rfl (le_refl _)
    have c1 : deref db3 (Ptr.node 1) = some ⟨2, codec.hash h2, h2, some (Ptr.node 0)⟩ :=
      hlin.cell 1 h2 rfl (Nat.zero_le _)
    have c2 : deref db3 (Ptr.node 2) = some ⟨3, codec.hash h3, h3, some (Ptr.node 1)⟩ :=
      hlin.cell 2 h3 rfl (Nat.zero_le _)
    have ht : db3.chaintip = Ptr.node 2 := hlin.tip
    have hg : deref db3 Ptr.genesis = some db3.genesis := rfl
    simp only [btc_headers_db_fill_block_locator, ht, c2, locator_loop, c1,
      c0, hg, hlin.gen_prev, hlin.gen_hash]
    simp

theorem fill_block_locator_spec_witness :
    btc_headers_db_fill_block_locator (sample_db 144 0) [] = some []
    ∧ (∃ hs, btc_headers_db_fill_block_locator (sample_db 144 3) [] = some ([] ++ hs)
        ∧ hs.map some
            = ([Ptr.node 2, Ptr.node 1, Ptr.node 0, Ptr.genesis].take 10).map
                (hash_at (sample_db 144 3))
        ∧ hs.length = min 10 [Ptr.node 2, Ptr.node 1, Ptr.node 0, Ptr.genesis].length)
    ∧ (∃ db3, connect_all sample_codec false true (btc_headers_db_new (hash_of_nat 0) true)
          [sample_buf 0 1, sample_buf 1 2, sample_buf 2 3] = some (db3, [true, true, true])
        ∧ btc_headers_db_fill_block_locator db3 []
            = some ([] ++ [sample_codec.hash (sample_header 2 3),
                sample_codec.hash (sample_header 1 2), sample_codec.hash (sample_header 0 1),
                hash_of_nat 0])) :=
  have h := fill_block_locator_spec (sample_db 144 3)
    ⟨3, hash_of_nat 3, sample_header 2 3, some (Ptr.node 1)⟩ []
    [Ptr.node 2, Ptr.node 1, Ptr.node 0, Ptr.genesis] sample_codec (hash_of_nat 0) true false
    true (sample_buf 0 1) (sample_buf 1 2) (sample_buf 2 3) (sample_header 0 1)
    (sample_header 1 2) (sample_header 2 3) (by decide)
  ⟨(fill_block_locator_spec (sample_db 144 0) (sample_db 144 0).genesis []
      [] sample_codec (hash_of_nat 0) true false true [] [] [] zero_header zero_header
      zero_header (by decide)).1 (by decide),
    h.2.1 (by decide) (by decide), h.2.2 (by decide) (by decide) (by decide)⟩

/-! ## Pruning disabled -/

theorem attached_tree_sup (codec : Codec) (db : btc_headers_db) (hdr : btc_block_header)
    (c : Ptr) (x y : Nat) (l w : Bool) :
    ∀ p ∈ db.tree_root, p ∈ (attached codec db hdr c x y l w).tree_root := by
  intro p hp
  simp only [attached]
  split
  · split
    · exact List.mem_cons_of_mem _ hp
    · exact hp
  · exact hp

/-- With `max_hdr_in_mem = 0` a call of `btc_headers_db_connect_hdr` is defined on every
state whose chain tip and tree keys are live, keeps every key of the tree, leaves every
live node as it is and does not move the chain bottom. -/
theorem connect_no_prune_frame (codec : Codec) (db : btc_headers_db) (buf : List Byte)
    (tip : btc_blockindex) (load_process write_ok : Bool)
    (hm : db.max_hdr_in_mem = 0)
    (htip : deref db db.chaintip = some tip)
    (htl : tree_live db)
    (hfile : file_ready db load_process) :
    ∃ db1 r c, btc_headers_db_connect_hdr codec db buf load_process write_ok = some (db1, r, c)
      ∧ (∀ p ∈ db.tree_root, p ∈ db1.tree_root)
      ∧ (∀ p n, deref db p = some n → deref db1 p = some n)
      ∧ db1.chainbottom = db.chainbottom := by
  have hkeep : ∀ (x : btc_blockindex) p n, deref db p = some n →
      deref { db with heap := db.heap ++ [some x] } p = some n :=
    fun x p n h =>
      @deref_push db { db with heap := db.heap ++ [some x] } (some x) rfl rfl p n h
  cases hdec : codec.deserialize buf with
  | none =>
    refine ⟨(btc_calloc db).1, none, false, by simp [btc_headers_db_connect_hdr, hdec],
      fun p hp => hp, hkeep _, rfl⟩
  | some hdr =>
    have hatt : ∀ connect_at atn, deref db connect_at = some atn →
        ((hdr.prev_block = tip.hash ∧ connect_at = db.chaintip)
          ∨ (hdr.prev_block ≠ tip.hash
            ∧ btc_headersdb_find db hdr.prev_block = some (some connect_at))) →
        ∃ db1 r c, btc_headers_db_connect_hdr codec db buf load_process write_ok
            = some (db1, r, c)
          ∧ (∀ p ∈ db.tree_root, p ∈ db1.tree_root)
          ∧ (∀ p n, deref db p = some n → deref db1 p = some n)
          ∧ db1.chainbottom = db.chainbottom := by
      intro connect_at atn hatn hsel
      have hconn := connect_hdr_attach codec db buf hdr tip atn connect_at load_process write_ok
        hdec htip htl hsel hatn hfile
      have hp : prune (attached codec db hdr connect_at atn.height tip.height load_process
          write_ok) = some (attached codec db hdr connect_at atn.height tip.height load_process
          write_ok) := by
        have : (attached codec db hdr connect_at atn.height tip.height load_process
          write_ok).max_hdr_in_mem = 0 := hm
        simp [prune, this]
      rw [hp] at hconn
      exact ⟨_, _, _, hconn, attached_tree_sup _ _ _ _ _ _ _ _,
        fun p n h => deref_attached_live _ _ _ _ _ _ _ _ h, rfl⟩
    by_cases hpt : hdr.prev_block = tip.hash
    · exact hatt db.chaintip tip htip (Or.inl ⟨hpt, rfl⟩)
    · obtain ⟨r, hr⟩ : ∃ r, btc_headersdb_find db hdr.prev_block = some r := by
        simp only [btc_headersdb_find]
        split
        · exact tfind_defined _ _ htl
        · exact ⟨none, rfl⟩
      cases r with
      | none =>
        exact ⟨_, _, _, connect_unconnected_eq codec db buf hdr tip load_process write_ok hdec
          htip htl hpt hr, fun p hp => hp, hkeep _, rfl⟩
      | some c =>
        have hc : ∃ atn, deref db c = some atn := by
          simp only [btc_headersdb_find] at hr
          split at hr
          · obtain ⟨_, n, hn, _⟩ := tfind_some hr
            exact ⟨n, hn⟩
          · simp at hr
        obtain ⟨atn, hatn⟩ := hc
        exact hatt c atn hatn (Or.inr ⟨hpt, hr⟩)

/-- The prev-chain from the tip of a line of `n` heap cells: `j` steps lead to cell
`n - 1 - j`, and to the genesis node once the cells are used up. -/
theorem line_nth_prev (db : btc_headers_db) (n : Nat) (hn : 0 < n)
    (hcells : ∀ a, 0 < a → a < n → prev_at db (Ptr.node a) = some (some (Ptr.node (a - 1))))
    (h0 : prev_at db (Ptr.node 0) = some (some Ptr.genesis))
    (hg : db.genesis.prev = none) :
    ∀ j, nth_prev db (Ptr.node (n - 1)) j
      = if j < n then Ptr.node (n - 1 - j) else Ptr.genesis := by
  intro j
  induction j with
  | zero => simp [nth_prev, hn]
  | succ j ih =>
    simp only [nth_prev, ih]
    by_cases hj : j + 1 < n
    · have hj0 : j < n := by omega
      rw [if_pos hj0, if_pos hj, hcells (n - 1 - j) (by omega) (by omega)]
      have : n - 1 - j - 1 = n - 1 - (j + 1) := by omega
      simp [this]
    · rw [if_neg hj]
      by_cases hj0 : j < n
      · have : n - 1 - j = 0 := by omega
        rw [if_pos hj0, this, h0]
      · rw [if_neg hj0]
        simp [prev_at, deref, hg]

theorem lin_find_some {codec : Codec} {g : btc_uint256} {replay : Bool} {cut : Nat}
    {hs : List btc_block_header} {db : btc_headers_db} (hlin : LinC codec g replay cut hs db)
    (a : Nat) (h : btc_block_header)
    (ha : hs[a]? = some h) (hca : cut ≤ a) (hr : replay = true → 1 ≤ a) :
    ∃ p n, btc_headersdb_find db (codec.hash h) = some (some p)
      ∧ deref db p = some n ∧ n.hash = codec.hash h := by
  simp only [btc_headersdb_find, hlin.use_tree, if_true]
  obtain ⟨r, hr1⟩ := tfind_defined { zero_blockindex with hash := codec.hash h } db.tree_root
    hlin.tree_live
  rw [hr1]
  cases r with
  | none =>
    exfalso
    obtain ⟨p, hp, e⟩ := hlin.tree_cover a h ha hca hr
    exact tfind_none_hash hr1 p hp e
  | some q =>
    obtain ⟨_, n, hn, hnh⟩ := tfind_some hr1
    exact ⟨q, n, rfl, hn, hnh⟩

theorem lin_prev_at {codec : Codec} {g : btc_uint256}
    {hs : List btc_block_header} {db : btc_headers_db} (hlin : LinC codec g false 0 hs db) :
    (∀ a, 0 < a → a < hs.length → prev_at db (Ptr.node a) = some (some (Ptr.node (a - 1))))
    ∧ (0 < hs.length → prev_at db (Ptr.node 0) = some (some Ptr.genesis)) := by
  constructor
  · intro a ha0 ha
    obtain ⟨y, hy⟩ := get_some hs a ha
    simp only [prev_at, hlin.cell a y hy (Nat.zero_le _), Option.map_some', lin_cell, lin_prev]
    simp [Nat.ne_of_gt ha0]
  · intro hn
    obtain ⟨y, hy⟩ := get_some hs 0 hn
    simp only [prev_at, hlin.cell 0 y hy (Nat.zero_le _), Option.map_some', lin_cell, lin_prev]
    simp

/-- C8, for lines of fewer than 2^32 headers.  With `max_hdr_in_mem = 0` a call of
`btc_headers_db_connect_hdr` removes no key from the hash index, changes no live node (so
it unsets no `prev`) and leaves the chain bottom unchanged, on every state whose chain tip
and tree keys are live.  After a line of headers has been connected to a fresh database
with `max_hdr_in_mem = 0`, every header is found by `btc_headersdb_find` and its node is
reached from the chain tip through `prev`. -/
theorem no_prune_when_zero (codec : Codec) (db : btc_headers_db) (buf : List Byte)
    (tip : btc_blockindex) (load_process write_ok : Bool) (g : btc_uint256)
    (inmem_only : Bool) (bufs : List (List Byte)) (hs : List btc_block_header) :
    (db.max_hdr_in_mem = 0 → deref db db.chaintip = some tip → tree_live db →
      file_ready db load_process →
      ∃ db1 r c, btc_headers_db_connect_hdr codec db buf load_process write_ok
          = some (db1, r, c)
        ∧ (∀ p ∈ db.tree_root, p ∈ db1.tree_root)
        ∧ (∀ p n, deref db p = some n → deref db1 p = some n)
        ∧ db1.chainbottom = db.chainbottom)
    ∧ (bufs.map codec.deserialize = hs.map some → chain_from codec g hs →
      hs.length < UINT32_MOD → (inmem_only = true ∨ load_process = true) →
      ∃ db1, connect_all codec load_process write_ok
          { btc_headers_db_new g inmem_only with max_hdr_in_mem := 0 } bufs
            = some (db1, List.replicate hs.length true)
        ∧ db1.chainbottom = Ptr.genesis
        ∧ ∀ i h, hs[i]? = some h →
            (∃ p n, btc_headersdb_find db1 (codec.hash h) = some (some p)
              ∧ deref db1 p = some n ∧ n.hash = codec.hash h)
            ∧ (∃ j n, nth_prev db1 db1.chaintip j = Ptr.node i
              ∧ deref db1 (Ptr.node i) = some n ∧ n.header = h ∧ n.height = i + 1)) := by
  constructor
  · intro hm htip htl hfile
    exact connect_no_prune_frame codec db buf tip load_process write_ok hm htip htl hfile
  · intro hdec hchain hN hfile
    obtain ⟨db1, h1, hlin, _, _⟩ := lin_run_fresh codec g inmem_only load_process write_ok 0
      bufs hs (by decide) hdec hchain hN hfile (Or.inl rfl)
    have hcut : lin_cut 0 hs.length = 0 := by simp [lin_cut]
    rw [hcut] at hlin
    refine ⟨db1, h1, by rw [hlin.bottom]; rfl, ?_⟩
    intro i h hi
    have hil : i < hs.length := by
      by_contra hc
      rw [List.getElem?_eq_none (by omega)] at hi
      simp at hi
    refine ⟨lin_find_some hlin i h hi (Nat.zero_le _) (by simp), hs.length - 1 - i, _, ?_,
      hlin.cell i h hi (Nat.zero_le _), rfl, rfl⟩
    obtain ⟨hc1, hc0⟩ := lin_prev_at hlin
    rw [hlin.tip, if_neg (by omega),
      line_nth_prev db1 hs.length (by omega) hc1 (hc0 (by omega)) hlin.gen_prev,
      if_pos (by omega)]
    congr 1
    omega

theorem no_prune_when_zero_witness :
    (∃ db1 r c, btc_headers_db_connect_hdr sample_codec (sample_db 0 2) (sample_buf 2 3)
          false true = some (db1, r, c)
        ∧ (∀ p ∈ (sample_db 0 2).tree_root, p ∈ db1.tree_root)
        ∧ (∀ p n, deref (sample_db 0 2) p = some n → deref db1 p = some n)
        ∧ db1.chainbottom = (sample_db 0 2).chainbottom)
    ∧ (∃ db1, connect_all sample_codec false true
          { btc_headers_db_new (hash_of_nat 0) true with max_hdr_in_mem := 0 } (sample_line 3)
            = some (db1, List.replicate (sample_headers 3).length true)
        ∧ db1.chainbottom = Ptr.genesis
        ∧ ∀ i h, (sample_headers 3)[i]? = some h →
            (∃ p n, btc_headersdb_find db1 (sample_codec.hash h) = some (some p)
              ∧ deref db1 p = some n ∧ n.hash = sample_codec.hash h)
            ∧ (∃ j n, nth_prev db1 db1.chaintip j = Ptr.node i
              ∧ deref db1 (Ptr.node i) = some n ∧ n.header = h ∧ n.height = i + 1)) :=
  have h := no_prune_when_zero sample_codec (sample_db 0 2) (sample_buf 2 3)
    ⟨2, hash_of_nat 2, sample_header 1 2, some (Ptr.node 0)⟩ false true (hash_of_nat 0) true
    (sample_line 3) (sample_headers 3)
  ⟨h.1 (by decide) (by decide) (by decide) (by decide),
    h.2 (by decide) (by decide) (by decide) (by decide)⟩

theorem sample_overflow_zero (N : Nat) (hN : N = UINT32_MOD) :
    ∃ db1, connect_all sample_codec false true
        { btc_headers_db_new (hash_of_nat 0) true with max_hdr_in_mem := 0 } (sample_line N)
          = some (db1, List.replicate N true)
      ∧ (deref db1 (Ptr.node (N - 1))).map (fun x => x.header)
          = some (sample_header (N - 1) N)
      ∧ (deref db1 (Ptr.node (N - 1))).map (fun x => x.height) = some 0
      ∧ ∀ j, nth_prev db1 db1.chaintip j ≠ Ptr.node (N - 1) := by
  obtain ⟨n, rfl⟩ : ∃ n, N = n + 1 := ⟨N - 1, by unfold UINT32_MOD at hN; omega⟩
  have hlen : (sample_headers n).length = n := by simp [sample_headers]
  have hn2 : n = 4294967295 := by unfold UINT32_MOD at hN; omega
  obtain ⟨db0, h1, hlin, hm, hfr⟩ := lin_run_fresh sample_codec (hash_of_nat 0) true false true
    0 (sample_line n) (sample_headers n) (by decide) (sample_line_decodes n) (sample_chain n)
    (by rw [hlen]; unfold UINT32_MOD; omega) (Or.inl rfl) (Or.inl rfl)
  have hcut : lin_cut 0 (sample_headers n).length = 0 := by simp [lin_cut]
  rw [hcut] at hlin
  rw [hlen] at h1
  obtain ⟨tip, htip, hth, hht⟩ := hlin.tip_node (by simp)
  have hconn := connect_hdr_attach sample_codec db0 (sample_buf n (n + 1))
    (sample_header n (n + 1)) tip tip db0.chaintip false true (sample_deserialize n (n + 1))
    htip hlin.tree_live
    (Or.inl ⟨by rw [hth, sample_last_hash]; rfl, rfl⟩) htip hfr
  rw [hht, hlin.heap_len, hlen] at hconn
  have hp : prune (attached sample_codec db0 (sample_header n (n + 1)) db0.chaintip n n false
      true) = some (attached sample_codec db0 (sample_header n (n + 1)) db0.chaintip n n false
      true) := by
    have : (attached sample_codec db0 (sample_header n (n + 1)) db0.chaintip n n false
      true).max_hdr_in_mem = 0 := hm
    simp [prune, this]
  rw [hp] at hconn
  have hmod : (n + 1) % UINT32_MOD = 0 := by rw [hN]; exact Nat.mod_self _
  have hnew : deref (attached sample_codec db0 (sample_header n (n + 1)) db0.chaintip n n false
      true) (Ptr.node n)
      = some (linked_node sample_codec (sample_header n (n + 1)) db0.chaintip n) := by
    have := deref_attached_new sample_codec db0 (sample_header n (n + 1)) db0.chaintip n n false
      true
    rw [hlin.heap_len, hlen] at this
    exact this
  have hct : (attached sample_codec db0 (sample_header n (n + 1)) db0.chaintip n n false
      true).chaintip = Ptr.node (n - 1) := by
    have hn0 : n ≠ 0 := by omega
    rw [attached_chaintip, hmod, hlin.tip, hlen, if_neg hn0]
    simp
  have hold : ∀ a, a < n →
      prev_at (attached sample_codec db0 (sample_header n (n + 1)) db0.chaintip n n false true)
        (Ptr.node a) = prev_at db0 (Ptr.node a) := by
    intro a ha
    simp only [prev_at]
    rw [deref_attached_old _ _ _ _ _ _ _ _ _ (by rw [hlin.heap_len, hlen]; exact ha)]
  obtain ⟨hc1, hc0⟩ := lin_prev_at hlin
  rw [hlen] at hc1 hc0
  refine ⟨attached sample_codec db0 (sample_header n (n + 1)) db0.chaintip n n false true,
    ?_, ?_, ?_, ?_⟩
  · rw [sample_line_succ, connect_all_append, h1]
    simp only [Option.some_bind, connect_all, hconn, Option.map_some', List.replicate_succ']
  · simp only [Nat.add_sub_cancel, hnew, Option.map_some', linked_node]
  · simp only [Nat.add_sub_cancel, hnew, Option.map_some', linked_node, hmod]
  · intro j
    have hline := line_nth_prev
      (attached sample_codec db0 (sample_header n (n + 1)) db0.chaintip n n false true) n
      (by omega) (fun a h0 ha => by rw [hold a ha]; exact hc1 a h0 ha)
      (by rw [hold 0 (by omega)]; exact hc0 (by omega)) hlin.gen_prev j
    rw [hct, hline]
    split
    · simp only [Nat.add_sub_cancel, ne_eq, Ptr.node.injEq]
      omega
    · simp

/-- C8 fails for a line of 2^32 headers: with `max_hdr_in_mem = 0` every header of the
sample line of `wrap_count` = 2^32 headers connects, but the node of the last header gets
height 0, does not become the chain tip, and is not reached from the chain tip through
`prev`. -/
theorem no_prune_overflow :
    wrap_count = 4294967296
    ∧ chain_from sample_codec (hash_of_nat 0) (sample_headers wrap_count)
    ∧ (sample_line wrap_count).map sample_codec.deserialize
        = (sample_headers wrap_count).map some
    ∧ ∃ db1, connect_all sample_codec false true
          { btc_headers_db_new (hash_of_nat 0) true with max_hdr_in_mem := 0 }
          (sample_line wrap_count) = some (db1, List.replicate wrap_count true)
        ∧ (deref db1 (Ptr.node (wrap_count - 1))).map (fun x => x.header)
            = some (sample_header (wrap_count - 1) wrap_count)
        ∧ (deref db1 (Ptr.node (wrap_count - 1))).map (fun x => x.height) = some 0
        ∧ ∀ j, nth_prev db1 db1.chaintip j ≠ Ptr.node (wrap_count - 1) :=
  ⟨wrap_count_eq, sample_chain _, sample_line_decodes _,
    sample_overflow_zero wrap_count wrap_count_eq⟩

set_option maxRecDepth 100000 in
/-- C5 fails for a sequence with a fork: after the sample fork has been connected (all four
headers connect) the chain tip is header 101 at height 3; the database loaded from the log
has its chain tip at header 2, height 2, because the first record becomes an anchor that is
not in the hash index, so that header 100 no longer finds its parent. -/
theorem persistence_fork_counterexample :
    (btc_headers_db_load sample_codec (btc_headers_db_new (hash_of_nat 0) false) none
        true).bind (fun r => (connect_all sample_codec false true r.1 sample_fork).map
          (fun r1 => r1.2)) = some [true, true, true, true]
    ∧ (deref (sample_persisted sample_fork) (sample_persisted sample_fork).chaintip).map
        (fun n => (n.hash, n.height)) = some (hash_of_nat 101, 3)
    ∧ (sample_reloaded sample_fork).map (fun r => r.2) = some 1
    ∧ (sample_reloaded sample_fork).bind (fun r => (deref r.1 r.1.chaintip).map
        (fun n => (n.hash, n.height))) = some (hash_of_nat 2, 2) := by
  decide

/-! ## Failures of the header codec -/

/-- C20: when the buffer does not deserialize, `btc_headers_db_connect_hdr` returns `NULL`
with `connected = false`; chain tip, chain bottom, the hash index and the log are
unchanged, and so is every node (the only change is the cell allocated for the header,
which is left zeroed). -/
theorem connect_hdr_deser_failure (codec : Codec) (db : btc_headers_db) (buf : List Byte)
    (load_process write_ok : Bool) (hdec : codec.deserialize buf = none) :
    ∃ db1, btc_headers_db_connect_hdr codec db buf load_process write_ok
        = some (db1, none, false)
      ∧ db1.chaintip = db.chaintip ∧ db1.chainbottom = db.chainbottom
      ∧ db1.tree_root = db.tree_root ∧ db1.headers_tree_file = db.headers_tree_file
      ∧ db1.file_ahead = db.file_ahead
      ∧ db1.genesis = db.genesis
      ∧ db1.heap = db.heap ++ [some zero_blockindex]
      ∧ (∀ p n, deref db p = some n → deref db1 p = some n) := by
  refine ⟨(btc_calloc db).1, ?_, rfl, rfl, rfl, rfl, rfl, rfl, rfl, ?_⟩
  · simp only [btc_headers_db_connect_hdr, hdec]
  · intro p n h
    exact @deref_push db (btc_calloc db).1 (some zero_blockindex) rfl rfl p n h

/-- Witness for C20: the empty buffer is not a header for the sample codec. -/
theorem connect_hdr_deser_failure_witness :
    ∃ db1, btc_headers_db_connect_hdr sample_codec (sample_db 144 2) [] false true
        = some (db1, none, false)
      ∧ db1.chaintip = (sample_db 144 2).chaintip
      ∧ db1.chainbottom = (sample_db 144 2).chainbottom
      ∧ db1.tree_root = (sample_db 144 2).tree_root
      ∧ db1.headers_tree_file = (sample_db 144 2).headers_tree_file
      ∧ db1.file_ahead = (sample_db 144 2).file_ahead
      ∧ db1.genesis = (sample_db 144 2).genesis
      ∧ db1.heap = (sample_db 144 2).heap ++ [some zero_blockindex]
      ∧ (∀ p n, deref (sample_db 144 2) p = some n → deref db1 p = some n) :=
  connect_hdr_deser_failure sample_codec (sample_db 144 2) [] false true (by decide)

/-! ## The file header -/

/-- C13: with persistence enabled, `btc_headers_db_load` returns 0 on an existing log that is
shorter than 8 octets or does not start with the magic octets A8 F0 11 C5, and changes
nothing but the stream handle (the stream is at offset 0 when the size test fails and
behind the octets read otherwise); the header that it writes when it creates the log is
A8 F0 11 C5 01 00 00 00, and a log that consists of this header is accepted (the call
returns 1) when it is opened again. -/
theorem load_header_validation (codec : Codec) (db : btc_headers_db) (content : List Byte)
    ( fopen_ok : Bool)
    (hrw : db.read_write_file = true)
    (hbad : content.length < 8 ∨ content.take 4 ≠ file_hdr_magic)
    (hopen : 8 ≤ content.length → fopen_ok = true) :
    btc_headers_db_load codec db (some content) fopen_ok
      = some ({ db with
                headers_tree_file :=
                  if fopen_ok then
                    some (content.take (if content.length % UINT32_MOD < 8 then 0 else 8))
                  else none
                file_ahead :=
                  content.drop (if content.length % UINT32_MOD < 8 then 0 else 8) }, 0)
    ∧ ∀ tip, deref db db.chaintip = some tip →
        btc_headers_db_load codec db none true
          = some ({ db with
                    headers_tree_file := some [0xA8, 0xF0, 0x11, 0xC5, 1, 0, 0, 0]
                    file_ahead := [] }, 1)
        ∧ btc_headers_db_load codec db (some [0xA8, 0xF0, 0x11, 0xC5, 1, 0, 0, 0]) true
          = some ({ db with
                    headers_tree_file := some [0xA8, 0xF0, 0x11, 0xC5, 1, 0, 0, 0]
                    file_ahead := [] }, 1) := by
  have hrw1 : (!db.read_write_file) = false := by rw [hrw]; rfl
  refine ⟨?_, ?_⟩
  · unfold btc_headers_db_load
    simp only [hrw1, Bool.false_eq_true, if_false]
    by_cases h8 : content.length % UINT32_MOD < 8
    · simp only [h8, if_true, open_log, List.take_zero, List.drop_zero]
    · have hge : 8 ≤ content.length := by
        by_contra hlt
        have hlt1 : content.length < 8 := by omega
        have hltm : content.length < UINT32_MOD := by unfold UINT32_MOD; omega
        rw [Nat.mod_eq_of_lt hltm] at h8
        exact h8 hlt1
      have ho := hopen hge
      subst ho
      have hmag : content.take 4 ≠ file_hdr_magic := by
        rcases hbad with h | h
        · omega
        · exact h
      simp only [h8, if_false, Bool.not_true, Bool.false_eq_true, hmag, ne_eq,
        not_false_eq_true, or_true, if_true, open_log, stream_read, Option.map_some',
        List.nil_append]
  · intro tip htip
    refine ⟨?_, ?_⟩
    · unfold btc_headers_db_load
      simp only [hrw1, Bool.false_eq_true, if_false, if_true, htip]
      rfl
    · have h1 : ¬ ([0xA8, 0xF0, 0x11, 0xC5, 1, 0, 0, 0] : List Byte).length % UINT32_MOD < 8 := by
        decide
      have h2 : ¬ (([0xA8, 0xF0, 0x11, 0xC5, 1, 0, 0, 0] : List Byte).length < 8
          ∨ ([0xA8, 0xF0, 0x11, 0xC5, 1, 0, 0, 0] : List Byte).take 4 ≠ file_hdr_magic) := by
        decide
      have h3 : ¬ (([0xA8, 0xF0, 0x11, 0xC5, 1, 0, 0, 0] : List Byte).getD 4 0).val
          > current_version := by decide
      have h4 : load_records codec ([0xA8, 0xF0, 0x11, 0xC5, 1, 0, 0, 0] : List Byte).length
          (stream_read (open_log db [0xA8, 0xF0, 0x11, 0xC5, 1, 0, 0, 0] true) 8) true
          = some ({ db with
                    headers_tree_file := some [0xA8, 0xF0, 0x11, 0xC5, 1, 0, 0, 0]
                    file_ahead := [] }, none) := by
        simp [load_records, stream_read, open_log]
      have h5 : deref { db with headers_tree_file := some [0xA8, 0xF0, 0x11, 0xC5, 1, 0, 0, 0]
                                file_ahead := [] }
          db.chaintip = some tip := htip
      unfold btc_headers_db_load
      simp only [hrw1, Bool.false_eq_true, if_false, h1, h2, h3, Bool.not_true, if_true, h4, h5]

/-- Witness for C13: a log of two octets is rejected by a fresh database. -/
theorem load_header_validation_witness :
    btc_headers_db_load sample_codec (btc_headers_db_new (hash_of_nat 0) false)
        (some [0xA8, 0xF0]) true
      = some ({ btc_headers_db_new (hash_of_nat 0) false with
                headers_tree_file :=
                  if true then
                    some (([0xA8, 0xF0] : List Byte).take
                      (if ([0xA8, 0xF0] : List Byte).length % UINT32_MOD < 8 then 0 else 8))
                  else none
                file_ahead :=
                  ([0xA8, 0xF0] : List Byte).drop
                    (if ([0xA8, 0xF0] : List Byte).length % UINT32_MOD < 8 then 0 else 8) }, 0)
    ∧ ∀ tip, deref (btc_headers_db_new (hash_of_nat 0) false)
          (btc_headers_db_new (hash_of_nat 0) false).chaintip = some tip →
        btc_headers_db_load sample_codec (btc_headers_db_new (hash_of_nat 0) false) none true
          = some ({ btc_headers_db_new (hash_of_nat 0) false with
                    headers_tree_file := some [0xA8, 0xF0, 0x11, 0xC5, 1, 0, 0, 0]
                    file_ahead := [] }, 1)
        ∧ btc_headers_db_load sample_codec (btc_headers_db_new (hash_of_nat 0) false)
            (some [0xA8, 0xF0, 0x11, 0xC5, 1, 0, 0, 0]) true
          = some ({ btc_headers_db_new (hash_of_nat 0) false with
                    headers_tree_file := some [0xA8, 0xF0, 0x11, 0xC5, 1, 0, 0, 0]
                    file_ahead := [] }, 1) :=
  load_header_validation sample_codec (btc_headers_db_new (hash_of_nat 0) false)
    [0xA8, 0xF0] true rfl (Or.inl (by decide)) (fun h => absurd h (by decide))

/-! ## The version check -/

/-- The version check of `btc_headers_db_load` looks at the octet at offset 4 only: a log
with the magic octets is rejected for its version exactly when that octet is above 1,
whatever the three octets after it are. -/
theorem load_version_check (codec : Codec) (db : btc_headers_db) (content : List Byte)
    (hrw : db.read_write_file = true) (h8 : 8 ≤ content.length)
    (hlen : content.length < UINT32_MOD) (hmagic : content.take 4 = file_hdr_magic) :
    ((content.getD 4 0).val > 1 →
      btc_headers_db_load codec db (some content) true
        = some (stream_read (open_log db content true) 8, 0))
    ∧ ((content.getD 4 0).val ≤ 1 →
      btc_headers_db_load codec db (some content) true
        = match load_records codec content.length
              (stream_read (open_log db content true) 8) true with
          | none => none
          | some (db2, some r) => some (db2, r)
          | some (db2, none) =>
            match deref db2 db2.chaintip with
            | none => none
            | some _ => some (db2, 1)) := by
  have hrw1 : (!db.read_write_file) = false := by rw [hrw]; rfl
  have h1 : ¬ content.length % UINT32_MOD < 8 := by rw [Nat.mod_eq_of_lt hlen]; omega
  have h2 : ¬ (content.length < 8 ∨ content.take 4 ≠ file_hdr_magic) := by
    rintro (h | h)
    · omega
    · exact h hmagic
  refine ⟨?_, ?_⟩
  · intro hv
    have h3 : (content.getD 4 0).val > current_version := hv
    unfold btc_headers_db_load
    simp only [hrw1, Bool.false_eq_true, if_false, h1, h2, h3, Bool.not_true, if_true]
  · intro hv
    have h3 : ¬ (content.getD 4 0).val > current_version := by
      show ¬ (content.getD 4 0).val > 1
      omega
    unfold btc_headers_db_load
    simp only [hrw1, Bool.false_eq_true, if_false, h1, h2, h3, Bool.not_true, if_true] <;> rfl

/-- C12 fails on the code: the log A8 F0 11 C5 00 01 00 00 stores the version 256 as a
little-endian `uint32_t`, which is above the supported version 1, and
`btc_headers_db_load` accepts it, returning 1. -/
theorem load_accepts_version_256 :
    deser_u32 [0x00, 0x01, 0x00, 0x00] = 256
    ∧ current_version = 1
    ∧ btc_headers_db_load sample_codec (btc_headers_db_new (hash_of_nat 0) false)
        (some [0xA8, 0xF0, 0x11, 0xC5, 0x00, 0x01, 0x00, 0x00]) true
      = some ({ btc_headers_db_new (hash_of_nat 0) false with
                headers_tree_file := some [0xA8, 0xF0, 0x11, 0xC5, 0x00, 0x01, 0x00, 0x00]
                file_ahead := [] }, 1) := by
  refine ⟨by decide, rfl, ?_⟩
  rw [(load_version_check sample_codec (btc_headers_db_new (hash_of_nat 0) false)
    [0xA8, 0xF0, 0x11, 0xC5, 0x00, 0x01, 0x00, 0x00] rfl (by decide) (by decide)
    (by decide)).2 (by decide)]
  simp [load_records, deref, btc_headers_db_new, stream_read, open_log]

/-! ## Records that do not deserialize -/

set_option maxRecDepth 100000 in
/-- C19 fails on the code: with a codec that rejects the payload of `zero_record`,
`btc_headers_db_load` returns 255 (the `btc_bool` made from `-1`), not 0, when that record
is the first of the log, and returns 1 when it follows a good record, which stays the
chain tip at height 1. -/
theorem load_corrupt_record_not_reported :
    strict_codec.deserialize (zero_record.drop 36) = none
    ∧ load_view (btc_headers_db_load strict_codec (btc_headers_db_new (hash_of_nat 0) false)
        (some (log_header ++ zero_record)) true)
      = some (255, some (hash_of_nat 0, 0), [])
    ∧ load_view (btc_headers_db_load strict_codec (btc_headers_db_new (hash_of_nat 0) false)
        (some (log_header ++ sample_record 1 0 1 ++ zero_record)) true)
      = some (1, some (hash_of_nat 1, 1), [1, 0]) := by
  decide

/-! ## Records above the height limit of the loader -/

set_option maxRecDepth 100000 in
/-- C18 fails on the code: a complete record that stores the height 1120874 is skipped by
`btc_headers_db_load`.  The log of that single record leaves the genesis node as the chain
tip and allocates nothing, while the same record with the height 1120873 becomes the chain
tip; behind a skipped record, the next record is taken for the first one. -/
theorem load_skips_high_record :
    (log_header ++ sample_record 1120874 0 1).length = 8 + 116
    ∧ load_view (btc_headers_db_load sample_codec (btc_headers_db_new (hash_of_nat 0) false)
        (some (log_header ++ sample_record 1120874 0 1)) true)
      = some (1, some (hash_of_nat 0, 0), [])
    ∧ load_view (btc_headers_db_load sample_codec (btc_headers_db_new (hash_of_nat 0) false)
        (some (log_header ++ sample_record 1120873 0 1)) true)
      = some (1, some (hash_of_nat 1, 1120873), [1120873])
    ∧ load_view (btc_headers_db_load sample_codec (btc_headers_db_new (hash_of_nat 0) false)
        (some (log_header ++ sample_record 1120874 0 1 ++ sample_record 7 1 2)) true)
      = some (1, some (hash_of_nat 2, 7), [7]) := by
  refine ⟨?_, ?_, ?_, ?_⟩ <;> decide

/-! ## Checkpoint start -/

theorem set_checkpoint_start_eq (db : btc_headers_db) (hash : btc_uint256) (h : Nat) :
    btc_headersdb_set_checkpoint_start db hash h
      = some (checkpoint_db db hash (h % UINT32_MOD)) := by
  simp only [btc_headersdb_set_checkpoint_start, store_calloc, Option.map_some',
    zero_blockindex]
  rfl

theorem checkpoint_deref (db : btc_headers_db) (hash : btc_uint256) (k : Nat) :
    deref (checkpoint_db db hash k) (Ptr.node db.heap.length)
      = some ⟨k, hash, zero_header, none⟩ := by
  simp only [checkpoint_db, deref, heap_get_append_length]

theorem checkpoint_deref_old (db : btc_headers_db) (hash : btc_uint256) (k : Nat) {p : Ptr}
    {n : btc_blockindex} (h : deref db p = some n) :
    deref (checkpoint_db db hash k) p = some n :=
  @deref_push db (checkpoint_db db hash k) _ rfl rfl p n h

theorem checkpoint_tree_live (db : btc_headers_db) (hash : btc_uint256) (k : Nat)
    (htl : tree_live db) : tree_live (checkpoint_db db hash k) := by
  intro p hp
  have hx := htl p hp
  cases hd : deref db p with
  | none => rw [hd] at hx; cases hx
  | some n => rw [checkpoint_deref_old db hash k hd]; rfl

/-- A header that names the hash of a checkpoint node just installed connects on top of
it and becomes the chain tip; nothing is pruned. -/
theorem checkpoint_connect (codec : Codec) (db : btc_headers_db) (hash : btc_uint256) (k : Nat)
    (buf : List Byte) (hdr : btc_block_header) (load_process write_ok : Bool)
    (hk : k + 1 < UINT32_MOD)
    (hdec : codec.deserialize buf = some hdr) (hprev : hdr.prev_block = hash)
    (htl : tree_live db) (hfile : file_ready db load_process)
    (hmax : db.max_hdr_in_mem < UINT32_MOD) :
    btc_headers_db_connect_hdr codec (checkpoint_db db hash k) buf load_process write_ok
      = some (attached codec (checkpoint_db db hash k) hdr (Ptr.node db.heap.length) k k
          load_process write_ok, some (Ptr.node (db.heap.length + 1)), true)
    ∧ (attached codec (checkpoint_db db hash k) hdr (Ptr.node db.heap.length) k k
          load_process write_ok).chaintip = Ptr.node (db.heap.length + 1)
    ∧ deref (attached codec (checkpoint_db db hash k) hdr (Ptr.node db.heap.length) k k
          load_process write_ok) (Ptr.node (db.heap.length + 1))
        = some (linked_node codec hdr (Ptr.node db.heap.length) k) := by
  have hlen : (checkpoint_db db hash k).heap.length = db.heap.length + 1 := by
    simp [checkpoint_db]
  have hcp := checkpoint_deref db hash k
  have hc := connect_hdr_attach codec (checkpoint_db db hash k) buf hdr
    ⟨k, hash, zero_header, none⟩ ⟨k, hash, zero_header, none⟩ (Ptr.node db.heap.length)
    load_process write_ok hdec hcp (checkpoint_tree_live db hash k htl)
    (Or.inl ⟨hprev, rfl⟩) hcp hfile
  rw [hlen] at hc
  have hgt : (k + 1) % UINT32_MOD > k := by
    rw [Nat.mod_eq_of_lt hk]
    omega
  have htipA : (attached codec (checkpoint_db db hash k) hdr (Ptr.node db.heap.length) k k
      load_process write_ok).chaintip = Ptr.node (db.heap.length + 1) := by
    rw [attached_chaintip, if_pos hgt, hlen]
  have hnew := deref_attached_new codec (checkpoint_db db hash k) hdr (Ptr.node db.heap.length)
    k k load_process write_ok
  rw [hlen] at hnew
  have hold := deref_attached_live codec (checkpoint_db db hash k) hdr
    (Ptr.node db.heap.length) k k load_process write_ok hcp
  have hpr := prune_eq_self
    (attached codec (checkpoint_db db hash k) hdr (Ptr.node db.heap.length) k k
      load_process write_ok)
    (fun i => if i = 0 then Ptr.node (db.heap.length + 1) else Ptr.node db.heap.length) 1
    hmax (by omega) (by rw [htipA]; rfl)
    (by
      intro x hx
      have hx0 : x = 0 := by omega
      subst hx0
      simp only [prev_at, if_true, hnew, Option.map_some', linked_node]
      rfl)
    (Or.inl (by
      simp only [prev_at, one_ne_zero, if_false, hold, Option.map_some']))
  rw [hpr] at hc
  exact ⟨hc, htipA, hnew⟩

/-- C11: after `btc_headersdb_set_checkpoint_start (db, hash, h)` with `h < 2^32 - 1` the
chain bottom and the chain tip are the same node, which carries `hash` and `h` and has no
`prev`; `btc_headersdb_has_checkpoint_start` returns true exactly when `h ≠ 0`; and a header
whose `prev_block` is `hash`, connected next, connects with height `h + 1` and becomes the
chain tip.  The header is one that deserializes, the tree keys of the state are live and
the log is open if a record is to be written. -/
theorem checkpoint_start (codec : Codec) (db : btc_headers_db) (hash : btc_uint256) (h : Nat)
    (buf : List Byte) (hdr : btc_block_header) (load_process write_ok : Bool)
    (hh : h < UINT32_MOD - 1) :
    ∃ db1 cp, btc_headersdb_set_checkpoint_start db hash h = some db1
      ∧ db1.chainbottom = db1.chaintip
      ∧ deref db1 db1.chaintip = some cp
      ∧ cp.hash = hash ∧ cp.height = h ∧ cp.prev = none
      ∧ btc_headersdb_has_checkpoint_start db1 = some (decide (h ≠ 0))
      ∧ (codec.deserialize buf = some hdr → hdr.prev_block = hash → tree_live db →
          file_ready db load_process → db.max_hdr_in_mem < UINT32_MOD →
          ∃ db2 r n, btc_headers_db_connect_hdr codec db1 buf load_process write_ok
              = some (db2, some r, true)
            ∧ deref db2 r = some n
            ∧ n.height = h + 1 ∧ n.prev = some db1.chaintip
            ∧ db2.chaintip = r) := by
  have hmod : h % UINT32_MOD = h := Nat.mod_eq_of_lt (by omega)
  have hset := set_checkpoint_start_eq db hash h
  rw [hmod] at hset
  have hcp := checkpoint_deref db hash h
  refine ⟨checkpoint_db db hash h, ⟨h, hash, zero_header, none⟩, hset, rfl, hcp, rfl, rfl, rfl,
    ?_, ?_⟩
  · have hb : deref (checkpoint_db db hash h) (checkpoint_db db hash h).chainbottom
        = some ⟨h, hash, zero_header, none⟩ := hcp
    simp only [btc_headersdb_has_checkpoint_start, hb, Option.map_some']
  · intro hdec hprev htl hfile hmax
    obtain ⟨hc, htipA, hnew⟩ := checkpoint_connect codec db hash h buf hdr load_process
      write_ok (by omega) hdec hprev htl hfile hmax
    refine ⟨_, _, _, hc, hnew, ?_, rfl, htipA⟩
    show (h + 1) % UINT32_MOD = h + 1
    exact Nat.mod_eq_of_lt (by omega)

set_option maxRecDepth 100000 in
/-- Witness for C11: a checkpoint at height 840000 on the sample database of two headers,
followed by the sample header number 8 on top of the checkpoint hash number 7. -/
theorem checkpoint_start_witness :
    ∃ db1 cp db2 r n, btc_headersdb_set_checkpoint_start (sample_db 144 2) (hash_of_nat 7) 840000
        = some db1
      ∧ db1.chainbottom = db1.chaintip
      ∧ deref db1 db1.chaintip = some cp
      ∧ cp.hash = hash_of_nat 7 ∧ cp.height = 840000 ∧ cp.prev = none
      ∧ btc_headersdb_has_checkpoint_start db1 = some true
      ∧ btc_headers_db_connect_hdr sample_codec db1 (sample_buf 7 8) false true
          = some (db2, some r, true)
      ∧ deref db2 r = some n
      ∧ n.height = 840001 ∧ n.prev = some db1.chaintip
      ∧ db2.chaintip = r := by
  obtain ⟨db1, cp, h1, h2, h3, h4, h5, h6, h7, h8⟩ :=
    checkpoint_start sample_codec (sample_db 144 2) (hash_of_nat 7) 840000 (sample_buf 7 8)
      (sample_header 7 8) false true (by decide)
  obtain ⟨db2, r, n, k1, k2, k3, k4, k5⟩ := h8 (by decide) (by decide) (by decide)
    (by decide) (by decide)
  exact ⟨db1, cp, db2, r, n, h1, h2, h3, h4, h5, h6, h7, k1, k2, k3, k4, k5⟩

/-! ## Persistence and the in-memory state -/

theorem deref_with_log (db : btc_headers_db) (f : Option (List Byte)) (a : List Byte) (r : Bool) (p : Ptr) :
    deref (with_log db f a r) p = deref db p :=
  deref_congr rfl rfl p

theorem store_with_log (db : btc_headers_db) (f : Option (List Byte)) (a : List Byte) (r : Bool) (p : Ptr)
    (n : btc_blockindex) :
    store (with_log db f a r) p n = (store db p n).map (fun d => with_log d f a r) := by
  cases p with
  | genesis => rfl
  | node a =>
    simp only [store, with_log]
    cases heap_get db.heap a <;> rfl

theorem btc_free_with_log (db : btc_headers_db) (f : Option (List Byte)) (a : List Byte) (r : Bool) (p : Ptr) :
    btc_free (with_log db f a r) p = (btc_free db p).map (fun d => with_log d f a r) := by
  cases p with
  | genesis => rfl
  | node a =>
    simp only [btc_free, with_log]
    cases heap_get db.heap a <;> rfl

theorem tfind_with_log (db : btc_headers_db) (f : Option (List Byte)) (a : List Byte) (r : Bool)
    (key : btc_blockindex) (t : List Ptr) :
    tfind (with_log db f a r) key t = tfind db key t :=
  tfind_congr key t (fun p _ => deref_with_log db f a r p)

theorem tdelete_with_log (db : btc_headers_db) (f : Option (List Byte)) (a : List Byte) (r : Bool)
    (key : btc_blockindex) (t : List Ptr) :
    tdelete (with_log db f a r) key t = tdelete db key t :=
  tdelete_congr key t (fun p _ => deref_with_log db f a r p)

theorem find_with_log (db : btc_headers_db) (f : Option (List Byte)) (a : List Byte) (r : Bool)
    (h : btc_uint256) :
    btc_headersdb_find (with_log db f a r) h = btc_headersdb_find db h := by
  simp only [btc_headersdb_find]
  show (if db.use_binary_tree = true then
      tfind (with_log db f a r) { zero_blockindex with hash := h } db.tree_root else some none) = _
  rw [tfind_with_log]

theorem tsearch_with_log (db : btc_headers_db) (f : Option (List Byte)) (a : List Byte) (r : Bool) (p : Ptr) :
    tsearch (with_log db f a r) p = (tsearch db p).map (fun d => with_log d f a r) := by
  simp only [tsearch, deref_with_log]
  cases deref db p with
  | none => rfl
  | some key =>
    show (match tfind (with_log db f a r) key db.tree_root with
      | none => none
      | some (some _) => some (with_log db f a r)
      | some none => some { with_log db f a r with tree_root := p :: db.tree_root }) = _
    rw [tfind_with_log]
    simp only []
    cases tfind db key db.tree_root with
    | none => rfl
    | some x => cases x <;> rfl

theorem prune_at_with_log (db : btc_headers_db) (f : Option (List Byte)) (a : List Byte) (r : Bool) (s : Ptr) :
    prune_at (with_log db f a r) s = (prune_at db s).map (fun d => with_log d f a r) := by
  simp only [prune_at, deref_with_log]
  cases deref db s with
  | none => rfl
  | some st =>
    try simp only []
    cases st.prev with
    | none => rfl
    | some q =>
      try simp only []
      by_cases hq : q ≠ Ptr.genesis
      · rw [if_pos hq, if_pos hq]
        cases deref db q with
        | none => rfl
        | some qn =>
          try simp only []
          have e : (with_log db f a r).tree_root = db.tree_root := rfl
          rw [tdelete_with_log, e]
          cases tdelete db qn db.tree_root with
          | none => rfl
          | some t =>
            try simp only []
            have e2 : ({ (with_log db f a r) with tree_root := t } : btc_headers_db)
                = with_log { db with tree_root := t } f a r := rfl
            rw [e2, btc_free_with_log]
            cases btc_free { db with tree_root := t } q with
            | none => rfl
            | some db1 =>
              simp only [Option.map_some', deref_with_log]
              cases deref db1 s with
              | none => rfl
              | some st1 =>
                try simp only []
                rw [store_with_log]
                cases store db1 s { st1 with prev := none } with
                | none => rfl
                | some d => rfl
      · rw [if_neg hq, if_neg hq]
        rfl

theorem prune_loop_with_log (bound maxhdr : Nat) (f : Option (List Byte)) (a : List Byte) (r : Bool) :
    ∀ (fuel : Nat) (db : btc_headers_db) (s : Ptr) (i : Nat),
      prune_loop bound maxhdr fuel (with_log db f a r) s i
        = (prune_loop bound maxhdr fuel db s i).map (fun d => with_log d f a r) := by
  intro fuel
  induction fuel with
  | zero => intro db s i; rfl
  | succ k ih =>
    intro db s i
    simp only [prune_loop, deref_with_log]
    by_cases hi : i < bound
    · simp only [hi, if_true]
      cases deref db s with
      | none => rfl
      | some st =>
        try simp only []
        cases st.prev with
        | none => rfl
        | some p =>
          try simp only []
          by_cases hc : i = maxhdr ∧ p ≠ Ptr.genesis
          · simp only [hc, and_self, if_true, ne_eq, not_false_eq_true, prune_at_with_log]
            cases prune_at db p with
            | none => rfl
            | some db1 =>
              simp only [Option.map_some']
              exact ih db1 p _
          · simp only [hc, if_false]
            exact ih db p (i + 1)
    · simp only [hi, if_false]
      rfl

theorem prune_with_log (db : btc_headers_db) (f : Option (List Byte)) (a : List Byte) (r : Bool) :
    prune (with_log db f a r) = (prune db).map (fun d => with_log d f a r) := by
  simp only [prune]
  show (if db.max_hdr_in_mem > 0 then
      prune_loop ((db.max_hdr_in_mem + 1) % UINT32_MOD) db.max_hdr_in_mem
        ((db.max_hdr_in_mem + 1) % UINT32_MOD) (with_log db f a r) db.chaintip 0
    else some (with_log db f a r)) = _
  by_cases hm : db.max_hdr_in_mem > 0
  · simp only [hm, if_true, prune_loop_with_log]
  · simp only [hm, if_false]
    rfl

theorem deref_store_same {db d : btc_headers_db} {p : Ptr} {n : btc_blockindex}
    (h : store db p n = some d) : deref d p = some n := by
  cases p with
  | genesis =>
    simp only [store, Option.some.injEq] at h
    subst h
    rfl
  | node a =>
    simp only [store] at h
    cases hg : heap_get db.heap a with
    | none => rw [hg] at h; cases h
    | some x =>
      rw [hg] at h
      simp only [Option.some.injEq] at h
      subst h
      exact deref_set_same db rfl (heap_get_some_lt hg)

/-- The steps of `btc_headers_db_connect_hdr` after the record has been written act on the
in-memory part only. -/
theorem tsearch_prune_with_log (db : btc_headers_db) (f : Option (List Byte)) (a : List Byte) (r : Bool)
    (p : Ptr) :
    (match (if (with_log db f a r).use_binary_tree then tsearch (with_log db f a r) p
            else some (with_log db f a r)) with
      | none => none
      | some db4 => prune db4)
      = (match (if db.use_binary_tree then tsearch db p else some db) with
          | none => none
          | some db4 => prune db4).map (fun d => with_log d f a r) := by
  have e : (with_log db f a r).use_binary_tree = db.use_binary_tree := rfl
  rw [e]
  cases db.use_binary_tree with
  | true =>
    simp only [if_true, tsearch_with_log]
    cases tsearch db p with
    | none => rfl
    | some d => exact prune_with_log d f a r
  | false =>
    simp only [Bool.false_eq_true, if_false]
    exact prune_with_log db f a r

/-- Writing the record, inserting into the tree and pruning: in memory this is inserting
and pruning alone; the record goes to the position of the stream when the call is not a
replay, persistence is on and the write succeeds. -/
theorem connect_tail_with_log (codec : Codec) (m2 : btc_headers_db) (F : Option (List Byte))
    (A : List Byte) (R l w : Bool) (bi : Ptr) (node : btc_blockindex)
    (hnode : deref m2 bi = some node)
    (hready : l = true ∨ R = false ∨ F ≠ none) :
    (match (if !l && (with_log m2 F A R).read_write_file then
              (btc_headers_db_write codec (with_log m2 F A R) bi w).map Prod.fst
            else some (with_log m2 F A R)) with
      | none => none
      | some db3 =>
        match (if db3.use_binary_tree then tsearch db3 bi else some db3) with
        | none => none
        | some db4 => prune db4)
      = (match (if m2.use_binary_tree then tsearch m2 bi else some m2) with
          | none => none
          | some db4 => prune db4).map (fun d =>
            with_log d
              (if (!l && R && w) = true then
                F.map (fun f => f ++ (node.hash.bytes ++ ser_u32 node.height
                  ++ codec.serialize node.header)) else F)
              (if (!l && R && w) = true then
                A.drop (node.hash.bytes ++ ser_u32 node.height
                  ++ codec.serialize node.header).length else A) R) := by
  have e3 : (with_log m2 F A R).read_write_file = R := rfl
  rw [e3]
  have hnode2 : deref (with_log m2 F A R) bi = some node := hnode
  by_cases hw : (!l && R) = true
  · have hl : l = false := by cases l <;> simp_all
    have hR : R = true := by cases R <;> simp_all
    subst hl hR
    have hF : F ≠ none := by
      rcases hready with h | h | h
      · cases h
      · cases h
      · exact h
    cases F with
    | none => exact absurd rfl hF
    | some f =>
      simp only [Bool.not_false, Bool.and_self, if_true, btc_headers_db_write, hnode2,
        Bool.true_and, Option.map_some']
      have ef : (with_log m2 (some f) A true).headers_tree_file = some f := rfl
      have ea : (with_log m2 (some f) A true).file_ahead = A := rfl
      rw [ef]
      cases w with
      | true =>
        simp only [if_true, Option.map_some', ea]
        exact tsearch_prune_with_log m2 (some (f ++ (node.hash.bytes ++ ser_u32 node.height
          ++ codec.serialize node.header)))
          (A.drop (node.hash.bytes ++ ser_u32 node.height
            ++ codec.serialize node.header).length) true bi
      | false =>
        simp only [Bool.false_eq_true, if_false, Option.map_some']
        exact tsearch_prune_with_log m2 (some f) A true bi
  · have hw2 : (!l && R && w) = false := by
      cases l <;> cases R <;> simp_all
    rw [if_neg hw, hw2]
    simp only [Bool.false_eq_true, if_false]
    exact tsearch_prune_with_log m2 F A R bi

/-- The branch `if (connect_at != NULL)` does in memory what an in-memory replay does;
the record of the node is written at the position of the stream when the call is not a
replay, persistence is on and the write succeeds. -/
theorem connect_at_block_with_log (codec : Codec) (m : btc_headers_db)
    (F : Option (List Byte)) (A : List Byte) (R l w : Bool) (bi c : Ptr) (b : btc_blockindex)
    (hb : deref m bi = some b)
    (hready : l = true ∨ R = false ∨ F ≠ none) :
    ∃ k, connect_at_block codec (with_log m F A R) bi c l w
      = (connect_at_block codec m bi c true true).map (fun d =>
          with_log d
            (if (!l && R && w) = true then
              F.map (fun f => f ++ (b.hash.bytes ++ ser_u32 k ++ codec.serialize b.header))
             else F)
            (if (!l && R && w) = true then
              A.drop (b.hash.bytes ++ ser_u32 k ++ codec.serialize b.header).length
             else A) R) := by
  simp only [connect_at_block, deref_with_log, hb]
  cases hc : deref m c with
  | none => exact ⟨0, rfl⟩
  | some atn =>
    simp only [store_with_log]
    cases hs : store m bi { b with prev := some c, height := (atn.height + 1) % UINT32_MOD } with
    | none => exact ⟨0, rfl⟩
    | some m1 =>
      simp only [Option.map_some']
      have et : (with_log m1 F A R).chaintip = m1.chaintip := rfl
      rw [et, deref_with_log]
      cases ht : deref m1 m1.chaintip with
      | none => exact ⟨0, rfl⟩
      | some tip =>
        simp only [Bool.not_true, Bool.false_and, Bool.false_eq_true, if_false]
        refine ⟨(atn.height + 1) % UINT32_MOD, ?_⟩
        have hn1 : deref m1 bi
            = some { b with prev := some c, height := (atn.height + 1) % UINT32_MOD } :=
          deref_store_same hs
        exact connect_tail_with_log codec { m1 with
            chaintip := if (atn.height + 1) % UINT32_MOD > tip.height then bi
              else m1.chaintip } F A R l w bi
          { b with prev := some c, height := (atn.height + 1) % UINT32_MOD }
          ((deref_congr rfl rfl bi).trans hn1) hready

/-- The function `btc_headers_db_connect_hdr` does in memory what an in-memory replay
does; the record of the header is written at the position of the stream when the header
connects, the call is not a replay, persistence is on and the write succeeds. -/
theorem connect_hdr_with_log (codec : Codec) (m : btc_headers_db) (F : Option (List Byte))
    (A : List Byte) (R l w : Bool) (buf : List Byte)
    (hready : l = true ∨ R = false ∨ F ≠ none) :
    ∃ rec, (∀ hdr, codec.deserialize buf = some hdr → ∃ k, rec = record_of codec k hdr)
      ∧ btc_headers_db_connect_hdr codec (with_log m F A R) buf l w
        = (btc_headers_db_connect_hdr codec m buf true true).map (fun r =>
            (with_log r.1
              (if (r.2.2 && !l && R && w) = true then F.map (fun f => f ++ rec) else F)
              (if (r.2.2 && !l && R && w) = true then A.drop rec.length else A) R,
             r.2)) := by
  have ec1 : (btc_calloc (with_log m F A R)).1 = with_log (btc_calloc m).1 F A R := rfl
  have ec2 : (btc_calloc (with_log m F A R)).2 = (btc_calloc m).2 := rfl
  simp only [btc_headers_db_connect_hdr, ec1, ec2]
  cases hdec : codec.deserialize buf with
  | none => exact ⟨[], fun hdr h => (by cases h), rfl⟩
  | some hdr =>
    have hP : ∀ k, ∀ hdr1, some hdr = some hdr1 → ∃ k1, record_of codec k hdr
        = record_of codec k1 hdr1 := by
      intro k hdr1 h
      cases h
      exact ⟨k, rfl⟩
    simp only [store_with_log]
    cases hs : store (btc_calloc m).1 (btc_calloc m).2
        { zero_blockindex with header := hdr, hash := codec.hash hdr } with
    | none => exact ⟨record_of codec 0 hdr, hP 0, rfl⟩
    | some m1 =>
      simp only [Option.map_some']
      have et : (with_log m1 F A R).chaintip = m1.chaintip := rfl
      rw [et, deref_with_log]
      cases deref m1 m1.chaintip with
      | none => exact ⟨record_of codec 0 hdr, hP 0, rfl⟩
      | some tip =>
        simp only [find_with_log]
        cases (if hdr.prev_block = tip.hash then some (some m1.chaintip)
               else btc_headersdb_find m1 hdr.prev_block) with
        | none => exact ⟨record_of codec 0 hdr, hP 0, rfl⟩
        | some x =>
          cases x with
          | none => exact ⟨record_of codec 0 hdr, hP 0, rfl⟩
          | some connect_at =>
            obtain ⟨k, hrec⟩ := connect_at_block_with_log codec m1 F A R l w (btc_calloc m).2
              connect_at { zero_blockindex with header := hdr, hash := codec.hash hdr }
              (deref_store_same hs) hready
            refine ⟨record_of codec k hdr, hP k, ?_⟩
            simp only [hrec, Option.map_map]
            cases connect_at_block codec m1 (btc_calloc m).2 connect_at true true with
            | none => rfl
            | some d => simp [record_of]

theorem connect_in_memory (codec : Codec) (db : btc_headers_db) (buf : List Byte) (l w : Bool)
    (hf : file_ready db l) :
    ∃ rec, (∀ hdr, codec.deserialize buf = some hdr → ∃ k, rec = record_of codec k hdr)
      ∧ btc_headers_db_connect_hdr codec db buf l w
        = (btc_headers_db_connect_hdr codec (in_memory db) buf true true).map (fun r =>
            (with_log r.1
              (if (r.2.2 && !l && db.read_write_file && w) = true then
                db.headers_tree_file.map (fun f => f ++ rec)
               else db.headers_tree_file)
              (if (r.2.2 && !l && db.read_write_file && w) = true then
                db.file_ahead.drop rec.length
               else db.file_ahead) db.read_write_file,
             r.2)) :=
  connect_hdr_with_log codec (in_memory db) db.headers_tree_file db.file_ahead
    db.read_write_file l w buf hf

/-- Writing a record to a `NULL` stream is undefined. -/
theorem write_null (codec : Codec) (d : btc_headers_db) (bi : Ptr) (w : Bool)
    (h : d.headers_tree_file = none) : btc_headers_db_write codec d bi w = none := by
  unfold btc_headers_db_write
  cases deref d bi with
  | none => rfl
  | some b => simp only [h]

/-- With persistence on and no open stream, the branch `if (connect_at != NULL)` of a call
that is not a replay is undefined: it reaches `fwrite` on a `NULL` stream. -/
theorem connect_at_block_null (codec : Codec) (m : btc_headers_db) (A : List Byte)
    (w : Bool) (bi c : Ptr) :
    connect_at_block codec (with_log m none A true) bi c false w = none := by
  simp only [connect_at_block, deref_with_log]
  cases deref m c with
  | none => cases deref m bi <;> rfl
  | some atn =>
    cases deref m bi with
    | none => rfl
    | some b =>
      simp only [store_with_log]
      cases hs : store m bi { b with prev := some c, height := (atn.height + 1) % UINT32_MOD } with
      | none => rfl
      | some m1 =>
        simp only [Option.map_some']
        have et : (with_log m1 none A true).chaintip = m1.chaintip := rfl
        rw [et, deref_with_log]
        cases deref m1 m1.chaintip with
        | none => rfl
        | some tip =>
          simp only [Bool.not_false, Bool.true_and]
          have e1 : (with_log m1 none A true).read_write_file = true := rfl
          rw [if_pos e1, write_null codec _ bi w rfl]
          rfl

/-- With persistence on and no open stream, a call of `btc_headers_db_connect_hdr` that is
not a replay does what an in-memory replay does as long as the header does not connect,
and is undefined when it does. -/
theorem connect_hdr_null (codec : Codec) (m : btc_headers_db) (A : List Byte) (w : Bool)
    (buf : List Byte) :
    btc_headers_db_connect_hdr codec (with_log m none A true) buf false w
      = (btc_headers_db_connect_hdr codec m buf true true).bind (fun r =>
          if r.2.2 = true then none else some (with_log r.1 none A true, r.2)) := by
  have ec1 : (btc_calloc (with_log m none A true)).1 = with_log (btc_calloc m).1 none A true :=
    rfl
  have ec2 : (btc_calloc (with_log m none A true)).2 = (btc_calloc m).2 := rfl
  simp only [btc_headers_db_connect_hdr, ec1, ec2]
  cases hdec : codec.deserialize buf with
  | none => rfl
  | some hdr =>
    simp only [store_with_log]
    cases hs : store (btc_calloc m).1 (btc_calloc m).2
        { zero_blockindex with header := hdr, hash := codec.hash hdr } with
    | none => rfl
    | some m1 =>
      simp only [Option.map_some']
      have et : (with_log m1 none A true).chaintip = m1.chaintip := rfl
      rw [et, deref_with_log]
      cases deref m1 m1.chaintip with
      | none => rfl
      | some tip =>
        simp only [find_with_log]
        cases (if hdr.prev_block = tip.hash then some (some m1.chaintip)
               else btc_headersdb_find m1 hdr.prev_block) with
        | none => rfl
        | some x =>
          cases x with
          | none => rfl
          | some connect_at =>
            simp only [connect_at_block_null, Option.map_none']
            cases connect_at_block codec m1 (btc_calloc m).2 connect_at true true with
            | none => rfl
            | some d => rfl

/-- The function `btc_headers_db_connect_hdr` on every state: in memory it does what a
replay on the in-memory part of the state does, unless the header connects while the call
is not a replay, persistence is on and the stream is `NULL`, where it is undefined; the
record of the header is written at the position of the stream when the header connects,
the call is not a replay, persistence is on and the write succeeds. -/
theorem connect_stream (codec : Codec) (db : btc_headers_db) (buf : List Byte) (l w : Bool) :
    ∃ rec, (∀ hdr, codec.deserialize buf = some hdr → ∃ k, rec = record_of codec k hdr)
      ∧ btc_headers_db_connect_hdr codec db buf l w
        = (btc_headers_db_connect_hdr codec (in_memory db) buf true true).bind (fun r =>
            if r.2.2 = true ∧ ¬ file_ready db l then none
            else some
              (with_log r.1
                (if (r.2.2 && !l && db.read_write_file && w) = true then
                  db.headers_tree_file.map (fun f => f ++ rec)
                 else db.headers_tree_file)
                (if (r.2.2 && !l && db.read_write_file && w) = true then
                  db.file_ahead.drop rec.length
                 else db.file_ahead) db.read_write_file,
               r.2)) := by
  by_cases hf : file_ready db l
  · obtain ⟨rec, hrec, h⟩ := connect_in_memory codec db buf l w hf
    refine ⟨rec, hrec, ?_⟩
    rw [h]
    cases btc_headers_db_connect_hdr codec (in_memory db) buf true true with
    | none => rfl
    | some r => simp [hf]
  · have hl : l = false := by
      cases l with
      | false => rfl
      | true => exact absurd (Or.inl rfl) hf
    have hrw : db.read_write_file = true := by
      cases h : db.read_write_file with
      | true => rfl
      | false => exact absurd (Or.inr (Or.inl h)) hf
    have hnone : db.headers_tree_file = none := by
      cases h : db.headers_tree_file with
      | none => rfl
      | some f =>
        exact absurd (Or.inr (Or.inr (by rw [h]; exact Option.some_ne_none f))) hf
    subst hl
    have e : db = with_log (in_memory db) none db.file_ahead true := by
      cases db
      simp only [in_memory, with_log] at hrw hnone ⊢
      simp only [hrw, hnone]
    refine ⟨(codec.deserialize buf).elim [] (record_of codec 0), ?_, ?_⟩
    · intro hdr hdec
      exact ⟨0, by rw [hdec]; rfl⟩
    · have h := connect_hdr_null codec (in_memory db) db.file_ahead w buf
      rw [← e] at h
      rw [h]
      cases btc_headers_db_connect_hdr codec (in_memory db) buf true true with
      | none => rfl
      | some r =>
        obtain ⟨d, q, c⟩ := r
        cases c with
        | true => simp [hf]
        | false => simp [hf, hnone, hrw]

/-- A defined call of `btc_headers_db_connect_hdr` returns what the replay on the in-memory
part of the state returns, on the state of that replay with the stream of the call. -/
theorem connect_stream_some {codec : Codec} {db d : btc_headers_db} {buf : List Byte}
    {l w : Bool} {r : Option Ptr} {c : Bool} {rec : List Byte}
    (heq : btc_headers_db_connect_hdr codec db buf l w
        = (btc_headers_db_connect_hdr codec (in_memory db) buf true true).bind (fun r =>
            if r.2.2 = true ∧ ¬ file_ready db l then none
            else some
              (with_log r.1
                (if (r.2.2 && !l && db.read_write_file && w) = true then
                  db.headers_tree_file.map (fun f => f ++ rec)
                 else db.headers_tree_file)
                (if (r.2.2 && !l && db.read_write_file && w) = true then
                  db.file_ahead.drop rec.length
                 else db.file_ahead) db.read_write_file,
               r.2)))
    (h : btc_headers_db_connect_hdr codec db buf l w = some (d, r, c)) :
    ∃ m, btc_headers_db_connect_hdr codec (in_memory db) buf true true = some (m, r, c)
      ∧ d = with_log m
          (if (c && !l && db.read_write_file && w) = true then
            db.headers_tree_file.map (fun f => f ++ rec)
           else db.headers_tree_file)
          (if (c && !l && db.read_write_file && w) = true then
            db.file_ahead.drop rec.length
           else db.file_ahead) db.read_write_file := by
  rw [heq] at h
  cases hx : btc_headers_db_connect_hdr codec (in_memory db) buf true true with
  | none => rw [hx] at h; cases h
  | some x =>
    obtain ⟨m, r1, c1⟩ := x
    rw [hx] at h
    simp only [Option.some_bind] at h
    split at h
    · cases h
    · simp only [Option.some.injEq, Prod.mk.injEq] at h
      obtain ⟨h1, h2, h3⟩ := h
      subst h2 h3
      exact ⟨m, rfl, h1.symm⟩

/-- C14, as the code has it: persistence does not influence the in-memory outcome of
`btc_headers_db_connect_hdr` in the calls that are defined.  On every state, the call
does in memory what a replay on the in-memory part of the state does, and it is undefined
where that replay is, and where the header connects while `load_process` is false,
`read_write_file` is set and the stream is `NULL`.  Two defined calls on states with the
same in-memory part, with any `load_process`, any `read_write_file` and any outcome of
the write, return the same pointer and the same `connected` flag and leave the same chain
tip, chain bottom, hash index and nodes; calls whose stream is open when they write are
both defined or both undefined.  The stream either stays as it was or, when the header
connected, `load_process` is false, `read_write_file` is set and the write succeeded, has
the record of the header written at its position: appended when the stream is at the end
of the log, over the octets behind the position otherwise. -/
theorem connect_persistence_independent (codec : Codec) (db : btc_headers_db)
    (buf : List Byte) (l w : Bool) :
    ∃ rec, (∀ hdr, codec.deserialize buf = some hdr → ∃ k, rec = record_of codec k hdr)
      ∧ btc_headers_db_connect_hdr codec db buf l w
        = (btc_headers_db_connect_hdr codec (in_memory db) buf true true).bind (fun r =>
            if r.2.2 = true ∧ ¬ file_ready db l then none
            else some
              (with_log r.1
                (if (r.2.2 && !l && db.read_write_file && w) = true then
                  db.headers_tree_file.map (fun f => f ++ rec)
                 else db.headers_tree_file)
                (if (r.2.2 && !l && db.read_write_file && w) = true then
                  db.file_ahead.drop rec.length
                 else db.file_ahead) db.read_write_file,
               r.2))
      ∧ (∀ (db' : btc_headers_db) (l' w' : Bool) d r c d' r' c',
          in_memory db = in_memory db' →
          btc_headers_db_connect_hdr codec db buf l w = some (d, r, c) →
          btc_headers_db_connect_hdr codec db' buf l' w' = some (d', r', c') →
          c = c' ∧ r = r' ∧ d.chaintip = d'.chaintip ∧ d.chainbottom = d'.chainbottom
          ∧ d.tree_root = d'.tree_root ∧ ∀ p, deref d p = deref d' p)
      ∧ (∀ (db' : btc_headers_db) (l' w' : Bool), in_memory db = in_memory db' →
          file_ready db l → file_ready db' l' →
          (btc_headers_db_connect_hdr codec db buf l w).map (fun r => (in_memory r.1, r.2))
            = (btc_headers_db_connect_hdr codec db' buf l' w').map
                (fun r => (in_memory r.1, r.2)))
      ∧ (∀ d r c, btc_headers_db_connect_hdr codec db buf l w = some (d, r, c) →
          d.read_write_file = db.read_write_file
          ∧ ((d.headers_tree_file = db.headers_tree_file ∧ d.file_ahead = db.file_ahead)
            ∨ (c = true ∧ l = false ∧ db.read_write_file = true ∧ w = true
              ∧ d.headers_tree_file = db.headers_tree_file.map (fun f => f ++ rec)
              ∧ d.file_ahead = db.file_ahead.drop rec.length
              ∧ (db.file_ahead = [] →
                  log_file d = (log_file db).map (fun f => f ++ rec))))) := by
  obtain ⟨rec, hrec, heq⟩ := connect_stream codec db buf l w
  refine ⟨rec, hrec, heq, ?_, ?_, ?_⟩
  · intro db' l' w' d r c d' r' c' hmem hd hd'
    obtain ⟨rec', _, heq'⟩ := connect_stream codec db' buf l' w'
    obtain ⟨m, hm, hdm⟩ := connect_stream_some heq hd
    obtain ⟨m', hm', hdm'⟩ := connect_stream_some heq' hd'
    rw [← hmem, hm] at hm'
    simp only [Option.some.injEq, Prod.mk.injEq] at hm'
    obtain ⟨k1, k2, k3⟩ := hm'
    subst k1
    rw [hdm, hdm']
    exact ⟨k3, k2, rfl, rfl, rfl, fun p => rfl⟩
  · intro db' l' w' hmem hf hf'
    obtain ⟨rec1, _, h1⟩ := connect_in_memory codec db buf l w hf
    obtain ⟨rec2, _, h2⟩ := connect_in_memory codec db' buf l' w' hf'
    rw [h1, h2, hmem, Option.map_map, Option.map_map]
    rfl
  · intro d r c hd
    obtain ⟨m, hm, hdm⟩ := connect_stream_some heq hd
    subst hdm
    refine ⟨rfl, ?_⟩
    by_cases hcond : (c && !l && db.read_write_file && w) = true
    · right
      have hc2 := hcond
      simp only [Bool.and_eq_true, Bool.not_eq_true'] at hc2
      obtain ⟨⟨⟨a1, a2⟩, a3⟩, a4⟩ := hc2
      have e1 : (with_log m
          (if (c && !l && db.read_write_file && w) = true then
            db.headers_tree_file.map (fun f => f ++ rec)
           else db.headers_tree_file)
          (if (c && !l && db.read_write_file && w) = true then
            db.file_ahead.drop rec.length
           else db.file_ahead) db.read_write_file).headers_tree_file
          = db.headers_tree_file.map (fun f => f ++ rec) := by
        show (if (c && !l && db.read_write_file && w) = true then _ else _) = _
        rw [if_pos hcond]
      have e2 : (with_log m
          (if (c && !l && db.read_write_file && w) = true then
            db.headers_tree_file.map (fun f => f ++ rec)
           else db.headers_tree_file)
          (if (c && !l && db.read_write_file && w) = true then
            db.file_ahead.drop rec.length
           else db.file_ahead) db.read_write_file).file_ahead
          = db.file_ahead.drop rec.length := by
        show (if (c && !l && db.read_write_file && w) = true then _ else _) = _
        rw [if_pos hcond]
      refine ⟨a1, a2, a3, a4, e1, e2, ?_⟩
      intro hnil
      unfold log_file
      rw [e1, e2, hnil, List.drop_nil]
      cases db.headers_tree_file with
      | none => rfl
      | some f => simp
    · left
      constructor
      · show (if (c && !l && db.read_write_file && w) = true then _ else _) = _
        rw [if_neg hcond]
      · show (if (c && !l && db.read_write_file && w) = true then _ else _) = _
        rw [if_neg hcond]

set_option maxRecDepth 100000 in
/-- Witness for C14: the sample database of one header, in memory and with a log that is
open at its end, and the second sample header, connected with a succeeding and with a
failing write. -/
theorem connect_persistence_independent_witness :
    in_memory (sample_db 144 1)
      = in_memory (with_log (sample_db 144 1) (some log_header) [] true)
    ∧ file_ready (sample_db 144 1) false
    ∧ file_ready (with_log (sample_db 144 1) (some log_header) [] true) false
    ∧ (btc_headers_db_connect_hdr sample_codec (sample_db 144 1) (sample_buf 1 2) false
          true).map (fun r => (in_memory r.1, r.2))
      = (btc_headers_db_connect_hdr sample_codec
          (with_log (sample_db 144 1) (some log_header) [] true) (sample_buf 1 2) false
          false).map (fun r => (in_memory r.1, r.2)) := by
  obtain ⟨_, _, _, _, h, _⟩ := connect_persistence_independent sample_codec (sample_db 144 1)
    (sample_buf 1 2) false true
  exact ⟨rfl, by decide, by decide,
    h (with_log (sample_db 144 1) (some log_header) [] true) false false rfl (by decide)
      (by decide)⟩

set_option maxRecDepth 100000 in
/-- C14 fails on the code in two ways.  Before `btc_headers_db_load` has opened the log, a
connect with `load_process = false` on a database with persistence writes to a `NULL`
stream and is undefined, while the same call with `load_process = true` connects the
header.  And after `btc_headers_db_load` has returned 0 on a log of version 2, the stream
stands behind the file header: the record of the next connected header is not appended,
it replaces the first record of the log. -/
theorem connect_persistence_counterexample :
    (btc_headers_db_connect_hdr sample_codec (btc_headers_db_new (hash_of_nat 0) false)
        (sample_buf 0 1) false true).isSome = false
    ∧ (btc_headers_db_connect_hdr sample_codec (btc_headers_db_new (hash_of_nat 0) false)
        (sample_buf 0 1) true true).map (fun r => r.2.2) = some true
    ∧ (btc_headers_db_load sample_codec (btc_headers_db_new (hash_of_nat 0) false)
        (some newer_log) true).map (fun r => r.2) = some 0
    ∧ holds_after (run_calls sample_codec (btc_headers_db_new (hash_of_nat 0) false)
        [Call.load (some newer_log) true])
        (fun db => log_file db = some newer_log
          ∧ db.file_ahead = sample_record 1 0 1 ++ sample_record 2 1 2)
    ∧ holds_after (run_calls sample_codec (btc_headers_db_new (hash_of_nat 0) false)
        [Call.load (some newer_log) true, Call.connect (sample_buf 0 7) false true])
        (fun d => (deref d d.chaintip).map (fun n => (n.hash, n.height))
            = some (hash_of_nat 7, 1)
          ∧ log_file d
            = some (file_hdr_magic ++ ser_u32 2 ++ sample_record 1 0 7 ++ sample_record 2 1 2)
          ∧ log_file d ≠ some (newer_log ++ sample_record 1 0 7)) := by
  refine ⟨?_, ?_, ?_, ?_, ?_⟩ <;> decide

/-! ## The normal form of a connect -/

theorem deref_push_ne (db : btc_headers_db) (x : Option btc_blockindex) {p : Ptr}
    (hp : p ≠ Ptr.node db.heap.length) :
    deref { db with heap := db.heap ++ [x] } p = deref db p := by
  cases p with
  | genesis => rfl
  | node a =>
    simp only [deref, heap_get]
    by_cases ha : a < db.heap.length
    · rw [List.getElem?_append_left ha]
    · have hne : a ≠ db.heap.length := fun h => hp (by rw [h])
      have hgt : db.heap.length < a := by omega
      rw [List.getElem?_eq_none (by simp; omega), List.getElem?_eq_none (by omega)]

theorem connect_hdr_normal (codec : Codec) (db : btc_headers_db) (buf : List Byte)
    (load_process write_ok : Bool) (hra : refs_allocated db) :
    btc_headers_db_connect_hdr codec db buf load_process write_ok
      = connect_normal codec db buf load_process write_ok := by
  obtain ⟨htipa, htree⟩ := hra
  have hsame : ∀ (x : btc_blockindex), ∀ p ∈ db.tree_root,
      deref { db with heap := db.heap ++ [some x] } p = deref db p :=
    fun x p hp => deref_push_ne db (some x) (htree p hp)
  have hfind : ∀ (x : btc_blockindex) (h : btc_uint256),
      btc_headersdb_find { db with heap := db.heap ++ [some x] } h = btc_headersdb_find db h := by
    intro x h
    simp only [btc_headersdb_find]
    rw [tfind_congr _ _ (hsame x)]
  have htipd : ∀ (x : btc_blockindex),
      deref { db with heap := db.heap ++ [some x] } db.chaintip = deref db db.chaintip :=
    fun x => deref_push_ne db (some x) htipa
  simp only [btc_headers_db_connect_hdr, connect_normal, store_calloc]
  cases hdec : codec.deserialize buf with
  | none => rfl
  | some hdr =>
    simp only [htipd]
    cases htip : deref db db.chaintip with
    | none => rfl
    | some tip =>
      simp only [hfind]
      cases hsel : (if hdr.prev_block = tip.hash then some (some db.chaintip)
             else btc_headersdb_find db hdr.prev_block) with
      | none => rfl
      | some o =>
        cases o with
        | none => rfl
        | some ca =>
          have hca : ca ≠ Ptr.node db.heap.length := by
            by_cases hpt : hdr.prev_block = tip.hash
            · rw [if_pos hpt] at hsel
              simp only [Option.some.injEq] at hsel
              rw [← hsel]; exact htipa
            · rw [if_neg hpt] at hsel
              simp only [btc_headersdb_find] at hsel
              by_cases hu : db.use_binary_tree = true
              · rw [if_pos hu] at hsel
                exact htree ca (tfind_some hsel).1
              · rw [if_neg hu] at hsel
                cases hsel
          have hcad : ∀ (x : btc_blockindex),
              deref { db with heap := db.heap ++ [some x] } ca = deref db ca :=
            fun x => deref_push_ne db (some x) hca
          simp only [connect_at_block, hcad, btc_calloc_snd, deref_pushed, store_push, htipd, htip]
          cases hatn : deref db ca with
          | none => rfl
          | some atn =>
            have hd : ∀ (f : Option (List Byte)) (fa : List Byte) (b : Bool) (t : List Ptr) (u : Bool) (m : Nat)
                (g : btc_blockindex) (ct cb : Ptr) (x : btc_blockindex),
                deref { headers_tree_file := f, file_ahead := fa, read_write_file := b, tree_root := t,
                        use_binary_tree := u, max_hdr_in_mem := m, genesis := g, chaintip := ct,
                        chainbottom := cb, heap := db.heap ++ [some x] }
                  (Ptr.node db.heap.length) = some x := by
              intro f fa b t u m g ct cb x
              simp only [deref, heap_get_append_length]
            have hts : ∀ (x : btc_blockindex), x.hash = codec.hash hdr →
                ∀ (ct : Ptr) (f : Option (List Byte)) (fa : List Byte) (b u : Bool), tsearch {
                  headers_tree_file := f, file_ahead := fa, read_write_file := b, tree_root := db.tree_root,
                  use_binary_tree := u, max_hdr_in_mem := db.max_hdr_in_mem,
                  genesis := db.genesis, chaintip := ct, chainbottom := db.chainbottom,
                  heap := db.heap ++ [some x] }
                (Ptr.node db.heap.length)
                = (tfind db { zero_blockindex with hash := codec.hash hdr } db.tree_root).map
                    (fun r => {
                      headers_tree_file := f, file_ahead := fa, read_write_file := b,
                      tree_root := (match r with
                        | none => Ptr.node db.heap.length :: db.tree_root
                        | some _ => db.tree_root),
                      use_binary_tree := u, max_hdr_in_mem := db.max_hdr_in_mem,
                      genesis := db.genesis, chaintip := ct, chainbottom := db.chainbottom,
                      heap := db.heap ++ [some x] }) := by
              intro x hx ct f fa b u
              have h1 := hd f fa b db.tree_root u db.max_hdr_in_mem db.genesis ct db.chainbottom x
              have h2 : tfind {
                  headers_tree_file := f, file_ahead := fa, read_write_file := b, tree_root := db.tree_root,
                  use_binary_tree := u, max_hdr_in_mem := db.max_hdr_in_mem,
                  genesis := db.genesis, chaintip := ct, chainbottom := db.chainbottom,
                  heap := db.heap ++ [some x] }
                  x db.tree_root
                  = tfind db { zero_blockindex with hash := codec.hash hdr } db.tree_root := by
                refine Eq.trans (tfind_congr _ _ ?_) (tfind_key_hash ?_ _)
                · intro p hp
                  rw [← hsame x p hp]
                  exact deref_congr rfl rfl p
                · exact hx
              simp only [tsearch, h1, h2]
              cases tfind db { zero_blockindex with hash := codec.hash hdr } db.tree_root with
              | none => rfl
              | some r => cases r <;> rfl
            cases hr : tfind db { zero_blockindex with hash := codec.hash hdr } db.tree_root with
            | none =>
              cases hl : load_process <;> cases hrw : db.read_write_file <;>
                cases hu : db.use_binary_tree <;> cases hw : write_ok <;>
                cases hf : db.headers_tree_file <;>
                simp [attached, linked_node, hts, hr, btc_headers_db_write, hd, record_bytes, hrw, hu, hf]
            | some r =>
              cases hl : load_process <;> cases hrw : db.read_write_file <;>
                cases hu : db.use_binary_tree <;> cases hw : write_ok <;>
                cases hf : db.headers_tree_file <;>
                simp [attached, linked_node, hts, hr, btc_headers_db_write, hd, record_bytes, hrw, hu, hf] <;>
                cases r <;> rfl

/-! ## Nodes only lose links -/

theorem nodes_evolve_refl (db : btc_headers_db) : nodes_evolve db db :=
  ⟨rfl, fun _ n1 h => ⟨n1, h, rfl, rfl, rfl, Or.inl rfl⟩⟩

theorem nodes_evolve_trans {a b c : btc_headers_db} (h1 : nodes_evolve a b)
    (h2 : nodes_evolve b c) : nodes_evolve a c := by
  refine ⟨h2.1.trans h1.1, ?_⟩
  intro p n2 hp
  obtain ⟨n1, k1, e1, e2, e3, e4⟩ := h2.2 p n2 hp
  obtain ⟨n, k0, f1, f2, f3, f4⟩ := h1.2 p n1 k1
  refine ⟨n, k0, e1.trans f1, e2.trans f2, e3.trans f3, ?_⟩
  rcases e4 with e4 | e4
  · rcases f4 with f4 | f4
    · exact Or.inl (e4.trans f4)
    · exact Or.inr (e4.trans f4)
  · exact Or.inr e4

/-- States with the same genesis node and the same heap have the same nodes. -/
theorem nodes_evolve_of_eq {db d : btc_headers_db} (hg : d.genesis = db.genesis)
    (hh : d.heap = db.heap) : nodes_evolve db d :=
  ⟨by rw [hh], fun p n1 h => ⟨n1, by rw [← deref_congr hg hh p]; exact h, rfl, rfl, rfl,
    Or.inl rfl⟩⟩

theorem deref_heap_set_ne (db : btc_headers_db) (a : Nat) (x : Option btc_blockindex) {p : Ptr}
    (hp : p ≠ Ptr.node a) : deref { db with heap := db.heap.set a x } p = deref db p :=
  @deref_set_ne db { db with heap := db.heap.set a x } a x rfl rfl p hp

theorem deref_heap_set_same (db : btc_headers_db) (a : Nat) (x : Option btc_blockindex)
    (hlt : a < db.heap.length) :
    deref { db with heap := db.heap.set a x } (Ptr.node a) = x :=
  @deref_set_same db { db with heap := db.heap.set a x } a x rfl hlt

theorem nodes_evolve_free {db d : btc_headers_db} {p : Ptr} (h : btc_free db p = some d) :
    nodes_evolve db d := by
  cases p with
  | genesis => simp [btc_free] at h
  | node a =>
    simp only [btc_free] at h
    cases hg : heap_get db.heap a with
    | none => rw [hg] at h; cases h
    | some x =>
      rw [hg] at h
      simp only [Option.some.injEq] at h
      subst h
      refine ⟨by simp, ?_⟩
      intro q n1 hq
      by_cases hqa : q = Ptr.node a
      · subst hqa
        rw [deref_heap_set_same db a none (heap_get_some_lt hg)] at hq
        cases hq
      · rw [deref_heap_set_ne db a none hqa] at hq
        exact ⟨n1, hq, rfl, rfl, rfl, Or.inl rfl⟩

theorem nodes_evolve_unlink {db d : btc_headers_db} {p : Ptr} {n : btc_blockindex}
    (hn : deref db p = some n) (h : store db p { n with prev := none } = some d) :
    nodes_evolve db d := by
  cases p with
  | genesis =>
    simp only [store, Option.some.injEq] at h
    subst h
    refine ⟨rfl, ?_⟩
    intro q n1 hq
    cases q with
    | genesis =>
      simp only [deref, Option.some.injEq] at hq hn
      subst hq
      exact ⟨n, by simp [deref, hn], rfl, rfl, rfl, Or.inr rfl⟩
    | node b => exact ⟨n1, hq, rfl, rfl, rfl, Or.inl rfl⟩
  | node a =>
    rw [store_node _ hn] at h
    simp only [Option.some.injEq] at h
    subst h
    refine ⟨by simp, ?_⟩
    intro q n1 hq
    by_cases hqa : q = Ptr.node a
    · subst hqa
      rw [deref_heap_set_same db a _ (deref_node_lt hn)] at hq
      simp only [Option.some.injEq] at hq
      subst hq
      exact ⟨n, hn, rfl, rfl, rfl, Or.inr rfl⟩
    · rw [deref_heap_set_ne db a _ hqa] at hq
      exact ⟨n1, hq, rfl, rfl, rfl, Or.inl rfl⟩

theorem tdelete_sub {db : btc_headers_db} (key : btc_blockindex) :
    ∀ (t t1 : List Ptr), tdelete db key t = some t1 → ∀ q ∈ t1, q ∈ t := by
  intro t
  induction t with
  | nil =>
    intro t1 h q hq
    simp only [tdelete, Option.some.injEq] at h
    subst h
    exact hq
  | cons p ps ih =>
    intro t1 h q hq
    simp only [tdelete] at h
    cases hd : deref db p with
    | none => rw [hd] at h; cases h
    | some n =>
      rw [hd] at h
      simp only [] at h
      by_cases hc : btc_header_compare key n = 0
      · rw [if_pos hc] at h
        simp only [Option.some.injEq] at h
        subst h
        exact List.mem_cons_of_mem _ hq
      · rw [if_neg hc] at h
        cases ht : tdelete db key ps with
        | none => rw [ht] at h; cases h
        | some t2 =>
          rw [ht] at h
          simp only [Option.map_some', Option.some.injEq] at h
          subst h
          rcases List.mem_cons.mp hq with hq | hq
          · rw [hq]; exact List.mem_cons_self _ _
          · exact List.mem_cons_of_mem _ (ih t2 ht q hq)

theorem store_fields {db d : btc_headers_db} {p : Ptr} {n : btc_blockindex}
    (h : store db p n = some d) : d.chaintip = db.chaintip ∧ d.tree_root = db.tree_root := by
  cases p with
  | genesis =>
    simp only [store, Option.some.injEq] at h
    subst h
    exact ⟨rfl, rfl⟩
  | node a =>
    simp only [store] at h
    cases hg : heap_get db.heap a with
    | none => rw [hg] at h; cases h
    | some x =>
      rw [hg] at h
      simp only [Option.some.injEq] at h
      subst h
      exact ⟨rfl, rfl⟩

theorem btc_free_fields {db d : btc_headers_db} {p : Ptr} (h : btc_free db p = some d) :
    d.chaintip = db.chaintip ∧ d.tree_root = db.tree_root := by
  cases p with
  | genesis => simp [btc_free] at h
  | node a =>
    simp only [btc_free] at h
    cases hg : heap_get db.heap a with
    | none => rw [hg] at h; cases h
    | some x =>
      rw [hg] at h
      simp only [Option.some.injEq] at h
      subst h
      exact ⟨rfl, rfl⟩

theorem prune_at_evolves {db d : btc_headers_db} {s : Ptr} (h : prune_at db s = some d) :
    nodes_evolve db d ∧ d.chaintip = db.chaintip
      ∧ (∀ q ∈ d.tree_root, q ∈ db.tree_root) := by
  simp only [prune_at] at h
  cases hs : deref db s with
  | none => rw [hs] at h; cases h
  | some st =>
    rw [hs] at h
    simp only [] at h
    cases hp : st.prev with
    | none =>
      rw [hp] at h
      simp only [Option.some.injEq] at h
      subst h
      exact ⟨nodes_evolve_refl db, rfl, fun _ hq => hq⟩
    | some q =>
      rw [hp] at h
      simp only [] at h
      by_cases hq : q ≠ Ptr.genesis
      · rw [if_pos hq] at h
        cases hqd : deref db q with
        | none => rw [hqd] at h; cases h
        | some qn =>
          rw [hqd] at h
          simp only [] at h
          cases ht : tdelete db qn db.tree_root with
          | none => rw [ht] at h; cases h
          | some t =>
            rw [ht] at h
            simp only [] at h
            cases hf : btc_free { db with tree_root := t } q with
            | none => rw [hf] at h; cases h
            | some db1 =>
              rw [hf] at h
              simp only [] at h
              cases hs1 : deref db1 s with
              | none => rw [hs1] at h; cases h
              | some st1 =>
                rw [hs1] at h
                simp only [] at h
                cases hst : store db1 s { st1 with prev := none } with
                | none => rw [hst] at h; cases h
                | some db2 =>
                  rw [hst] at h
                  simp only [Option.map_some', Option.some.injEq] at h
                  subst h
                  have e1 : nodes_evolve db { db with tree_root := t } :=
                    nodes_evolve_of_eq rfl rfl
                  have e2 := nodes_evolve_free hf
                  have e3 := nodes_evolve_unlink hs1 hst
                  have e4 : nodes_evolve db2 { db2 with chainbottom := s } :=
                    nodes_evolve_of_eq rfl rfl
                  refine ⟨nodes_evolve_trans (nodes_evolve_trans (nodes_evolve_trans e1 e2) e3) e4,
                    ?_, ?_⟩
                  · have k1 := store_fields hst
                    have k2 := btc_free_fields hf
                    show db2.chaintip = db.chaintip
                    rw [k1.1, k2.1]
                  · intro x hx
                    have k1 := store_fields hst
                    have k2 := btc_free_fields hf
                    have hx2 : x ∈ db2.tree_root := hx
                    rw [k1.2, k2.2] at hx2
                    exact tdelete_sub qn _ _ ht x hx2
      · rw [if_neg hq] at h
        simp only [Option.some.injEq] at h
        subst h
        exact ⟨nodes_evolve_refl db, rfl, fun _ hq => hq⟩

theorem prune_loop_evolves (bound maxhdr : Nat) :
    ∀ (fuel : Nat) (db d : btc_headers_db) (s : Ptr) (i : Nat),
      prune_loop bound maxhdr fuel db s i = some d →
      nodes_evolve db d ∧ d.chaintip = db.chaintip
        ∧ (∀ q ∈ d.tree_root, q ∈ db.tree_root) := by
  intro fuel
  induction fuel with
  | zero =>
    intro db d s i h
    simp only [prune_loop, Option.some.injEq] at h
    subst h
    exact ⟨nodes_evolve_refl db, rfl, fun _ hq => hq⟩
  | succ k ih =>
    intro db d s i h
    simp only [prune_loop] at h
    by_cases hi : i < bound
    · rw [if_pos hi] at h
      cases hs : deref db s with
      | none => rw [hs] at h; cases h
      | some st =>
        rw [hs] at h
        simp only [] at h
        cases hp : st.prev with
        | none =>
          rw [hp] at h
          simp only [Option.some.injEq] at h
          subst h
          exact ⟨nodes_evolve_refl db, rfl, fun _ hq => hq⟩
        | some p =>
          rw [hp] at h
          simp only [] at h
          by_cases hc : i = maxhdr ∧ p ≠ Ptr.genesis
          · rw [if_pos hc] at h
            cases hpa : prune_at db p with
            | none => rw [hpa] at h; cases h
            | some db1 =>
              rw [hpa] at h
              simp only [] at h
              obtain ⟨a1, a2, a3⟩ := prune_at_evolves hpa
              obtain ⟨b1, b2, b3⟩ := ih db1 d p (i + 1) h
              exact ⟨nodes_evolve_trans a1 b1, b2.trans a2, fun q hq => a3 q (b3 q hq)⟩
          · rw [if_neg hc] at h
            simp only [] at h
            exact ih db d p (i + 1) h
    · rw [if_neg hi] at h
      simp only [Option.some.injEq] at h
      subst h
      exact ⟨nodes_evolve_refl db, rfl, fun _ hq => hq⟩

/-- The pruning block only frees nodes and cuts nodes off from their `prev`; it keeps the
chain tip and adds no key to the tree. -/
theorem prune_evolves {db d : btc_headers_db} (h : prune db = some d) :
    nodes_evolve db d ∧ d.chaintip = db.chaintip
      ∧ (∀ q ∈ d.tree_root, q ∈ db.tree_root) := by
  simp only [prune] at h
  by_cases hm : db.max_hdr_in_mem > 0
  · rw [if_pos hm] at h
    exact prune_loop_evolves _ _ _ db d _ _ h
  · rw [if_neg hm] at h
    simp only [Option.some.injEq] at h
    subst h
    exact ⟨nodes_evolve_refl db, rfl, fun _ hq => hq⟩

/-- The link invariant and the allocation of the `prev` pointers survive every change
that only frees nodes and clears `prev` fields. -/
theorem links_ok_evolve {db d : btc_headers_db} (he : nodes_evolve db d) (hl : links_ok db) :
    links_ok d := by
  intro p n1 q m1 hp hq hm
  obtain ⟨n, hn, e1, e2, e3, e4⟩ := he.2 p n1 hp
  obtain ⟨m, hmm, f1, f2, f3, f4⟩ := he.2 q m1 hm
  have hprev : n.prev = some q := by
    rcases e4 with e4 | e4
    · rw [← e4]; exact hq
    · rw [e4] at hq; cases hq
  obtain ⟨k1, k2⟩ := hl p n q m hn hprev hmm
  rw [e3, e1, f2, f1]
  exact ⟨k1, k2⟩

theorem prev_bounds_evolve {db d : btc_headers_db} (he : nodes_evolve db d)
    (hg : db.genesis.prev = none)
    (hb : ∀ p n b, deref db p = some n → n.prev = some (Ptr.node b) → b < db.heap.length) :
    d.genesis.prev = none
    ∧ ∀ p n b, deref d p = some n → n.prev = some (Ptr.node b) → b < d.heap.length := by
  refine ⟨?_, ?_⟩
  · obtain ⟨n, hn, _, _, _, e4⟩ := he.2 Ptr.genesis d.genesis rfl
    simp only [deref, Option.some.injEq] at hn
    rcases e4 with e4 | e4
    · rw [e4, ← hn]; exact hg
    · exact e4
  · intro p n1 b hp hq
    obtain ⟨n, hn, _, _, _, e4⟩ := he.2 p n1 hp
    rw [he.1]
    rcases e4 with e4 | e4
    · exact hb p n b hn (by rw [← e4]; exact hq)
    · rw [e4] at hq; cases hq

theorem deref_out_of_bounds (db : btc_headers_db) (a : Nat) (h : db.heap.length ≤ a) :
    deref db (Ptr.node a) = none := by
  cases hd : deref db (Ptr.node a) with
  | none => rfl
  | some n => exact absurd (deref_node_lt hd) (by omega)

/-- Allocating a node that is unlinked, or linked to a live node whose hash its header
names and that is one below it, keeps the invariant of the heap. -/
theorem heap_inv_push {db d : btc_headers_db} {x : btc_blockindex}
    (hg : d.genesis = db.genesis) (hh : d.heap = db.heap ++ [some x])
    (hi : heap_inv db)
    (htip : ∀ a, d.chaintip = Ptr.node a → a ≤ db.heap.length)
    (htree : ∀ a, Ptr.node a ∈ d.tree_root → a ≤ db.heap.length)
    (hx : ∀ q, x.prev = some q → ∃ m, deref db q = some m
      ∧ x.header.prev_block = m.hash ∧ x.height = (m.height + 1) % UINT32_MOD) :
    heap_inv d := by
  obtain ⟨hl, hgp, _, _, hb⟩ := hi
  have hlen : d.heap.length = db.heap.length + 1 := by rw [hh]; simp
  have hd : ∀ p, p ≠ Ptr.node db.heap.length → deref d p = deref db p := by
    intro p hp
    have e : deref d p = deref { db with heap := db.heap ++ [some x] } p :=
      @deref_congr d { db with heap := db.heap ++ [some x] } hg hh p
    rw [e]
    exact deref_push_ne db (some x) hp
  have hnew : deref d (Ptr.node db.heap.length) = some x := deref_push_new db hh
  have hlive : ∀ q m, deref db q = some m → q ≠ Ptr.node db.heap.length := by
    intro q m hq hc
    rw [hc, deref_out_of_bounds db _ (le_refl _)] at hq
    cases hq
  have hprevne : ∀ p n q, deref db p = some n → n.prev = some q →
      q ≠ Ptr.node db.heap.length := by
    intro p n q hp hq hc
    rw [hc] at hq
    exact absurd (hb p n _ hp hq) (by omega)
  refine ⟨?_, ?_, ?_, ?_, ?_⟩
  · intro p n q m hp hq hm
    by_cases hpn : p = Ptr.node db.heap.length
    · rw [hpn, hnew] at hp
      simp only [Option.some.injEq] at hp
      subst hp
      obtain ⟨m0, hm0, k1, k2⟩ := hx q hq
      rw [hd q (hlive q m0 hm0), hm0] at hm
      simp only [Option.some.injEq] at hm
      subst hm
      exact ⟨k1, k2⟩
    · rw [hd p hpn] at hp
      rw [hd q (hprevne p n q hp hq)] at hm
      exact hl p n q m hp hq hm
  · rw [hg]; exact hgp
  · intro a ha
    have := htip a ha
    omega
  · intro a ha
    have := htree a ha
    omega
  · intro p n b hp hq
    by_cases hpn : p = Ptr.node db.heap.length
    · rw [hpn, hnew] at hp
      simp only [Option.some.injEq] at hp
      subst hp
      obtain ⟨m0, hm0, _, _⟩ := hx _ hq
      have := deref_node_lt hm0
      omega
    · rw [hd p hpn] at hp
      have := hb p n b hp hq
      omega

theorem refs_allocated_of_bounds {db : btc_headers_db} (hb : bounds_ok db) :
    refs_allocated db := by
  obtain ⟨_, h2, h3, _⟩ := hb
  refine ⟨?_, ?_⟩
  · intro hc
    exact absurd (h2 _ hc) (by omega)
  · intro p hp hc
    rw [hc] at hp
    exact absurd (h3 _ hp) (by omega)

theorem heap_inv_evolve {db d : btc_headers_db} (hi : heap_inv db) (he : nodes_evolve db d)
    (htip : ∀ a, d.chaintip = Ptr.node a → a < db.heap.length)
    (htree : ∀ q ∈ d.tree_root, q ∈ db.tree_root) : heap_inv d := by
  obtain ⟨hl, hgp, _, h3, hb⟩ := hi
  obtain ⟨k1, k2⟩ := prev_bounds_evolve he hgp hb
  refine ⟨links_ok_evolve he hl, k1, ?_, ?_, k2⟩
  · intro a ha
    rw [he.1]
    exact htip a ha
  · intro a ha
    rw [he.1]
    exact h3 a (htree _ ha)

theorem attached_tree_sub (codec : Codec) (db : btc_headers_db) (hdr : btc_block_header)
    (c : Ptr) (x y : Nat) (l w : Bool) :
    ∀ q ∈ (attached codec db hdr c x y l w).tree_root,
      q = Ptr.node db.heap.length ∨ q ∈ db.tree_root := by
  intro q hq
  simp only [attached] at hq
  by_cases hu : db.use_binary_tree = true
  · rw [if_pos hu] at hq
    cases ht : tfind db { zero_blockindex with hash := codec.hash hdr } db.tree_root with
    | none => rw [ht] at hq; exact Or.inr hq
    | some r =>
      rw [ht] at hq
      cases r with
      | none => exact List.mem_cons.mp hq
      | some _ => exact Or.inr hq
  · rw [if_neg hu] at hq
    exact Or.inr hq

/-- The attachment point that `btc_headers_db_connect_hdr` selects is a live node whose
hash the header names. -/
theorem attach_point_hash {db : btc_headers_db} {hdr : btc_block_header}
    {tip : btc_blockindex} {ca : Ptr} (htip : deref db db.chaintip = some tip)
    (hsel : (if hdr.prev_block = tip.hash then some (some db.chaintip)
             else btc_headersdb_find db hdr.prev_block) = some (some ca)) :
    (hdr.prev_block = tip.hash ∧ ca = db.chaintip
      ∨ hdr.prev_block ≠ tip.hash ∧ btc_headersdb_find db hdr.prev_block = some (some ca))
    ∧ ∃ atn, deref db ca = some atn ∧ hdr.prev_block = atn.hash := by
  by_cases hpt : hdr.prev_block = tip.hash
  · rw [if_pos hpt] at hsel
    simp only [Option.some.injEq] at hsel
    subst hsel
    exact ⟨Or.inl ⟨hpt, rfl⟩, tip, htip, hpt⟩
  · rw [if_neg hpt] at hsel
    refine ⟨Or.inr ⟨hpt, hsel⟩, ?_⟩
    simp only [btc_headersdb_find] at hsel
    by_cases hu : db.use_binary_tree = true
    · rw [if_pos hu] at hsel
      obtain ⟨_, n, hn, hh⟩ := tfind_some hsel
      exact ⟨n, hn, hh.symm⟩
    · rw [if_neg hu] at hsel
      cases hsel

/-- Every defined call of `btc_headers_db_connect_hdr` keeps the invariant of the heap. -/
theorem heap_inv_connect {codec : Codec} {db db1 : btc_headers_db} {buf : List Byte}
    {l w : Bool} {r : Option Ptr} {c : Bool} (hi : heap_inv db)
    (h : btc_headers_db_connect_hdr codec db buf l w = some (db1, r, c)) : heap_inv db1 := by
  rw [connect_hdr_normal codec db buf l w (refs_allocated_of_bounds hi.2)] at h
  have hb := hi.2
  have htipb : ∀ a, db.chaintip = Ptr.node a → a ≤ db.heap.length :=
    fun a ha => Nat.le_of_lt (hb.2.1 a ha)
  have htreeb : ∀ a, Ptr.node a ∈ db.tree_root → a ≤ db.heap.length :=
    fun a ha => Nat.le_of_lt (hb.2.2.1 a ha)
  simp only [connect_normal] at h
  cases hdec : codec.deserialize buf with
  | none =>
    rw [hdec] at h
    simp only [Option.some.injEq, Prod.mk.injEq] at h
    obtain ⟨h1, _, _⟩ := h
    subst h1
    exact @heap_inv_push db _ zero_blockindex rfl rfl hi htipb htreeb
      (fun q hq => by cases hq)
  | some hdr =>
    rw [hdec] at h
    simp only [] at h
    cases htip : deref db db.chaintip with
    | none => rw [htip] at h; cases h
    | some tip =>
      rw [htip] at h
      simp only [] at h
      cases hsel : (if hdr.prev_block = tip.hash then some (some db.chaintip)
             else btc_headersdb_find db hdr.prev_block) with
      | none => rw [hsel] at h; cases h
      | some o =>
        rw [hsel] at h
        cases o with
        | none =>
          simp only [Option.some.injEq, Prod.mk.injEq] at h
          obtain ⟨h1, _, _⟩ := h
          subst h1
          exact @heap_inv_push db _ { zero_blockindex with header := hdr, hash := codec.hash hdr }
            rfl rfl hi htipb htreeb (fun q hq => by cases hq)
        | some ca =>
          simp only [] at h
          obtain ⟨_, atn, hatn, hhash⟩ := attach_point_hash htip hsel
          rw [hatn] at h
          simp only [] at h
          split at h
          · cases h
          · split at h
            · cases h
            · cases hpr : prune (attached codec db hdr ca atn.height tip.height l w) with
              | none => rw [hpr] at h; cases h
              | some d =>
                rw [hpr] at h
                simp only [Option.map_some', Option.some.injEq, Prod.mk.injEq] at h
                obtain ⟨h1, _, _⟩ := h
                subst h1
                have hA : heap_inv (attached codec db hdr ca atn.height tip.height l w) := by
                  refine @heap_inv_push db _ (linked_node codec hdr ca atn.height) rfl rfl hi
                    ?_ ?_ ?_
                  · intro a ha
                    rw [attached_chaintip] at ha
                    split at ha
                    · simp only [Ptr.node.injEq] at ha
                      omega
                    · exact htipb a ha
                  · intro a ha
                    rcases attached_tree_sub codec db hdr ca _ _ l w _ ha with hq | hq
                    · simp only [Ptr.node.injEq] at hq
                      omega
                    · exact htreeb a hq
                  · intro q hq
                    simp only [linked_node, Option.some.injEq] at hq
                    subst hq
                    exact ⟨atn, hatn, hhash, rfl⟩
                obtain ⟨e1, e2, e3⟩ := prune_evolves hpr
                refine heap_inv_evolve hA e1 ?_ e3
                intro a ha
                rw [e2] at ha
                exact hA.2.2.1 a ha

theorem heap_inv_new (g : btc_uint256) (inmem_only : Bool) :
    heap_inv (btc_headers_db_new g inmem_only) := by
  refine ⟨?_, rfl, ?_, ?_, ?_⟩
  · intro p n q m hp hq _
    cases p with
    | genesis =>
      simp only [deref, Option.some.injEq] at hp
      subst hp
      cases hq
    | node a => simp [deref, heap_get, btc_headers_db_new] at hp
  · intro a ha
    cases ha
  · intro a ha
    simp [btc_headers_db_new] at ha
  · intro p n b hp hq
    cases p with
    | genesis =>
      simp only [deref, Option.some.injEq] at hp
      subst hp
      cases hq
    | node a => simp [deref, heap_get, btc_headers_db_new] at hp

/-- The invariant of the heap does not look at the log. -/
theorem heap_inv_fields {db d : btc_headers_db} (hi : heap_inv db)
    (hg : d.genesis = db.genesis) (hh : d.heap = db.heap) (ht : d.chaintip = db.chaintip)
    (hr : d.tree_root = db.tree_root) : heap_inv d := by
  refine heap_inv_evolve hi (nodes_evolve_of_eq hg hh) ?_ ?_
  · intro a ha
    rw [ht] at ha
    exact hi.2.2.1 a ha
  · intro q hq
    rw [hr] at hq
    exact hq

theorem heap_inv_disconnect {db db1 : btc_headers_db} {b : Bool} (hi : heap_inv db)
    (h : btc_headersdb_disconnect_tip db = some (db1, b)) : heap_inv db1 := by
  simp only [btc_headersdb_disconnect_tip] at h
  cases htip : deref db db.chaintip with
  | none => rw [htip] at h; cases h
  | some tip =>
    rw [htip] at h
    simp only [] at h
    cases hp : tip.prev with
    | none =>
      rw [hp] at h
      simp only [Option.some.injEq, Prod.mk.injEq] at h
      rw [← h.1]
      exact hi
    | some p =>
      rw [hp] at h
      simp only [] at h
      cases ht : tdelete db tip db.tree_root with
      | none => rw [ht] at h; cases h
      | some t =>
        rw [ht] at h
        simp only [] at h
        cases hf : btc_free { db with chaintip := p, tree_root := t } db.chaintip with
        | none => rw [hf] at h; cases h
        | some d =>
          rw [hf] at h
          simp only [Option.map_some', Option.some.injEq, Prod.mk.injEq] at h
          rw [← h.1]
          have e1 : nodes_evolve db { db with chaintip := p, tree_root := t } :=
            nodes_evolve_of_eq rfl rfl
          have k := btc_free_fields hf
          refine heap_inv_evolve hi (nodes_evolve_trans e1 (nodes_evolve_free hf)) ?_ ?_
          · intro a ha
            rw [k.1] at ha
            have hpa : p = Ptr.node a := ha
            rw [hpa] at hp
            exact hi.2.2.2.2 _ tip a htip hp
          · intro q hq
            rw [k.2] at hq
            exact tdelete_sub tip _ _ ht q hq

theorem heap_inv_checkpoint {db db1 : btc_headers_db} {hash : btc_uint256} {k : Nat}
    (hi : heap_inv db) (h : btc_headersdb_set_checkpoint_start db hash k = some db1) :
    heap_inv db1 := by
  rw [set_checkpoint_start_eq] at h
  simp only [Option.some.injEq] at h
  subst h
  refine @heap_inv_push db _ ⟨k % UINT32_MOD, hash, zero_header, none⟩ rfl rfl hi ?_ ?_
    (fun q hq => by cases hq)
  · intro a ha
    simp only [checkpoint_db, Ptr.node.injEq] at ha
    omega
  · intro a ha
    exact Nat.le_of_lt (hi.2.2.2.1 a ha)

theorem heap_inv_stream (db : btc_headers_db) (f : Option (List Byte)) (a : List Byte)
    (hi : heap_inv db) : heap_inv { db with headers_tree_file := f, file_ahead := a } :=
  heap_inv_fields hi rfl rfl rfl rfl

theorem heap_inv_load_records (codec : Codec) :
    ∀ (fuel : Nat) (db : btc_headers_db) (fb : Bool) (d : btc_headers_db)
      (r : Option Nat), heap_inv db → load_records codec fuel db fb = some (d, r) →
      heap_inv d := by
  intro fuel
  induction fuel with
  | zero =>
    intro db fb d r hi h
    simp only [load_records, Option.some.injEq, Prod.mk.injEq] at h
    rw [← h.1]
    exact hi
  | succ k ih =>
    intro db fb d r hi h
    have hi0 : heap_inv (stream_read db 116) := heap_inv_stream db _ _ hi
    simp only [load_records] at h
    split at h
    · simp only [Option.some.injEq, Prod.mk.injEq] at h
      rw [← h.1]
      exact hi0
    · split at h
      · exact ih _ _ _ _ hi0 h
      · split at h
        · -- the first record
          cases hdec : codec.deserialize ((db.file_ahead.take 116).drop 36) with
          | none =>
            rw [hdec] at h
            simp only [] at h
            cases hf : btc_free (btc_calloc (stream_read db 116)).1
                (btc_calloc (stream_read db 116)).2 with
            | none => rw [hf] at h; cases h
            | some d1 =>
              rw [hf] at h
              simp only [Option.map_some', Option.some.injEq, Prod.mk.injEq] at h
              rw [← h.1]
              have hp : heap_inv (btc_calloc (stream_read db 116)).1 :=
                @heap_inv_push (stream_read db 116) _ zero_blockindex rfl rfl hi0
                  (fun a ha => Nat.le_of_lt (hi0.2.2.1 a ha))
                  (fun a ha => Nat.le_of_lt (hi0.2.2.2.1 a ha)) (fun q hq => by cases hq)
              have kf := btc_free_fields hf
              refine heap_inv_evolve hp (nodes_evolve_free hf) ?_ ?_
              · intro a ha
                rw [kf.1] at ha
                exact hp.2.2.1 a ha
              · intro q hq
                rw [kf.2] at hq
                exact hq
          | some hdr =>
            rw [hdec] at h
            simp only [store_calloc] at h
            refine ih _ _ _ _ ?_ h
            refine @heap_inv_push (stream_read db 116) _ _ rfl rfl hi0 ?_
              (fun a ha => Nat.le_of_lt (hi0.2.2.2.1 a ha)) (fun q hq => by cases hq)
            intro a ha
            simp only [btc_calloc_snd, Ptr.node.injEq] at ha
            omega
        · cases hc : btc_headers_db_connect_hdr codec (stream_read db 116)
              ((db.file_ahead.take 116).drop 36) true false with
          | none => rw [hc] at h; cases h
          | some x =>
            obtain ⟨db1, r1, c1⟩ := x
            rw [hc] at h
            simp only [] at h
            split at h
            · cases h
            · exact ih _ _ _ _ (heap_inv_connect hi0 hc) h

theorem heap_inv_load {codec : Codec} {db db1 : btc_headers_db} {existing : Option (List Byte)}
    { fopen_ok : Bool} {r : Nat} (hi : heap_inv db)
    (h : btc_headers_db_load codec db existing fopen_ok = some (db1, r)) : heap_inv db1 := by
  simp only [btc_headers_db_load] at h
  split at h
  · simp only [Option.some.injEq, Prod.mk.injEq] at h
    rw [← h.1]
    exact hi
  · split at h
    · split at h
      · split at h
        · cases h
        · simp only [Option.some.injEq, Prod.mk.injEq] at h
          rw [← h.1]
          exact heap_inv_fields hi rfl rfl rfl rfl
      · cases h
    · rename_i content
      have hi1 : heap_inv (open_log db content fopen_ok) := heap_inv_stream db _ _ hi
      have hi2 : heap_inv (stream_read (open_log db content fopen_ok) 8) :=
        heap_inv_stream _ _ _ hi1
      split at h
      · simp only [Option.some.injEq, Prod.mk.injEq] at h
        rw [← h.1]
        exact hi1
      · split at h
        · cases h
        · split at h
          · simp only [Option.some.injEq, Prod.mk.injEq] at h
            rw [← h.1]
            exact hi2
          · split at h
            · simp only [Option.some.injEq, Prod.mk.injEq] at h
              rw [← h.1]
              exact hi2
            · split at h
              · cases h
              · rename_i heq
                simp only [Option.some.injEq, Prod.mk.injEq] at h
                rw [← h.1]
                exact heap_inv_load_records codec _ _ _ _ _ hi2 heq
              · rename_i heq
                split at h
                · cases h
                · simp only [Option.some.injEq, Prod.mk.injEq] at h
                  rw [← h.1]
                  exact heap_inv_load_records codec _ _ _ _ _ hi2 heq

theorem heap_inv_step {codec : Codec} {db d : btc_headers_db} {c : Call} (hi : heap_inv db)
    (h : call_step codec db c = some d) : heap_inv d := by
  cases c with
  | connect buf l w =>
    simp only [call_step] at h
    cases hc : btc_headers_db_connect_hdr codec db buf l w with
    | none => rw [hc] at h; cases h
    | some x =>
      obtain ⟨d1, r, c⟩ := x
      rw [hc] at h
      simp only [Option.map_some', Option.some.injEq] at h
      subst h
      exact heap_inv_connect hi hc
  | disconnect =>
    simp only [call_step] at h
    cases hc : btc_headersdb_disconnect_tip db with
    | none => rw [hc] at h; cases h
    | some x =>
      obtain ⟨d1, b⟩ := x
      rw [hc] at h
      simp only [Option.map_some', Option.some.injEq] at h
      subst h
      exact heap_inv_disconnect hi hc
  | checkpoint hash k => exact heap_inv_checkpoint hi h
  | load e f =>
    simp only [call_step] at h
    cases hc : btc_headers_db_load codec db e f with
    | none => rw [hc] at h; cases h
    | some x =>
      obtain ⟨d1, r⟩ := x
      rw [hc] at h
      simp only [Option.map_some', Option.some.injEq] at h
      subst h
      exact heap_inv_load hi hc

theorem heap_inv_run (codec : Codec) :
    ∀ (calls : List Call) (db d : btc_headers_db), heap_inv db →
      run_calls codec db calls = some d → heap_inv d := by
  intro calls
  induction calls with
  | nil =>
    intro db d hi h
    simp only [run_calls, Option.some.injEq] at h
    subst h
    exact hi
  | cons c cs ih =>
    intro db d hi h
    simp only [run_calls] at h
    cases hs : call_step codec db c with
    | none => rw [hs] at h; cases h
    | some d1 =>
      rw [hs] at h
      exact ih d1 d (heap_inv_step hi hs) h

/-- C15: in every state reached from `btc_headers_db_new` by calls of
`btc_headers_db_connect_hdr`, `btc_headersdb_disconnect_tip`,
`btc_headersdb_set_checkpoint_start` (and `btc_headers_db_load`), every live node whose
`prev` points to a live node names the hash of that node as its `prev_block` and has the
height of that node plus one, in `uint32_t` arithmetic; and `btc_headersdb_find` only
returns a node whose hash is the hash searched for. -/
theorem node_link_invariant (codec : Codec) (g : btc_uint256) (inmem_only : Bool)
    (calls : List Call) (db : btc_headers_db)
    (hrun : run_calls codec (btc_headers_db_new g inmem_only) calls = some db) :
    (∀ p n q m, deref db p = some n → n.prev = some q → deref db q = some m →
      n.header.prev_block = m.hash ∧ n.height = (m.height + 1) % UINT32_MOD)
    ∧ (∀ h p, btc_headersdb_find db h = some (some p) →
        ∃ n, deref db p = some n ∧ n.hash = h) := by
  refine ⟨(heap_inv_run codec calls _ db (heap_inv_new g inmem_only) hrun).1, ?_⟩
  intro h p hf
  simp only [btc_headersdb_find] at hf
  split at hf
  · obtain ⟨_, n, hn, hh⟩ := tfind_some hf
    exact ⟨n, hn, hh⟩
  · cases hf

set_option maxRecDepth 100000 in
/-- Witness for C15: the sample sequence of calls runs, and its final state has the
links right. -/
theorem node_link_invariant_witness :
    ∃ db, run_calls sample_codec (btc_headers_db_new (hash_of_nat 0) true) sample_calls
        = some db
      ∧ (∀ p n q m, deref db p = some n → n.prev = some q → deref db q = some m →
          n.header.prev_block = m.hash ∧ n.height = (m.height + 1) % UINT32_MOD)
      ∧ (∀ h p, btc_headersdb_find db h = some (some p) →
          ∃ n, deref db p = some n ∧ n.hash = h) := by
  have hs : (run_calls sample_codec (btc_headers_db_new (hash_of_nat 0) true)
      sample_calls).isSome = true := by decide
  obtain ⟨db, hdb⟩ := Option.isSome_iff_exists.mp hs
  exact ⟨db, hdb, node_link_invariant sample_codec (hash_of_nat 0) true sample_calls db hdb⟩

/-! ## Pruning along a known path -/

theorem deref_cut_same (db : btc_headers_db) (t1 : List Ptr) (cb : Ptr) (a b : Nat)
    (x : Option btc_blockindex) (ha : a < db.heap.length) :
    deref { db with tree_root := t1, heap := (db.heap.set b none).set a x, chainbottom := cb }
      (Ptr.node a) = x := by
  simp only [deref]
  exact heap_get_set_same _ _ _ (by simp; exact ha)

theorem deref_cut_other (db : btc_headers_db) (t1 : List Ptr) (cb : Ptr) (a b : Nat)
    (x : Option btc_blockindex) {p : Ptr} (hpa : p ≠ Ptr.node a) (hpb : p ≠ Ptr.node b) :
    deref { db with tree_root := t1, heap := (db.heap.set b none).set a x, chainbottom := cb } p
      = deref db p := by
  cases p with
  | genesis => rfl
  | node c =>
    simp only [deref]
    have h1 : c ≠ a := fun h => hpa (by rw [h])
    have h2 : c ≠ b := fun h => hpb (by rw [h])
    rw [heap_get_set_ne _ _ _ _ (by omega), heap_get_set_ne _ _ _ _ (by omega)]

theorem prev_at_attached (codec : Codec) (db : btc_headers_db) (hdr : btc_block_header)
    (c : Ptr) (x y : Nat) (l w : Bool) {p : Ptr} {o : Option Ptr}
    (h : prev_at db p = some o) : prev_at (attached codec db hdr c x y l w) p = some o := by
  simp only [prev_at] at h ⊢
  cases hd : deref db p with
  | none => rw [hd] at h; cases h
  | some n =>
    rw [deref_attached_live codec db hdr c x y l w hd]
    rw [hd] at h
    exact h

/-! ## Attaching a header to a database that has only been connected to -/

theorem prev_chain_unique (db : btc_headers_db) :
    ∀ (p1 : List Ptr) (p : Ptr) (p2 : List Ptr), is_prev_chain db p p1 →
      is_prev_chain db p p2 → p1 = p2 := by
  intro p1
  induction p1 with
  | nil => intro p p2 h1 _; exact h1.elim
  | cons q1 t1 ih =>
    intro p p2 h1 h2
    cases p2 with
    | nil => exact h2.elim
    | cons q2 t2 =>
      cases t1 with
      | nil =>
        cases t2 with
        | nil =>
          obtain ⟨a1, _⟩ := h1
          obtain ⟨a2, _⟩ := h2
          rw [a1, a2]
        | cons r2 s2 =>
          obtain ⟨_, b1⟩ := h1
          obtain ⟨_, b2, _⟩ := h2
          rw [b1] at b2
          cases b2
      | cons r1 s1 =>
        cases t2 with
        | nil =>
          obtain ⟨_, b1, _⟩ := h1
          obtain ⟨_, b2⟩ := h2
          rw [b1] at b2
          cases b2
        | cons r2 s2 =>
          obtain ⟨a1, b1, c1⟩ := h1
          obtain ⟨a2, b2, c2⟩ := h2
          rw [b1] at b2
          simp only [Option.some.injEq] at b2
          subst b2
          rw [a1, a2, ih r1 (r1 :: s2) c1 c2]

/-- A state whose chain tip has a prev-chain that ends in a node other than the chain
bottom and the genesis node violates the tip reachability. -/
theorem tip_chain_not_ok {db : btc_headers_db} {path : List Ptr} {e : Ptr}
    (h : is_prev_chain db db.chaintip path ∧ path.getLast? = some e
      ∧ e ≠ db.chainbottom ∧ e ≠ Ptr.genesis) : ¬ tip_chain_ok db := by
  obtain ⟨h1, h2, h3, h4⟩ := h
  rintro ⟨p2, k1, k2⟩
  have := prev_chain_unique db path db.chaintip p2 h1 k1
  subst this
  rw [h2] at k2
  rcases k2 with k2 | k2
  · simp only [Option.some.injEq] at k2
    exact h3 k2
  · simp only [Option.some.injEq] at k2
    exact h4 k2

theorem holds_after_elim {r : Option btc_headers_db} {P : btc_headers_db → Prop}
    (h : holds_after r P) : ∃ d, r = some d ∧ P d := by
  cases r with
  | none => exact h.elim
  | some d => exact ⟨d, rfl, h⟩

theorem heights_not_ordered {db : btc_headers_db} {x y : Nat}
    (h : (deref db db.chainbottom).map (fun n => n.height) = some x
      ∧ (deref db db.chaintip).map (fun n => n.height) = some y ∧ y < x) :
    ¬ heights_ordered db := by
  obtain ⟨h1, h2, h3⟩ := h
  rintro ⟨b, t, hb, ht, hle⟩
  rw [hb] at h1
  rw [ht] at h2
  simp only [Option.map_some', Option.some.injEq] at h1 h2
  omega

set_option maxRecDepth 100000 in
/-- Disconnects break both invariants without any checkpoint or load, shown here with the
pruning window `max_hdr_in_mem = 1` so that the chains stay short: after two branches have
been pruned, two disconnects and a header on the older branch, the prev-chain of the chain
tip ends in the node at which the older branch was cut, which is no longer the chain
bottom; two more disconnects leave the chain tip below the chain bottom. -/
theorem disconnect_breaks_invariants :
    (∃ db, run_calls sample_codec
        { btc_headers_db_new (hash_of_nat 0) true with max_hdr_in_mem := 1 }
        fork_and_disconnect = some db ∧ ¬ tip_chain_ok db)
    ∧ (∃ db, run_calls sample_codec
        { btc_headers_db_new (hash_of_nat 0) true with max_hdr_in_mem := 1 }
        (fork_and_disconnect ++ [Call.disconnect, Call.disconnect]) = some db
        ∧ ¬ heights_ordered db) := by
  have k1 : holds_after
      (run_calls sample_codec
        { btc_headers_db_new (hash_of_nat 0) true with max_hdr_in_mem := 1 }
        fork_and_disconnect)
      (fun d => is_prev_chain d d.chaintip [Ptr.node 8, Ptr.node 3, Ptr.node 1]
        ∧ [Ptr.node 8, Ptr.node 3, Ptr.node 1].getLast? = some (Ptr.node 1)
        ∧ Ptr.node 1 ≠ d.chainbottom ∧ Ptr.node 1 ≠ Ptr.genesis) := by decide
  have k2 : holds_after
      (run_calls sample_codec
        { btc_headers_db_new (hash_of_nat 0) true with max_hdr_in_mem := 1 }
        (fork_and_disconnect ++ [Call.disconnect, Call.disconnect]))
      (fun d => (deref d d.chainbottom).map (fun n => n.height) = some 3
        ∧ (deref d d.chaintip).map (fun n => n.height) = some 2 ∧ 2 < 3) := by decide
  obtain ⟨d1, e1, p1⟩ := holds_after_elim k1
  obtain ⟨d2, e2, p2⟩ := holds_after_elim k2
  exact ⟨⟨d1, e1, tip_chain_not_ok p1⟩, ⟨d2, e2, heights_not_ordered p2⟩⟩

/-! ## Records that do not deserialize, for every codec -/

/-- The first 116 octets of the unread part of the log are the record, whatever follows. -/
theorem record_split (r tail : List Byte) (hlen : r.length = 116) :
    ¬ (r ++ tail).length < 116 ∧ (r ++ tail).take 116 = r ∧ (r ++ tail).drop 116 = tail := by
  refine ⟨by rw [List.length_append, hlen]; omega, ?_, ?_⟩
  · rw [List.take_append_of_le_length (by omega), List.take_of_length_le (by omega)]
  · rw [List.drop_append_of_le_length (by omega), List.drop_of_length_le (by omega)]
    rfl

/-- Freeing the cell that `calloc` has just returned. -/
theorem btc_free_calloc (db : btc_headers_db) :
    btc_free (btc_calloc db).1 (btc_calloc db).2
      = some { db with heap := db.heap ++ [none] } := by
  simp only [btc_calloc, btc_free, heap_get_append_length]
  congr 2
  rw [List.set_append_right _ _ (le_refl _)]
  simp

/-- The loop ends when fewer than 116 octets are left to read; the stream is then at the end
of the log. -/
theorem load_records_end (codec : Codec) (fuel : Nat) (db : btc_headers_db)
    (fb : Bool) (h : db.file_ahead.length < 116) :
    load_records codec (fuel + 1) db fb = some (stream_read db 116, none) := by
  simp only [load_records, h, if_true]

theorem record_parse (codec : Codec) (k : Nat) (h : btc_block_header) (tail : List Byte)
    (hser : (codec.serialize h).length = 80) (hk : k < 4294967296) :
    ¬ (record_of codec k h ++ tail).length < 116
    ∧ deser_u32 (((record_of codec k h ++ tail).take 116).drop 32) = k
    ∧ ((record_of codec k h ++ tail).take 116).drop 36 = codec.serialize h
    ∧ (record_of codec k h ++ tail).drop 116 = tail := by
  have hl4 : (ser_u32 k).length = 4 := rfl
  have hlen : (record_of codec k h).length = 116 := by
    simp only [record_of, List.length_append, (codec.hash h).size_eq, hl4, hser]
  have htake : (record_of codec k h ++ tail).take 116 = record_of codec k h := by
    rw [List.take_append_of_le_length (by omega), List.take_of_length_le (by omega)]
  refine ⟨by rw [List.length_append, hlen]; omega, ?_, ?_, ?_⟩
  · rw [htake]
    have : record_of codec k h = (codec.hash h).bytes ++ (ser_u32 k ++ codec.serialize h) := by
      simp only [record_of, List.append_assoc]
    rw [this, List.drop_left' (codec.hash h).size_eq]
    exact deser_u32_ser_u32 k _ hk
  · rw [htake]
    have : record_of codec k h = ((codec.hash h).bytes ++ ser_u32 k) ++ codec.serialize h := by
      simp only [record_of]
    rw [this, List.drop_left' (by simp [(codec.hash h).size_eq, hl4])]
  · rw [List.drop_append_of_le_length (by omega), List.drop_of_length_le (by omega)]
    rfl

/-- The first record of a log becomes the anchor of the replayed chain. -/
theorem load_records_first (codec : Codec) (fuel : Nat) (db : btc_headers_db) (k : Nat)
    (h : btc_block_header) (tail : List Byte)
    (ha : db.file_ahead = record_of codec k h ++ tail)
    (hser : (codec.serialize h).length = 80) (hdec : codec.deserialize (codec.serialize h) = some h)
    (hk : k < 1120874) :
    load_records codec (fuel + 1) db true
      = load_records codec fuel
          { stream_read db 116 with
            heap := db.heap ++ [some ⟨k, codec.hash h, h, none⟩]
            chaintip := Ptr.node db.heap.length } false := by
  obtain ⟨h1, h2, h3, h4⟩ := record_parse codec k h tail hser (by omega)
  rw [← ha] at h1 h2 h3
  have hs := store_calloc (stream_read db 116) ⟨k, codec.hash h, h, none⟩
  simp only [load_records, h1, if_false, h2, h3, hdec, ge_iff_le, not_le.mpr hk,
    zero_blockindex, hs, if_true]
  rfl

/-- Every later record is passed to `btc_headers_db_connect_hdr` in loading mode. -/
theorem load_records_next (codec : Codec) (fuel : Nat) (db : btc_headers_db) (k : Nat)
    (h : btc_block_header) (tail : List Byte)
    (ha : db.file_ahead = record_of codec k h ++ tail)
    (hser : (codec.serialize h).length = 80) (hk : k < 1120874) :
    load_records codec (fuel + 1) db false
      = match btc_headers_db_connect_hdr codec (stream_read db 116) (codec.serialize h)
            true false with
        | none => none
        | some (db1, _, connected) =>
          match (if connected then some db1.genesis else deref db1 db1.chaintip) with
          | none => none
          | some _ => load_records codec fuel db1 false := by
  obtain ⟨h1, h2, h3, h4⟩ := record_parse codec k h tail hser (by omega)
  rw [← ha] at h1 h2 h3
  simp only [load_records, h1, if_false, h2, h3, ge_iff_le, not_le.mpr hk]
  rfl

/-- A first record whose payload the codec rejects ends the replay with `return -1`, for
every codec, database and record below the height limit of the loader. -/
theorem load_records_first_rejected (codec : Codec) (fuel : Nat) (db : btc_headers_db)
    (r tail : List Byte) (ha : db.file_ahead = r ++ tail)
    (hlen : r.length = 116) (hh : deser_u32 (r.drop 32) < 1120874)
    (hd : codec.deserialize (r.drop 36) = none) :
    load_records codec (fuel + 1) db true
      = some ({ stream_read db 116 with heap := db.heap ++ [none] }, some 255) := by
  obtain ⟨h1, h2, h3⟩ := record_split r tail hlen
  rw [← ha] at h1 h2
  simp only [load_records, h1, if_false, h2, hd, ge_iff_le, not_le.mpr hh, if_true,
    btc_free_calloc, Option.map_some']
  rfl

/-- A later record whose payload the codec rejects is passed over, for every codec,
database with a live chain tip and record below the height limit of the loader: the replay
goes on with the next record, and all that is left of the record is the zeroed cell that
`btc_headers_db_connect_hdr` allocated for it. -/
theorem load_records_later_rejected (codec : Codec) (fuel : Nat) (db : btc_headers_db)
    (r tail : List Byte) (tip : btc_blockindex) (ha : db.file_ahead = r ++ tail)
    (hlen : r.length = 116)
    (hh : deser_u32 (r.drop 32) < 1120874) (hd : codec.deserialize (r.drop 36) = none)
    (htip : deref db db.chaintip = some tip) :
    load_records codec (fuel + 1) db false
      = load_records codec fuel (btc_calloc (stream_read db 116)).1 false := by
  obtain ⟨h1, h2, h3⟩ := record_split r tail hlen
  rw [← ha] at h1 h2
  have ht : deref (btc_calloc (stream_read db 116)).1
      (btc_calloc (stream_read db 116)).1.chaintip = some tip :=
    @deref_push db (btc_calloc (stream_read db 116)).1 (some zero_blockindex) rfl rfl
      db.chaintip tip htip
  simp only [load_records, h1, if_false, h2, ge_iff_le, not_le.mpr hh,
    btc_headers_db_connect_hdr, hd, Bool.false_eq_true, ht]

/-- With persistence enabled, `btc_headers_db_load` returns 255 on every log whose first
record has a payload that the codec rejects, and 1 on every log of a good first record
followed by such a record: in neither case does the caller receive 0. -/
theorem load_rejected_payload (codec : Codec) (db : btc_headers_db) (r : List Byte)
    (hrw : db.read_write_file = true) (hlen : r.length = 116)
    (hh : deser_u32 (r.drop 32) < 1120874) (hd : codec.deserialize (r.drop 36) = none) :
    (∀ tail, (log_header ++ (r ++ tail)).length < UINT32_MOD →
      (btc_headers_db_load codec db (some (log_header ++ (r ++ tail))) true).map (fun x => x.2)
        = some 255)
    ∧ (∀ (k : Nat) (h : btc_block_header), (codec.serialize h).length = 80 →
        codec.deserialize (codec.serialize h) = some h → k < 1120874 →
        (btc_headers_db_load codec db (some (log_header ++ (record_of codec k h ++ r))) true).map
          (fun x => x.2) = some 1) := by
  have hl8 : log_header.length = 8 := rfl
  have hval : ∀ x : List Byte, ((log_header ++ x).getD 4 0).val ≤ 1 := by
    intro x
    have e : (log_header ++ x).getD 4 0 = 1 := rfl
    rw [e]
    decide
  refine ⟨?_, ?_⟩
  · intro tail hsz
    have h8 : 8 ≤ (log_header ++ (r ++ tail)).length := by
      rw [List.length_append, hl8]; omega
    have hm : (log_header ++ (r ++ tail)).take 4 = file_hdr_magic := rfl
    have hf : (log_header ++ (r ++ tail)).length = (r ++ tail).length + 7 + 1 := by
      rw [List.length_append, hl8]; omega
    rw [(load_version_check codec db _ hrw h8 hsz hm).2 (hval _), hf,
      load_records_first_rejected codec _ _ r tail rfl hlen hh hd]
    rfl
  · intro k h hser hdec hk
    have hrl : (record_of codec k h).length = 116 := by
      have hl4 : (ser_u32 k).length = 4 := rfl
      simp only [record_of, List.length_append, (codec.hash h).size_eq, hl4, hser]
    have hf : (log_header ++ (record_of codec k h ++ r)).length = 238 + 1 + 1 := by
      simp only [List.length_append, hl8, hrl, hlen]
    have hsz : (log_header ++ (record_of codec k h ++ r)).length < UINT32_MOD := by
      rw [hf]; decide
    have h8 : 8 ≤ (log_header ++ (record_of codec k h ++ r)).length := by
      rw [hf]; decide
    have hm : (log_header ++ (record_of codec k h ++ r)).take 4 = file_hdr_magic := rfl
    have hdr1 : (record_of codec k h ++ r).drop 116 = r := by
      rw [List.drop_append_of_le_length (by omega), List.drop_of_length_le (by omega)]
      rfl
    have e1 := load_records_first codec (238 + 1)
      (stream_read (open_log db (log_header ++ (record_of codec k h ++ r)) true) 8)
      k h r rfl hser hdec hk
    have e2 := load_records_later_rejected codec 238
      { stream_read (stream_read
          (open_log db (log_header ++ (record_of codec k h ++ r)) true) 8) 116 with
        heap := db.heap ++ [some ⟨k, codec.hash h, h, none⟩]
        chaintip := Ptr.node db.heap.length }
      r [] ⟨k, codec.hash h, h, none⟩ (by rw [List.append_nil]; exact hdr1) hlen hh hd
      (by simp only [deref, heap_get_append_length])
    have e3 := load_records_end codec 237
      (btc_calloc (stream_read
        { stream_read (stream_read
            (open_log db (log_header ++ (record_of codec k h ++ r)) true) 8) 116 with
          heap := db.heap ++ [some ⟨k, codec.hash h, h, none⟩]
          chaintip := Ptr.node db.heap.length } 116)).1 false (by
        show (List.drop 116 (List.drop 116 (record_of codec k h ++ r))).length < 116
        rw [hdr1, List.drop_of_length_le (by omega)]
        decide)
    rw [(load_version_check codec db _ hrw h8 hsz hm).2 (hval _), hf, (e1.trans e2).trans e3]
    have e4 : ∀ d : btc_headers_db, d.heap = db.heap ++ [some ⟨k, codec.hash h, h, none⟩]
        ++ [some zero_blockindex] → d.chaintip = Ptr.node db.heap.length →
        deref d d.chaintip = some ⟨k, codec.hash h, h, none⟩ := by
      intro d hd1 hd2
      rw [hd2]
      simp only [deref, hd1]
      rw [heap_get, List.getElem?_append_left (by simp), List.getElem?_append_right (le_refl _)]
      simp
    simp only []
    rw [e4 _ rfl rfl]
    rfl

/-! ## The height limit of the loader, for every codec -/

/-- A complete record that stores a height of 1120874 or more is skipped by the replay
loop, for every codec and database and whether or not a first record has been seen: the
loop goes on with the next record on the same database. -/
theorem load_records_skip (codec : Codec) (fuel : Nat) (db : btc_headers_db)
    (r tail : List Byte) (fb : Bool) (ha : db.file_ahead = r ++ tail) (hlen : r.length = 116)
    (hh : 1120874 ≤ deser_u32 (r.drop 32)) :
    load_records codec (fuel + 1) db fb = load_records codec fuel (stream_read db 116) fb := by
  obtain ⟨h1, h2, h3⟩ := record_split r tail hlen
  rw [← ha] at h1 h2
  simp only [load_records, h1, if_false, h2, ge_iff_le, hh, if_true]

/-! ## The order of `btc_header_compare` -/

/-- Swapping the arguments of the comparison loop negates its result. -/
theorem compare_bytes_neg : ∀ (a b : List Byte), compare_bytes a b = - compare_bytes b a
  | [], [] => rfl
  | [], _ :: _ => rfl
  | _ :: _, [] => rfl
  | x :: xs, y :: ys => by
    simp only [compare_bytes, gt_iff_lt]
    by_cases h1 : y < x
    · have h2 : ¬ x < y := not_lt.mpr (le_of_lt h1)
      simp only [h1, h2, if_true, if_false, neg_neg]
    · by_cases h2 : x < y
      · simp only [h1, h2, if_true, if_false, neg_neg]
      · simp only [h1, h2, if_false]
        exact compare_bytes_neg xs ys

/-- The result of the comparison loop is decided at the first position in which the two
arrays differ: -1 when the left octet is the greater one, 1 when it is the smaller one. -/
theorem compare_bytes_first_diff : ∀ (a b : List Byte), a.length = b.length → a ≠ b →
    ∃ i, i < a.length ∧ (∀ j, j < i → a.getD j 0 = b.getD j 0)
      ∧ a.getD i 0 ≠ b.getD i 0
      ∧ (a.getD i 0 > b.getD i 0 → compare_bytes a b = -1)
      ∧ (a.getD i 0 < b.getD i 0 → compare_bytes a b = 1)
  | [], [], _, hne => absurd rfl hne
  | [], _ :: _, hl, _ => by simp at hl
  | _ :: _, [], hl, _ => by simp at hl
  | x :: xs, y :: ys, hl, hne => by
    by_cases hxy : x = y
    · subst hxy
      have hl1 : xs.length = ys.length := by simpa using hl
      have hne1 : xs ≠ ys := fun h => hne (by rw [h])
      obtain ⟨i, hi, heq, hd, hgt, hlt⟩ := compare_bytes_first_diff xs ys hl1 hne1
      refine ⟨i + 1, by simpa using hi, ?_, by simpa using hd, ?_, ?_⟩
      · intro j hj
        cases j with
        | zero => rfl
        | succ k => simpa using heq k (by omega)
      · intro h
        have h1 : xs.getD i 0 > ys.getD i 0 := by simpa using h
        simp only [compare_bytes, gt_iff_lt, lt_irrefl, if_false]
        exact hgt h1
      · intro h
        have h1 : xs.getD i 0 < ys.getD i 0 := by simpa using h
        simp only [compare_bytes, gt_iff_lt, lt_irrefl, if_false]
        exact hlt h1
    · refine ⟨0, by simp, fun j hj => absurd hj (Nat.not_lt_zero j), by simpa using hxy, ?_, ?_⟩
      · intro h
        have h1 : x > y := by simpa using h
        simp only [compare_bytes, h1, if_true]
      · intro h
        have h1 : x < y := by simpa using h
        have h2 : ¬ x > y := not_lt.mpr (le_of_lt h1)
        simp only [compare_bytes, h1, h2, if_true, if_false]

/-- The relation `compare_bytes a b = -1` is transitive on arrays of one length. -/
theorem compare_bytes_trans : ∀ (a b c : List Byte), a.length = b.length →
    b.length = c.length → compare_bytes a b = -1 → compare_bytes b c = -1 →
    compare_bytes a c = -1
  | [], [], [], _, _, h, _ => by simp [compare_bytes] at h
  | [], _ :: _, _, h, _, _, _ => by simp at h
  | _ :: _, [], _, h, _, _, _ => by simp at h
  | _ :: _, _ :: _, [], _, h, _, _ => by simp at h
  | x :: xs, y :: ys, z :: zs, h1, h2, hab, hbc => by
    have l1 : xs.length = ys.length := by simpa using h1
    have l2 : ys.length = zs.length := by simpa using h2
    simp only [compare_bytes, gt_iff_lt] at hab hbc ⊢
    by_cases a1 : y < x
    · by_cases b1 : z < y
      · simp only [lt_trans b1 a1, if_true]
      · by_cases b2 : y < z
        · simp only [b1, b2, if_true, if_false] at hbc
          exact absurd hbc (by decide)
        · have hyz : y = z := le_antisymm (not_lt.mp b1) (not_lt.mp b2)
          subst hyz
          simp only [a1, if_true]
    · by_cases a2 : x < y
      · simp only [a1, a2, if_true, if_false] at hab
        exact absurd hab (by decide)
      · have hxy : x = y := le_antisymm (not_lt.mp a1) (not_lt.mp a2)
        subst hxy
        simp only [lt_irrefl, if_false] at hab
        by_cases b1 : z < x
        · simp only [b1, if_true]
        · by_cases b2 : x < z
          · simp only [b1, b2, if_true, if_false] at hbc
            exact absurd hbc (by decide)
          · simp only [b1, b2, if_false] at hbc ⊢
            exact compare_bytes_trans xs ys zs l1 l2 hab hbc

/-- The call `tdelete` looks at the hash of its key only. -/
theorem tdelete_key_hash {db : btc_headers_db} {key1 key2 : btc_blockindex}
    (h : key1.hash = key2.hash) (t : List Ptr) : tdelete db key1 t = tdelete db key2 t := by
  induction t with
  | nil => rfl
  | cons p ps ih =>
    simp only [tdelete]
    cases deref db p with
    | none => rfl
    | some n =>
      have : (btc_header_compare key1 n = 0) ↔ (btc_header_compare key2 n = 0) := by
        rw [btc_header_compare_eq_zero, btc_header_compare_eq_zero, h]
      simp only [this, ih]

/-- C21: `btc_header_compare` orders nodes by their 32-octet hashes, descending in the
octet-wise lexicographic order.  It returns 0 exactly when the hashes are equal;
otherwise the first position in which they differ decides, -1 when the left octet is the
greater one and 1 when it is the smaller one.  Swapping the arguments negates the result,
and the relation of returning -1 is transitive.  The searches of the index look at the
hash of their key only, so that two keys with one hash find and delete the same entry. -/
theorem header_compare_order (l r : btc_blockindex) :
    (btc_header_compare l r = 0 ↔ l.hash = r.hash)
    ∧ (btc_header_compare l r = 0 ∨ btc_header_compare l r = -1 ∨ btc_header_compare l r = 1)
    ∧ (l.hash ≠ r.hash → ∃ i, i < 32
        ∧ (∀ j, j < i → l.hash.bytes.getD j 0 = r.hash.bytes.getD j 0)
        ∧ l.hash.bytes.getD i 0 ≠ r.hash.bytes.getD i 0
        ∧ (l.hash.bytes.getD i 0 > r.hash.bytes.getD i 0 → btc_header_compare l r = -1)
        ∧ (l.hash.bytes.getD i 0 < r.hash.bytes.getD i 0 → btc_header_compare l r = 1))
    ∧ btc_header_compare l r = - btc_header_compare r l
    ∧ (∀ m : btc_blockindex, btc_header_compare l m = -1 → btc_header_compare m r = -1 →
        btc_header_compare l r = -1)
    ∧ (l.hash = r.hash → ∀ (db : btc_headers_db) (t : List Ptr),
        tfind db l t = tfind db r t ∧ tdelete db l t = tdelete db r t) := by
  have hlen : l.hash.bytes.length = r.hash.bytes.length := by
    rw [l.hash.size_eq, r.hash.size_eq]
  have hdiff : l.hash ≠ r.hash → ∃ i, i < 32
      ∧ (∀ j, j < i → l.hash.bytes.getD j 0 = r.hash.bytes.getD j 0)
      ∧ l.hash.bytes.getD i 0 ≠ r.hash.bytes.getD i 0
      ∧ (l.hash.bytes.getD i 0 > r.hash.bytes.getD i 0 → btc_header_compare l r = -1)
      ∧ (l.hash.bytes.getD i 0 < r.hash.bytes.getD i 0 → btc_header_compare l r = 1) := by
    intro hne
    have hb : l.hash.bytes ≠ r.hash.bytes := by
      intro hb
      apply hne
      cases hl : l.hash; cases hr : r.hash
      simp only [hl, hr] at hb
      subst hb; rfl
    obtain ⟨i, hi, h1, h2, h3, h4⟩ := compare_bytes_first_diff _ _ hlen hb
    rw [l.hash.size_eq] at hi
    exact ⟨i, hi, h1, h2, h3, h4⟩
  refine ⟨btc_header_compare_eq_zero l r, ?_, hdiff, compare_bytes_neg _ _, ?_, ?_⟩
  · by_cases he : l.hash = r.hash
    · exact Or.inl ((btc_header_compare_eq_zero l r).mpr he)
    · obtain ⟨i, _, _, hd, hgt, hlt⟩ := hdiff he
      rcases lt_or_gt_of_ne hd with h | h
      · exact Or.inr (Or.inr (hlt h))
      · exact Or.inr (Or.inl (hgt h))
  · intro m h1 h2
    exact compare_bytes_trans _ _ _ (by rw [l.hash.size_eq, m.hash.size_eq])
      (by rw [m.hash.size_eq, r.hash.size_eq]) h1 h2
  · intro h db t
    exact ⟨tfind_key_hash h t, tdelete_key_hash h t⟩

/-- Witness for C21: the hashes of the sample keys 258 and 514 agree in their first octet
and differ in the second, where 514 has the greater octet, so the comparison of 258 with
514 returns 1 and the comparison of 514 with 258 returns -1. -/
theorem header_compare_order_witness :
    (sample_key 258).hash ≠ (sample_key 514).hash
    ∧ btc_header_compare (sample_key 258) (sample_key 514) = 1
    ∧ btc_header_compare (sample_key 514) (sample_key 258) = -1
    ∧ ∃ i, i < 32
        ∧ (∀ j, j < i → (sample_key 258).hash.bytes.getD j 0
            = (sample_key 514).hash.bytes.getD j 0)
        ∧ (sample_key 258).hash.bytes.getD i 0 ≠ (sample_key 514).hash.bytes.getD i 0
        ∧ ((sample_key 258).hash.bytes.getD i 0 > (sample_key 514).hash.bytes.getD i 0 →
            btc_header_compare (sample_key 258) (sample_key 514) = -1)
        ∧ ((sample_key 258).hash.bytes.getD i 0 < (sample_key 514).hash.bytes.getD i 0 →
            btc_header_compare (sample_key 258) (sample_key 514) = 1) :=
  ⟨by decide, by decide, by decide,
    (header_compare_order (sample_key 258) (sample_key 514)).2.2.1 (by decide)⟩

/-! ## Pruning and the checkpoint query -/

/-- C24: pruning alone makes `btc_headersdb_has_checkpoint_start` answer true.  On a
database fresh from `btc_headers_db_new` (window 144), after a line of 146 headers with
pairwise distinct hashes the chain bottom is still the genesis node and the query answers
false; the 147th header of the line connects, the chain bottom becomes the node of the
second header, at height 2, and the query answers true. -/
theorem prune_sets_checkpoint_flag (codec : Codec) (g : btc_uint256)
    (inmem_only load_process write_ok : Bool) (bufs : List (List Byte)) (buf : List Byte)
    (hs : List btc_block_header) (h : btc_block_header)
    (hlen : hs.length = 146)
    (hdec : bufs.map codec.deserialize = hs.map some)
    (hdec1 : codec.deserialize buf = some h)
    (hchain : chain_from codec g (hs ++ [h]))
    (hnd : ((hs ++ [h]).map codec.hash).Nodup)
    (hfile : inmem_only = true ∨ load_process = true) :
    ∃ db146 db147 tip bottom,
      connect_all codec load_process write_ok (btc_headers_db_new g inmem_only) bufs
        = some (db146, List.replicate 146 true)
      ∧ db146.chainbottom = Ptr.genesis
      ∧ btc_headersdb_has_checkpoint_start db146 = some false
      ∧ (btc_headers_db_connect_hdr codec db146 buf load_process write_ok).map
          (fun r => (r.1, r.2.2)) = some (db147, true)
      ∧ btc_headersdb_has_checkpoint_start db147 = some true
      ∧ db147.chainbottom = Ptr.node 1
      ∧ deref db147 db147.chainbottom = some bottom
      ∧ bottom.height = 2
      ∧ hs[1]? = some bottom.header
      ∧ deref db147 db147.chaintip = some tip
      ∧ tip.height = 147 := by
  obtain ⟨hc1, hc2⟩ := (chain_from_append codec g hs [h]).mp hchain
  obtain ⟨db146, h1, h2, h3, h4⟩ := lin_run_fresh codec g inmem_only load_process write_ok 144
    bufs hs (by decide) hdec hc1 (by rw [hlen]; decide) hfile (Or.inr (Or.inl (by omega)))
  have hcut : lin_cut 144 hs.length = 0 := by rw [hlen]; simp [lin_cut]
  rw [hcut] at h2
  have h2a : LinC codec g false (lin_cut db146.max_hdr_in_mem hs.length) hs db146 := by
    rw [h3, hcut]; exact h2
  obtain ⟨db147, k1, k2, k3, _⟩ := lin_run load_process write_ok [h] [buf] hs db146 h2a
    (by rw [h3]; decide) (by simp [hdec1]) hc2 (by simp)
    (by rw [hlen]; simp [UINT32_MOD]) h4
    (Or.inr (Or.inr hnd))
  have hcut2 : lin_cut db146.max_hdr_in_mem (hs.length + [h].length) = 1 := by
    rw [h3, hlen]; simp [lin_cut]
  rw [hcut2] at k2
  obtain ⟨tip, ht, _, hth⟩ := k2.tip_node (by simp)
  obtain ⟨y, hy⟩ : ∃ y, hs[1]? = some y := by
    have h1lt : 1 < hs.length := by omega
    exact ⟨hs.get ⟨1, h1lt⟩, List.getElem?_eq_getElem h1lt⟩
  have hy2 : (hs ++ [h])[1]? = some y := by
    rw [List.getElem?_append_left (by omega)]; exact hy
  have hb146 : db146.chainbottom = Ptr.genesis := by rw [h2.bottom]; rfl
  have hb147 : db147.chainbottom = Ptr.node 1 := by rw [k2.bottom]; rfl
  have hcell := k2.cell 1 y hy2 (le_refl _)
  refine ⟨db146, db147, tip, lin_cell codec false 1 1 y, ?_, hb146, ?_, ?_, ?_, hb147, ?_, rfl,
    hy, ht, ?_⟩
  · rw [← hlen]; exact h1
  · simp only [btc_headersdb_has_checkpoint_start, hb146, deref, Option.map_some',
      h2.gen_height]
    rfl
  · simp only [connect_all] at k1
    cases hc : btc_headers_db_connect_hdr codec db146 buf load_process write_ok with
    | none => rw [hc] at k1; simp at k1
    | some r =>
      obtain ⟨d, q, c⟩ := r
      rw [hc] at k1
      simp only [Option.map_some', Option.some.injEq, Prod.mk.injEq, List.length_singleton,
        List.replicate_one, List.cons.injEq, and_true] at k1
      obtain ⟨rfl, rfl⟩ := k1
      rfl
  · rw [btc_headersdb_has_checkpoint_start, hb147, hcell]
    rfl
  · rw [hb147]; exact hcell
  · rw [hth]; simp [hlen]

/-- Witness for C24: the sample line of 147 headers on a fresh in-memory database. -/
theorem prune_sets_checkpoint_flag_witness :
    ∃ db146 db147 tip bottom,
      connect_all sample_codec false true (btc_headers_db_new (hash_of_nat 0) true)
          (sample_line 146) = some (db146, List.replicate 146 true)
      ∧ db146.chainbottom = Ptr.genesis
      ∧ btc_headersdb_has_checkpoint_start db146 = some false
      ∧ (btc_headers_db_connect_hdr sample_codec db146 (sample_buf 146 147) false true).map
          (fun r => (r.1, r.2.2)) = some (db147, true)
      ∧ btc_headersdb_has_checkpoint_start db147 = some true
      ∧ db147.chainbottom = Ptr.node 1
      ∧ deref db147 db147.chainbottom = some bottom
      ∧ bottom.height = 2
      ∧ (sample_headers 146)[1]? = some bottom.header
      ∧ deref db147 db147.chaintip = some tip
      ∧ tip.height = 147 :=
  prune_sets_checkpoint_flag sample_codec (hash_of_nat 0) true false true (sample_line 146)
    (sample_buf 146 147) (sample_headers 146) (sample_header 146 147)
    (by simp [sample_headers]) (sample_line_decodes 146) (by decide)
    (by rw [← sample_headers_succ]; exact sample_chain 147)
    (by rw [← sample_headers_succ]
        exact (List.nodup_cons.mp (sample_nodup 147 (by decide))).2)
    (Or.inl rfl)

/-! ## Prev-chains as sequences of links -/

/-- A prev-chain, read as the sequence of its pointers: the links between consecutive
pointers, the end, and the list itself. -/
theorem prev_chain_links (db : btc_headers_db) :
    ∀ (path : List Ptr) (p : Ptr), is_prev_chain db p path →
      ∃ (f : Nat → Ptr) (d : Nat), f 0 = p
        ∧ (∀ i, i < d → prev_at db (f i) = some (some (f (i + 1))))
        ∧ prev_at db (f d) = some none
        ∧ path = (List.range (d + 1)).map f := by
  intro path
  induction path with
  | nil => intro p h; exact h.elim
  | cons q t ih =>
    intro p h
    cases t with
    | nil =>
      obtain ⟨h1, h2⟩ := h
      refine ⟨fun _ => p, 0, rfl, fun i hi => absurd hi (Nat.not_lt_zero i), h2, ?_⟩
      rw [h1]; rfl
    | cons r rs =>
      obtain ⟨h1, h2, h3⟩ := h
      obtain ⟨f, d, k0, klink, kend, kpath⟩ := ih r h3
      refine ⟨fun i => match i with | 0 => p | j + 1 => f j, d + 1, rfl, ?_, kend, ?_⟩
      · intro i hi
        cases i with
        | zero => simp only [k0]; exact h2
        | succ j => exact klink j (by omega)
      · rw [List.range_succ_eq_map, List.map_cons, List.map_map, h1, kpath]
        rfl

/-- A sequence of live links that ends in a node without `prev` is the prev-chain of its
first node, as the list of its `d + 1` pointers. -/
theorem prev_chain_of_links (db : btc_headers_db) :
    ∀ (d : Nat) (f : Nat → Ptr),
      (∀ i, i < d → prev_at db (f i) = some (some (f (i + 1)))) →
      prev_at db (f d) = some none →
      is_prev_chain db (f 0) ((List.range (d + 1)).map f) := by
  intro d
  induction d with
  | zero =>
    intro f _ hend
    exact ⟨rfl, hend⟩
  | succ k ih =>
    intro f hlink hend
    have h1 := ih (fun i => f (i + 1)) (fun i hi => hlink (i + 1) (by omega)) hend
    have e : List.map (f ∘ Nat.succ) (List.range (k + 1))
        = f 1 :: List.map ((f ∘ Nat.succ) ∘ Nat.succ) (List.range k) := by
      rw [List.range_succ_eq_map, List.map_cons, List.map_map]
      rfl
    rw [List.range_succ_eq_map, List.map_cons, List.map_map, e]
    refine ⟨rfl, hlink 0 (by omega), ?_⟩
    rw [← e]
    exact h1

/-- The pointers of a prev-chain are pairwise different. -/
theorem chain_distinct {db : btc_headers_db} {f : Nat → Ptr} {d : Nat}
    (hlink : ∀ i, i < d → prev_at db (f i) = some (some (f (i + 1))))
    (hend : prev_at db (f d) = some none) :
    ∀ i j, i < j → j ≤ d → f i ≠ f j := by
  intro i j hij hjd he
  have hshift : ∀ t, j + t ≤ d → f (i + t) = f (j + t) := by
    intro t
    induction t with
    | zero => intro _; exact he
    | succ t ih =>
      intro ht
      have e := ih (by omega)
      have l1 := hlink (i + t) (by omega)
      have l2 := hlink (j + t) (by omega)
      rw [e, l2] at l1
      simp only [Option.some.injEq] at l1
      exact l1.symm
  have e := hshift (d - j) (by omega)
  have l1 := hlink (i + (d - j)) (by omega)
  rw [e, show j + (d - j) = d by omega, hend] at l1
  cases l1

/-- The pruning block on a database whose chain tip has a prev-chain `f 0`, ..., `f d`.
Either nothing is pruned, and then the chain has at most `max_hdr_in_mem + 1` links, or
one more that leads to the genesis node, unless pruning is off (`max_hdr_in_mem` is 0 or
`UINT_MAX`); or the node `max_hdr_in_mem + 2` links behind the chain tip is deleted from
the tree and freed and the node before it is cut off and becomes the chain bottom. -/
theorem prune_on_chain (db : btc_headers_db) (f : Nat → Ptr) (d : Nat)
    (h0 : f 0 = db.chaintip)
    (hlink : ∀ i, i < d → prev_at db (f i) = some (some (f (i + 1))))
    (hend : prev_at db (f d) = some none)
    (htl : tree_live db) (hgen : db.genesis.prev = none)
    (hmax : db.max_hdr_in_mem < UINT32_MOD) :
    (prune db = some db
      ∧ (0 < db.max_hdr_in_mem → db.max_hdr_in_mem + 1 < UINT32_MOD →
          d ≤ db.max_hdr_in_mem + 1 ∨ (d = db.max_hdr_in_mem + 2 ∧ f d = Ptr.genesis)))
    ∨ (∃ a b sn qn t1, 0 < db.max_hdr_in_mem ∧ db.max_hdr_in_mem + 1 < UINT32_MOD
        ∧ db.max_hdr_in_mem + 2 ≤ d
        ∧ f (db.max_hdr_in_mem + 1) = Ptr.node a ∧ f (db.max_hdr_in_mem + 2) = Ptr.node b
        ∧ a ≠ b
        ∧ deref db (Ptr.node a) = some sn ∧ sn.prev = some (Ptr.node b)
        ∧ deref db (Ptr.node b) = some qn
        ∧ tdelete db qn db.tree_root = some t1
        ∧ prune db = some { db with
            tree_root := t1
            heap := (db.heap.set b none).set a (some { sn with prev := none })
            chainbottom := Ptr.node a }) := by
  have hgp : prev_at db Ptr.genesis = some none := by
    simp only [prev_at, deref, Option.map_some', hgen]
  by_cases hm0 : db.max_hdr_in_mem = 0
  · exact Or.inl ⟨by simp [prune, hm0], fun h => absurd hm0 (by omega)⟩
  by_cases hwrap : db.max_hdr_in_mem + 1 = UINT32_MOD
  · refine Or.inl ⟨?_, fun _ h => absurd hwrap (by omega)⟩
    unfold prune
    rw [if_pos (Nat.pos_of_ne_zero hm0), hwrap, Nat.mod_self]
    rfl
  have hM1 : db.max_hdr_in_mem + 1 < UINT32_MOD := by omega
  by_cases hd : d ≤ db.max_hdr_in_mem + 1
  · exact Or.inl ⟨prune_eq_self db f d hmax hd h0 hlink (Or.inl hend), fun _ _ => Or.inl hd⟩
  have hls := hlink (db.max_hdr_in_mem + 1) (by omega)
  cases hs : f (db.max_hdr_in_mem + 1) with
  | genesis =>
    rw [hs, hgp] at hls
    cases hls
  | node a =>
    cases hq : f (db.max_hdr_in_mem + 1 + 1) with
    | genesis =>
      have hde : d = db.max_hdr_in_mem + 2 := by
        by_contra hne
        have hl2 := hlink (db.max_hdr_in_mem + 1 + 1) (by omega)
        rw [hq, hgp] at hl2
        cases hl2
      refine Or.inl ⟨?_, fun _ _ => Or.inr ⟨hde, by rw [hde]; exact hq⟩⟩
      apply prune_eq_self db f (db.max_hdr_in_mem + 1) hmax (le_refl _) h0
        (fun x hx => hlink x (by omega))
      exact Or.inr ⟨by rw [hls, hq], hgen⟩
    | node b =>
      rw [hs, hq] at hls
      obtain ⟨sn, hsn, hsp⟩ := prev_at_some hls
      have hab : a ≠ b := by
        intro e
        apply chain_distinct hlink hend (db.max_hdr_in_mem + 1) (db.max_hdr_in_mem + 1 + 1)
          (by omega) (by omega)
        rw [hs, hq, e]
      obtain ⟨qn, hqn⟩ : ∃ qn, deref db (Ptr.node b) = some qn := by
        have hsome : (prev_at db (f (db.max_hdr_in_mem + 1 + 1))).isSome = true := by
          by_cases hde : d = db.max_hdr_in_mem + 1 + 1
          · rw [← hde, hend]; rfl
          · rw [hlink (db.max_hdr_in_mem + 1 + 1) (by omega)]; rfl
        rw [hq] at hsome
        unfold prev_at at hsome
        cases hdq : deref db (Ptr.node b) with
        | none => rw [hdq] at hsome; cases hsome
        | some qn => exact ⟨qn, rfl⟩
      obtain ⟨t1, ht1, _⟩ := tdelete_spec qn db.tree_root htl
      have hp := prune_eq_cut db f sn qn a b t1 (Nat.pos_of_ne_zero hm0) hM1 h0
        (fun x hx => hlink x (by omega)) hs hsn hsp hqn hab ht1
      exact Or.inr ⟨a, b, sn, qn, t1, Nat.pos_of_ne_zero hm0, hM1, by omega, rfl, rfl, hab, hsn,
        hsp, hqn, ht1, hp⟩

/-- The last pointer of a chain given as a sequence. -/
theorem getLast_map_range (f : Nat → Ptr) (d : Nat) :
    ((List.range (d + 1)).map f).getLast? = some (f d) := by
  rw [List.range_succ, List.map_append, List.map_singleton, List.getLast?_concat]

/-- After the pruning block the prev-chain of the chain tip is short: on a database whose
chain tip has a prev-chain, with `0 < max_hdr_in_mem < UINT_MAX`, the block is defined and
leaves a chain tip whose prev-chain has at most `max_hdr_in_mem + 2` nodes, or one more
when the last of them is the genesis node. -/
theorem prune_window (db : btc_headers_db) (f : Nat → Ptr) (d : Nat)
    (h0 : f 0 = db.chaintip)
    (hlink : ∀ i, i < d → prev_at db (f i) = some (some (f (i + 1))))
    (hend : prev_at db (f d) = some none)
    (htl : tree_live db) (hgen : db.genesis.prev = none)
    (hpos : 0 < db.max_hdr_in_mem) (hM1 : db.max_hdr_in_mem + 1 < UINT32_MOD) :
    ∃ db1 path, prune db = some db1 ∧ db1.chaintip = db.chaintip
      ∧ db1.max_hdr_in_mem = db.max_hdr_in_mem
      ∧ is_prev_chain db1 db1.chaintip path
      ∧ (path.length ≤ db.max_hdr_in_mem + 2
          ∨ (path.length = db.max_hdr_in_mem + 3 ∧ path.getLast? = some Ptr.genesis)) := by
  rcases prune_on_chain db f d h0 hlink hend htl hgen (by omega) with
    ⟨hp, hb⟩ | ⟨a, b, sn, qn, t1, _, _, hd, hs, hq, hab, hsn, hsp, hqn, ht1, hp⟩
  · refine ⟨db, (List.range (d + 1)).map f, hp, rfl, rfl, ?_, ?_⟩
    · rw [← h0]; exact prev_chain_of_links db d f hlink hend
    · rw [List.length_map, List.length_range, getLast_map_range]
      rcases hb hpos hM1 with h | ⟨h1, h2⟩
      · exact Or.inl (by omega)
      · exact Or.inr ⟨by omega, by rw [h2]⟩
  · have hlt : a < db.heap.length := deref_node_lt hsn
    have hlink1 : ∀ i, i < db.max_hdr_in_mem + 1 →
        prev_at { db with
            tree_root := t1
            heap := (db.heap.set b none).set a (some { sn with prev := none })
            chainbottom := Ptr.node a } (f i) = some (some (f (i + 1))) := by
      intro i hi
      have hia : f i ≠ Ptr.node a := by
        rw [← hs]
        exact chain_distinct hlink hend i (db.max_hdr_in_mem + 1) hi (by omega)
      have hib : f i ≠ Ptr.node b := by
        rw [← hq]
        exact chain_distinct hlink hend i (db.max_hdr_in_mem + 2) (by omega) hd
      unfold prev_at
      rw [deref_cut_other db t1 (Ptr.node a) a b _ hia hib]
      exact hlink i (by omega)
    have hend1 : prev_at { db with
            tree_root := t1
            heap := (db.heap.set b none).set a (some { sn with prev := none })
            chainbottom := Ptr.node a } (f (db.max_hdr_in_mem + 1)) = some none := by
      unfold prev_at
      rw [hs, deref_cut_same db t1 (Ptr.node a) a b _ hlt]
      rfl
    refine ⟨_, (List.range (db.max_hdr_in_mem + 1 + 1)).map f, hp, rfl, rfl, ?_, ?_⟩
    · have := prev_chain_of_links _ (db.max_hdr_in_mem + 1) f hlink1 hend1
      rw [h0] at this
      exact this
    · rw [List.length_map, List.length_range]
      exact Or.inl (le_refl _)

/-- The prev-chain of the chain tip of the state in which a header has just been attached:
the new node followed by the prev-chain of the attachment point when the new node is the
chain tip, the prev-chain of the old chain tip otherwise. -/
theorem attached_chain (codec : Codec) (db : btc_headers_db) (hdr : btc_block_header)
    (c : Ptr) (x y : Nat) (l w : Bool) (pt pc : List Ptr)
    (hpt : is_prev_chain db db.chaintip pt) (hpc : is_prev_chain db c pc) :
    ∃ (f : Nat → Ptr) (d : Nat), f 0 = (attached codec db hdr c x y l w).chaintip
      ∧ (∀ i, i < d →
          prev_at (attached codec db hdr c x y l w) (f i) = some (some (f (i + 1))))
      ∧ prev_at (attached codec db hdr c x y l w) (f d) = some none
      ∧ (∀ i, 0 < i → i ≤ d → (deref db (f i)).isSome = true) := by
  have hlive : ∀ (g : Nat → Ptr) (e : Nat),
      (∀ i, i < e → prev_at db (g i) = some (some (g (i + 1)))) →
      prev_at db (g e) = some none → ∀ i, i ≤ e → (deref db (g i)).isSome = true := by
    intro g e klink kend i hi
    have hsome : (prev_at db (g i)).isSome = true := by
      by_cases hie : i = e
      · rw [hie, kend]; rfl
      · rw [klink i (by omega)]; rfl
    unfold prev_at at hsome
    cases hdq : deref db (g i) with
    | none => rw [hdq] at hsome; cases hsome
    | some n => rfl
  rw [attached_chaintip]
  by_cases hgt : (x + 1) % UINT32_MOD > y
  · obtain ⟨f, d, k0, klink, kend, _⟩ := prev_chain_links db pc c hpc
    rw [if_pos hgt]
    refine ⟨fun i => match i with | 0 => Ptr.node db.heap.length | j + 1 => f j, d + 1, rfl,
      ?_, prev_at_attached codec db hdr c x y l w kend, ?_⟩
    · intro i hi
      cases i with
      | zero =>
        simp only [prev_at, deref_attached_new, Option.map_some', linked_node, k0]
      | succ j => exact prev_at_attached codec db hdr c x y l w (klink j (by omega))
    · intro i hi hid
      cases i with
      | zero => exact absurd hi (lt_irrefl 0)
      | succ j => exact hlive f d klink kend j (by omega)
  · obtain ⟨f, d, k0, klink, kend, _⟩ := prev_chain_links db pt db.chaintip hpt
    rw [if_neg hgt]
    exact ⟨f, d, k0, fun i hi => prev_at_attached codec db hdr c x y l w (klink i hi),
      prev_at_attached codec db hdr c x y l w kend,
      fun i _ hid => hlive f d klink kend i hid⟩

/-! ## The window of nodes behind the chain tip -/

/-- C23, amended: with `0 < max_hdr_in_mem = M < UINT_MAX`, on every state whose genesis
node has no `prev`, whose tree keys are live and in which the prev-chains of the chain tip
and of the attachment point end (so the `prev` links behind them are acyclic and lead
through live nodes), a header that finds its attachment point connects, and afterwards
the prev-chain of the chain tip has at most `M + 3` nodes, whatever its length was before
the call: at most `M + 2` nodes, or `M + 3` when the last of them is the genesis node. -/
theorem connect_window_bound (codec : Codec) (db : btc_headers_db) (buf : List Byte)
    (hdr : btc_block_header) (tip : btc_blockindex) (connect_at : Ptr)
    (load_process write_ok : Bool) (pt pc : List Ptr)
    (hdec : codec.deserialize buf = some hdr)
    (htip : deref db db.chaintip = some tip)
    (htl : tree_live db)
    (hatt : (hdr.prev_block = tip.hash ∧ connect_at = db.chaintip)
      ∨ (hdr.prev_block ≠ tip.hash
          ∧ btc_headersdb_find db hdr.prev_block = some (some connect_at)))
    (hfile : file_ready db load_process)
    (hgen : db.genesis.prev = none)
    (hpos : 0 < db.max_hdr_in_mem) (hM1 : db.max_hdr_in_mem + 1 < UINT32_MOD)
    (hpt : is_prev_chain db db.chaintip pt) (hpc : is_prev_chain db connect_at pc) :
    ∃ db1 path, btc_headers_db_connect_hdr codec db buf load_process write_ok
        = some (db1, some (Ptr.node db.heap.length), true)
      ∧ db1.max_hdr_in_mem = db.max_hdr_in_mem
      ∧ is_prev_chain db1 db1.chaintip path
      ∧ path.length ≤ db.max_hdr_in_mem + 3
      ∧ (path.length = db.max_hdr_in_mem + 3 → path.getLast? = some Ptr.genesis) := by
  obtain ⟨atn, hatn⟩ : ∃ atn, deref db connect_at = some atn := by
    obtain ⟨f, d, k0, klink, kend, _⟩ := prev_chain_links db pc connect_at hpc
    have hsome : (prev_at db connect_at).isSome = true := by
      rw [← k0]
      by_cases hd : d = 0
      · rw [hd] at kend; rw [kend]; rfl
      · rw [klink 0 (by omega)]; rfl
    unfold prev_at at hsome
    cases hdq : deref db connect_at with
    | none => rw [hdq] at hsome; cases hsome
    | some n => exact ⟨n, rfl⟩
  have hconn := connect_hdr_attach codec db buf hdr tip atn connect_at load_process write_ok
    hdec htip htl hatt hatn hfile
  obtain ⟨f, d, h0, hlink, hend, _⟩ := attached_chain codec db hdr connect_at atn.height
    tip.height load_process write_ok pt pc hpt hpc
  obtain ⟨db1, path, hp, _, hm, hchain, hlen⟩ := prune_window _ f d h0 hlink hend
    (attached_tree_live codec db hdr connect_at atn.height tip.height load_process write_ok htl)
    hgen hpos hM1
  rw [hp] at hconn
  refine ⟨db1, path, hconn, hm, hchain, ?_, ?_⟩
  · rcases hlen with h | ⟨h, _⟩
    · exact le_trans h (by show db.max_hdr_in_mem + 2 ≤ db.max_hdr_in_mem + 3; omega)
    · exact le_of_eq h
  · intro he
    rcases hlen with h | ⟨_, h⟩
    · have h2 : path.length ≤ db.max_hdr_in_mem + 2 := h
      omega
    · exact h

set_option maxRecDepth 100000 in
/-- Witness for C23: on the unpruned sample chain of 5 headers (6 nodes with the genesis
node) under the window 1, the sixth header of the line connects. -/
theorem connect_window_bound_witness :
    is_prev_chain unpruned_db unpruned_db.chaintip
      [Ptr.node 4, Ptr.node 3, Ptr.node 2, Ptr.node 1, Ptr.node 0, Ptr.genesis]
    ∧ ∃ db1 path, btc_headers_db_connect_hdr sample_codec unpruned_db (sample_buf 5 6) false true
        = some (db1, some (Ptr.node unpruned_db.heap.length), true)
      ∧ db1.max_hdr_in_mem = unpruned_db.max_hdr_in_mem
      ∧ is_prev_chain db1 db1.chaintip path
      ∧ path.length ≤ unpruned_db.max_hdr_in_mem + 3
      ∧ (path.length = unpruned_db.max_hdr_in_mem + 3 → path.getLast? = some Ptr.genesis) :=
  ⟨by decide,
    connect_window_bound sample_codec unpruned_db (sample_buf 5 6) (sample_header 5 6)
      ⟨5, hash_of_nat 5, sample_header 4 5, some (Ptr.node 3)⟩ (Ptr.node 4) false true
      [Ptr.node 4, Ptr.node 3, Ptr.node 2, Ptr.node 1, Ptr.node 0, Ptr.genesis]
      [Ptr.node 4, Ptr.node 3, Ptr.node 2, Ptr.node 1, Ptr.node 0, Ptr.genesis]
      (by decide) (by decide) (by decide) (Or.inl ⟨by decide, by decide⟩) (by decide)
      (by decide) (by decide) (by decide) (by decide) (by decide)⟩

/-! ## The window when `max_hdr_in_mem` is `UINT_MAX` -/

theorem long_db_deref (n i : Nat) (hi : i < n) :
    deref (long_db n) (Ptr.node i) = some (long_node i) := by
  simp only [deref, long_db, heap_get, List.getElem?_map, List.getElem?_range hi,
    Option.map_some']

/-- With `max_hdr_in_mem = UINT_MAX` the bound `max_hdr_in_mem + 1` of the pruning loop
wraps to 0 and nothing is pruned: on the unpruned line of `n` headers the next header of
the line connects and becomes the chain tip, and the prev-chain of the chain tip has
`n + 2` nodes. -/
theorem long_db_connect (n : Nat) (hn : 0 < n) (hh : n % UINT32_MOD + 1 < UINT32_MOD) :
    ∃ db1 path, btc_headers_db_connect_hdr sample_codec (long_db n) (sample_buf n (n + 1))
        false true = some (db1, some (Ptr.node n), true)
      ∧ db1.max_hdr_in_mem = 4294967295
      ∧ is_prev_chain db1 db1.chaintip path ∧ path.length = n + 2 := by
  have hlen : (long_db n).heap.length = n := by simp [long_db]
  have htipp : (long_db n).chaintip = Ptr.node (n - 1) := by
    simp only [long_db]; rw [if_neg (by omega)]
  have htip : deref (long_db n) (long_db n).chaintip = some (long_node (n - 1)) := by
    rw [htipp]; exact long_db_deref n (n - 1) (by omega)
  have htl : tree_live (long_db n) := by
    intro p hp
    simp only [long_db, List.mem_reverse, List.mem_map, List.mem_range] at hp
    obtain ⟨i, hi, rfl⟩ := hp
    rw [long_db_deref n i hi]; rfl
  have hn1 : n - 1 + 1 = n := by omega
  have hconn := connect_hdr_attach sample_codec (long_db n) (sample_buf n (n + 1))
    (sample_header n (n + 1)) (long_node (n - 1)) (long_node (n - 1)) (Ptr.node (n - 1))
    false true (sample_deserialize n (n + 1)) htip htl
    (Or.inl ⟨by simp only [sample_header, long_node, hn1], htipp.symm⟩)
    (long_db_deref n (n - 1) (by omega)) (Or.inr (Or.inl rfl))
  have hheight : (long_node (n - 1)).height = n % UINT32_MOD := by
    simp only [long_node, hn1]
  rw [hheight, hlen] at hconn
  have hprune : prune (attached sample_codec (long_db n) (sample_header n (n + 1))
      (Ptr.node (n - 1)) (n % UINT32_MOD) (n % UINT32_MOD) false true)
      = some (attached sample_codec (long_db n) (sample_header n (n + 1))
          (Ptr.node (n - 1)) (n % UINT32_MOD) (n % UINT32_MOD) false true) := by
    unfold prune
    have hm : (attached sample_codec (long_db n) (sample_header n (n + 1))
      (Ptr.node (n - 1)) (n % UINT32_MOD) (n % UINT32_MOD) false true).max_hdr_in_mem
        = 4294967295 := rfl
    rw [hm, if_pos (by decide)]
    rfl
  rw [hprune] at hconn
  have hgt : (n % UINT32_MOD + 1) % UINT32_MOD > n % UINT32_MOD := by
    rw [Nat.mod_eq_of_lt hh]; omega
  have hct : (attached sample_codec (long_db n) (sample_header n (n + 1))
      (Ptr.node (n - 1)) (n % UINT32_MOD) (n % UINT32_MOD) false true).chaintip
        = Ptr.node n := by
    rw [attached_chaintip, if_pos hgt, hlen]
  have hlink : ∀ i, i < n + 1 →
      prev_at (attached sample_codec (long_db n) (sample_header n (n + 1))
        (Ptr.node (n - 1)) (n % UINT32_MOD) (n % UINT32_MOD) false true)
        (long_path n i)
      = some (some (long_path n (i + 1))) := by
    intro i hi
    cases i with
    | zero =>
      have h1 := deref_attached_new sample_codec (long_db n) (sample_header n (n + 1))
        (Ptr.node (n - 1)) (n % UINT32_MOD) (n % UINT32_MOD) false true
      rw [hlen] at h1
      simp only [long_path, prev_at, h1, Option.map_some', linked_node, if_pos hn, Nat.sub_zero]
    | succ j =>
      have hj : j < n := by omega
      simp only [long_path, if_pos hj]
      apply prev_at_attached
      simp only [prev_at, long_db_deref n (n - 1 - j) (by omega), Option.map_some', long_node]
      by_cases hj1 : j + 1 < n
      · rw [if_neg (by omega), if_pos hj1]
        rfl
      · rw [if_pos (by omega), if_neg hj1]
  have hend : prev_at (attached sample_codec (long_db n) (sample_header n (n + 1))
        (Ptr.node (n - 1)) (n % UINT32_MOD) (n % UINT32_MOD) false true)
        (long_path n (n + 1))
      = some none := by
    simp only [long_path, lt_irrefl, if_false]
    exact prev_at_attached _ _ _ _ _ _ _ _ rfl
  have hchain := prev_chain_of_links _ (n + 1) (long_path n) hlink hend
  refine ⟨_, (List.range (n + 1 + 1)).map (long_path n), hconn, rfl, ?_, ?_⟩
  · rw [hct]
    exact hchain
  · rw [List.length_map, List.length_range]

/-- C23 fails for `max_hdr_in_mem = UINT_MAX`.  The state is the unpruned sample line of
2^32 + 3 headers: its genesis node has no `prev` and every `prev` leads to an older cell
or to the genesis node.  The next header of the line connects and becomes the chain tip,
nothing is pruned because the bound `max_hdr_in_mem + 1` of the pruning loop is 0 in
`unsigned int` arithmetic, and the prev-chain of the chain tip has 2^32 + 5 nodes, more
than `max_hdr_in_mem + 3` = 2^32 + 2. -/
theorem window_unbounded_counterexample :
    wrap_count = 4294967296
    ∧ 0 < (long_db (wrap_count + 3)).max_hdr_in_mem
    ∧ (long_db (wrap_count + 3)).max_hdr_in_mem = 4294967295
    ∧ (long_db (wrap_count + 3)).genesis.prev = none
    ∧ (∀ a n q, deref (long_db (wrap_count + 3)) (Ptr.node a) = some n → n.prev = some q →
        q = Ptr.genesis ∨ ∃ b, q = Ptr.node b ∧ b < a)
    ∧ ∃ db1 path, btc_headers_db_connect_hdr sample_codec (long_db (wrap_count + 3))
          (sample_buf (wrap_count + 3) (wrap_count + 3 + 1)) false true
          = some (db1, some (Ptr.node (wrap_count + 3)), true)
        ∧ db1.max_hdr_in_mem = 4294967295
        ∧ is_prev_chain db1 db1.chaintip path
        ∧ path.length = wrap_count + 3 + 2
        ∧ ¬ path.length ≤ db1.max_hdr_in_mem + 3 := by
  refine ⟨wrap_count_eq, by decide, rfl, rfl, ?_, ?_⟩
  · intro a n q hd hq
    have hlt : a < wrap_count + 3 := by
      have := deref_node_lt hd
      simpa [long_db] using this
    rw [long_db_deref _ a hlt] at hd
    simp only [Option.some.injEq] at hd
    rw [← hd] at hq
    simp only [long_node] at hq
    by_cases ha : a = 0
    · rw [if_pos ha] at hq
      simp only [Option.some.injEq] at hq
      exact Or.inl hq.symm
    · rw [if_neg ha] at hq
      simp only [Option.some.injEq] at hq
      exact Or.inr ⟨a - 1, hq.symm, by omega⟩
  · have hh : (wrap_count + 3) % UINT32_MOD + 1 < UINT32_MOD := by
      rw [wrap_count_eq]; decide
    obtain ⟨db1, path, h1, h2, h3, h4⟩ := long_db_connect (wrap_count + 3) (by omega) hh
    refine ⟨db1, path, h1, h2, h3, h4, ?_⟩
    rw [h4, h2, wrap_count_eq]
    decide

/-! ## Connecting a header whose hash is already in the index -/

/-- The search of the tree depends on the nodes through their hashes only. -/
theorem tfind_congr_hash {db1 db2 : btc_headers_db} (key : btc_blockindex) (t : List Ptr)
    (h : ∀ p ∈ t, hash_at db1 p = hash_at db2 p) : tfind db1 key t = tfind db2 key t := by
  induction t with
  | nil => rfl
  | cons p ps ih =>
    have hp := h p (List.mem_cons_self _ _)
    have ih1 := ih (fun q hq => h q (List.mem_cons_of_mem _ hq))
    unfold hash_at at hp
    simp only [tfind]
    cases h1 : deref db1 p with
    | none =>
      cases h2 : deref db2 p with
      | none => rfl
      | some n2 => rw [h1, h2] at hp; cases hp
    | some n1 =>
      cases h2 : deref db2 p with
      | none => rw [h1, h2] at hp; cases hp
      | some n2 =>
        rw [h1, h2] at hp
        simp only [Option.map_some', Option.some.injEq] at hp
        have : (btc_header_compare key n1 = 0) ↔ (btc_header_compare key n2 = 0) := by
          rw [btc_header_compare_eq_zero, btc_header_compare_eq_zero, hp]
        simp only [this, ih1]

/-- C22, amended: on a state whose index holds a node `x` with the hash `h` of the header,
a header that finds its attachment point connects, the returned node is a newly allocated
cell with the hash `h`, and the new cell is not a key of the tree, so a search for `h`
never returns it.  The index keeps its entry `x` for `h` provided the call frees no node
that carries the hash `h`; the pruning block of the call frees the node
`max_hdr_in_mem + 2` links behind the chain tip.  The state has a genesis node without
`prev`, live tree keys with pairwise distinct hashes, and prev-chains of the chain tip and
of the attachment point that end. -/
theorem duplicate_insert_index (codec : Codec) (db : btc_headers_db) (buf : List Byte)
    (hdr : btc_block_header) (tip : btc_blockindex) (connect_at x : Ptr)
    (load_process write_ok : Bool) (pt pc : List Ptr)
    (hdec : codec.deserialize buf = some hdr)
    (htip : deref db db.chaintip = some tip)
    (htl : tree_live db) (hdist : tree_distinct db)
    (hx : btc_headersdb_find db (codec.hash hdr) = some (some x))
    (hatt : (hdr.prev_block = tip.hash ∧ connect_at = db.chaintip)
      ∨ (hdr.prev_block ≠ tip.hash
          ∧ btc_headersdb_find db hdr.prev_block = some (some connect_at)))
    (hfile : file_ready db load_process)
    (hgen : db.genesis.prev = none) (hmax : db.max_hdr_in_mem < UINT32_MOD)
    (hpt : is_prev_chain db db.chaintip pt) (hpc : is_prev_chain db connect_at pc) :
    ∃ db1 n, btc_headers_db_connect_hdr codec db buf load_process write_ok
        = some (db1, some (Ptr.node db.heap.length), true)
      ∧ deref db (Ptr.node db.heap.length) = none
      ∧ deref db1 (Ptr.node db.heap.length) = some n ∧ n.hash = codec.hash hdr
      ∧ Ptr.node db.heap.length ∉ db1.tree_root
      ∧ (∀ q ∈ db1.tree_root, q ∈ db.tree_root)
      ∧ (∃ r, btc_headersdb_find db1 (codec.hash hdr) = some r
          ∧ r ≠ some (Ptr.node db.heap.length))
      ∧ ((∀ q qn, deref db q = some qn → deref db1 q = none → qn.hash ≠ codec.hash hdr) →
          btc_headersdb_find db1 (codec.hash hdr) = some (some x) ∧ x ∈ db1.tree_root) := by
  -- the attachment point is live
  obtain ⟨atn, hatn⟩ : ∃ atn, deref db connect_at = some atn := by
    obtain ⟨f, d, k0, klink, kend, _⟩ := prev_chain_links db pc connect_at hpc
    have hsome : (prev_at db connect_at).isSome = true := by
      rw [← k0]
      by_cases hd : d = 0
      · rw [hd] at kend; rw [kend]; rfl
      · rw [klink 0 (by omega)]; rfl
    unfold prev_at at hsome
    cases hdq : deref db connect_at with
    | none => rw [hdq] at hsome; cases hsome
    | some n => exact ⟨n, rfl⟩
  have hu : db.use_binary_tree = true := by
    by_contra hne
    simp only [btc_headersdb_find, hne, Bool.false_eq_true, if_false, Option.some.injEq] at hx
    cases hx
  have hxt : tfind db { zero_blockindex with hash := codec.hash hdr } db.tree_root
      = some (some x) := by
    simpa only [btc_headersdb_find, hu, if_true] using hx
  have hnew : deref db (Ptr.node db.heap.length) = none := by
    cases hd : deref db (Ptr.node db.heap.length) with
    | none => rfl
    | some n => exact absurd (deref_node_lt hd) (lt_irrefl _)
  have hnotin : Ptr.node db.heap.length ∉ db.tree_root := by
    intro hin
    have := htl _ hin
    rw [hnew] at this
    cases this
  have hconn := connect_hdr_attach codec db buf hdr tip atn connect_at load_process write_ok
    hdec htip htl hatt hatn hfile
  -- the state before pruning: the tree is unchanged
  have htree : (attached codec db hdr connect_at atn.height tip.height load_process
      write_ok).tree_root = db.tree_root := by
    rcases attached_tree codec db hdr connect_at atn.height tip.height load_process write_ok
      hu htl with ⟨h1, _⟩ | ⟨_, h2⟩
    · rw [hx] at h1; cases h1
    · exact h2
  have hhash : ∀ p ∈ db.tree_root,
      hash_at (attached codec db hdr connect_at atn.height tip.height load_process write_ok) p
        = hash_at db p := by
    intro p hp
    obtain ⟨n, hn⟩ := Option.isSome_iff_exists.mp (htl p hp)
    unfold hash_at
    rw [deref_attached_live codec db hdr connect_at atn.height tip.height load_process
      write_ok hn, hn]
  have hfind4 : tfind (attached codec db hdr connect_at atn.height tip.height load_process
      write_ok) { zero_blockindex with hash := codec.hash hdr } db.tree_root
        = some (some x) := by
    rw [tfind_congr_hash _ _ hhash]; exact hxt
  have hxin : x ∈ db.tree_root := (tfind_some hxt).1
  have htl4 := attached_tree_live codec db hdr connect_at atn.height tip.height load_process
    write_ok htl
  obtain ⟨f, d, h0, hlink, hend, hold⟩ := attached_chain codec db hdr connect_at atn.height
    tip.height load_process write_ok pt pc hpt hpc
  rcases prune_on_chain _ f d h0 hlink hend htl4 hgen hmax with
    ⟨hp, _⟩ | ⟨a, b, sn, qn, t1, hpos, _, hd, hs, hq, hab, hsn, hsp, hqn, ht1, hp⟩
  · -- nothing is pruned
    rw [hp] at hconn
    refine ⟨_, linked_node codec hdr connect_at atn.height, hconn, hnew,
      deref_attached_new _ _ _ _ _ _ _ _, rfl, by rw [htree]; exact hnotin,
      fun q hq => by rw [htree] at hq; exact hq, ?_, ?_⟩
    · refine ⟨some x, ?_, ?_⟩
      · show btc_headersdb_find (attached codec db hdr connect_at atn.height tip.height
          load_process write_ok) (codec.hash hdr) = some (some x)
        simp only [btc_headersdb_find]
        rw [htree]
        have hu4 : (attached codec db hdr connect_at atn.height tip.height load_process
          write_ok).use_binary_tree = true := hu
        rw [if_pos hu4]
        exact hfind4
      · intro e
        simp only [Option.some.injEq] at e
        exact hnotin (e ▸ hxin)
    · intro _
      refine ⟨?_, by rw [htree]; exact hxin⟩
      simp only [btc_headersdb_find]
      rw [htree]
      have hu4 : (attached codec db hdr connect_at atn.height tip.height load_process
        write_ok).use_binary_tree = true := hu
      rw [if_pos hu4]
      exact hfind4
  · -- the node `b`, two links behind the cut, is freed
    rw [hp] at hconn
    rw [htree] at ht1
    have hblive : (deref db (Ptr.node b)).isSome = true := by
      have := hold _ (Nat.succ_pos _) hd
      rw [hq] at this
      exact this
    have halive : (deref db (Ptr.node a)).isSome = true := by
      have := hold _ (Nat.succ_pos _) (le_trans (Nat.le_succ _) hd)
      rw [hs] at this
      exact this
    obtain ⟨qn0, hqn0⟩ := Option.isSome_iff_exists.mp hblive
    obtain ⟨sn0, hsn0⟩ := Option.isSome_iff_exists.mp halive
    have hbq : qn0 = qn := by
      have := deref_attached_live codec db hdr connect_at atn.height tip.height load_process
        write_ok hqn0
      rw [hqn] at this
      exact (Option.some.inj this).symm
    subst hbq
    have hLa : Ptr.node db.heap.length ≠ Ptr.node a := by
      intro e; rw [← e, hnew] at hsn0; cases hsn0
    have hLb : Ptr.node db.heap.length ≠ Ptr.node b := by
      intro e; rw [← e, hnew] at hqn0; cases hqn0
    have hsub : ∀ q ∈ t1, q ∈ db.tree_root := tdelete_sub qn0 _ _ ht1
    have hdist4 : ((db.tree_root).map (hash_at (attached codec db hdr connect_at atn.height
        tip.height load_process write_ok))).Nodup := by
      rw [List.map_congr_left hhash]; exact hdist
    obtain ⟨t2, ht2, _, _, hnoh, hkeep⟩ := tdelete_spec qn0 db.tree_root
      (fun p hp => htl4 p (by rw [htree]; exact hp))
    rw [ht1] at ht2
    have ht12 : t1 = t2 := Option.some.inj ht2
    subst ht12
    have hbnot : Ptr.node b ∉ t1 := by
      intro hin
      apply hnoh hdist4 _ hin
      unfold hash_at
      rw [hqn]
      rfl
    have hlta : a < (attached codec db hdr connect_at atn.height tip.height load_process
        write_ok).heap.length := deref_node_lt hsn
    have hhash1 : ∀ p ∈ t1,
        hash_at { attached codec db hdr connect_at atn.height tip.height load_process
            write_ok with
          tree_root := t1
          heap := ((attached codec db hdr connect_at atn.height tip.height load_process
            write_ok).heap.set b none).set a (some { sn with prev := none })
          chainbottom := Ptr.node a } p
        = hash_at (attached codec db hdr connect_at atn.height tip.height load_process
            write_ok) p := by
      intro p hp
      have hpb : p ≠ Ptr.node b := fun e => hbnot (e ▸ hp)
      unfold hash_at
      by_cases hpa : p = Ptr.node a
      · rw [hpa, deref_cut_same _ t1 (Ptr.node a) a b _ hlta, hsn]
        rfl
      · rw [deref_cut_other _ t1 (Ptr.node a) a b _ hpa hpb]
    have hfind1 : ∀ key : btc_blockindex,
        tfind { attached codec db hdr connect_at atn.height tip.height load_process
            write_ok with
          tree_root := t1
          heap := ((attached codec db hdr connect_at atn.height tip.height load_process
            write_ok).heap.set b none).set a (some { sn with prev := none })
          chainbottom := Ptr.node a } key t1
        = tfind (attached codec db hdr connect_at atn.height tip.height load_process
            write_ok) key t1 := fun key => tfind_congr_hash key t1 hhash1
    have hu1 : ({ attached codec db hdr connect_at atn.height tip.height load_process
            write_ok with
          tree_root := t1
          heap := ((attached codec db hdr connect_at atn.height tip.height load_process
            write_ok).heap.set b none).set a (some { sn with prev := none })
          chainbottom := Ptr.node a } : btc_headers_db).use_binary_tree = true := hu
    have hL1 : Ptr.node db.heap.length ∉ t1 := fun hin => hnotin (hsub _ hin)
    have hlive1 : ∀ p ∈ t1, (deref (attached codec db hdr connect_at atn.height tip.height
        load_process write_ok) p).isSome = true :=
      fun p hp => htl4 p (by rw [htree]; exact hsub p hp)
    refine ⟨_, linked_node codec hdr connect_at atn.height, hconn, hnew, ?_, rfl, hL1, hsub,
      ?_, ?_⟩
    · rw [deref_cut_other _ t1 (Ptr.node a) a b _ hLa hLb]
      exact deref_attached_new _ _ _ _ _ _ _ _
    · obtain ⟨r, hr⟩ := tfind_defined { zero_blockindex with hash := codec.hash hdr } t1 hlive1
      refine ⟨r, ?_, ?_⟩
      · simp only [btc_headersdb_find]
        rw [if_pos hu1]
        show tfind _ _ t1 = some r
        rw [hfind1]; exact hr
      · intro e
        rw [e] at hr
        exact hL1 (tfind_some hr).1
    · intro hfree
      have hne : qn0.hash ≠ codec.hash hdr := by
        apply hfree (Ptr.node b) qn0 hqn0
        simp only [deref]
        rw [heap_get_set_ne _ _ _ _ hab, heap_get_set_none]
      have hk := hkeep { zero_blockindex with hash := codec.hash hdr } (fun e => hne e.symm)
      have hfx : tfind (attached codec db hdr connect_at atn.height tip.height load_process
          write_ok) { zero_blockindex with hash := codec.hash hdr } t1 = some (some x) := by
        rw [hk]; exact hfind4
      refine ⟨?_, (tfind_some hfx).1⟩
      simp only [btc_headersdb_find]
      rw [if_pos hu1]
      show tfind _ _ t1 = some (some x)
      rw [hfind1]; exact hfx

set_option maxRecDepth 100000 in
/-- Witness for C22: the second header of the sample line of two headers is connected once
more.  The new node is cell 2, nothing is freed, and a search for the hash still returns
cell 1. -/
theorem duplicate_insert_index_witness :
    ∃ db1 n, btc_headers_db_connect_hdr sample_codec (sample_db 144 2) (sample_buf 1 2) false true
        = some (db1, some (Ptr.node (sample_db 144 2).heap.length), true)
      ∧ deref (sample_db 144 2) (Ptr.node (sample_db 144 2).heap.length) = none
      ∧ deref db1 (Ptr.node (sample_db 144 2).heap.length) = some n
      ∧ n.hash = sample_codec.hash (sample_header 1 2)
      ∧ Ptr.node (sample_db 144 2).heap.length ∉ db1.tree_root
      ∧ btc_headersdb_find db1 (sample_codec.hash (sample_header 1 2))
          = some (some (Ptr.node 1))
      ∧ Ptr.node 1 ∈ db1.tree_root := by
  obtain ⟨db1, n, h1, h2, h3, h4, h5, _, _, h8⟩ :=
    duplicate_insert_index sample_codec (sample_db 144 2) (sample_buf 1 2) (sample_header 1 2)
      ⟨2, hash_of_nat 2, sample_header 1 2, some (Ptr.node 0)⟩ (Ptr.node 0) (Ptr.node 1)
      false true [Ptr.node 1, Ptr.node 0, Ptr.genesis] [Ptr.node 0, Ptr.genesis]
      (by decide) (by decide) (by decide) (by decide) (by decide)
      (Or.inr ⟨by decide, by decide⟩) (by decide) (by decide) (by decide) (by decide)
      (by decide)
  have hev : holds_after
      ((btc_headers_db_connect_hdr sample_codec (sample_db 144 2) (sample_buf 1 2) false
        true).map (fun r => r.1))
      (fun d => ∀ a, a < 2 → (deref d (Ptr.node a)).isSome = true) := by decide
  rw [h1] at hev
  have hlen : (sample_db 144 2).heap.length = 2 := by decide
  obtain ⟨k1, k2⟩ := h8 (by
    intro q qn hq hnone
    cases q with
    | genesis => simp [deref] at hnone
    | node a =>
      have hlt := deref_node_lt hq
      rw [hlen] at hlt
      have := hev a hlt
      rw [hnone] at this
      cases this)
  exact ⟨db1, n, h1, h2, h3, h4, h5, k1, k2⟩

set_option maxRecDepth 100000 in
/-- C22 fails as stated.  On the unpruned sample chain of 5 headers under the window 1,
the index holds the node of the header number 2 (cell 1).  Connecting that header once
more finds its parent and returns `connected = true` with the new cell 5, and the pruning
block of the same call frees the node two links behind the cut, which is cell 1, and
deletes its key: afterwards the index has no entry for the hash, while the new node with
that hash is live and outside the index.  The same happens on the pruned sample line of 3
headers when a header with the hash of the first header is connected on top of the
third. -/
theorem duplicate_insert_counterexample :
    (btc_headersdb_find unpruned_db (hash_of_nat 2) = some (some (Ptr.node 1))
      ∧ (btc_headers_db_connect_hdr sample_codec unpruned_db (sample_buf 1 2) false true).map
          (fun r => r.2) = some (some (Ptr.node 5), true)
      ∧ holds_after
          ((btc_headers_db_connect_hdr sample_codec unpruned_db (sample_buf 1 2) false true).map
            (fun r => r.1))
          (fun d => btc_headersdb_find d (hash_of_nat 2) = some none
            ∧ Ptr.node 1 ∉ d.tree_root ∧ deref d (Ptr.node 1) = none
            ∧ hash_at d (Ptr.node 5) = some (hash_of_nat 2)))
    ∧ (btc_headersdb_find (sample_db 1 3) (hash_of_nat 1) = some (some (Ptr.node 0))
      ∧ (btc_headers_db_connect_hdr sample_codec (sample_db 1 3) (sample_buf 3 1) false true).map
          (fun r => r.2) = some (some (Ptr.node 3), true)
      ∧ holds_after
          ((btc_headers_db_connect_hdr sample_codec (sample_db 1 3) (sample_buf 3 1) false
            true).map (fun r => r.1))
          (fun d => btc_headersdb_find d (hash_of_nat 1) = some none
            ∧ Ptr.node 0 ∉ d.tree_root ∧ deref d (Ptr.node 0) = none
            ∧ hash_at d (Ptr.node 3) = some (hash_of_nat 1))) := by
  refine ⟨⟨?_, ?_, ?_⟩, ⟨?_, ?_, ?_⟩⟩ <;> decide
/-! ## What the pruning block leaves alone -/

theorem deref_store_ne {db d : btc_headers_db} {p x : Ptr} {n : btc_blockindex}
    (h : store db p n = some d) (hx : x ≠ p) : deref d x = deref db x := by
  cases p with
  | genesis =>
    simp only [store, Option.some.injEq] at h
    subst h
    cases x with
    | genesis => exact absurd rfl hx
    | node b => rfl
  | node a =>
    simp only [store] at h
    cases hg : heap_get db.heap a with
    | none => rw [hg] at h; cases h
    | some y =>
      rw [hg] at h
      simp only [Option.some.injEq] at h
      subst h
      exact deref_heap_set_ne db a _ hx

theorem deref_free_ne {db d : btc_headers_db} {p x : Ptr}
    (h : btc_free db p = some d) (hx : x ≠ p) : deref d x = deref db x := by
  cases p with
  | genesis => simp [btc_free] at h
  | node a =>
    simp only [btc_free] at h
    cases hg : heap_get db.heap a with
    | none => rw [hg] at h; cases h
    | some y =>
      rw [hg] at h
      simp only [Option.some.injEq] at h
      subst h
      exact deref_heap_set_ne db a _ hx

/-- The cut of the pruning block at `s` touches `s` and the `prev` of `s` only. -/
theorem prune_at_frame {db d : btc_headers_db} {s : Ptr} (h : prune_at db s = some d)
    (x : Ptr) (hxs : x ≠ s) (hxp : ∀ sn, deref db s = some sn → sn.prev ≠ some x) :
    deref d x = deref db x := by
  simp only [prune_at] at h
  cases hs : deref db s with
  | none => rw [hs] at h; cases h
  | some st =>
    rw [hs] at h
    simp only [] at h
    cases hp : st.prev with
    | none =>
      rw [hp] at h
      simp only [Option.some.injEq] at h
      subst h
      rfl
    | some q =>
      rw [hp] at h
      simp only [] at h
      have hxq : x ≠ q := fun e => hxp st hs (by rw [hp, e])
      by_cases hq : q ≠ Ptr.genesis
      · rw [if_pos hq] at h
        cases hqd : deref db q with
        | none => rw [hqd] at h; cases h
        | some qn =>
          rw [hqd] at h
          simp only [] at h
          cases ht : tdelete db qn db.tree_root with
          | none => rw [ht] at h; cases h
          | some t =>
            rw [ht] at h
            simp only [] at h
            cases hf : btc_free { db with tree_root := t } q with
            | none => rw [hf] at h; cases h
            | some db1 =>
              rw [hf] at h
              simp only [] at h
              cases hs1 : deref db1 s with
              | none => rw [hs1] at h; cases h
              | some st1 =>
                rw [hs1] at h
                simp only [] at h
                cases hst : store db1 s { st1 with prev := none } with
                | none => rw [hst] at h; cases h
                | some db2 =>
                  rw [hst] at h
                  simp only [Option.map_some', Option.some.injEq] at h
                  subst h
                  have e1 : deref { db2 with chainbottom := s } x = deref db2 x := rfl
                  have e2 : deref { db with tree_root := t } x = deref db x := rfl
                  rw [e1, deref_store_ne hst hxs, deref_free_ne hf hxq, e2]
      · rw [if_neg hq] at h
        simp only [Option.some.injEq] at h
        subst h
        rfl

theorem prune_loop_frame (bound maxhdr : Nat) :
    ∀ (fuel : Nat) (db d : btc_headers_db) (s : Ptr) (i : Nat),
      prune_loop bound maxhdr fuel db s i = some d →
      ∀ x, (∀ y yn, deref db y = some yn → yn.prev ≠ some x) → deref d x = deref db x := by
  intro fuel
  induction fuel with
  | zero =>
    intro db d s i h x _
    simp only [prune_loop, Option.some.injEq] at h
    subst h
    rfl
  | succ k ih =>
    intro db d s i h x hx
    simp only [prune_loop] at h
    by_cases hi : i < bound
    · rw [if_pos hi] at h
      cases hs : deref db s with
      | none => rw [hs] at h; cases h
      | some st =>
        rw [hs] at h
        simp only [] at h
        cases hp : st.prev with
        | none =>
          rw [hp] at h
          simp only [Option.some.injEq] at h
          subst h
          rfl
        | some p =>
          rw [hp] at h
          simp only [] at h
          by_cases hc : i = maxhdr ∧ p ≠ Ptr.genesis
          · rw [if_pos hc] at h
            cases hpa : prune_at db p with
            | none => rw [hpa] at h; cases h
            | some db1 =>
              rw [hpa] at h
              simp only [] at h
              obtain ⟨a1, _, _⟩ := prune_at_evolves hpa
              have hx1 : ∀ y yn, deref db1 y = some yn → yn.prev ≠ some x := by
                intro y yn hy hyp
                obtain ⟨n, hn, _, _, _, e4⟩ := a1.2 y yn hy
                rcases e4 with e4 | e4
                · exact hx y n hn (by rw [← e4]; exact hyp)
                · rw [e4] at hyp; cases hyp
              rw [ih db1 d p (i + 1) h x hx1]
              exact prune_at_frame hpa x (fun e => hx s st hs (by rw [hp, e]))
                (fun sn hsn => hx p sn hsn)
          · rw [if_neg hc] at h
            simp only [] at h
            exact ih db d p (i + 1) h x hx
    · rw [if_neg hi] at h
      simp only [Option.some.injEq] at h
      subst h
      rfl

/-- The pruning block touches no node that is not the `prev` of a live node. -/
theorem prune_frame {db d : btc_headers_db} (h : prune db = some d) (x : Ptr)
    (hx : ∀ y yn, deref db y = some yn → yn.prev ≠ some x) : deref d x = deref db x := by
  simp only [prune] at h
  by_cases hm : db.max_hdr_in_mem > 0
  · rw [if_pos hm] at h
    exact prune_loop_frame _ _ _ db d _ _ h x hx
  · rw [if_neg hm] at h
    simp only [Option.some.injEq] at h
    subst h
    rfl

/-- In the state in which a header has just been attached, no live node has the new cell
as its `prev`, when the `prev` pointers of the state before refer to allocated cells. -/
theorem attached_new_unreferenced (codec : Codec) (db : btc_headers_db)
    (hdr : btc_block_header) (c : Ptr) (x y : Nat) (l w : Bool) {cn : btc_blockindex}
    (hcn : deref db c = some cn)
    (hb : ∀ p n b, deref db p = some n → n.prev = some (Ptr.node b) → b < db.heap.length) :
    ∀ q qn, deref (attached codec db hdr c x y l w) q = some qn →
      qn.prev ≠ some (Ptr.node db.heap.length) := by
  intro q qn hq hqp
  by_cases hqn : q = Ptr.node db.heap.length
  · rw [hqn, deref_attached_new] at hq
    simp only [Option.some.injEq] at hq
    rw [← hq] at hqp
    simp only [linked_node, Option.some.injEq] at hqp
    rw [hqp] at hcn
    exact absurd (deref_node_lt hcn) (lt_irrefl _)
  · have hqold : deref db q = some qn := by
      cases q with
      | genesis => exact hq
      | node a =>
        have hay : a ≠ db.heap.length := fun e => hqn (by rw [e])
        have hlt : a < db.heap.length := by
          have := deref_node_lt hq
          simp only [attached, List.length_append, List.length_singleton] at this
          omega
        rw [deref_attached_old _ _ _ _ _ _ _ _ _ hlt] at hq
        exact hq
    exact absurd (hb q qn _ hqold hqp) (lt_irrefl _)
theorem heap_inv_fresh (g : btc_uint256) (inmem_only : Bool) (m : Nat) :
    heap_inv (fresh_db g inmem_only m) :=
  heap_inv_fields (heap_inv_new g inmem_only) rfl rfl rfl rfl

/-- Every state that the functions of the file reach from a fresh database keeps the
invariant of the heap. -/
theorem heap_inv_reached {codec : Codec} {g : btc_uint256} {inmem_only : Bool} {m : Nat}
    {calls : List Call} {db : btc_headers_db}
    (h : run_calls codec (fresh_db g inmem_only m) calls = some db) : heap_inv db :=
  heap_inv_run codec calls _ db (heap_inv_fresh g inmem_only m) h

/-- A defined call of `btc_headers_db_connect_hdr` for a header that finds its attachment
point, on a state whose pointers refer to allocated cells: the header connects, the new
node is linked to the attachment point one above it and the chain tip is selected. -/
theorem connect_attach_defined (codec : Codec) (db db1 : btc_headers_db) (buf : List Byte)
    (hdr : btc_block_header) (tip : btc_blockindex) (connect_at : Ptr)
    (load_process write_ok : Bool) (r : Option Ptr) (c : Bool)
    (hdec : codec.deserialize buf = some hdr)
    (htip : deref db db.chaintip = some tip)
    (hatt : (hdr.prev_block = tip.hash ∧ connect_at = db.chaintip)
      ∨ (hdr.prev_block ≠ tip.hash
          ∧ btc_headersdb_find db hdr.prev_block = some (some connect_at)))
    (hb : bounds_ok db)
    (hcall : btc_headers_db_connect_hdr codec db buf load_process write_ok
      = some (db1, r, c)) :
    r = some (Ptr.node db.heap.length) ∧ c = true
      ∧ ∃ atn, deref db connect_at = some atn
        ∧ deref db1 (Ptr.node db.heap.length)
            = some (linked_node codec hdr connect_at atn.height)
        ∧ db1.chaintip
            = (if (atn.height + 1) % UINT32_MOD > tip.height then Ptr.node db.heap.length
               else db.chaintip) := by
  have hra : refs_allocated db := by
    refine ⟨?_, ?_⟩
    · intro e
      exact absurd (hb.2.1 _ e) (lt_irrefl _)
    · intro p hp e
      rw [e] at hp
      exact absurd (hb.2.2.1 _ hp) (lt_irrefl _)
  rw [connect_hdr_normal codec db buf load_process write_ok hra] at hcall
  have hsel : (if hdr.prev_block = tip.hash then some (some db.chaintip)
      else btc_headersdb_find db hdr.prev_block) = some (some connect_at) := by
    rcases hatt with ⟨h1, h2⟩ | ⟨h1, h2⟩
    · simp [h1, h2]
    · simp [h1, h2]
  simp only [connect_normal, hdec, htip, hsel] at hcall
  cases hatn : deref db connect_at with
  | none => rw [hatn] at hcall; cases hcall
  | some atn =>
    rw [hatn] at hcall
    simp only [] at hcall
    split at hcall
    · cases hcall
    · split at hcall
      · cases hcall
      · cases hp : prune (attached codec db hdr connect_at atn.height tip.height load_process
            write_ok) with
        | none => rw [hp] at hcall; cases hcall
        | some d =>
          rw [hp] at hcall
          simp only [Option.map_some', Option.some.injEq, Prod.mk.injEq] at hcall
          obtain ⟨e1, e2, e3⟩ := hcall
          subst e1
          refine ⟨e2.symm, e3.symm, atn, rfl, ?_, ?_⟩
          · rw [prune_frame hp _ (attached_new_unreferenced codec db hdr connect_at atn.height
              tip.height load_process write_ok hatn hb.2.2.2), deref_attached_new]
          · rw [(prune_evolves hp).2.1, attached_chaintip]
/-- A header that finds its attachment point connects when the prev-chains of the chain
tip and of the attachment point end: the new node is linked to the attachment point one
above it, the chain tip is selected, and pruning leaves the new node alone. -/
theorem connect_attach_chains (codec : Codec) (db : btc_headers_db) (buf : List Byte)
    (hdr : btc_block_header) (tip : btc_blockindex) (connect_at : Ptr)
    (load_process write_ok : Bool) (pt pc : List Ptr)
    (hdec : codec.deserialize buf = some hdr)
    (htip : deref db db.chaintip = some tip)
    (hatt : (hdr.prev_block = tip.hash ∧ connect_at = db.chaintip)
      ∨ (hdr.prev_block ≠ tip.hash
          ∧ btc_headersdb_find db hdr.prev_block = some (some connect_at)))
    (htl : tree_live db) (hfile : file_ready db load_process)
    (hgen : db.genesis.prev = none) (hmax : db.max_hdr_in_mem < UINT32_MOD)
    (hpt : is_prev_chain db db.chaintip pt) (hpc : is_prev_chain db connect_at pc) :
    ∃ atn db1, deref db connect_at = some atn
      ∧ btc_headers_db_connect_hdr codec db buf load_process write_ok
          = some (db1, some (Ptr.node db.heap.length), true)
      ∧ deref db1 (Ptr.node db.heap.length)
          = some (linked_node codec hdr connect_at atn.height)
      ∧ db1.chaintip
          = (if (atn.height + 1) % UINT32_MOD > tip.height then Ptr.node db.heap.length
             else db.chaintip) := by
  obtain ⟨atn, hatn⟩ : ∃ atn, deref db connect_at = some atn := by
    obtain ⟨f, d, k0, klink, kend, _⟩ := prev_chain_links db pc connect_at hpc
    have hsome : (prev_at db connect_at).isSome = true := by
      rw [← k0]
      by_cases hd : d = 0
      · rw [hd] at kend; rw [kend]; rfl
      · rw [klink 0 (by omega)]; rfl
    unfold prev_at at hsome
    cases hdq : deref db connect_at with
    | none => rw [hdq] at hsome; cases hsome
    | some n => exact ⟨n, rfl⟩
  have hconn := connect_hdr_attach codec db buf hdr tip atn connect_at load_process write_ok
    hdec htip htl hatt hatn hfile
  obtain ⟨f, d, h0, hlink, hend, hlive⟩ := attached_chain codec db hdr connect_at atn.height
    tip.height load_process write_ok pt pc hpt hpc
  have hold : ∀ i a, 0 < i → i ≤ d → f i = Ptr.node a → a ≠ db.heap.length := by
    intro i a hi hid hfa e
    have h := hlive i hi hid
    rw [hfa, e] at h
    obtain ⟨n, hn⟩ := Option.isSome_iff_exists.mp h
    exact absurd (deref_node_lt hn) (lt_irrefl _)
  rcases prune_on_chain _ f d h0 hlink hend
    (attached_tree_live codec db hdr connect_at atn.height tip.height load_process write_ok htl)
    hgen hmax with ⟨hp, _⟩ | ⟨a, b, sn, qn, t1, _, _, hd2, hfa, hfb, _, _, _, _, _, hp⟩
  · rw [hp] at hconn
    exact ⟨atn, _, hatn, hconn,
      deref_attached_new codec db hdr connect_at atn.height tip.height load_process write_ok,
      attached_chaintip codec db hdr connect_at atn.height tip.height load_process write_ok⟩
  · rw [hp] at hconn
    refine ⟨atn, _, hatn, hconn, ?_,
      attached_chaintip codec db hdr connect_at atn.height tip.height load_process write_ok⟩
    have ha : a ≠ db.heap.length := hold _ a (Nat.succ_pos _) (by omega) hfa
    have hb : b ≠ db.heap.length := hold _ b (Nat.succ_pos _) hd2 hfb
    simp only [deref, heap_get]
    rw [List.getElem?_set_ne (fun e => ha e), List.getElem?_set_ne (fun e => hb e)]
    have h3 := deref_attached_new codec db hdr connect_at atn.height tip.height load_process
      write_ok
    simp only [deref, heap_get] at h3
    exact h3
/-! ## Tip selection -/

/-- C2, as the code has it.  For a header that finds its attachment point (the chain tip
if the header names its hash, otherwise the node that the hash index returns):
in every state that the functions of the file reach from a fresh database, every defined
call connects the header, gives the new node `prev = attachment` and
`height = attachment.height + 1` in `uint32_t` arithmetic, and leaves the chain tip at
the new node if that height is strictly greater than the height of the old tip and at
the old tip otherwise; and in every state, reached or not, the call is defined and does
all this when the tree keys are live, the stream is open if the call writes, and the
prev-chains of the chain tip and of the attachment point, which the pruning block walks,
end. -/
theorem connect_tip_selection (codec : Codec) (db : btc_headers_db) (buf : List Byte)
    (hdr : btc_block_header) (tip : btc_blockindex) (connect_at : Ptr)
    (load_process write_ok : Bool)
    (hdec : codec.deserialize buf = some hdr)
    (htip : deref db db.chaintip = some tip)
    (hatt : (hdr.prev_block = tip.hash ∧ connect_at = db.chaintip)
      ∨ (hdr.prev_block ≠ tip.hash
          ∧ btc_headersdb_find db hdr.prev_block = some (some connect_at))) :
    (∀ (g : btc_uint256) (inmem_only : Bool) (m : Nat) (calls : List Call)
        (db1 : btc_headers_db) (r : Option Ptr) (c : Bool),
        run_calls codec (fresh_db g inmem_only m) calls = some db →
        btc_headers_db_connect_hdr codec db buf load_process write_ok = some (db1, r, c) →
        r = some (Ptr.node db.heap.length) ∧ c = true
        ∧ ∃ atn n, deref db connect_at = some atn
          ∧ deref db1 (Ptr.node db.heap.length) = some n
          ∧ n.prev = some connect_at
          ∧ n.height = (atn.height + 1) % UINT32_MOD
          ∧ (atn.height + 1 < UINT32_MOD → n.height = atn.height + 1)
          ∧ (n.height > tip.height → db1.chaintip = Ptr.node db.heap.length)
          ∧ (¬ n.height > tip.height → db1.chaintip = db.chaintip))
    ∧ (∀ (pt pc : List Ptr), tree_live db → file_ready db load_process →
        db.genesis.prev = none → db.max_hdr_in_mem < UINT32_MOD →
        is_prev_chain db db.chaintip pt → is_prev_chain db connect_at pc →
        ∃ atn db1 n, deref db connect_at = some atn
          ∧ btc_headers_db_connect_hdr codec db buf load_process write_ok
              = some (db1, some (Ptr.node db.heap.length), true)
          ∧ deref db1 (Ptr.node db.heap.length) = some n
          ∧ n.prev = some connect_at
          ∧ n.height = (atn.height + 1) % UINT32_MOD
          ∧ (atn.height + 1 < UINT32_MOD → n.height = atn.height + 1)
          ∧ (n.height > tip.height → db1.chaintip = Ptr.node db.heap.length)
          ∧ (¬ n.height > tip.height → db1.chaintip = db.chaintip)) := by
  refine ⟨?_, ?_⟩
  · intro g inmem_only m calls db1 r c hrun hcall
    obtain ⟨h1, h2, atn, h3, h4, h5⟩ := connect_attach_defined codec db db1 buf hdr tip
      connect_at load_process write_ok r c hdec htip hatt (heap_inv_reached hrun).2 hcall
    refine ⟨h1, h2, atn, _, h3, h4, rfl, rfl, fun h => Nat.mod_eq_of_lt h, ?_, ?_⟩
    · intro h
      rw [h5]
      exact if_pos h
    · intro h
      rw [h5]
      exact if_neg h
  · intro pt pc htl hfile hgen hmax hpt hpc
    obtain ⟨atn, db1, h1, h2, h3, h4⟩ := connect_attach_chains codec db buf hdr tip connect_at
      load_process write_ok pt pc hdec htip hatt htl hfile hgen hmax hpt hpc
    refine ⟨atn, db1, _, h1, h2, h3, rfl, rfl, fun h => Nat.mod_eq_of_lt h, ?_, ?_⟩
    · intro h
      rw [h4]
      exact if_pos h
    · intro h
      rw [h4]
      exact if_neg h

set_option maxRecDepth 100000 in
/-- Witness for C2: the state of `pruned_fork` under the window 1 is reached by connects
only and holds a dangling `prev` (the parent of the competing header 12 has been pruned);
the sample header 5 on top of the chain tip connects at height 5 and becomes the chain
tip. -/
theorem connect_tip_selection_witness :
    ¬ heap_closed pruned_fork_db
    ∧ run_calls sample_codec (fresh_db (hash_of_nat 0) true 1) pruned_fork
        = some pruned_fork_db
    ∧ ∃ atn db1 n, deref pruned_fork_db (Ptr.node 4) = some atn
      ∧ btc_headers_db_connect_hdr sample_codec pruned_fork_db (sample_buf 4 5) false true
          = some (db1, some (Ptr.node pruned_fork_db.heap.length), true)
      ∧ deref db1 (Ptr.node pruned_fork_db.heap.length) = some n
      ∧ n.prev = some (Ptr.node 4)
      ∧ n.height = (atn.height + 1) % UINT32_MOD
      ∧ (atn.height + 1 < UINT32_MOD → n.height = atn.height + 1)
      ∧ (n.height > 4 → db1.chaintip = Ptr.node pruned_fork_db.heap.length)
      ∧ (¬ n.height > 4 → db1.chaintip = pruned_fork_db.chaintip) :=
  ⟨by decide, rfl,
    (connect_tip_selection sample_codec pruned_fork_db (sample_buf 4 5) (sample_header 4 5)
      ⟨4, hash_of_nat 4, sample_header 3 4, some (Ptr.node 3)⟩ (Ptr.node 4) false true
      (by decide) (by decide) (Or.inl ⟨by decide, by decide⟩)).2
      [Ptr.node 4, Ptr.node 3, Ptr.node 1] [Ptr.node 4, Ptr.node 3, Ptr.node 1]
      (by decide) (by decide) (by decide) (by decide) (by decide) (by decide)⟩

set_option maxRecDepth 100000 in
/-- C2 fails on the code in two ways.  On top of a checkpoint at the height 4294967295 the
new node gets the height 0, not `attachment.height + 1`, and the chain tip stays at the
checkpoint.  And after `dangling_fork` the header 31 finds its attachment point, the node
of header 30, in the hash index, but the call is undefined: the new node becomes the chain
tip and the pruning block walks from it over the node of header 30 into the freed node of
header 2. -/
theorem connect_tip_selection_counterexample :
    holds_after (run_calls sample_codec (btc_headers_db_new (hash_of_nat 0) true)
        top_checkpoint)
      (fun d => (deref d (Ptr.node 0)).map (fun n => n.height) = some 4294967295
        ∧ (deref d (Ptr.node 1)).map (fun n => (n.prev, n.height))
            = some (some (Ptr.node 0), 0)
        ∧ d.chaintip = Ptr.node 0)
    ∧ holds_after (run_calls sample_codec (btc_headers_db_new (hash_of_nat 0) true)
        dangling_fork)
      (fun d => (sample_codec.deserialize (sample_buf 30 31)).map (fun h => h.prev_block)
            = some (hash_of_nat 30)
        ∧ btc_headersdb_find d (hash_of_nat 30) = some (some (Ptr.node 3))
        ∧ (deref d (Ptr.node 3)).map (fun n => n.prev) = some (some (Ptr.node 1))
        ∧ deref d (Ptr.node 1) = none
        ∧ (btc_headers_db_connect_hdr sample_codec d (sample_buf 30 31) false true).isSome
            = false) := by
  refine ⟨?_, ?_⟩ <;> decide

/-! ## Disconnecting the tip -/

/-- C10, as the code has it: `btc_headersdb_disconnect_tip` returns false and changes
nothing when the chain tip has no `prev`.  Otherwise it returns true, the chain tip
becomes the `prev` of the old tip, a search for the hash of the old tip finds nothing, the
chain bottom is as before, a search for any other hash answers as before and every node
other than the old tip is untouched.  In every state that the functions of the file reach
from a fresh database, the new chain tip, when it is a live node, is one lower in height
than the old tip in `uint32_t` arithmetic: exactly one lower unless its height is
4294967295, which lies below an old tip of height 0. -/
theorem disconnect_tip_spec (db : btc_headers_db) (tip : btc_blockindex)
    (htip : deref db db.chaintip = some tip) :
    (tip.prev = none → btc_headersdb_disconnect_tip db = some (db, false))
    ∧ (∀ p, tip.prev = some p → db.chaintip ≠ Ptr.genesis → tree_live db → tree_distinct db →
        ∃ db1, btc_headersdb_disconnect_tip db = some (db1, true)
          ∧ db1.chaintip = p
          ∧ db1.chainbottom = db.chainbottom
          ∧ btc_headersdb_find db1 tip.hash = some none
          ∧ (∀ h, h ≠ tip.hash → btc_headersdb_find db1 h = btc_headersdb_find db h)
          ∧ (∀ (codec : Codec) (g : btc_uint256) (inmem_only : Bool) (m : Nat)
              (calls : List Call) (pn : btc_blockindex),
              run_calls codec (fresh_db g inmem_only m) calls = some db →
              deref db p = some pn →
              ∃ nt, deref db1 db1.chaintip = some nt ∧ nt = pn
                ∧ tip.height = (nt.height + 1) % UINT32_MOD
                ∧ (nt.height + 1 < UINT32_MOD → nt.height + 1 = tip.height))
          ∧ (∀ q, q ≠ db.chaintip → deref db1 q = deref db q)) := by
  constructor
  · intro hp
    simp only [btc_headersdb_disconnect_tip, htip, hp]
  · intro p hp hng hlive hdist
    obtain ⟨a, ha⟩ : ∃ a, db.chaintip = Ptr.node a := by
      cases h : db.chaintip with
      | genesis => exact absurd h hng
      | node a => exact ⟨a, rfl⟩
    rw [ha] at htip
    obtain ⟨t1, ht1, hsub, _, hne, hfind⟩ := tdelete_spec tip db.tree_root hlive
    have hq_ne : ∀ q ∈ t1, q ≠ Ptr.node a := by
      intro q hq e
      apply hne hdist q hq
      rw [e]; simp [hash_at, htip]
    have hderef : ∀ q, q ≠ Ptr.node a →
        deref { db with chaintip := p, tree_root := t1, heap := db.heap.set a none } q
          = deref db q :=
      fun q hq => @deref_set_ne db
        { db with chaintip := p, tree_root := t1, heap := db.heap.set a none } a none rfl rfl q hq
    refine ⟨{ db with chaintip := p, tree_root := t1, heap := db.heap.set a none },
      ?_, rfl, rfl, ?_, ?_, ?_, ?_⟩
    · have hfree : btc_free { db with chaintip := p, tree_root := t1 } (Ptr.node a)
          = some { db with chaintip := p, tree_root := t1, heap := db.heap.set a none } :=
        @btc_free_node { db with chaintip := p, tree_root := t1 } a tip htip
      simp only [btc_headersdb_disconnect_tip, ha, htip, hp, ht1, hfree, Option.map_some']
    · simp only [btc_headersdb_find]
      split
      · apply tfind_none
        intro q hq
        obtain ⟨n, hn⟩ := Option.isSome_iff_exists.mp (hlive q (hsub q hq))
        refine ⟨n, ?_, ?_⟩
        · rw [hderef q (hq_ne q hq)]; exact hn
        · intro e
          apply hne hdist q hq
          simp [hash_at, hn, e]
      · rfl
    · intro h hh
      simp only [btc_headersdb_find]
      split
      · rw [tfind_congr _ t1 (fun q hq => hderef q (hq_ne q hq))]
        exact hfind _ hh
      · rfl
    · intro codec g inmem_only m calls pn hrun hpn
      have hlink : tip.height = (pn.height + 1) % UINT32_MOD :=
        ((heap_inv_reached hrun).1 (Ptr.node a) tip p pn htip hp hpn).2
      have hpa : p ≠ Ptr.node a := by
        intro e
        rw [e, htip] at hpn
        simp only [Option.some.injEq] at hpn
        rw [← hpn] at hlink
        unfold UINT32_MOD at hlink
        omega
      refine ⟨pn, by rw [hderef p hpa]; exact hpn, rfl, hlink, ?_⟩
      intro hlt
      rw [hlink, Nat.mod_eq_of_lt hlt]
    · intro q hq
      rw [ha] at hq
      exact hderef q hq

set_option maxRecDepth 100000 in
/-- Witness for C10: the fresh sample database has a chain tip without `prev`; the sample
database of two headers is reached by two connects, and its chain tip at height 2 gives
way to the node of height 1. -/
theorem disconnect_tip_spec_witness :
    btc_headersdb_disconnect_tip (sample_db 144 0) = some (sample_db 144 0, false)
    ∧ ∃ db1, btc_headersdb_disconnect_tip (sample_db 144 2) = some (db1, true)
        ∧ db1.chaintip = Ptr.node 0
        ∧ btc_headersdb_find db1 (hash_of_nat 2) = some none
        ∧ btc_headersdb_find db1 (hash_of_nat 1) = some (some (Ptr.node 0))
        ∧ ∃ nt, deref db1 db1.chaintip = some nt ∧ nt.height + 1 = 2 := by
  refine ⟨(disconnect_tip_spec (sample_db 144 0) (sample_db 144 0).genesis
      (by decide)).1 (by decide), ?_⟩
  obtain ⟨db1, h1, h2, _, h4, h5, h6, _⟩ :=
    (disconnect_tip_spec (sample_db 144 2) ⟨2, hash_of_nat 2, sample_header 1 2, some (Ptr.node 0)⟩
      (by decide)).2 (Ptr.node 0) rfl (by decide) (by decide) (by decide)
  obtain ⟨nt, k1, k2, _, k4⟩ := h6 sample_codec (hash_of_nat 0) true 144
    [Call.connect (sample_buf 0 1) false true, Call.connect (sample_buf 1 2) false true]
    ⟨1, hash_of_nat 1, sample_header 0 1, some Ptr.genesis⟩ rfl (by decide)
  refine ⟨db1, h1, h2, h4, ?_, nt, k1, ?_⟩
  · rw [h5 (hash_of_nat 1) (by decide)]
    decide
  · subst k2
    exact k4 (by decide)

set_option maxRecDepth 100000 in
/-- C10 fails on the code in two ways.  After `wrapped_tip` the chain tip has the height 0
and its `prev` is the checkpoint at the height 4294967295: the disconnect returns true
and the height of the chain tip goes from 0 to 4294967295.  And with pruning off
(`max_hdr_in_mem = 0`), after `unpruned_dangling` the `prev` of the chain tip is the freed
node of header 2: the disconnect returns true and leaves the chain tip at that freed
node, which has no height. -/
theorem disconnect_tip_counterexample :
    holds_after (run_calls sample_codec (btc_headers_db_new (hash_of_nat 0) true)
        wrapped_tip)
      (fun d => (deref d d.chaintip).map (fun n => (n.prev, n.height))
            = some (some (Ptr.node 0), 0)
        ∧ (btc_headersdb_disconnect_tip d).map
            (fun r => (r.2, r.1.chaintip, (deref r.1 r.1.chaintip).map (fun n => n.height)))
          = some (true, Ptr.node 0, some 4294967295))
    ∧ holds_after (run_calls sample_codec (fresh_db (hash_of_nat 0) true 0)
        unpruned_dangling)
      (fun d => (deref d d.chaintip).map (fun n => n.prev) = some (some (Ptr.node 1))
        ∧ (btc_headersdb_disconnect_tip d).map
            (fun r => (r.2, r.1.chaintip, (deref r.1 r.1.chaintip).isSome))
          = some (true, Ptr.node 1, false)) := by
  refine ⟨?_, ?_⟩ <;> decide
/-! # Round trip through the log -/

/-! ## Reading the replayed database -/

theorem indexOf_lt_of_mem {conn : List Nat} {a : Nat} (h : a ∈ conn) :
    conn.indexOf a < conn.length := List.indexOf_lt_length.mpr h

theorem getElem?_indexOf {conn : List Nat} {a : Nat} (h : a ∈ conn) :
    conn[conn.indexOf a]? = some a := by
  rw [List.getElem?_eq_getElem (indexOf_lt_of_mem h)]
  simp

theorem indexOf_inj {conn : List Nat} {a b : Nat} (ha : a ∈ conn)
    (h : conn.indexOf a = conn.indexOf b) : a = b := by
  have hb : b ∈ conn := by
    apply List.indexOf_lt_length.mp
    rw [← h]
    exact indexOf_lt_of_mem ha
  have h1 := getElem?_indexOf ha
  have h2 := getElem?_indexOf hb
  rw [h] at h1
  rw [h1] at h2
  simpa using h2

theorem heap_get_map_index (conn : List Nat) (g : Nat → Option btc_blockindex) {a : Nat}
    (h : a ∈ conn) : heap_get (conn.map g) (conn.indexOf a) = g a := by
  simp only [heap_get, List.getElem?_map, getElem?_indexOf h, Option.map_some']
  cases g a <;> rfl

theorem deref_replayed (conn : List Nat) (db : btc_headers_db) {a : Nat} (h : a ∈ conn) :
    deref (replayed conn db) (Ptr.node (conn.indexOf a))
      = (heap_get db.heap a).map (map_node conn) := by
  simp only [deref, replayed]
  exact heap_get_map_index conn _ h

theorem deref_replayed_ptr (conn : List Nat) (db : btc_headers_db) {p : Ptr}
    (h : p = Ptr.genesis ∨ ∃ a ∈ conn, p = Ptr.node a) (hg : db.genesis.prev = none) :
    deref (replayed conn db) (map_ptr conn p) = (deref db p).map (map_node conn) := by
  rcases h with h | ⟨a, ha, h⟩
  · subst h
    simp only [map_ptr, deref, replayed, Option.map_some', map_node, hg, map_prev]
    congr 1
    cases hx : db.genesis with
    | mk x1 x2 x3 x4 =>
      rw [hx] at hg
      simp only at hg
      subst hg
      rfl
  · subst h
    exact deref_replayed conn db ha

/-! ## The tree of the replayed database -/

theorem map_tree_cons_first (conn : List Nat) (ps : List Ptr) :
    map_tree conn (Ptr.node (conn.headD 0) :: ps) = map_tree conn ps := by
  simp [map_tree]

theorem map_tree_cons_other (conn : List Nat) (p : Ptr) (ps : List Ptr)
    (h : p ≠ Ptr.node (conn.headD 0)) :
    map_tree conn (p :: ps) = map_ptr conn p :: map_tree conn ps := by
  unfold map_tree
  have hd : (fun q => decide (q ≠ Ptr.node (conn.headD 0))) p = true := decide_eq_true h
  rw [@List.filter_cons_of_pos _ (fun q => decide (q ≠ Ptr.node (conn.headD 0))) p ps hd]
  rfl

theorem compare_map_node (conn : List Nat) (key n : btc_blockindex) :
    btc_header_compare key (map_node conn n) = btc_header_compare key n := rfl

/-- A search for a hash other than that of the first connected header gives, in the
replayed database, the node that stands for the one found in the original database. -/
theorem tfind_replayed {h1 : btc_uint256} {conn : List Nat} {db : btc_headers_db}
    (key : btc_blockindex) (hk : key.hash ≠ h1)
    (hfirst : ∀ n, heap_get db.heap (conn.headD 0) = some n → n.hash = h1) :
    ∀ (t : List Ptr) (res : Option Ptr), (∀ p ∈ t, ∃ a ∈ conn, p = Ptr.node a) →
      tfind db key t = some res →
      tfind (replayed conn db) key (map_tree conn t) = some (res.map (map_ptr conn)) := by
  intro t
  induction t with
  | nil =>
    intro res _ h
    simp only [tfind, Option.some.injEq] at h
    subst h
    rfl
  | cons p ps ih =>
    intro res hmem h
    obtain ⟨a, ha, hp⟩ := hmem p (List.mem_cons_self _ _)
    subst hp
    simp only [tfind] at h
    cases hd : deref db (Ptr.node a) with
    | none => rw [hd] at h; cases h
    | some n =>
      rw [hd] at h
      simp only [] at h
      by_cases ha1 : a = conn.headD 0
      · subst ha1
        have hne : ¬ btc_header_compare key n = 0 := by
          rw [btc_header_compare_eq_zero, hfirst n hd]
          exact hk
        rw [if_neg hne] at h
        rw [map_tree_cons_first]
        exact ih res (fun q hq => hmem q (List.mem_cons_of_mem _ hq)) h
      · rw [map_tree_cons_other conn _ _ (fun e => ha1 (by simpa using e))]
        simp only [tfind, map_ptr, deref_replayed conn db ha]
        have hd2 : heap_get db.heap a = some n := hd
        simp only [hd2, Option.map_some', compare_map_node]
        by_cases hc : btc_header_compare key n = 0
        · rw [if_pos hc] at h ⊢
          simp only [Option.some.injEq] at h
          subst h
          rfl
        · rw [if_neg hc] at h ⊢
          exact ih res (fun q hq => hmem q (List.mem_cons_of_mem _ hq)) h

theorem dropLast_cons_mem {p q : Ptr} {ps : List Ptr} (h : q ∈ ps.dropLast) :
    q ∈ (p :: ps).dropLast := by
  cases ps with
  | nil => simp at h
  | cons x xs =>
    simp only [List.dropLast_cons₂]
    exact List.mem_cons_of_mem _ h

/-- Deleting a key from the tree gives, in the replayed database, the tree that stands
for the result in the original database. -/
theorem tdelete_replayed {conn : List Nat} {db : btc_headers_db}
    (key : btc_blockindex) :
    ∀ (t t1 : List Ptr), (∀ p ∈ t, ∃ a ∈ conn, p = Ptr.node a) →
      (∀ p ∈ t.dropLast, p ≠ Ptr.node (conn.headD 0)) →
      tdelete db key t = some t1 →
      tdelete (replayed conn db) key (map_tree conn t) = some (map_tree conn t1) := by
  intro t
  induction t with
  | nil =>
    intro t1 _ _ h
    simp only [tdelete, Option.some.injEq] at h
    subst h
    rfl
  | cons p ps ih =>
    intro t1 hmem hlast h
    obtain ⟨a, ha, hp⟩ := hmem p (List.mem_cons_self _ _)
    subst hp
    simp only [tdelete] at h
    cases hd : deref db (Ptr.node a) with
    | none => rw [hd] at h; cases h
    | some n =>
      rw [hd] at h
      simp only [] at h
      have hd2 : heap_get db.heap a = some n := hd
      by_cases ha1 : a = conn.headD 0
      · subst ha1
        have hps : ps = [] := by
          cases ps with
          | nil => rfl
          | cons x xs =>
            exact absurd rfl (hlast _ (by simp))
        subst hps
        by_cases hc : btc_header_compare key n = 0
        · rw [if_pos hc] at h
          simp only [Option.some.injEq] at h
          subst h
          rw [map_tree_cons_first]
          rfl
        · rw [if_neg hc] at h
          simp only [tdelete, Option.map_some', Option.some.injEq] at h
          subst h
          rw [map_tree_cons_first]
          rfl
      · rw [map_tree_cons_other conn _ _ (fun e => ha1 (by simpa using e))]
        simp only [tdelete, map_ptr, deref_replayed conn db ha, hd2, Option.map_some',
          compare_map_node]
        by_cases hc : btc_header_compare key n = 0
        · rw [if_pos hc] at h ⊢
          simp only [Option.some.injEq] at h
          subst h
          rfl
        · rw [if_neg hc] at h ⊢
          cases ht : tdelete db key ps with
          | none => rw [ht] at h; cases h
          | some t2 =>
            rw [ht] at h
            simp only [Option.map_some', Option.some.injEq] at h
            subst h
            rw [ih t2 (fun q hq => hmem q (List.mem_cons_of_mem _ hq))
              (fun q hq => hlast q (dropLast_cons_mem hq)) ht]
            rw [map_tree_cons_other conn _ _ (fun e => ha1 (by simpa using e))]
            rfl

/-- What `tdelete` leaves of the tree keeps the node of the first connected header in the
last place. -/
theorem tdelete_dropLast {db : btc_headers_db} (key : btc_blockindex) :
    ∀ (t t1 : List Ptr), tdelete db key t = some t1 → ∀ q ∈ t1.dropLast, q ∈ t.dropLast := by
  intro t
  induction t with
  | nil =>
    intro t1 h q hq
    simp only [tdelete, Option.some.injEq] at h
    subst h
    exact hq
  | cons p ps ih =>
    intro t1 h q hq
    simp only [tdelete] at h
    cases hd : deref db p with
    | none => rw [hd] at h; cases h
    | some n =>
      rw [hd] at h
      simp only [] at h
      by_cases hc : btc_header_compare key n = 0
      · rw [if_pos hc] at h
        simp only [Option.some.injEq] at h
        subst h
        exact dropLast_cons_mem hq
      · rw [if_neg hc] at h
        cases ht : tdelete db key ps with
        | none => rw [ht] at h; cases h
        | some t2 =>
          rw [ht] at h
          simp only [Option.map_some', Option.some.injEq] at h
          subst h
          cases t2 with
          | nil => simp at hq
          | cons x xs =>
            simp only [List.dropLast_cons₂] at hq
            have hps : ps ≠ [] := by
              intro e
              subst e
              simp [tdelete] at ht
            obtain ⟨y, ys, hy⟩ := List.exists_cons_of_ne_nil hps
            subst hy
            simp only [List.dropLast_cons₂]
            rcases List.mem_cons.mp hq with e | e
            · rw [e]; exact List.mem_cons_self _ _
            · exact List.mem_cons_of_mem _ (ih (x :: xs) ht q e)

/-! ## The heap of the replayed database -/

theorem map_heap_set {conn : List Nat} (heap : List (Option btc_blockindex))
    (mn : btc_blockindex → btc_blockindex) (x : Option btc_blockindex) {q : Nat}
    (hnd : conn.Nodup) (hq : q ∈ conn) (hlt : q < heap.length) :
    conn.map (fun a => (heap_get (heap.set q x) a).map mn)
      = (conn.map (fun a => (heap_get heap a).map mn)).set (conn.indexOf q) (x.map mn) := by
  induction conn with
  | nil => simp at hq
  | cons c cs ih =>
    have hnd2 := List.nodup_cons.mp hnd
    by_cases hc : c = q
    · subst hc
      simp only [List.map_cons, List.indexOf_cons_self, List.set_cons_zero,
        heap_get_set_same heap c x hlt, List.cons.injEq, true_and]
      apply List.map_congr_left
      intro a ha
      have hne : c ≠ a := fun e => hnd2.1 (by rw [e]; exact ha)
      rw [heap_get_set_ne heap c a x hne]
    · have hq2 : q ∈ cs := by
        rcases List.mem_cons.mp hq with e | e
        · exact absurd e.symm hc
        · exact e
      rw [List.indexOf_cons_ne _ (fun e => hc e)]
      simp only [List.map_cons, List.set_cons_succ, List.cons.injEq]
      exact ⟨by rw [heap_get_set_ne heap q c x (fun e => hc e.symm)], ih hnd2.2 hq2⟩

/-! ## Freeing and storing in the replayed database -/

theorem replay_inv_evolve {h1 : btc_uint256} {conn : List Nat} {db d : btc_headers_db}
    (hi : replay_inv h1 conn db) (he : nodes_evolve db d)
    (htip : d.chaintip = db.chaintip)
    (hbot : d.chainbottom = db.chainbottom ∨ ∃ b ∈ conn, d.chainbottom = Ptr.node b)
    (htree : ∀ q ∈ d.tree_root, q ∈ db.tree_root)
    (hlast : ∀ q ∈ d.tree_root.dropLast, q ∈ db.tree_root.dropLast) :
    replay_inv h1 conn d where
  nodup := hi.nodup
  ne_nil := hi.ne_nil
  alloc := fun a ha => by rw [he.1]; exact hi.alloc a ha
  tip := by rw [htip]; exact hi.tip
  tree := fun p hp => hi.tree p (htree p hp)
  bottom := by
    rcases hbot with e | e
    · rw [e]; exact hi.bottom
    · exact Or.inr e
  prevs := by
    intro a ha n1 hn1
    obtain ⟨n, hn, _, _, _, e4⟩ := he.2 (Ptr.node a) n1 hn1
    rcases e4 with e4 | e4
    · rw [e4]; exact hi.prevs a ha n hn
    · exact Or.inl e4
  first_hash := by
    intro n1 hn1
    obtain ⟨n, hn, _, e2, _, _⟩ := he.2 (Ptr.node (conn.headD 0)) n1 hn1
    rw [e2]
    exact hi.first_hash n hn
  first_last := fun p hp => hi.first_last p (hlast p hp)
  gen_prev := by
    obtain ⟨n, hn, _, _, _, e4⟩ := he.2 Ptr.genesis d.genesis rfl
    simp only [deref, Option.some.injEq] at hn
    rcases e4 with e4 | e4
    · rw [e4, ← hn]; exact hi.gen_prev
    · exact e4

theorem replayed_heap_set {conn : List Nat} (db : btc_headers_db)
    (x : Option btc_blockindex) {q : Nat}
    (hnd : conn.Nodup) (hq : q ∈ conn) (hlt : q < db.heap.length) :
    replayed conn { db with heap := db.heap.set q x }
      = { replayed conn db with
          heap := (replayed conn db).heap.set (conn.indexOf q) (x.map (map_node conn)) } := by
  simp only [replayed, map_heap_set db.heap (map_node conn) x hnd hq hlt]

theorem free_replayed {conn : List Nat} {db d : btc_headers_db} {q : Nat}
    (hnd : conn.Nodup) (hq : q ∈ conn)
    (h : btc_free db (Ptr.node q) = some d) :
    btc_free (replayed conn db) (Ptr.node (conn.indexOf q)) = some (replayed conn d) := by
  simp only [btc_free] at h
  cases hg : heap_get db.heap q with
  | none => rw [hg] at h; cases h
  | some n =>
    rw [hg] at h
    simp only [Option.some.injEq] at h
    subst h
    have hr := deref_replayed conn db hq
    rw [hg] at hr
    simp only [deref, Option.map_some'] at hr
    simp only [btc_free, hr]
    rw [replayed_heap_set db none hnd hq (heap_get_some_lt hg)]
    rfl

theorem store_replayed {conn : List Nat} {db d : btc_headers_db} {q : Nat}
    (x : btc_blockindex) (hnd : conn.Nodup) (hq : q ∈ conn)
    (h : store db (Ptr.node q) x = some d) :
    store (replayed conn db) (Ptr.node (conn.indexOf q)) (map_node conn x)
      = some (replayed conn d) := by
  simp only [store] at h
  cases hg : heap_get db.heap q with
  | none => rw [hg] at h; cases h
  | some n =>
    rw [hg] at h
    simp only [Option.some.injEq] at h
    subst h
    have hr := deref_replayed conn db hq
    rw [hg] at hr
    simp only [deref, Option.map_some'] at hr
    simp only [store, hr]
    rw [replayed_heap_set db (some x) hnd hq (heap_get_some_lt hg)]
    rfl

/-! ## Pruning the replayed database -/

/-- The cut of the pruning block does to the replayed database what it does to the
original one. -/
theorem prune_at_replayed {h1 : btc_uint256} {conn : List Nat} {db d : btc_headers_db}
    {p : Nat} (hi : replay_inv h1 conn db) (hp : p ∈ conn)
    (h : prune_at db (Ptr.node p) = some d) :
    prune_at (replayed conn db) (Ptr.node (conn.indexOf p)) = some (replayed conn d)
      ∧ replay_inv h1 conn d := by
  have hev := prune_at_evolves h
  simp only [prune_at] at h
  cases hs : deref db (Ptr.node p) with
  | none => rw [hs] at h; cases h
  | some st =>
    rw [hs] at h
    simp only [] at h
    have hs2 : heap_get db.heap p = some st := hs
    have hrs : deref (replayed conn db) (Ptr.node (conn.indexOf p))
        = some (map_node conn st) := by
      rw [deref_replayed conn db hp, hs2]
      rfl
    have hself : d = db → prune_at (replayed conn db) (Ptr.node (conn.indexOf p))
          = some (replayed conn db) →
        prune_at (replayed conn db) (Ptr.node (conn.indexOf p)) = some (replayed conn d)
          ∧ replay_inv h1 conn d := by
      intro e k
      subst e
      exact ⟨k, hi⟩
    rcases hi.prevs p hp st hs2 with hpv | hpv | ⟨q, hq, _, hpv⟩
    · rw [hpv] at h
      simp only [Option.some.injEq] at h
      apply hself h.symm
      have hprev : (map_node conn st).prev = none := by
        simp only [map_node, hpv, map_prev]
      simp only [prune_at, hrs, hprev]
    · rw [hpv] at h
      simp only [ne_eq, not_true_eq_false, if_false, Option.some.injEq] at h
      apply hself h.symm
      have hprev : (map_node conn st).prev = none := by
        simp only [map_node, hpv, map_prev]
      simp only [prune_at, hrs, hprev]
    · rw [hpv] at h
      simp only [ne_eq, reduceCtorEq, not_false_eq_true, if_true] at h
      cases hqd : deref db (Ptr.node q) with
      | none => rw [hqd] at h; cases h
      | some qn =>
        rw [hqd] at h
        simp only [] at h
        have hqd2 : heap_get db.heap q = some qn := hqd
        cases ht : tdelete db qn db.tree_root with
        | none => rw [ht] at h; cases h
        | some t =>
          rw [ht] at h
          simp only [] at h
          cases hf : btc_free { db with tree_root := t } (Ptr.node q) with
          | none => rw [hf] at h; cases h
          | some db1 =>
            rw [hf] at h
            simp only [] at h
            cases hs1 : deref db1 (Ptr.node p) with
            | none => rw [hs1] at h; cases h
            | some st1 =>
              rw [hs1] at h
              simp only [] at h
              cases hst : store db1 (Ptr.node p) { st1 with prev := none } with
              | none => rw [hst] at h; cases h
              | some db2 =>
                rw [hst] at h
                simp only [Option.map_some', Option.some.injEq] at h
                subst h
                have hlast : ∀ x ∈ ({ db2 with chainbottom := Ptr.node p } :
                    btc_headers_db).tree_root.dropLast, x ∈ db.tree_root.dropLast := by
                  intro x hx
                  have k1 := store_fields hst
                  have k2 := btc_free_fields hf
                  have hx2 : x ∈ db2.tree_root.dropLast := hx
                  rw [k1.2, k2.2] at hx2
                  exact tdelete_dropLast qn _ _ ht x hx2
                refine ⟨?_, replay_inv_evolve hi hev.1 hev.2.1 (Or.inr ⟨p, hp, rfl⟩) hev.2.2
                  hlast⟩
                have hrq : deref (replayed conn db) (Ptr.node (conn.indexOf q))
                    = some (map_node conn qn) := by
                  rw [deref_replayed conn db hq, hqd2]
                  rfl
                have hrt : tdelete (replayed conn db) (map_node conn qn)
                    (replayed conn db).tree_root = some (map_tree conn t) :=
                  (@tdelete_key_hash (replayed conn db) (map_node conn qn) qn rfl
                    (map_tree conn db.tree_root)).trans
                    (tdelete_replayed qn db.tree_root t hi.tree hi.first_last ht)
                have hrf : btc_free { replayed conn db with tree_root := map_tree conn t }
                    (Ptr.node (conn.indexOf q)) = some (replayed conn db1) :=
                  @free_replayed conn { db with tree_root := t } db1 q hi.nodup hq hf
                have hrs1 : deref (replayed conn db1) (Ptr.node (conn.indexOf p))
                    = some (map_node conn st1) := by
                  have hs12 : heap_get db1.heap p = some st1 := hs1
                  rw [deref_replayed conn db1 hp, hs12]
                  rfl
                have hrst : store (replayed conn db1) (Ptr.node (conn.indexOf p))
                    { map_node conn st1 with prev := none } = some (replayed conn db2) :=
                  store_replayed { st1 with prev := none } hi.nodup hp hst
                have hprev : (map_node conn st).prev = some (Ptr.node (conn.indexOf q)) := by
                  simp only [map_node, hpv, map_prev]
                simp only [prune_at, hrs, hprev, ne_eq, reduceCtorEq, not_false_eq_true,
                  if_true, hrq, hrt, hrf, hrs1, hrst, Option.map_some']
                rfl

theorem prune_loop_genesis (bound maxhdr : Nat) (fuel : Nat) (db : btc_headers_db) (i : Nat)
    (hg : db.genesis.prev = none) :
    prune_loop bound maxhdr fuel db Ptr.genesis i = some db := by
  cases fuel with
  | zero => rfl
  | succ k =>
    simp only [prune_loop, deref, hg]
    split <;> rfl

/-- The pruning loop does to the replayed database what it does to the original one. -/
theorem prune_loop_replayed {h1 : btc_uint256} {conn : List Nat} (bound maxhdr : Nat) :
    ∀ (fuel : Nat) (db d : btc_headers_db) (s i : Nat), replay_inv h1 conn db → s ∈ conn →
      prune_loop bound maxhdr fuel db (Ptr.node s) i = some d →
      prune_loop bound maxhdr fuel (replayed conn db) (Ptr.node (conn.indexOf s)) i
          = some (replayed conn d)
        ∧ replay_inv h1 conn d := by
  intro fuel
  induction fuel with
  | zero =>
    intro db d s i hi _ h
    simp only [prune_loop, Option.some.injEq] at h
    subst h
    exact ⟨rfl, hi⟩
  | succ k ih =>
    intro db d s i hi hs h
    simp only [prune_loop] at h ⊢
    by_cases hb : i < bound
    · rw [if_pos hb] at h ⊢
      cases hd : deref db (Ptr.node s) with
      | none => rw [hd] at h; cases h
      | some st =>
        rw [hd] at h
        simp only [] at h
        have hd2 : heap_get db.heap s = some st := hd
        have hrs : deref (replayed conn db) (Ptr.node (conn.indexOf s))
            = some (map_node conn st) := by
          rw [deref_replayed conn db hs, hd2]
          rfl
        rw [hrs]
        simp only []
        rcases hi.prevs s hs st hd2 with hpv | hpv | ⟨q, hq, _, hpv⟩
        · have hprev : (map_node conn st).prev = none := by
            simp only [map_node, hpv, map_prev]
          rw [hpv] at h
          simp only [Option.some.injEq] at h
          subst h
          rw [hprev]
          exact ⟨rfl, hi⟩
        · have hprev : (map_node conn st).prev = none := by
            simp only [map_node, hpv, map_prev]
          rw [hpv] at h
          simp only [ne_eq, not_true_eq_false, and_false, if_false] at h
          rw [prune_loop_genesis bound maxhdr k db (i + 1) hi.gen_prev] at h
          simp only [Option.some.injEq] at h
          subst h
          rw [hprev]
          exact ⟨rfl, hi⟩
        · have hprev : (map_node conn st).prev = some (Ptr.node (conn.indexOf q)) := by
            simp only [map_node, hpv, map_prev]
          rw [hpv] at h
          rw [hprev]
          simp only [ne_eq, reduceCtorEq, not_false_eq_true, and_true] at h ⊢
          by_cases hc : i = maxhdr
          · rw [if_pos hc] at h ⊢
            cases hpa : prune_at db (Ptr.node q) with
            | none => rw [hpa] at h; cases h
            | some db1 =>
              rw [hpa] at h
              simp only [] at h
              obtain ⟨k1, k2⟩ := prune_at_replayed hi hq hpa
              rw [k1]
              exact ih db1 d q (i + 1) k2 hq h
          · rw [if_neg hc] at h ⊢
            simp only [] at h ⊢
            exact ih db d q (i + 1) hi hq h
    · rw [if_neg hb] at h ⊢
      simp only [Option.some.injEq] at h
      subst h
      exact ⟨rfl, hi⟩

/-- The pruning block does to the replayed database what it does to the original one. -/
theorem prune_replayed {h1 : btc_uint256} {conn : List Nat} {db d : btc_headers_db}
    (hi : replay_inv h1 conn db) (h : prune db = some d) :
    prune (replayed conn db) = some (replayed conn d) ∧ replay_inv h1 conn d := by
  obtain ⟨t, ht, htip⟩ := hi.tip
  simp only [prune] at h ⊢
  have hm : (replayed conn db).max_hdr_in_mem = db.max_hdr_in_mem := rfl
  have hc : (replayed conn db).chaintip = Ptr.node (conn.indexOf t) := by
    show map_ptr conn db.chaintip = _
    rw [htip]
    rfl
  rw [hm, hc]
  rw [htip] at h
  by_cases hpos : db.max_hdr_in_mem > 0
  · rw [if_pos hpos] at h ⊢
    exact prune_loop_replayed _ _ _ db d t 0 hi ht h
  · rw [if_neg hpos] at h ⊢
    simp only [Option.some.injEq] at h
    subst h
    exact ⟨rfl, hi⟩

/-! ## The two outcomes of a defined connect -/

/-- A defined call of `btc_headers_db_connect_hdr` either leaves one new cell and does not
connect, or passes through the state `attached` into the pruning block. -/
theorem connect_cases {codec : Codec} {db d : btc_headers_db} {buf : List Byte}
    {l w : Bool} {r : Option Ptr} {c : Bool} (hra : refs_allocated db)
    (h : btc_headers_db_connect_hdr codec db buf l w = some (d, r, c)) :
    (c = false ∧ ∃ cell, d = { db with heap := db.heap ++ [some cell] })
    ∨ (c = true ∧ r = some (Ptr.node db.heap.length)
        ∧ ∃ hdr tip cat atn x, codec.deserialize buf = some hdr
          ∧ deref db db.chaintip = some tip
          ∧ ((hdr.prev_block = tip.hash ∧ cat = db.chaintip)
              ∨ (hdr.prev_block ≠ tip.hash
                  ∧ btc_headersdb_find db hdr.prev_block = some (some cat)))
          ∧ deref db cat = some atn
          ∧ file_ready db l
          ∧ (if db.use_binary_tree then
               tfind db { zero_blockindex with hash := codec.hash hdr } db.tree_root
             else some none) = some x
          ∧ prune (attached codec db hdr cat atn.height tip.height l w) = some d) := by
  rw [connect_hdr_normal codec db buf l w hra] at h
  simp only [connect_normal] at h
  cases hdec : codec.deserialize buf with
  | none =>
    rw [hdec] at h
    simp only [Option.some.injEq, Prod.mk.injEq] at h
    exact Or.inl ⟨h.2.2.symm, zero_blockindex, h.1.symm⟩
  | some hdr =>
    rw [hdec] at h
    simp only [] at h
    cases htip : deref db db.chaintip with
    | none => rw [htip] at h; cases h
    | some tip =>
      rw [htip] at h
      simp only [] at h
      cases hsel : (if hdr.prev_block = tip.hash then some (some db.chaintip)
          else btc_headersdb_find db hdr.prev_block) with
      | none => rw [hsel] at h; cases h
      | some s =>
        rw [hsel] at h
        cases s with
        | none =>
          simp only [Option.some.injEq, Prod.mk.injEq] at h
          exact Or.inl ⟨h.2.2.symm, _, h.1.symm⟩
        | some cat =>
          simp only [] at h
          cases hatn : deref db cat with
          | none => rw [hatn] at h; cases h
          | some atn =>
            rw [hatn] at h
            simp only [] at h
            split at h
            · cases h
            · rename_i hfile
              cases hx : (if db.use_binary_tree then
                  tfind db { zero_blockindex with hash := codec.hash hdr } db.tree_root
                else some none) with
              | none => rw [hx] at h; cases h
              | some x =>
                rw [hx] at h
                simp only [] at h
                cases hp : prune (attached codec db hdr cat atn.height tip.height l w) with
                | none => rw [hp] at h; cases h
                | some d1 =>
                  rw [hp] at h
                  simp only [Option.map_some', Option.some.injEq, Prod.mk.injEq] at h
                  obtain ⟨e1, e2, e3⟩ := h
                  subst e1
                  refine Or.inr ⟨e3.symm, e2.symm, hdr, tip, cat, atn, x, rfl, rfl, ?_, hatn, ?_,
                    hx, hp⟩
                  · by_cases he : hdr.prev_block = tip.hash
                    · rw [if_pos he] at hsel
                      simp only [Option.some.injEq] at hsel
                      exact Or.inl ⟨he, hsel.symm⟩
                    · rw [if_neg he] at hsel
                      exact Or.inr ⟨he, hsel⟩
                  · unfold file_ready
                    cases l with
                    | true => exact Or.inl rfl
                    | false =>
                      cases hrw : db.read_write_file with
                      | false => exact Or.inr (Or.inl rfl)
                      | true =>
                        right; right
                        intro hn
                        apply hfile
                        simp [hrw, hn]

/-! ## Attaching a node in the replayed database -/

theorem headD_append {conn : List Nat} (l : List Nat) (h : conn ≠ []) :
    (conn ++ l).headD 0 = conn.headD 0 := by
  cases conn with
  | nil => exact absurd rfl h
  | cons c cs => rfl

theorem headD_mem {conn : List Nat} (h : conn ≠ []) : conn.headD 0 ∈ conn := by
  cases conn with
  | nil => exact absurd rfl h
  | cons c cs => exact List.mem_cons_self _ _

theorem map_ptr_append {conn : List Nat} (l : List Nat) {a : Nat} (h : a ∈ conn) :
    map_ptr (conn ++ l) (Ptr.node a) = map_ptr conn (Ptr.node a) := by
  simp only [map_ptr, List.indexOf_append_of_mem h]

theorem map_prev_append {conn : List Nat} (l : List Nat) {p : Option Ptr}
    (h : p = none ∨ p = some Ptr.genesis ∨ ∃ b ∈ conn, p = some (Ptr.node b)) :
    map_prev (conn ++ l) p = map_prev conn p := by
  rcases h with h | h | ⟨b, hb, h⟩
  · rw [h]; rfl
  · rw [h]; rfl
  · rw [h]
    simp only [map_prev, List.indexOf_append_of_mem hb]

theorem map_tree_append {conn : List Nat} (l : List Nat) (hne : conn ≠ []) :
    ∀ (t : List Ptr), (∀ p ∈ t, ∃ a ∈ conn, p = Ptr.node a) →
      map_tree (conn ++ l) t = map_tree conn t := by
  intro t
  induction t with
  | nil => intro _; rfl
  | cons p ps ih =>
    intro hmem
    obtain ⟨a, ha, hp⟩ := hmem p (List.mem_cons_self _ _)
    subst hp
    have ih2 := ih (fun q hq => hmem q (List.mem_cons_of_mem _ hq))
    by_cases ha1 : a = conn.headD 0
    · subst ha1
      have e : Ptr.node (conn.headD 0) = Ptr.node ((conn ++ l).headD 0) := by
        rw [headD_append l hne]
      rw [map_tree_cons_first]
      conv_lhs => rw [e]
      rw [map_tree_cons_first]
      exact ih2
    · have hn1 : Ptr.node a ≠ Ptr.node (conn.headD 0) := fun e => ha1 (by simpa using e)
      have hn2 : Ptr.node a ≠ Ptr.node ((conn ++ l).headD 0) := by
        rw [headD_append l hne]
        exact hn1
      rw [map_tree_cons_other conn _ _ hn1, map_tree_cons_other (conn ++ l) _ _ hn2, ih2,
        map_ptr_append l ha]

theorem replay_inv_attached {h1 : btc_uint256} {conn : List Nat} {db : btc_headers_db}
    (codec : Codec) (hdr : btc_block_header) (c : Nat) (x y : Nat) (l w : Bool)
    (hi : replay_inv h1 conn db) (hc : c ∈ conn) :
    replay_inv h1 (conn ++ [db.heap.length])
      (attached codec db hdr (Ptr.node c) x y l w) := by
  have hL : db.heap.length ∉ conn := fun h => absurd (hi.alloc _ h) (lt_irrefl _)
  have hlen : (attached codec db hdr (Ptr.node c) x y l w).heap.length
      = db.heap.length + 1 := by
    simp [attached]
  have hold : ∀ a, a < db.heap.length →
      heap_get (attached codec db hdr (Ptr.node c) x y l w).heap a = heap_get db.heap a :=
    fun a ha => deref_attached_old codec db hdr (Ptr.node c) x y l w a ha
  have hnew : heap_get (attached codec db hdr (Ptr.node c) x y l w).heap db.heap.length
      = some (linked_node codec hdr (Ptr.node c) x) :=
    deref_attached_new codec db hdr (Ptr.node c) x y l w
  have htree : ∀ p ∈ (attached codec db hdr (Ptr.node c) x y l w).tree_root,
      p = Ptr.node db.heap.length ∨ p ∈ db.tree_root := by
    intro p hp
    simp only [attached] at hp
    split at hp
    · split at hp
      · rcases List.mem_cons.mp hp with e | e
        · exact Or.inl e
        · exact Or.inr e
      · exact Or.inr hp
    · exact Or.inr hp
  have hhead : (conn ++ [db.heap.length]).headD 0 = conn.headD 0 :=
    headD_append _ hi.ne_nil
  refine
    { nodup := ?_, ne_nil := by simp, alloc := ?_, tip := ?_, tree := ?_, bottom := ?_,
      prevs := ?_, first_hash := ?_, first_last := ?_, gen_prev := hi.gen_prev }
  · rw [List.nodup_append]
    refine ⟨hi.nodup, List.nodup_singleton _, ?_⟩
    intro a ha hb
    rw [List.mem_singleton] at hb
    exact hL (hb ▸ ha)
  · intro a ha
    rw [hlen]
    rcases List.mem_append.mp ha with h | h
    · exact Nat.lt_succ_of_lt (hi.alloc a h)
    · rw [List.mem_singleton] at h
      omega
  · rw [attached_chaintip]
    split
    · exact ⟨db.heap.length, by simp, rfl⟩
    · obtain ⟨t, ht, e⟩ := hi.tip
      exact ⟨t, List.mem_append_left _ ht, e⟩
  · intro p hp
    rcases htree p hp with e | e
    · exact ⟨db.heap.length, by simp, e⟩
    · obtain ⟨a, ha, e2⟩ := hi.tree p e
      exact ⟨a, List.mem_append_left _ ha, e2⟩
  · rcases hi.bottom with e | ⟨b, hb, e⟩
    · exact Or.inl e
    · exact Or.inr ⟨b, List.mem_append_left _ hb, e⟩
  · intro a ha n hn
    rcases List.mem_append.mp ha with h | h
    · rw [hold a (hi.alloc a h)] at hn
      rcases hi.prevs a h n hn with k | k | ⟨b, hb, hlt, k⟩
      · exact Or.inl k
      · exact Or.inr (Or.inl k)
      · exact Or.inr (Or.inr ⟨b, List.mem_append_left _ hb, hlt, k⟩)
    · rw [List.mem_singleton] at h
      subst h
      rw [hnew] at hn
      simp only [Option.some.injEq] at hn
      subst hn
      exact Or.inr (Or.inr ⟨c, List.mem_append_left _ hc, hi.alloc c hc, rfl⟩)
  · intro n hn
    rw [hhead, hold _ (hi.alloc _ (headD_mem hi.ne_nil))] at hn
    exact hi.first_hash n hn
  · intro p hp
    rw [hhead]
    have hsub : ∀ q ∈ (attached codec db hdr (Ptr.node c) x y l w).tree_root.dropLast,
        q = Ptr.node db.heap.length ∨ q ∈ db.tree_root.dropLast := by
      intro q hq
      simp only [attached] at hq
      split at hq
      · split at hq
        · cases ht : db.tree_root with
          | nil => rw [ht] at hq; simp at hq
          | cons z zs =>
            rw [ht] at hq
            simp only [List.dropLast_cons₂] at hq
            rcases List.mem_cons.mp hq with e | e
            · exact Or.inl e
            · exact Or.inr e
        · exact Or.inr hq
      · exact Or.inr hq
    rcases hsub p hp with e | e
    · rw [e]
      intro e2
      simp only [Ptr.node.injEq] at e2
      exact hL (e2 ▸ headD_mem hi.ne_nil)
    · exact hi.first_last p e

theorem map_node_append {h1 : btc_uint256} {conn : List Nat} {db : btc_headers_db}
    (l : List Nat) (hi : replay_inv h1 conn db) {a : Nat} (ha : a ∈ conn) :
    (heap_get db.heap a).map (map_node (conn ++ l))
      = (heap_get db.heap a).map (map_node conn) := by
  cases hn : heap_get db.heap a with
  | none => rfl
  | some n =>
    simp only [Option.map_some', map_node, Option.some.injEq]
    congr 1
    apply map_prev_append
    rcases hi.prevs a ha n hn with k | k | ⟨b, hb, _, k⟩
    · exact Or.inl k
    · exact Or.inr (Or.inl k)
    · exact Or.inr (Or.inr ⟨b, hb, k⟩)

/-- Attaching a node in the replayed database gives the replayed form of the database in
which the node has been attached. -/
theorem attached_replayed {h1 : btc_uint256} {conn : List Nat} {db : btc_headers_db}
    (codec : Codec) (hdr : btc_block_header) (c : Nat) (x y : Nat) (l w w1 : Bool)
    (hi : replay_inv h1 conn db) (hc : c ∈ conn) (hk : codec.hash hdr ≠ h1)
    (res : Option Ptr)
    (hfind : (if db.use_binary_tree then
        tfind db { zero_blockindex with hash := codec.hash hdr } db.tree_root
      else some none) = some res) :
    attached codec (replayed conn db) hdr (Ptr.node (conn.indexOf c)) x y true w1
      = replayed (conn ++ [db.heap.length])
          (attached codec db hdr (Ptr.node c) x y l w) := by
  have hL : db.heap.length ∉ conn := fun h => absurd (hi.alloc _ h) (lt_irrefl _)
  have hrl : (replayed conn db).heap.length = conn.length := by
    simp [replayed]
  have hidxL : (conn ++ [db.heap.length]).indexOf db.heap.length = conn.length := by
    rw [List.indexOf_append_of_not_mem hL]
    simp
  obtain ⟨t, ht, htip⟩ := hi.tip
  have hheap : (conn ++ [db.heap.length]).map (fun a =>
        (heap_get (db.heap ++ [some (linked_node codec hdr (Ptr.node c) x)]) a).map
          (map_node (conn ++ [db.heap.length])))
      = conn.map (fun a => (heap_get db.heap a).map (map_node conn))
        ++ [some (linked_node codec hdr (Ptr.node (conn.indexOf c)) x)] := by
    rw [List.map_append]
    congr 1
    · apply List.map_congr_left
      intro a ha
      rw [heap_get_append_left _ _ _ (hi.alloc a ha)]
      exact map_node_append _ hi ha
    · simp only [List.map_cons, List.map_nil, heap_get_append_length, Option.map_some',
        map_node, linked_node, map_prev, List.indexOf_append_of_mem hc]
  have htree0 : map_tree (conn ++ [db.heap.length]) db.tree_root = map_tree conn db.tree_root :=
    map_tree_append _ hi.ne_nil _ hi.tree
  have hne1 : Ptr.node db.heap.length ≠ Ptr.node ((conn ++ [db.heap.length]).headD 0) := by
    rw [headD_append _ hi.ne_nil]
    intro e
    simp only [Ptr.node.injEq] at e
    exact hL (e ▸ headD_mem hi.ne_nil)
  have htree : (if (replayed conn db).use_binary_tree then
        match tfind (replayed conn db) { zero_blockindex with hash := codec.hash hdr }
            (replayed conn db).tree_root with
        | some none => Ptr.node (replayed conn db).heap.length :: (replayed conn db).tree_root
        | _ => (replayed conn db).tree_root
      else (replayed conn db).tree_root)
      = map_tree (conn ++ [db.heap.length])
          (if db.use_binary_tree then
            match tfind db { zero_blockindex with hash := codec.hash hdr } db.tree_root with
            | some none => Ptr.node db.heap.length :: db.tree_root
            | _ => db.tree_root
          else db.tree_root) := by
    have hu : (replayed conn db).use_binary_tree = db.use_binary_tree := rfl
    have htr : (replayed conn db).tree_root = map_tree conn db.tree_root := rfl
    rw [hu, htr, hrl]
    cases hub : db.use_binary_tree with
    | false => simp only [Bool.false_eq_true, if_false, htree0]
    | true =>
      rw [hub] at hfind
      simp only [if_true] at hfind ⊢
      rw [hfind, tfind_replayed _ hk hi.first_hash db.tree_root res hi.tree hfind]
      cases res with
      | none =>
        simp only [Option.map_none']
        rw [map_tree_cons_other _ _ _ hne1, htree0]
        simp only [map_ptr, hidxL]
      | some q =>
        simp only [Option.map_some', htree0]
  have htipe : (if (x + 1) % UINT32_MOD > y then Ptr.node (replayed conn db).heap.length
        else (replayed conn db).chaintip)
      = map_ptr (conn ++ [db.heap.length])
          (if (x + 1) % UINT32_MOD > y then Ptr.node db.heap.length else db.chaintip) := by
    rw [hrl]
    split
    · simp only [map_ptr, hidxL]
    · show map_ptr conn db.chaintip = _
      rw [htip, map_ptr_append _ ht]
  have hbot : (replayed conn db).chainbottom
      = map_ptr (conn ++ [db.heap.length]) db.chainbottom := by
    show map_ptr conn db.chainbottom = _
    rcases hi.bottom with e | ⟨b, hb, e⟩
    · rw [e]; rfl
    · rw [e, map_ptr_append _ hb]
  show ({ replayed conn db with
      heap := (replayed conn db).heap
        ++ [some (linked_node codec hdr (Ptr.node (conn.indexOf c)) x)]
      chaintip := if (x + 1) % UINT32_MOD > y then Ptr.node (replayed conn db).heap.length
        else (replayed conn db).chaintip
      headers_tree_file := (replayed conn db).headers_tree_file
      file_ahead := (replayed conn db).file_ahead
      tree_root := if (replayed conn db).use_binary_tree then
          match tfind (replayed conn db) { zero_blockindex with hash := codec.hash hdr }
              (replayed conn db).tree_root with
          | some none => Ptr.node (replayed conn db).heap.length :: (replayed conn db).tree_root
          | _ => (replayed conn db).tree_root
        else (replayed conn db).tree_root } : btc_headers_db) = _
  rw [htree, htipe]
  have hbot2 : map_ptr conn db.chainbottom
      = map_ptr (conn ++ [db.heap.length]) db.chainbottom := hbot
  simp only [replayed, attached, hheap, hbot2] <;> rfl

/-! ## The chain tip survives pruning -/

theorem prune_loop_above {h1 : btc_uint256} {conn : List Nat} (bound maxhdr : Nat) :
    ∀ (fuel : Nat) (db d : btc_headers_db) (s i : Nat), replay_inv h1 conn db → s ∈ conn →
      prune_loop bound maxhdr fuel db (Ptr.node s) i = some d →
      ∀ x, s ≤ x → heap_get d.heap x = heap_get db.heap x := by
  intro fuel
  induction fuel with
  | zero =>
    intro db d s i _ _ h x _
    simp only [prune_loop, Option.some.injEq] at h
    subst h
    rfl
  | succ k ih =>
    intro db d s i hi hs h x hx
    simp only [prune_loop] at h
    by_cases hb : i < bound
    · rw [if_pos hb] at h
      cases hd : deref db (Ptr.node s) with
      | none => rw [hd] at h; cases h
      | some st =>
        rw [hd] at h
        simp only [] at h
        have hd2 : heap_get db.heap s = some st := hd
        rcases hi.prevs s hs st hd2 with hpv | hpv | ⟨q, hq, hlt, hpv⟩
        · rw [hpv] at h
          simp only [Option.some.injEq] at h
          subst h
          rfl
        · rw [hpv] at h
          simp only [ne_eq, not_true_eq_false, and_false, if_false] at h
          rw [prune_loop_genesis bound maxhdr k db (i + 1) hi.gen_prev] at h
          simp only [Option.some.injEq] at h
          subst h
          rfl
        · rw [hpv] at h
          simp only [ne_eq, reduceCtorEq, not_false_eq_true, and_true] at h
          by_cases hc : i = maxhdr
          · rw [if_pos hc] at h
            cases hpa : prune_at db (Ptr.node q) with
            | none => rw [hpa] at h; cases h
            | some db1 =>
              rw [hpa] at h
              simp only [] at h
              obtain ⟨_, k2⟩ := prune_at_replayed hi hq hpa
              rw [ih db1 d q (i + 1) k2 hq h x (by omega)]
              have hf := prune_at_frame hpa (Ptr.node x)
                (fun e => by simp only [Ptr.node.injEq] at e; omega)
                (by
                  intro sn hsn e
                  rcases hi.prevs q hq sn hsn with k | k | ⟨b, _, hbl, k⟩
                  · rw [k] at e; cases e
                  · rw [k] at e; cases e
                  · rw [k] at e
                    simp only [Option.some.injEq, Ptr.node.injEq] at e
                    omega)
              exact hf
          · rw [if_neg hc] at h
            simp only [] at h
            exact ih db d q (i + 1) hi hq h x (by omega)
    · rw [if_neg hb] at h
      simp only [Option.some.injEq] at h
      subst h
      rfl

/-- The pruning block leaves the node of the chain tip as it is. -/
theorem prune_keeps_tip {h1 : btc_uint256} {conn : List Nat} {db d : btc_headers_db}
    (hi : replay_inv h1 conn db) (h : prune db = some d) :
    d.chaintip = db.chaintip ∧ deref d d.chaintip = deref db db.chaintip := by
  have htip := (prune_evolves h).2.1
  refine ⟨htip, ?_⟩
  rw [htip]
  obtain ⟨t, ht, e⟩ := hi.tip
  rw [e]
  simp only [prune] at h
  by_cases hpos : db.max_hdr_in_mem > 0
  · rw [if_pos hpos, e] at h
    exact prune_loop_above _ _ _ db d t 0 hi ht h t (le_refl _)
  · rw [if_neg hpos] at h
    simp only [Option.some.injEq] at h
    subst h
    rfl

theorem prune_stream {db d : btc_headers_db} (h : prune db = some d) :
    d.headers_tree_file = db.headers_tree_file ∧ d.file_ahead = db.file_ahead
      ∧ d.read_write_file = db.read_write_file := by
  have e := prune_with_log db db.headers_tree_file db.file_ahead db.read_write_file
  have e2 : with_log db db.headers_tree_file db.file_ahead db.read_write_file = db := rfl
  rw [e2, h] at e
  simp only [Option.map_some', Option.some.injEq] at e
  rw [e]
  exact ⟨rfl, rfl, rfl⟩

/-! ## One connect, replayed -/

theorem replayed_refs {h1 : btc_uint256} {conn : List Nat} {db : btc_headers_db}
    (hi : replay_inv h1 conn db) : refs_allocated (replayed conn db) := by
  have hrl : (replayed conn db).heap.length = conn.length := by simp [replayed]
  refine ⟨?_, ?_⟩
  · obtain ⟨t, ht, e⟩ := hi.tip
    show map_ptr conn db.chaintip ≠ _
    rw [e, hrl]
    simp only [map_ptr, ne_eq, Ptr.node.injEq]
    exact Nat.ne_of_lt (indexOf_lt_of_mem ht)
  · intro p hp
    have hp2 : p ∈ map_tree conn db.tree_root := hp
    unfold map_tree at hp2
    obtain ⟨q, hq, e⟩ := List.mem_map.mp hp2
    obtain ⟨a, ha, e2⟩ := hi.tree q (List.mem_filter.mp hq).1
    rw [← e, e2, hrl]
    simp only [map_ptr, ne_eq, Ptr.node.injEq]
    exact Nat.ne_of_lt (indexOf_lt_of_mem ha)

theorem inv_refs {h1 : btc_uint256} {conn : List Nat} {db : btc_headers_db}
    (hi : replay_inv h1 conn db) : refs_allocated db := by
  refine ⟨?_, ?_⟩
  · obtain ⟨t, ht, e⟩ := hi.tip
    rw [e]
    simp only [ne_eq, Ptr.node.injEq]
    exact Nat.ne_of_lt (hi.alloc t ht)
  · intro p hp
    obtain ⟨a, ha, e⟩ := hi.tree p hp
    rw [e]
    simp only [ne_eq, Ptr.node.injEq]
    exact Nat.ne_of_lt (hi.alloc a ha)

/-- A header that connects to the original database connects to the replayed database
when its wire form is replayed, and the result is the replayed form of the result. -/
theorem connect_replayed {h1 : btc_uint256} {conn : List Nat} {codec : Codec}
    {db d : btc_headers_db} {buf : List Byte} {l w : Bool} {r : Option Ptr}
    (hi : replay_inv h1 conn db)
    (hcall : btc_headers_db_connect_hdr codec db buf l w = some (d, r, true)) :
    ∃ (hdr : btc_block_header) (tip atn : btc_blockindex), codec.deserialize buf = some hdr
      ∧ deref db db.chaintip = some tip
      ∧ file_ready db l
      ∧ d.headers_tree_file
          = (if !l && db.read_write_file && w then
              db.headers_tree_file.map
                (fun f => f ++ record_of codec ((atn.height + 1) % UINT32_MOD) hdr)
             else db.headers_tree_file)
      ∧ d.file_ahead
          = (if !l && db.read_write_file && w then
              db.file_ahead.drop
                (record_of codec ((atn.height + 1) % UINT32_MOD) hdr).length
             else db.file_ahead)
      ∧ d.read_write_file = db.read_write_file
      ∧ (∃ tip1, deref d d.chaintip = some tip1 ∧ tip.height ≤ tip1.height
          ∧ (atn.height + 1) % UINT32_MOD ≤ tip1.height)
      ∧ replay_inv h1 (conn ++ [db.heap.length]) d
      ∧ (codec.deserialize (codec.serialize hdr) = some hdr →
          (hdr.prev_block = tip.hash ∨ hdr.prev_block ≠ h1) → codec.hash hdr ≠ h1 →
          btc_headers_db_connect_hdr codec (replayed conn db) (codec.serialize hdr) true true
            = some (replayed (conn ++ [db.heap.length]) d, some (Ptr.node conn.length),
                true)) := by
  rcases connect_cases (inv_refs hi) hcall with ⟨hc, _⟩ | ⟨_, _, hdr, tip, cat, atn, x, hdec, htip,
    hatt, hatn, hfile, hx, hp⟩
  · cases hc
  obtain ⟨t, ht, htipe⟩ := hi.tip
  obtain ⟨c, hc, hcat⟩ : ∃ c ∈ conn, cat = Ptr.node c := by
    rcases hatt with ⟨_, h2⟩ | ⟨_, h2⟩
    · exact ⟨t, ht, by rw [h2, htipe]⟩
    · simp only [btc_headersdb_find] at h2
      split at h2
      · exact hi.tree cat (tfind_some h2).1
      · cases h2
  subst hcat
  have hiX := replay_inv_attached codec hdr c atn.height tip.height l w hi hc
  obtain ⟨hs1, hs2, hs3⟩ := prune_stream hp
  obtain ⟨hk1, hk2⟩ := prune_keeps_tip hiX hp
  obtain ⟨hpr, hid⟩ := prune_replayed hiX hp
  refine ⟨hdr, tip, atn, hdec, htip, hfile, ?_, ?_, ?_, ?_, hid, ?_⟩
  · rw [hs1]; rfl
  · rw [hs2]; rfl
  · rw [hs3]; rfl
  · rw [hk2, attached_chaintip]
    by_cases hgt : (atn.height + 1) % UINT32_MOD > tip.height
    · rw [if_pos hgt, deref_attached_new]
      exact ⟨_, rfl, Nat.le_of_lt hgt, le_refl _⟩
    · rw [if_neg hgt, deref_attached_live _ _ _ _ _ _ _ _ htip]
      exact ⟨_, rfl, le_refl _, not_lt.mp hgt⟩
  · intro hround hprev hhash
    have htip2 : heap_get db.heap t = some tip := by
      rw [htipe] at htip
      exact htip
    have hrtip : (replayed conn db).chaintip = Ptr.node (conn.indexOf t) := by
      show map_ptr conn db.chaintip = _
      rw [htipe]
      rfl
    have hrtipn : deref (replayed conn db) (Ptr.node (conn.indexOf t))
        = some (map_node conn tip) := by
      rw [deref_replayed conn db ht, htip2]
      rfl
    have hatn2 : heap_get db.heap c = some atn := hatn
    have hratn : deref (replayed conn db) (Ptr.node (conn.indexOf c))
        = some (map_node conn atn) := by
      rw [deref_replayed conn db hc, hatn2]
      rfl
    have hsel : (if hdr.prev_block = (map_node conn tip).hash then
          some (some (Ptr.node (conn.indexOf t)))
        else btc_headersdb_find (replayed conn db) hdr.prev_block)
        = some (some (Ptr.node (conn.indexOf c))) := by
      rcases hatt with ⟨e1, e2⟩ | ⟨e1, e2⟩
      · have e3 : hdr.prev_block = (map_node conn tip).hash := e1
        rw [if_pos e3]
        rw [htipe] at e2
        simp only [Ptr.node.injEq] at e2
        rw [e2]
      · have e3 : ¬ hdr.prev_block = (map_node conn tip).hash := e1
        rw [if_neg e3]
        have hne : hdr.prev_block ≠ h1 := by
          rcases hprev with k | k
          · exact absurd k e1
          · exact k
        simp only [btc_headersdb_find] at e2 ⊢
        have hu : (replayed conn db).use_binary_tree = db.use_binary_tree := rfl
        rw [hu]
        split at e2
        · rename_i hub
          rw [if_pos hub]
          exact tfind_replayed { zero_blockindex with hash := hdr.prev_block } hne
            hi.first_hash db.tree_root _ hi.tree e2
        · cases e2
    have hxr : (if (replayed conn db).use_binary_tree then
          tfind (replayed conn db) { zero_blockindex with hash := codec.hash hdr }
            (replayed conn db).tree_root
        else some none) = some (x.map (map_ptr conn)) := by
      have hu : (replayed conn db).use_binary_tree = db.use_binary_tree := rfl
      rw [hu]
      cases hub : db.use_binary_tree with
      | false =>
        rw [hub] at hx
        simp only [Bool.false_eq_true, if_false, Option.some.injEq] at hx ⊢
        rw [← hx]
        rfl
      | true =>
        rw [hub] at hx
        simp only [if_true] at hx ⊢
        exact tfind_replayed _ hhash hi.first_hash db.tree_root _ hi.tree hx
    have hatt2 := attached_replayed codec hdr c atn.height tip.height l w true hi hc hhash x hx
    have hrl : (replayed conn db).heap.length = conn.length := by simp [replayed]
    rw [connect_hdr_normal codec (replayed conn db) (codec.serialize hdr) true true
      (replayed_refs hi)]
    simp only [connect_normal, hround, hrtip, hrtipn, hsel, hratn, Bool.not_true,
      Bool.false_and, Bool.false_eq_true, if_false, hxr]
    have hh1 : (map_node conn atn).height = atn.height := rfl
    have hh2 : (map_node conn tip).height = tip.height := rfl
    rw [hh1, hh2, hatt2, hpr, hrl]
    rfl

/-! ## Headers that do not connect -/

theorem replayed_push {h1 : btc_uint256} {conn : List Nat} {db : btc_headers_db}
    (hi : replay_inv h1 conn db) (cell : Option btc_blockindex) :
    replay_inv h1 conn { db with heap := db.heap ++ [cell] }
      ∧ replayed conn { db with heap := db.heap ++ [cell] } = replayed conn db := by
  have hold : ∀ a ∈ conn, heap_get (db.heap ++ [cell]) a = heap_get db.heap a :=
    fun a ha => heap_get_append_left _ _ _ (hi.alloc a ha)
  refine ⟨?_, ?_⟩
  · exact
      { nodup := hi.nodup, ne_nil := hi.ne_nil
        alloc := fun a ha => by
          show a < (db.heap ++ [cell]).length
          rw [List.length_append]
          exact Nat.lt_add_right _ (hi.alloc a ha)
        tip := hi.tip, tree := hi.tree, bottom := hi.bottom
        prevs := fun a ha n hn => hi.prevs a ha n (by rw [← hold a ha]; exact hn)
        first_hash := fun n hn => hi.first_hash n (by
          rw [← hold _ (headD_mem hi.ne_nil)]; exact hn)
        first_last := hi.first_last, gen_prev := hi.gen_prev }
  · simp only [replayed]
    congr 1
    apply List.map_congr_left
    intro a ha
    rw [hold a ha]

/-- A header that does not connect leaves the replayed database as it is. -/
theorem orphan_replayed {h1 : btc_uint256} {conn : List Nat} {codec : Codec}
    {db d : btc_headers_db} {buf : List Byte} {l w : Bool} {r : Option Ptr}
    (hi : replay_inv h1 conn db)
    (hcall : btc_headers_db_connect_hdr codec db buf l w = some (d, r, false)) :
    replay_inv h1 conn d ∧ replayed conn d = replayed conn db
      ∧ d.headers_tree_file = db.headers_tree_file ∧ d.file_ahead = db.file_ahead
      ∧ d.read_write_file = db.read_write_file
      ∧ d.chaintip = db.chaintip ∧ deref d d.chaintip = deref db db.chaintip := by
  rcases connect_cases (inv_refs hi) hcall with ⟨_, cell, hd⟩ | ⟨hc, _⟩
  · subst hd
    obtain ⟨k1, k2⟩ := replayed_push hi (some cell)
    refine ⟨k1, k2, rfl, rfl, rfl, rfl, ?_⟩
    obtain ⟨t, ht, e⟩ := hi.tip
    show deref { db with heap := db.heap ++ [some cell] } db.chaintip = _
    rw [e]
    exact heap_get_append_left _ _ _ (hi.alloc t ht)
  · cases hc

/-! ## The first header that connects -/

theorem prune_first (db : btc_headers_db) (a : Nat) (n : btc_blockindex)
    (htip : db.chaintip = Ptr.node a) (hn : deref db (Ptr.node a) = some n)
    (hp : n.prev = some Ptr.genesis) (hg : db.genesis.prev = none) :
    prune db = some db := by
  simp only [prune]
  split
  · rw [htip]
    cases hb : (db.max_hdr_in_mem + 1) % UINT32_MOD with
    | zero => rfl
    | succ k =>
      simp only [prune_loop, Nat.succ_pos, if_true, hn, hp, ne_eq, not_true_eq_false,
        and_false, if_false]
      exact prune_loop_genesis _ _ _ db _ hg
  · rfl

/-- The state in which the first header has connected, to a database that has only seen
headers that did not: the node of the header is live, is the chain tip at height 1 and
is the only connected cell. -/
theorem first_attached (codec : Codec) (g : btc_uint256) (m : Nat)
    (heap : List (Option btc_blockindex)) (hdr : btc_block_header) (l w : Bool) :
    replay_inv (codec.hash hdr) [heap.length]
        (attached codec { created_db g m with heap := heap } hdr Ptr.genesis 0 0 l w)
      ∧ replayed [heap.length]
          (attached codec { created_db g m with heap := heap } hdr Ptr.genesis 0 0 l w)
        = { in_memory (fresh_db g false m) with
            heap := [some ⟨1, codec.hash hdr, hdr, none⟩]
            chaintip := Ptr.node 0 }
      ∧ deref (attached codec { created_db g m with heap := heap } hdr Ptr.genesis 0 0 l w)
          (attached codec { created_db g m with heap := heap } hdr Ptr.genesis 0 0 l
            w).chaintip
        = some (linked_node codec hdr Ptr.genesis 0) := by
  have h1 : (0 + 1) % UINT32_MOD = 1 := by decide
  have hnew : heap_get (heap ++ [some (linked_node codec hdr Ptr.genesis 0)]) heap.length
      = some (linked_node codec hdr Ptr.genesis 0) := heap_get_append_length _ _
  have htip : (attached codec { created_db g m with heap := heap } hdr Ptr.genesis 0 0 l
      w).chaintip = Ptr.node heap.length := by
    simp only [attached, h1]
    rfl
  have htree : (attached codec { created_db g m with heap := heap } hdr Ptr.genesis 0 0 l
      w).tree_root = [Ptr.node heap.length] := by
    simp only [attached, created_db, fresh_db, btc_headers_db_new, tfind, if_true]
  refine ⟨?_, ?_, ?_⟩
  · exact
      { nodup := List.nodup_singleton _
        ne_nil := by simp
        alloc := by
          intro a ha
          rw [List.mem_singleton] at ha
          subst ha
          simp [attached]
        tip := ⟨heap.length, by simp, htip⟩
        tree := by
          intro p hp
          rw [htree, List.mem_singleton] at hp
          exact ⟨heap.length, by simp, hp⟩
        bottom := Or.inl rfl
        prevs := by
          intro a ha n hn
          rw [List.mem_singleton] at ha
          subst ha
          have hn2 : heap_get (heap ++ [some (linked_node codec hdr Ptr.genesis 0)])
              heap.length = some n := hn
          rw [hnew] at hn2
          simp only [Option.some.injEq] at hn2
          subst hn2
          exact Or.inr (Or.inl rfl)
        first_hash := by
          intro n hn
          have hn2 : heap_get (heap ++ [some (linked_node codec hdr Ptr.genesis 0)])
              heap.length = some n := hn
          rw [hnew] at hn2
          simp only [Option.some.injEq] at hn2
          subst hn2
          rfl
        first_last := by
          intro p hp
          rw [htree] at hp
          simp at hp
        gen_prev := rfl }
  · simp only [replayed, htree, htip]
    have e1 : map_tree [heap.length] [Ptr.node heap.length] = [] := by
      have := map_tree_cons_first [heap.length] []
      exact this
    have e2 : (attached codec { created_db g m with heap := heap } hdr Ptr.genesis 0 0 l
        w).heap = heap ++ [some (linked_node codec hdr Ptr.genesis 0)] := rfl
    rw [e1, e2]
    simp only [List.map_cons, List.map_nil, hnew, Option.map_some']
    simp only [map_node, linked_node, map_prev, h1, map_ptr, List.indexOf_cons_self]
    rfl
  · rw [htip]
    exact hnew

/-! ## The run before the first header connects -/

theorem connect_all_cons {codec : Codec} {l w : Bool} {db d : btc_headers_db}
    {b : List Byte} {bs : List (List Byte)} {flags : List Bool}
    (h : connect_all codec l w db (b :: bs) = some (d, flags)) :
    ∃ db1 r c cs, btc_headers_db_connect_hdr codec db b l w = some (db1, r, c)
      ∧ connect_all codec l w db1 bs = some (d, cs) ∧ flags = c :: cs := by
  simp only [connect_all] at h
  cases hc : btc_headers_db_connect_hdr codec db b l w with
  | none => rw [hc] at h; cases h
  | some x =>
    obtain ⟨db1, r, c⟩ := x
    rw [hc] at h
    simp only [] at h
    cases hr : connect_all codec l w db1 bs with
    | none => rw [hr] at h; cases h
    | some y =>
      obtain ⟨y1, y2⟩ := y
      rw [hr] at h
      simp only [Option.map_some', Option.some.injEq, Prod.mk.injEq] at h
      obtain ⟨e1, e2⟩ := h
      subst e1
      exact ⟨db1, r, c, y2, rfl, hr, e2.symm⟩

/-- Up to the first header that connects, a run on a database with a fresh log only adds
cells; the first header that connects is attached to the genesis node. -/
theorem pre_run (codec : Codec) (g : btc_uint256) (m : Nat) :
    ∀ (bufs : List (List Byte)) (heap : List (Option btc_blockindex)) (d : btc_headers_db)
      (flags : List Bool),
      connect_all codec false true { created_db g m with heap := heap } bufs
        = some (d, flags) →
      true ∈ flags →
      ∃ hdr heap1 bufs2 flags2,
        connected_headers codec bufs flags = hdr :: connected_headers codec bufs2 flags2
        ∧ connect_all codec false true
            (attached codec { created_db g m with heap := heap1 } hdr Ptr.genesis 0 0 false
              true) bufs2 = some (d, flags2) := by
  intro bufs
  induction bufs with
  | nil =>
    intro heap d flags h ht
    simp only [connect_all, Option.some.injEq, Prod.mk.injEq] at h
    rw [← h.2] at ht
    simp at ht
  | cons b bs ih =>
    intro heap d flags h ht
    obtain ⟨db1, r, c, cs, hc, hrest, hf⟩ := connect_all_cons h
    subst hf
    have hra : refs_allocated { created_db g m with heap := heap } := by
      refine ⟨fun e => (by cases e), fun p hp => ?_⟩
      have : p ∈ ([] : List Ptr) := hp
      simp at this
    rcases connect_cases hra hc with ⟨hcf, cell, hd⟩ | ⟨hct, _, hdr, tip, cat, atn, x, hdec, htip,
      hatt, hatn, _, _, hp⟩
    · subst hcf hd
      have ht2 : true ∈ cs := by
        rcases List.mem_cons.mp ht with e | e
        · cases e
        · exact e
      obtain ⟨hdr, heap1, bufs2, flags2, k1, k2⟩ := ih (heap ++ [some cell]) d cs hrest ht2
      refine ⟨hdr, heap1, bufs2, flags2, ?_, k2⟩
      simp only [connected_headers, Bool.false_eq_true, if_false, List.nil_append]
      exact k1
    · subst hct
      have htip2 : tip = (created_db g m).genesis := by
        have : deref { created_db g m with heap := heap } Ptr.genesis = some tip := htip
        simp only [deref, Option.some.injEq] at this
        exact this.symm
      have hcat : cat = Ptr.genesis := by
        rcases hatt with ⟨_, e⟩ | ⟨_, e⟩
        · exact e
        · simp [btc_headersdb_find, created_db, fresh_db, btc_headers_db_new, tfind] at e
      subst hcat
      have hatn2 : atn = (created_db g m).genesis := by
        simp only [deref, Option.some.injEq] at hatn
        exact hatn.symm
      subst htip2 hatn2
      have hh : (created_db g m).genesis.height = 0 := rfl
      rw [hh] at hp
      obtain ⟨_, _, k3⟩ := first_attached codec g m heap hdr false true
      have hpf := prune_first
        (attached codec { created_db g m with heap := heap } hdr Ptr.genesis 0 0 false true)
        heap.length (linked_node codec hdr Ptr.genesis 0)
        (by
          have h1 : (0 + 1) % UINT32_MOD = 1 := by decide
          simp only [attached, h1]
          rfl)
        (deref_attached_new codec { created_db g m with heap := heap } hdr Ptr.genesis 0 0
          false true)
        rfl rfl
      rw [hpf] at hp
      simp only [Option.some.injEq] at hp
      subst hp
      refine ⟨hdr, heap, bs, cs, ?_, hrest⟩
      simp only [connected_headers, if_true, hdec, Option.toList, List.singleton_append]

/-! ## Replaying the records of a run -/

theorem record_of_length (codec : Codec) (k : Nat) (h : btc_block_header)
    (hser : (codec.serialize h).length = 80) : (record_of codec k h).length = 116 := by
  have hl4 : (ser_u32 k).length = 4 := rfl
  simp only [record_of, List.length_append, (codec.hash h).size_eq, hl4, hser]

theorem stream_read_record (m : btc_headers_db) (F : Option (List Byte))
    (r rest : List Byte) (rwf : Bool) (hlen : r.length = 116) :
    stream_read (with_log m F (r ++ rest) rwf) 116
      = with_log m (F.map (fun f => f ++ r)) rest rwf := by
  obtain ⟨_, h2, h3⟩ := record_split r rest hlen
  simp only [stream_read, with_log, h2, h3]

/-- A record whose header connects to the database in memory is replayed by the loop of
`btc_headers_db_load` as that connect; the stream moves over the record. -/
theorem load_records_connected (codec : Codec) (fuel : Nat) (m m1 : btc_headers_db)
    (F : Option (List Byte)) (rest : List Byte) (rwf : Bool) (k : Nat)
    (h : btc_block_header) (p : Option Ptr)
    (hser : (codec.serialize h).length = 80) (hk : k < 1120874)
    (hc : btc_headers_db_connect_hdr codec m (codec.serialize h) true true
      = some (m1, p, true)) :
    load_records codec (fuel + 1) (with_log m F (record_of codec k h ++ rest) rwf) false
      = load_records codec fuel
          (with_log m1 (F.map (fun f => f ++ record_of codec k h)) rest rwf) false := by
  rw [load_records_next codec fuel _ k h rest rfl hser hk,
    stream_read_record m F _ rest rwf (record_of_length codec k h hser)]
  obtain ⟨rec, _, e⟩ := connect_hdr_with_log codec m
    (F.map (fun f => f ++ record_of codec k h)) rest rwf true false (codec.serialize h)
    (Or.inl rfl)
  rw [e, hc]
  simp only [Option.map_some', Bool.not_true, Bool.and_false, Bool.false_and,
    Bool.false_eq_true, if_false, if_true]

/-- The run after the first header has connected, replayed.  The original database `db`
has a log that is open at its end; the buffers `bufs` are connected to it with
persistence; no connected header has the hash `h1` of the first connected header, and
none names it as its predecessor unless the first connected header is the chain tip.
Then the records that the run appends to the log, replayed by the loop of
`btc_headers_db_load` on the replayed form of `db`, give the replayed form of the final
database. -/
theorem sim_run (codec : Codec) (h1 : btc_uint256) :
    ∀ (bufs : List (List Byte)) (db d : btc_headers_db) (conn : List Nat)
      (flags : List Bool) (f : List Byte) (tip : btc_blockindex),
      replay_inv h1 conn db →
      deref db db.chaintip = some tip →
      db.read_write_file = true → db.headers_tree_file = some f → db.file_ahead = [] →
      connect_all codec false true db bufs = some (d, flags) →
      (∀ h ∈ connected_headers codec bufs flags, (codec.serialize h).length = 80
        ∧ codec.deserialize (codec.serialize h) = some h ∧ codec.hash h ≠ h1) →
      ((db.chaintip = Ptr.node (conn.headD 0)
          ∧ ∀ h ∈ (connected_headers codec bufs flags).tail, h.prev_block ≠ h1)
        ∨ (∀ h ∈ connected_headers codec bufs flags, h.prev_block ≠ h1)) →
      (∀ tn, deref d d.chaintip = some tn → tn.height < 1120874) →
      ∃ conn1 recs tip1, replay_inv h1 conn1 d
        ∧ deref d d.chaintip = some tip1 ∧ tip.height ≤ tip1.height
        ∧ d.headers_tree_file = some (f ++ recs) ∧ d.file_ahead = []
        ∧ d.read_write_file = true
        ∧ (connected_headers codec bufs flags).length ≤ recs.length
        ∧ ∀ (fuel : Nat) (F : Option (List Byte)) (rest : List Byte) (rwf : Bool),
            load_records codec (fuel + (connected_headers codec bufs flags).length)
                (with_log (replayed conn db) F (recs ++ rest) rwf) false
              = load_records codec fuel
                  (with_log (replayed conn1 d) (F.map (fun x => x ++ recs)) rest rwf)
                  false := by
  intro bufs
  induction bufs with
  | nil =>
    intro db d conn flags f tip hi htip hrw hf ha hrun _ _ _
    simp only [connect_all, Option.some.injEq, Prod.mk.injEq] at hrun
    obtain ⟨e1, e2⟩ := hrun
    subst e1 e2
    refine ⟨conn, [], tip, hi, htip, le_refl _, by rw [hf, List.append_nil], ha, hrw,
      le_refl _, ?_⟩
    intro fuel F rest rwf
    simp only [connected_headers, List.length_nil, Nat.add_zero, List.nil_append,
      List.append_nil]
    cases F <;> rfl
  | cons b bs ih =>
    intro db d conn flags f tip hi htip hrw hf ha hrun hcodec hfork hheight
    obtain ⟨db1, r, c, cs, hc, hrest, hfl⟩ := connect_all_cons hrun
    subst hfl
    cases c with
    | false =>
      obtain ⟨k1, k2, k3, k4, k5, k6, k7⟩ := orphan_replayed hi hc
      have hch : connected_headers codec (b :: bs) (false :: cs)
          = connected_headers codec bs cs := by
        simp only [connected_headers, Bool.false_eq_true, if_false, List.nil_append]
      rw [hch] at hcodec hfork ⊢
      have hfork2 : (db1.chaintip = Ptr.node (conn.headD 0)
            ∧ ∀ h ∈ (connected_headers codec bs cs).tail, h.prev_block ≠ h1)
          ∨ (∀ h ∈ connected_headers codec bs cs, h.prev_block ≠ h1) := by
        rcases hfork with ⟨e, k⟩ | k
        · exact Or.inl ⟨by rw [k6]; exact e, k⟩
        · exact Or.inr k
      obtain ⟨conn1, recs, tip1, j1, j2, j3, j4, j5, j6, jl, j7⟩ :=
        ih db1 d conn cs f tip k1 (by rw [k7]; exact htip) (by rw [k5]; exact hrw)
          (by rw [k3]; exact hf) (by rw [k4]; exact ha) hrest hcodec hfork2 hheight
      refine ⟨conn1, recs, tip1, j1, j2, j3, j4, j5, j6, jl, ?_⟩
      intro fuel F rest rwf
      rw [← k2]
      exact j7 fuel F rest rwf
    | true =>
      obtain ⟨hdr, tip0, atn, hdec, htip0, _, s1, s2, s3, ⟨tipn, t1, t2, t3⟩, hi1, hrep⟩ :=
        connect_replayed hi hc
      have etip : tip0 = tip := by
        rw [htip] at htip0
        simp only [Option.some.injEq] at htip0
        exact htip0.symm
      subst etip
      have hch : connected_headers codec (b :: bs) (true :: cs)
          = hdr :: connected_headers codec bs cs := by
        simp only [connected_headers, if_true, hdec, Option.toList, List.singleton_append]
      rw [hch] at hcodec hfork ⊢
      obtain ⟨c1, c2, c3⟩ := hcodec hdr (List.mem_cons_self _ _)
      have hprev : hdr.prev_block = tip0.hash ∨ hdr.prev_block ≠ h1 := by
        rcases hfork with ⟨e, _⟩ | k
        · rw [e] at htip
          have hh : tip0.hash = h1 := hi.first_hash tip0 htip
          by_cases hp : hdr.prev_block = h1
          · exact Or.inl (by rw [hp, hh])
          · exact Or.inr hp
        · exact Or.inr (k hdr (List.mem_cons_self _ _))
      have hfork2 : (db1.chaintip = Ptr.node ((conn ++ [db.heap.length]).headD 0)
            ∧ ∀ h ∈ (connected_headers codec bs cs).tail, h.prev_block ≠ h1)
          ∨ (∀ h ∈ connected_headers codec bs cs, h.prev_block ≠ h1) := by
        rcases hfork with ⟨_, k⟩ | k
        · exact Or.inr k
        · exact Or.inr (fun h hh => k h (List.mem_cons_of_mem _ hh))
      simp only [Bool.not_false, Bool.true_and, hrw, Bool.and_self, if_true, hf,
        Option.map_some', ha, List.drop_nil] at s1 s2
      obtain ⟨conn1, recs, tip1, j1, j2, j3, j4, j5, j6, jl, j7⟩ :=
        ih db1 d (conn ++ [db.heap.length]) cs _ tipn hi1 t1 (by rw [s3]; exact hrw) s1 s2
          hrest (fun h hh => hcodec h (List.mem_cons_of_mem _ hh)) hfork2 hheight
      have hk : (atn.height + 1) % UINT32_MOD < 1120874 :=
        lt_of_le_of_lt (le_trans t3 j3) (hheight tip1 j2)
      refine ⟨conn1, record_of codec ((atn.height + 1) % UINT32_MOD) hdr ++ recs, tip1, j1, j2,
        le_trans t2 j3, by rw [j4, List.append_assoc], j5, j6, ?_, ?_⟩
      · rw [List.length_cons, List.length_append, record_of_length codec _ hdr c1]
        omega
      · intro fuel F rest rwf
        have e1 : fuel + (hdr :: connected_headers codec bs cs).length
            = (fuel + (connected_headers codec bs cs).length) + 1 := by
          simp only [List.length_cons]
          omega
        rw [e1, List.append_assoc,
          load_records_connected codec _ (replayed conn db) _ F (recs ++ rest) rwf _ hdr _ c1 hk
            (hrep c2 hprev c3),
          j7 fuel _ rest rwf]
        cases F with
        | none => rfl
        | some x => simp only [Option.map_some', List.append_assoc]

/-! ## The persistence round trip -/

theorem load_created (codec : Codec) (g : btc_uint256) (m : Nat) :
    btc_headers_db_load codec (fresh_db g false m) none true = some (created_db g m, 1) := rfl

theorem log_header_take (x : List Byte) : (log_header ++ x).take 4 = file_hdr_magic := rfl

theorem log_header_version (x : List Byte) :
    ¬ ((log_header ++ x).getD 4 0).val > current_version := by
  have e : (log_header ++ x).getD 4 0 = 1 := rfl
  rw [e]
  decide

/-- Opening a log that starts with the file header of the current version: the loop of
`btc_headers_db_load` runs on the rest of the log, with the stream behind the header. -/
theorem load_log (codec : Codec) (g : btc_uint256) (m : Nat) (x : List Byte)
    (hsize : 8 ≤ (log_header ++ x).length % UINT32_MOD) :
    btc_headers_db_load codec (fresh_db g false m) (some (log_header ++ x)) true
      = match load_records codec (log_header ++ x).length
            (with_log (fresh_db g false m) (some log_header) x true) true with
        | none => none
        | some (db3, some r) => some (db3, r)
        | some (db3, none) =>
          match deref db3 db3.chaintip with
          | none => none
          | some _ => some (db3, 1) := by
  have hrw : (!(fresh_db g false m).read_write_file) = false := rfl
  have h1 : ¬ (log_header ++ x).length % UINT32_MOD < 8 := by omega
  have h2 : ¬ ((log_header ++ x).length < 8 ∨ (log_header ++ x).take 4 ≠ file_hdr_magic) := by
    rintro (h | h)
    · have : (log_header ++ x).length = 8 + x.length := by
        rw [List.length_append]; rfl
      omega
    · exact h (log_header_take x)
  have h3 := log_header_version x
  have hs : stream_read (open_log (fresh_db g false m) (log_header ++ x) true) 8
      = with_log (fresh_db g false m) (some log_header) x true := rfl
  unfold btc_headers_db_load
  simp only [hrw, Bool.false_eq_true, if_false, h1, h2, h3, Bool.not_true, if_true, hs] <;> rfl

/-- C5, as the code has it.  Buffers are connected, with persistence and successful writes, to a
database that `btc_headers_db_load` has loaded on a freshly created log; unconnected
headers, buffers that are no headers and forks on later headers may occur.  When at
least one header connected, the wire forms of the connected headers are 80 octets long
and decode back to the headers, no other connected header has the hash of the first
connected one, no connected header after the second names the first connected one as
its predecessor, the chain tip is below the height 1120874 and the size of the log, as a
`uint32_t`, is at least 8, then `btc_headers_db_load` on the resulting log returns 1 with
a chain tip of the same hash and the same height as the chain tip before closing. -/
theorem persistence_round_trip (codec : Codec) (g : btc_uint256) (m : Nat)
    (bufs : List (List Byte)) (db1 : btc_headers_db) (flags : List Bool)
    (hrun : (btc_headers_db_load codec (fresh_db g false m) none true).bind
        (fun r => connect_all codec false true r.1 bufs) = some (db1, flags))
    (hone : true ∈ flags)
    (hcodec : ∀ h ∈ connected_headers codec bufs flags, (codec.serialize h).length = 80
      ∧ codec.deserialize (codec.serialize h) = some h)
    (hfirst : ∀ h0 ∈ (connected_headers codec bufs flags).head?,
      (∀ h ∈ (connected_headers codec bufs flags).drop 1, codec.hash h ≠ codec.hash h0)
      ∧ (∀ h ∈ (connected_headers codec bufs flags).drop 2,
          h.prev_block ≠ codec.hash h0))
    (hheight : ∀ tip ∈ deref db1 db1.chaintip, tip.height < 1120874)
    (hsize : ∀ log ∈ log_file db1, 8 ≤ log.length % UINT32_MOD) :
    ∃ log db2 tip1 tip2,
      log_file db1 = some log
      ∧ btc_headers_db_load codec (fresh_db g false m) (some log) true = some (db2, 1)
      ∧ deref db1 db1.chaintip = some tip1
      ∧ deref db2 db2.chaintip = some tip2
      ∧ tip2.hash = tip1.hash ∧ tip2.height = tip1.height := by
  rw [load_created] at hrun
  have hrun1 : connect_all codec false true { created_db g m with heap := [] } bufs
      = some (db1, flags) := hrun
  obtain ⟨hdr, heap1, bufs2, flags2, hch, hrun2⟩ := pre_run codec g m bufs [] db1 flags hrun1 hone
  rw [hch] at hcodec hfirst
  obtain ⟨hf1, hf2⟩ := hfirst hdr (by simp)
  simp only [List.drop_succ_cons, List.drop_zero] at hf1 hf2
  obtain ⟨c1, c2⟩ := hcodec hdr (List.mem_cons_self _ _)
  obtain ⟨hi, hrep, htip⟩ := first_attached codec g m heap1 hdr false true
  have hfork : ((attached codec { created_db g m with heap := heap1 } hdr Ptr.genesis 0 0 false
        true).chaintip = Ptr.node (([heap1.length] : List Nat).headD 0)
        ∧ ∀ h ∈ (connected_headers codec bufs2 flags2).tail, h.prev_block ≠ codec.hash hdr)
      ∨ (∀ h ∈ connected_headers codec bufs2 flags2, h.prev_block ≠ codec.hash hdr) := by
    left
    obtain ⟨t, ht, e⟩ := hi.tip
    rw [List.mem_singleton] at ht
    subst ht
    refine ⟨e, ?_⟩
    intro h hh
    apply hf2 h
    rw [List.drop_one]
    exact hh
  have h1u : (0 + 1) % UINT32_MOD = 1 := by decide
  have hfile : (attached codec { created_db g m with heap := heap1 } hdr Ptr.genesis 0 0 false
      true).headers_tree_file = some (log_header ++ record_of codec 1 hdr) := by
    simp only [attached, record_bytes, linked_node, h1u]
    rfl
  have hahead : (attached codec { created_db g m with heap := heap1 } hdr Ptr.genesis 0 0 false
      true).file_ahead = [] := by
    simp only [attached]
    show (if (!false && true && true) = true then List.drop _ ([] : List Byte) else []) = []
    simp
  obtain ⟨conn1, recs, tip1, j1, j2, _, j4, j5, _, jl, j7⟩ :=
    sim_run codec (codec.hash hdr) bufs2 _ db1 [heap1.length] flags2
      (log_header ++ record_of codec 1 hdr) (linked_node codec hdr Ptr.genesis 0) hi htip rfl
      hfile hahead hrun2
      (fun h hh => ⟨(hcodec h (List.mem_cons_of_mem _ hh)).1,
        (hcodec h (List.mem_cons_of_mem _ hh)).2, hf1 h hh⟩) hfork
      (fun tn htn => hheight tn htn)
  have hlog : log_file db1 = some (log_header ++ (record_of codec 1 hdr ++ recs)) := by
    simp only [log_file, j4, j5, Option.map_some', List.append_nil, List.append_assoc]
  have hsz := hsize _ hlog
  have hrl := record_of_length codec 1 hdr c1
  obtain ⟨fuel, hfuel⟩ : ∃ fuel, (log_header ++ (record_of codec 1 hdr ++ recs)).length
      = (fuel + 1 + (connected_headers codec bufs2 flags2).length) + 1 := by
    refine ⟨122 + recs.length - (connected_headers codec bufs2 flags2).length, ?_⟩
    have : (log_header ++ (record_of codec 1 hdr ++ recs)).length = 8 + (116 + recs.length) := by
      rw [List.length_append, List.length_append, hrl]
      rfl
    omega
  have hanchor : ({ stream_read (with_log (fresh_db g false m) (some log_header)
        (record_of codec 1 hdr ++ recs) true) 116 with
        heap := (with_log (fresh_db g false m) (some log_header)
          (record_of codec 1 hdr ++ recs) true).heap ++ [some ⟨1, codec.hash hdr, hdr, none⟩]
        chaintip := Ptr.node (with_log (fresh_db g false m) (some log_header)
          (record_of codec 1 hdr ++ recs) true).heap.length } : btc_headers_db)
      = with_log (replayed [heap1.length]
          (attached codec { created_db g m with heap := heap1 } hdr Ptr.genesis 0 0 false true))
          (some (log_header ++ record_of codec 1 hdr)) (recs ++ []) true := by
    rw [hrep, stream_read_record _ _ _ recs true hrl, List.append_nil]
    rfl
  have hend : ((with_log (replayed conn1 db1)
      ((some (log_header ++ record_of codec 1 hdr)).map (fun x => x ++ recs)) []
      true).file_ahead).length < 116 := by
    show ([] : List Byte).length < 116
    decide
  obtain ⟨t, ht, et⟩ := j1.tip
  have htip2 : deref (replayed conn1 db1) (map_ptr conn1 db1.chaintip)
      = some (map_node conn1 tip1) := by
    rw [et] at j2 ⊢
    have j2b : heap_get db1.heap t = some tip1 := j2
    show deref (replayed conn1 db1) (Ptr.node (conn1.indexOf t)) = _
    rw [deref_replayed conn1 db1 ht, j2b]
    rfl
  refine ⟨_, stream_read (with_log (replayed conn1 db1)
      ((some (log_header ++ record_of codec 1 hdr)).map (fun x => x ++ recs)) [] true) 116,
    tip1, map_node conn1 tip1, hlog, ?_, j2, ?_, rfl, rfl⟩
  · rw [load_log codec g m _ hsz, hfuel,
      load_records_first codec _ _ 1 hdr recs rfl c1 c2 (by decide), hanchor,
      j7 (fuel + 1) _ [] true, load_records_end codec fuel _ false hend]
    simp only []
    have hd : deref (stream_read (with_log (replayed conn1 db1)
        ((some (log_header ++ record_of codec 1 hdr)).map (fun x => x ++ recs)) [] true) 116)
        (stream_read (with_log (replayed conn1 db1)
        ((some (log_header ++ record_of codec 1 hdr)).map (fun x => x ++ recs)) [] true)
          116).chaintip = some (map_node conn1 tip1) := htip2
    rw [hd]
  · exact htip2

set_option maxRecDepth 1000000 in
/-- Witness for C5: `mixed_bufs` under the window 1, with two unconnected headers, two
buffers that are no headers, a fork on the second connected header that takes over the
chain tip, and pruning; the chain tip, header 32 at height 5, survives the round trip. -/
theorem persistence_round_trip_witness :
    (deref mixed_db mixed_db.chaintip).map (fun n => (n.hash, n.height))
      = some (hash_of_nat 32, 5)
    ∧ ∃ log db2 tip1 tip2,
      log_file mixed_db = some log
      ∧ btc_headers_db_load sample_codec (fresh_db (hash_of_nat 0) false 1) (some log) true
          = some (db2, 1)
      ∧ deref mixed_db mixed_db.chaintip = some tip1
      ∧ deref db2 db2.chaintip = some tip2
      ∧ tip2.hash = tip1.hash ∧ tip2.height = tip1.height :=
  ⟨by decide,
    persistence_round_trip sample_codec (hash_of_nat 0) 1 mixed_bufs mixed_db
      [false, false, true, false, true, true, true, false, true, true, true]
      rfl (by decide) (by decide) (by decide) (by decide) (by decide)⟩


end Libbtc
